import Mathlib

/-!
# Verification of the ShorDiscreteLog reversible-arithmetic core

This file embeds the circuit constructors of the repository's
`shor/arithmetic` package and proves / refutes the claims C1..C10 about
them.

Two embedding levels are used, matching the two gate families of the
source:

* The HRS backend (`hrs_carry.py`, `hrs_adder.py`, `incrementer.py`,
  `hrs_mod_add.py`, `hrs_mod_mult.py`, `hrs_mod_exp.py`) uses only
  classical reversible gates (`x`, `cx`, `ccx`, `mct`, `cswap`).  It is
  embedded deeply: a circuit is a `List Gate` acting on a state
  `Nat → Bool` (one `Bool` per qubit, indexed exactly like the flattened
  qiskit registers), and each Python constructor becomes a Lean function
  producing the same gate list.  Wire positions are passed as functions
  `Nat → Nat` mirroring the qubit lists handed to `QuantumCircuit.append`.
  Qiskit's `circuit.inverse()` on such circuits is gate-wise inversion of
  the reversed list; all five gates are self-inverse, so it is `List.reverse`.

* The Beauregard and Montgomery backends (`draper_add.py`,
  `brg_mod_add.py`, `brg_mod_mult.py`, `brg_mod_exp.py`,
  `montgomery_mult.py`, `montgomery_mod_exp.py`) act on registers in
  Fourier representation.  They are embedded at value level, the standard
  semantics of the Draper adder: a width-`w` register in Fourier
  representation holds a value in `[0, 2^w)`; `phi_add_builtin w b factor`
  maps that value `v` to `(v + factor*b) mod 2^w`; `QFT`/`QFT.inverse`
  (with `do_swaps=False`) translate between the Fourier value and the
  computational-basis value and are the identity on the held value; a
  Hadamard on the lowest-significance Fourier qubit exposes the parity of
  the held value in the computational basis (the `z-variant` trick used in
  `montgomery_mult.py`).  Computational-basis gates between the transforms
  (`x`, `cx` on the top bit) become bit operations on the value.  Each
  circuit constructor becomes a Lean function on the tuple of register
  values, one `let` per appended gate, and `circuit.inverse()` becomes an
  explicitly written companion function (the reversed sequence of inverted
  steps) proved to be the two-sided inverse.

Construction-time failures of the Python code (the `ValueError` of
`pow(x, -1, m)` when the inverse does not exist, and `IndexError` on
out-of-range register indexing) are modelled by explicit side conditions
and by build-trace functions that record which circuit pieces were
appended before the failing call, in source order.
-/

namespace ShorDL

/-- The classical reversible primitive gates used by the HRS backend:
bit flip, controlled flip (`QuantumCircuit.cx`), doubly controlled flip
(`ccx`), multi-controlled flip (`mct`) and controlled swap (`cswap`).
A gate stores the flat qubit indices it acts on. -/
inductive Gate where
  | x (t : Nat)
  | cx (c t : Nat)
  | ccx (c1 c2 t : Nat)
  | mct (cs : List Nat) (t : Nat)
  | cswap (c a b : Nat)
  deriving DecidableEq, Repr

/-- Semantics of one gate on a computational-basis state (one `Bool` per
flat qubit index). -/
def applyGate (g : Gate) (s : Nat → Bool) : Nat → Bool :=
  match g with
  | .x t => fun j => if j = t then !(s t) else s j
  | .cx c t => fun j => if j = t then xor (s t) (s c) else s j
  | .ccx c1 c2 t => fun j => if j = t then xor (s t) (s c1 && s c2) else s j
  | .mct cs t => fun j => if j = t then xor (s t) (cs.all s) else s j
  | .cswap c a b =>
      fun j => if s c then (if j = a then s b else if j = b then s a else s j) else s j

/-- Run a gate list left to right (the order `QuantumCircuit` applies
appended gates). -/
def applyGates (gs : List Gate) (s : Nat → Bool) : Nat → Bool :=
  gs.foldl (fun st g => applyGate g st) s

/-- Well-formedness of a gate: control and target qubits are distinct,
as qiskit requires (`CircuitError` on duplicate qubits). -/
def Gate.wf : Gate → Prop
  | .x _ => True
  | .cx c t => c ≠ t
  | .ccx c1 c2 t => c1 ≠ t ∧ c2 ≠ t
  | .mct cs t => t ∉ cs
  | .cswap c a b => c ≠ a ∧ c ≠ b

/-- The qubit indices a gate can change. -/
def Gate.writes : Gate → List Nat
  | .x t => [t]
  | .cx _ t => [t]
  | .ccx _ _ t => [t]
  | .mct _ t => [t]
  | .cswap _ a b => [a, b]

/-- All qubit indices a gate mentions (controls and targets). -/
def Gate.uses : Gate → List Nat
  | .x t => [t]
  | .cx c t => [c, t]
  | .ccx c1 c2 t => [c1, c2, t]
  | .mct cs t => t :: cs
  | .cswap c a b => [c, a, b]

theorem all_congr_mem {l : List Nat} {f g : Nat → Bool} (h : ∀ x ∈ l, f x = g x) :
    l.all f = l.all g := by
  induction l with
  | nil => rfl
  | cons a l ih =>
      simp only [List.all_cons, h a (List.mem_cons_self _ _),
        ih fun x hx => h x (List.mem_cons_of_mem _ hx)]

theorem applyGates_nil (s : Nat → Bool) : applyGates [] s = s := rfl

theorem applyGates_cons (g : Gate) (gs : List Gate) (s : Nat → Bool) :
    applyGates (g :: gs) s = applyGates gs (applyGate g s) := rfl

theorem applyGates_append (gs hs : List Gate) (s : Nat → Bool) :
    applyGates (gs ++ hs) s = applyGates hs (applyGates gs s) := by
  simp [applyGates, List.foldl_append]

/-- A gate leaves alone every index it does not write. -/
theorem applyGate_notWrites {g : Gate} {j : Nat} (h : j ∉ g.writes) (s : Nat → Bool) :
    applyGate g s j = s j := by
  cases g with
  | x t => simp [Gate.writes] at h; simp [applyGate, h]
  | cx c t => simp [Gate.writes] at h; simp [applyGate, h]
  | ccx c1 c2 t => simp [Gate.writes] at h; simp [applyGate, h]
  | mct cs t => simp [Gate.writes] at h; simp [applyGate, h]
  | cswap c a b =>
      simp [Gate.writes] at h
      simp [applyGate, h.1, h.2]

/-- A circuit leaves alone every index none of its gates writes. -/
theorem applyGates_notWrites {gs : List Gate} {j : Nat}
    (h : ∀ g ∈ gs, j ∉ g.writes) (s : Nat → Bool) :
    applyGates gs s j = s j := by
  induction gs generalizing s with
  | nil => rfl
  | cons g gs ih =>
      rw [applyGates_cons, ih (fun g hg => h g (List.mem_cons_of_mem _ hg))]
      exact applyGate_notWrites (h g (List.mem_cons_self _ _)) s

/-- Gate application only looks at the indices the gate uses. -/
theorem applyGate_congr {g : Gate} {s s' : Nat → Bool}
    (h : ∀ j ∈ g.uses, s j = s' j) :
    ∀ j, applyGate g s j = if j ∈ g.writes then applyGate g s' j else s j := by
  intro j
  cases g with
  | x t =>
      by_cases hj : j = t <;>
        simp [applyGate, Gate.writes, hj, h t (by simp [Gate.uses])]
  | cx c t =>
      by_cases hj : j = t <;>
        simp [applyGate, Gate.writes, hj, h t (by simp [Gate.uses]),
          h c (by simp [Gate.uses])]
  | ccx c1 c2 t =>
      by_cases hj : j = t <;>
        simp [applyGate, Gate.writes, hj, h t (by simp [Gate.uses]),
          h c1 (by simp [Gate.uses]), h c2 (by simp [Gate.uses])]
  | mct cs t =>
      have hall : cs.all s = cs.all s' := by
        apply all_congr_mem
        intro x hx
        exact h x (by simp [Gate.uses, hx])
      by_cases hj : j = t <;>
        simp [applyGate, Gate.writes, hj, h t (by simp [Gate.uses]), hall]
  | cswap c a b =>
      have hc := h c (by simp [Gate.uses])
      have ha := h a (by simp [Gate.uses])
      have hb := h b (by simp [Gate.uses])
      by_cases hja : j = a <;> by_cases hjb : j = b <;>
        simp [applyGate, Gate.writes, hja, hjb, hc, ha, hb]

/-- Every gate of the embedding is self-inverse (matching qiskit, where
`x`, `cx`, `ccx`, `mct` and `cswap` all equal their own inverse). -/
theorem applyGate_applyGate {g : Gate} (hg : g.wf) (s : Nat → Bool) :
    applyGate g (applyGate g s) = s := by
  funext j
  cases g with
  | x t => by_cases hj : j = t <;> simp [applyGate, hj]
  | cx c t =>
      have hct : c ≠ t := hg
      by_cases hj : j = t <;> simp [applyGate, hj, hct, Bool.xor_assoc]
  | ccx c1 c2 t =>
      obtain ⟨h1, h2⟩ := hg
      by_cases hj : j = t <;> simp [applyGate, hj, h1, h2, Bool.xor_assoc]
  | mct cs t =>
      have hnt : t ∉ cs := hg
      have hall : (cs.all fun k => if k = t then xor (s t) (cs.all s) else s k)
          = cs.all s := by
        apply all_congr_mem
        intro x hx
        have hxt : x ≠ t := fun h => hnt (h ▸ hx)
        simp [hxt]
      by_cases hj : j = t
      · subst hj
        simp [applyGate, hall, Bool.xor_assoc]
      · simp [applyGate, hj]
  | cswap c a b =>
      obtain ⟨hca, hcb⟩ := hg
      have sc : (applyGate (Gate.cswap c a b) s) c = s c := by
        simp [applyGate, hca, hcb]
      have hout : applyGate (Gate.cswap c a b) (applyGate (Gate.cswap c a b) s) j
          = if (applyGate (Gate.cswap c a b) s) c then
              (if j = a then (applyGate (Gate.cswap c a b) s) b
               else if j = b then (applyGate (Gate.cswap c a b) s) a
               else (applyGate (Gate.cswap c a b) s) j)
            else (applyGate (Gate.cswap c a b) s) j := rfl
      rw [hout, sc]
      by_cases hsc : s c
      · have s1a : (applyGate (Gate.cswap c a b) s) a = s b := by
          simp [applyGate, hsc]
        have s1b : (applyGate (Gate.cswap c a b) s) b = s a := by
          by_cases hab : b = a <;> simp [applyGate, hsc, hab]
        have s1j : ∀ k, k ≠ a → k ≠ b → (applyGate (Gate.cswap c a b) s) k = s k := by
          intro k hka hkb
          simp [applyGate, hsc, hka, hkb]
        by_cases hja : j = a
        · simp [hsc, hja, s1b]
        · by_cases hjb : j = b
          · subst hjb
            simp [hsc, hja, s1a]
          · simp [hsc, hja, hjb, s1j j hja hjb]
      · have s1j : ∀ k, (applyGate (Gate.cswap c a b) s) k = s k := by
          intro k
          simp [applyGate, hsc]
        simp [hsc, s1j]

/-- `QuantumCircuit.inverse()` for circuits of classical gates: qiskit
reverses the gate order and inverts each gate; every gate used by the HRS
backend (`x`, `cx`, `ccx`, `mct`, `cswap`) is its own inverse, so the
inverse circuit is the reversed gate list. -/
def invGates (gs : List Gate) : List Gate := gs.reverse

theorem applyGates_single (g : Gate) (s : Nat → Bool) :
    applyGates [g] s = applyGate g s := rfl

/-- Round trip: a circuit followed by its generated inverse is the
identity on every state. -/
theorem applyGates_invGates {gs : List Gate} (h : ∀ g ∈ gs, g.wf) (s : Nat → Bool) :
    applyGates (invGates gs) (applyGates gs s) = s := by
  induction gs generalizing s with
  | nil => rfl
  | cons g gs ih =>
      rw [applyGates_cons, invGates, List.reverse_cons, applyGates_append]
      rw [show (gs.reverse = invGates gs) from rfl,
        ih (fun g' hg' => h g' (List.mem_cons_of_mem _ hg')) (applyGate g s),
        applyGates_single, applyGate_applyGate (h g (List.mem_cons_self _ _))]

/-- The reverse round trip: the generated inverse is also a left inverse. -/
theorem applyGates_invGates' {gs : List Gate} (h : ∀ g ∈ gs, g.wf) (s : Nat → Bool) :
    applyGates gs (applyGates (invGates gs) s) = s := by
  have h' : ∀ g ∈ invGates gs, g.wf := by
    intro g hg
    exact h g (List.mem_reverse.mp hg)
  have := applyGates_invGates h' s
  rwa [show invGates (invGates gs) = gs by simp [invGates]] at this

/-- Point update of a state. -/
def updState (i : Nat) (v : Bool) (s : Nat → Bool) : Nat → Bool :=
  fun j => if j = i then v else s j

theorem Gate.writes_subset_uses (g : Gate) : ∀ j ∈ g.writes, j ∈ g.uses := by
  intro j hj
  cases g with
  | x t => simpa [Gate.writes, Gate.uses] using hj
  | cx c t => simp [Gate.writes] at hj; simp [Gate.uses, hj]
  | ccx c1 c2 t => simp [Gate.writes] at hj; simp [Gate.uses, hj]
  | mct cs t => simp [Gate.writes] at hj; simp [Gate.uses, hj]
  | cswap c a b => simp [Gate.writes] at hj; rcases hj with hj | hj <;> simp [Gate.uses, hj]

theorem applyGate_updState {g : Gate} {i : Nat} (h : i ∉ g.uses) (v : Bool)
    (s : Nat → Bool) :
    applyGate g (updState i v s) = updState i v (applyGate g s) := by
  funext j
  have hw : j ∈ g.writes → j ≠ i := by
    intro hjw hji
    exact h (hji ▸ Gate.writes_subset_uses g j hjw)
  have hu : ∀ k ∈ g.uses, updState i v s k = s k := by
    intro k hk
    have : k ≠ i := fun hki => h (hki ▸ hk)
    simp [updState, this]
  have hcongr := applyGate_congr hu j
  by_cases hjw : j ∈ g.writes
  · rw [hcongr, if_pos hjw, updState, if_neg (hw hjw)]
  · rw [hcongr, if_neg hjw, updState]
    by_cases hji : j = i
    · simp [updState, hji, applyGate_notWrites hjw]
    · simp [updState, hji, applyGate_notWrites hjw]

/-- A circuit that never mentions index `i` commutes with updating `i`. -/
theorem applyGates_updState {gs : List Gate} {i : Nat}
    (h : ∀ g ∈ gs, i ∉ g.uses) (v : Bool) (s : Nat → Bool) :
    applyGates gs (updState i v s) = updState i v (applyGates gs s) := by
  induction gs generalizing s with
  | nil => rfl
  | cons g gs ih =>
      rw [applyGates_cons, applyGates_cons,
        applyGate_updState (h g (List.mem_cons_self _ _)),
        ih fun g' hg' => h g' (List.mem_cons_of_mem _ hg')]

/-- Value held by a list of wires, least-significant wire first (the
convention of the repository: register index 0 is the least significant
bit, see `test_util.set_input`). -/
def readVal (ws : List Nat) (s : Nat → Bool) : Nat :=
  match ws with
  | [] => 0
  | w :: rest => (if s w then 1 else 0) + 2 * readVal rest s

/-- Overwrite a list of wires with the binary digits of `x`,
least-significant wire first. -/
def writeBits : List Nat → Nat → (Nat → Bool) → Nat → Bool
  | [], _, s => s
  | w :: rest, x, s => fun j => if j = w then decide (x % 2 = 1) else writeBits rest (x / 2) s j

theorem writeBits_cons (w : Nat) (rest : List Nat) (x : Nat) (s : Nat → Bool) (j : Nat) :
    writeBits (w :: rest) x s j
      = if j = w then decide (x % 2 = 1) else writeBits rest (x / 2) s j := rfl

theorem writeBits_notMem {ws : List Nat} {j : Nat} (h : j ∉ ws) (x : Nat) (s : Nat → Bool) :
    writeBits ws x s j = s j := by
  induction ws generalizing x with
  | nil => rfl
  | cons w rest ih =>
      have hjw : j ≠ w := fun hj => h (hj ▸ List.mem_cons_self _ _)
      rw [writeBits_cons, if_neg hjw]
      exact ih (fun hj => h (List.mem_cons_of_mem _ hj)) _

theorem writeBits_mem_congr {ws : List Nat} {j : Nat} (h : j ∈ ws) (x : Nat)
    (s s' : Nat → Bool) : writeBits ws x s j = writeBits ws x s' j := by
  induction ws generalizing x with
  | nil => cases h
  | cons w rest ih =>
      by_cases hjw : j = w
      · rw [writeBits_cons, writeBits_cons, if_pos hjw, if_pos hjw]
      · have : j ∈ rest := by
          rcases List.mem_cons.mp h with h1 | h1
          · exact absurd h1 hjw
          · exact h1
        rw [writeBits_cons, writeBits_cons, if_neg hjw, if_neg hjw]
        exact ih this _

theorem writeBits_writeBits {ws : List Nat} (x y : Nat) (s : Nat → Bool) :
    writeBits ws x (writeBits ws y s) = writeBits ws x s := by
  induction ws generalizing x y with
  | nil => rfl
  | cons w rest ih =>
      funext j
      by_cases hjw : j = w
      · rw [writeBits_cons, writeBits_cons, if_pos hjw, if_pos hjw]
      · rw [writeBits_cons, writeBits_cons, if_neg hjw, if_neg hjw]
        by_cases hjr : j ∈ rest
        · rw [writeBits_mem_congr hjr _ _ (writeBits rest (y / 2) s),
            ← congrFun (ih (x / 2) (y / 2)) j]
        · have hjcons : j ∉ w :: rest := by
            intro hj
            rcases List.mem_cons.mp hj with h1 | h1
            · exact hjw h1
            · exact hjr h1
          rw [writeBits_notMem hjr, writeBits_notMem hjr, writeBits_notMem hjcons]

theorem writeBits_get {ws : List Nat} (hnd : ws.Nodup) {i : Nat} (hi : i < ws.length)
    (x : Nat) (s : Nat → Bool) : writeBits ws x s (ws.get ⟨i, hi⟩) = x.testBit i := by
  induction ws generalizing x i with
  | nil => cases hi
  | cons w rest ih =>
      cases i with
      | zero =>
          rw [show ((w :: rest).get ⟨0, hi⟩ = w) from rfl, writeBits_cons, if_pos rfl]
          simp [Nat.testBit_zero]
      | succ i =>
          have hi' : i < rest.length := by simpa using hi
          have hw : rest.get ⟨i, hi'⟩ ≠ w := by
            intro hrw
            have := (List.nodup_cons.mp hnd).1
            exact this (hrw ▸ rest.get_mem _ _)
          rw [show ((w :: rest).get ⟨i + 1, hi⟩ = rest.get ⟨i, hi'⟩) from rfl,
            writeBits_cons, if_neg hw, ih (List.nodup_cons.mp hnd).2 hi' (x / 2)]
          rw [Nat.testBit_succ]

theorem readVal_congr {ws : List Nat} {s s' : Nat → Bool}
    (h : ∀ w ∈ ws, s w = s' w) : readVal ws s = readVal ws s' := by
  induction ws with
  | nil => rfl
  | cons w rest ih =>
      rw [readVal, readVal, h w (List.mem_cons_self _ _),
        ih fun w' hw' => h w' (List.mem_cons_of_mem _ hw')]

theorem readVal_lt (ws : List Nat) (s : Nat → Bool) : readVal ws s < 2 ^ ws.length := by
  induction ws with
  | nil => simp [readVal]
  | cons w rest ih =>
      rw [readVal, List.length_cons, pow_succ]
      rcases Bool.eq_false_or_eq_true (s w) with h | h <;> simp [h] <;> omega

/-- Reading wires that were just written gives back the value reduced
modulo the register size. -/
theorem readVal_writeBits {ws : List Nat} (hnd : ws.Nodup) (x : Nat) (s : Nat → Bool) :
    readVal ws (writeBits ws x s) = x % 2 ^ ws.length := by
  induction ws generalizing x with
  | nil => simp [readVal, writeBits, Nat.mod_one]
  | cons w rest ih =>
      obtain ⟨hw, hnd'⟩ := List.nodup_cons.mp hnd
      rw [readVal]
      have hrest : readVal rest (writeBits (w :: rest) x s)
          = readVal rest (writeBits rest (x / 2) s) := by
        apply readVal_congr
        intro w' hw'
        have hne : w' ≠ w := fun h => hw (h ▸ hw')
        rw [writeBits_cons, if_neg hne]
      rw [hrest, ih hnd', writeBits_cons, if_pos rfl]
      rw [List.length_cons, pow_succ, mul_comm (2 ^ rest.length) 2, Nat.mod_mul]
      rcases Nat.mod_two_eq_zero_or_one x with h | h <;> simp [h]

/-- Majority of three bits: the carry recurrence of binary addition. -/
def maj (x y z : Bool) : Bool := (x && y) || ((x && z) || (y && z))

/-- `carries a b i` is the carry into bit position `i` when adding the
two bit streams `a` and `b`. -/
def carries (a b : Nat → Bool) : Nat → Bool
  | 0 => false
  | i + 1 => maj (a i) (b i) (carries a b i)

theorem carries_congr {a a' b b' : Nat → Bool} :
    ∀ {i : Nat}, (∀ j < i, a j = a' j) → (∀ j < i, b j = b' j) →
      carries a b i = carries a' b' i
  | 0, _, _ => rfl
  | i + 1, ha, hb => by
      rw [carries, carries, ha i (Nat.lt_succ_self i), hb i (Nat.lt_succ_self i),
        carries_congr (fun j hj => ha j (Nat.lt_succ_of_lt hj))
          (fun j hj => hb j (Nat.lt_succ_of_lt hj))]

theorem toNat_div_two (bx by' c : Bool) :
    (bx.toNat + by'.toNat + c.toNat) / 2 = (maj bx by' c).toNat := by
  cases bx <;> cases by' <;> cases c <;> rfl

theorem toNat_mod_two (bx by' c : Bool) :
    (bx.toNat + by'.toNat + c.toNat) % 2 = (xor bx (xor by' c)).toNat := by
  cases bx <;> cases by' <;> cases c <;> rfl

theorem testBit_toNat_div (x : Nat) (i : Nat) :
    x / 2 ^ i = 2 * (x / 2 ^ (i + 1)) + (x.testBit i).toNat := by
  rw [Nat.testBit_to_div_mod]
  have h2 : x / 2 ^ (i + 1) = x / 2 ^ i / 2 := by
    rw [pow_succ, Nat.div_div_eq_div_mul]
  rw [h2]
  rcases Nat.mod_two_eq_zero_or_one (x / 2 ^ i) with h | h <;>
    simp [h] <;> omega

/-- Quotient form of the carry invariant for binary addition. -/
theorem div_add_carries (x y : Nat) :
    ∀ i, (x + y) / 2 ^ i
      = x / 2 ^ i + y / 2 ^ i + (carries x.testBit y.testBit i).toNat
  | 0 => by simp [carries]
  | i + 1 => by
      have hx := testBit_toNat_div x i
      have hy := testBit_toNat_div y i
      have hxy := testBit_toNat_div (x + y) i
      have hi := div_add_carries x y i
      have hc := toNat_div_two (x.testBit i) (y.testBit i) (carries x.testBit y.testBit i)
      have hb1 : (x.testBit i).toNat ≤ 1 := by cases x.testBit i <;> simp
      have hb2 : (y.testBit i).toNat ≤ 1 := by cases y.testBit i <;> simp
      have hb3 : ((x + y).testBit i).toNat ≤ 1 := by cases (x + y).testBit i <;> simp
      have hb4 : (carries x.testBit y.testBit i).toNat ≤ 1 := by
        cases carries x.testBit y.testBit i <;> simp
      rw [carries, ← hc]
      omega

/-- Bit `i` of a sum is the three-way exclusive or of the operand bits
and the carry. -/
theorem testBit_add (x y i : Nat) :
    (x + y).testBit i
      = xor (x.testBit i) (xor (y.testBit i) (carries x.testBit y.testBit i)) := by
  have hx := testBit_toNat_div x i
  have hy := testBit_toNat_div y i
  have hxy := testBit_toNat_div (x + y) i
  have hi := div_add_carries x y i
  have hsucc := div_add_carries x y (i + 1)
  rw [carries] at hsucc
  have hc := toNat_div_two (x.testBit i) (y.testBit i) (carries x.testBit y.testBit i)
  have hm := toNat_mod_two (x.testBit i) (y.testBit i) (carries x.testBit y.testBit i)
  have hbit : ((x + y).testBit i).toNat
      = (xor (x.testBit i) (xor (y.testBit i) (carries x.testBit y.testBit i))).toNat := by
    omega
  cases h1 : (x + y).testBit i <;>
    cases h2 : xor (x.testBit i) (xor (y.testBit i) (carries x.testBit y.testBit i)) <;>
      simp [h1, h2] at hbit ⊢

/-- The carry into position `i` is set exactly when the low `i` bits
overflow. -/
theorem carries_eq_decide (x y i : Nat) :
    carries x.testBit y.testBit i = decide (2 ^ i ≤ x % 2 ^ i + y % 2 ^ i) := by
  have h1 : (x % 2 ^ i + y % 2 ^ i) / 2 ^ i
      = (carries (x % 2 ^ i).testBit (y % 2 ^ i).testBit i).toNat := by
    have := div_add_carries (x % 2 ^ i) (y % 2 ^ i) i
    have hxi : x % 2 ^ i / 2 ^ i = 0 := Nat.div_eq_of_lt (Nat.mod_lt _ (by positivity))
    have hyi : y % 2 ^ i / 2 ^ i = 0 := Nat.div_eq_of_lt (Nat.mod_lt _ (by positivity))
    omega
  have h2 : carries (x % 2 ^ i).testBit (y % 2 ^ i).testBit i
      = carries x.testBit y.testBit i := by
    apply carries_congr <;>
      (intro j hj; rw [Nat.testBit_mod_two_pow]; simp [hj])
  rw [h2] at h1
  have hlt : x % 2 ^ i + y % 2 ^ i < 2 * 2 ^ i := by
    have hxi : x % 2 ^ i < 2 ^ i := Nat.mod_lt _ (by positivity)
    have hyi : y % 2 ^ i < 2 ^ i := Nat.mod_lt _ (by positivity)
    omega
  rcases Nat.lt_or_ge (x % 2 ^ i + y % 2 ^ i) (2 ^ i) with h | h
  · have : (x % 2 ^ i + y % 2 ^ i) / 2 ^ i = 0 := Nat.div_eq_of_lt h
    rw [this] at h1
    cases hc : carries x.testBit y.testBit i
    · simp [Nat.not_le_of_lt h]
    · rw [hc] at h1; simp at h1
  · have : (x % 2 ^ i + y % 2 ^ i) / 2 ^ i = 1 := by
      apply Nat.div_eq_of_lt_le (by simpa using h)
      simpa [two_mul] using hlt
    rw [this] at h1
    cases hc : carries x.testBit y.testBit i
    · rw [hc] at h1; simp at h1
    · simp [h]

/-- `R g g'` when a gate `g` earlier in a circuit writes no qubit a later
gate `g'` mentions.  A circuit that is `Pairwise` in this relation applies
every gate to untouched inputs. -/
def GIndep (g g' : Gate) : Prop := ∀ j ∈ g.writes, j ∉ g'.uses

/-- In a pairwise independent circuit every gate sees the original state:
at any qubit some gate writes, the circuit's result is that one gate
applied to the input state. -/
theorem applyGates_pairwise {gs : List Gate} (h : gs.Pairwise GIndep) (s : Nat → Bool) :
    ∀ {p : Nat} (hp : p < gs.length) {j : Nat}, j ∈ (gs.get ⟨p, hp⟩).writes →
      applyGates gs s j = applyGate (gs.get ⟨p, hp⟩) s j := by
  induction gs generalizing s with
  | nil => intro p hp; cases hp
  | cons g gs ih =>
      obtain ⟨hg, hgs⟩ := List.pairwise_cons.mp h
      intro p hp j hj
      cases p with
      | zero =>
          rw [applyGates_cons]
          have hnw : ∀ g' ∈ gs, j ∉ g'.writes := by
            intro g' hg' hjw
            exact hg g' hg' j hj (Gate.writes_subset_uses g' j hjw)
          exact applyGates_notWrites hnw (applyGate g s)
      | succ p =>
          have hp' : p < gs.length := by simpa using hp
          have hjg : j ∈ (gs.get ⟨p, hp'⟩).writes := hj
          rw [applyGates_cons, ih hgs (applyGate g s) hp' hjg]
          have hmem := gs.get_mem p hp'
          have hagree : ∀ k ∈ (gs.get ⟨p, hp'⟩).uses, applyGate g s k = s k := by
            intro k hk
            apply applyGate_notWrites
            intro hkw
            exact hg _ hmem k hkw hk
          rw [applyGate_congr hagree j, if_pos hjg]
          rfl

/-- Frame rule for a pairwise independent circuit: qubits no gate writes
are unchanged (restated from `applyGates_notWrites` for convenience). -/
theorem applyGates_frame {gs : List Gate} {j : Nat}
    (h : ∀ g ∈ gs, j ∉ g.writes) (s : Nat → Bool) : applyGates gs s j = s j :=
  applyGates_notWrites h s

/-! ## The Takahashi–Tani–Kunihiro ripple adder (`incrementer.adder_ttk`)

`adder_ttk(n, handle_overflow=False)` emits six loops of gates; each loop
below is one Lean function recursing over the loop counter, producing the
same gates in the same order.  Wire positions are given by functions
`A B : Nat → Nat` (the flattened positions of `areg` and `breg`).  Only
the `handle_overflow=False` variant is modelled; it is the only one used
by the repository (`incrementer.cinc`). -/

/-- `for i in range(1, n): add.cx(areg[i], breg[i])` — gates `i = 1..k`. -/
def ttkP1 (A B : Nat → Nat) : Nat → List Gate
  | 0 => []
  | k + 1 => ttkP1 A B k ++ [.cx (A (k + 1)) (B (k + 1))]

/-- `for i in reversed(range(1, n-1)): add.cx(areg[i], areg[i+1])` —
gates `i = k..1` descending. -/
def ttkP2 (A : Nat → Nat) : Nat → List Gate
  | 0 => []
  | k + 1 => .cx (A (k + 1)) (A (k + 2)) :: ttkP2 A k

/-- `for i in range(0, n-1): add.ccx(breg[i], areg[i], areg[i+1])` —
gates `i = 0..k-1`. -/
def ttkP3 (A B : Nat → Nat) : Nat → List Gate
  | 0 => []
  | k + 1 => ttkP3 A B k ++ [.ccx (B k) (A k) (A (k + 1))]

/-- `for i in reversed(range(1, n)): add.cx(areg[i], breg[i]);
add.ccx(breg[i-1], areg[i-1], areg[i])` — pairs `i = k..1` descending. -/
def ttkP4 (A B : Nat → Nat) : Nat → List Gate
  | 0 => []
  | k + 1 => .cx (A (k + 1)) (B (k + 1)) :: .ccx (B k) (A k) (A (k + 1)) :: ttkP4 A B k

/-- `for i in range(1, n-1): add.cx(areg[i], areg[i+1])` — gates `i = 1..k`. -/
def ttkP5 (A : Nat → Nat) : Nat → List Gate
  | 0 => []
  | k + 1 => ttkP5 A k ++ [.cx (A (k + 1)) (A (k + 2))]

/-- `for i in range(0, n): add.cx(areg[i], breg[i])` — gates `i = 0..k-1`. -/
def ttkP6 (A B : Nat → Nat) : Nat → List Gate
  | 0 => []
  | k + 1 => ttkP6 A B k ++ [.cx (A k) (B k)]

/-- `adder_ttk(m, handle_overflow=False)`: in-place `|a, b> -> |a, a+b>`
on two `m`-qubit registers (addition modulo `2^m`). -/
def adder_ttk (m : Nat) (A B : Nat → Nat) : List Gate :=
  ttkP1 A B (m - 1) ++ ttkP2 A (m - 1 - 1) ++ ttkP3 A B (m - 1)
    ++ ttkP4 A B (m - 1) ++ ttkP5 A (m - 1 - 1) ++ ttkP6 A B m

/-- Distinctness of the flattened wire positions of the two registers of
the TTK adder (qiskit registers never alias). -/
structure TTKDisj (m : Nat) (A B : Nat → Nat) : Prop where
  hA : ∀ {i j : Nat}, i < m → j < m → A i = A j → i = j
  hB : ∀ {i j : Nat}, i < m → j < m → B i = B j → i = j
  hAB : ∀ {i j : Nat}, i < m → j < m → A i ≠ B j

theorem ttkP1_spec {m : Nat} {A B : Nat → Nat} (hd : TTKDisj m A B)
    {k : Nat} (hk : k < m) (s : Nat → Bool) :
    (∀ i, 1 ≤ i → i ≤ k → applyGates (ttkP1 A B k) s (B i) = xor (s (B i)) (s (A i)))
      ∧ (∀ j, (∀ i, 1 ≤ i → i ≤ k → j ≠ B i) → applyGates (ttkP1 A B k) s j = s j) := by
  induction k with
  | zero => exact ⟨fun i h1 h2 => absurd (le_trans h1 h2) (by omega), fun j _ => rfl⟩
  | succ k ih =>
      obtain ⟨ihv, ihf⟩ := ih (by omega)
      rw [ttkP1]
      constructor
      · intro i h1 h2
        rw [applyGates_append, applyGates_single]
        by_cases hik : i = k + 1
        · subst hik
          have hB : applyGates (ttkP1 A B k) s (B (k + 1)) = s (B (k + 1)) := by
            apply ihf
            intro i' h1' h2' he
            exact absurd (hd.hB hk (by omega) he) (by omega)
          have hA : applyGates (ttkP1 A B k) s (A (k + 1)) = s (A (k + 1)) := by
            apply ihf
            intro i' h1' h2' he
            exact hd.hAB hk (by omega) he
          simp [applyGate, hB, hA]
        · have hi : i ≤ k := by omega
          have hne : B i ≠ B (k + 1) := fun he =>
            absurd (hd.hB (by omega) hk he) (by omega)
          simp only [applyGate]
          rw [if_neg hne]
          exact ihv i h1 hi
      · intro j hj
        rw [applyGates_append, applyGates_single]
        have hne : j ≠ B (k + 1) := hj (k + 1) (by omega) (by omega)
        simp only [applyGate]
        rw [if_neg hne]
        exact ihf j fun i h1 h2 => hj i h1 (by omega)

theorem ttkP2_spec {m : Nat} {A B : Nat → Nat} (hd : TTKDisj m A B)
    {k : Nat} (hk : k + 1 < m) (s : Nat → Bool) :
    (∀ i, 1 ≤ i → i ≤ k → applyGates (ttkP2 A k) s (A (i + 1)) = xor (s (A (i + 1))) (s (A i)))
      ∧ (∀ j, (∀ i, 1 ≤ i → i ≤ k → j ≠ A (i + 1)) → applyGates (ttkP2 A k) s j = s j) := by
  induction k generalizing s with
  | zero => exact ⟨fun i h1 h2 => absurd (le_trans h1 h2) (by omega), fun j _ => rfl⟩
  | succ k ih =>
      rw [ttkP2]
      have hs' : ∀ j, j ≠ A (k + 2) →
          applyGate (Gate.cx (A (k + 1)) (A (k + 2))) s j = s j := by
        intro j hne
        simp only [applyGate]
        rw [if_neg hne]
      obtain ⟨ihv, ihf⟩ := ih (by omega) (applyGate (Gate.cx (A (k + 1)) (A (k + 2))) s)
      constructor
      · intro i h1 h2
        rw [applyGates_cons]
        by_cases hik : i = k + 1
        · subst hik
          have hfr : applyGates (ttkP2 A k)
              (applyGate (Gate.cx (A (k + 1)) (A (k + 2))) s) (A (k + 2))
              = applyGate (Gate.cx (A (k + 1)) (A (k + 2))) s (A (k + 2)) := by
            apply ihf
            intro i' h1' h2' he
            exact absurd (hd.hA hk (by omega) he) (by omega)
          rw [hfr]
          simp [applyGate]
        · have hi : i ≤ k := by omega
          rw [ihv i h1 hi, hs' (A (i + 1)) (fun he => absurd (hd.hA (by omega) hk he) (by omega)),
            hs' (A i) (fun he => absurd (hd.hA (by omega) hk he) (by omega))]
      · intro j hj
        rw [applyGates_cons, ihf j fun i h1 h2 => hj i h1 (by omega),
          hs' j (hj (k + 1) (by omega) (by omega))]

/-- Running value of the `areg` wires while the carry-propagation loop of
the TTK adder (`ccx(breg[i], areg[i], areg[i+1])`, ascending) sweeps over
a state `s`. -/
def p3chain (A B : Nat → Nat) (s : Nat → Bool) : Nat → Bool
  | 0 => s (A 0)
  | i + 1 => xor (s (A (i + 1))) (s (B i) && p3chain A B s i)

theorem ttkP3_spec {m : Nat} {A B : Nat → Nat} (hd : TTKDisj m A B)
    {k : Nat} (hk : k < m) (s : Nat → Bool) :
    (∀ i, i ≤ k → applyGates (ttkP3 A B k) s (A i) = p3chain A B s i)
      ∧ (∀ j, (∀ i, 1 ≤ i → i ≤ k → j ≠ A i) → applyGates (ttkP3 A B k) s j = s j) := by
  induction k with
  | zero =>
      refine ⟨fun i hi => ?_, fun j _ => rfl⟩
      interval_cases i
      rfl
  | succ k ih =>
      obtain ⟨ihv, ihf⟩ := ih (by omega)
      rw [ttkP3]
      constructor
      · intro i hi
        rw [applyGates_append, applyGates_single]
        by_cases hik : i = k + 1
        · subst hik
          have hA1 : applyGates (ttkP3 A B k) s (A (k + 1)) = s (A (k + 1)) := by
            apply ihf
            intro i' h1' h2' he
            exact absurd (hd.hA hk (by omega) he) (by omega)
          have hBk : applyGates (ttkP3 A B k) s (B k) = s (B k) := by
            apply ihf
            intro i' h1' h2' he
            exact (hd.hAB (by omega) (by omega) he.symm).elim
          have hAk : applyGates (ttkP3 A B k) s (A k) = p3chain A B s k :=
            ihv k (by omega)
          simp only [applyGate, if_true]
          rw [hA1, hBk, hAk]
          rfl
        · have hi' : i ≤ k := by omega
          have hne : A i ≠ A (k + 1) := fun he =>
            absurd (hd.hA (by omega) hk he) (by omega)
          simp only [applyGate]
          rw [if_neg hne]
          exact ihv i hi'
      · intro j hj
        rw [applyGates_append, applyGates_single]
        have hne : j ≠ A (k + 1) := hj (k + 1) (by omega) (by omega)
        simp only [applyGate]
        rw [if_neg hne]
        exact ihf j fun i h1 h2 => hj i h1 (by omega)

theorem ttkP4_spec {m : Nat} {A B : Nat → Nat} (hd : TTKDisj m A B)
    {k : Nat} (hk : k < m) (s : Nat → Bool) :
    (∀ i, 1 ≤ i → i ≤ k →
        applyGates (ttkP4 A B k) s (B i) = xor (s (B i)) (s (A i))
          ∧ applyGates (ttkP4 A B k) s (A i)
            = xor (s (A i)) (s (B (i - 1)) && s (A (i - 1))))
      ∧ (∀ j, (∀ i, 1 ≤ i → i ≤ k → j ≠ A i ∧ j ≠ B i) →
          applyGates (ttkP4 A B k) s j = s j) := by
  induction k generalizing s with
  | zero => exact ⟨fun i h1 h2 => absurd (le_trans h1 h2) (by omega), fun j _ => rfl⟩
  | succ k ih =>
      rw [ttkP4]
      -- state after the two head gates of the pair `i = k+1`
      have hcx : ∀ j, j ≠ B (k + 1) →
          applyGate (Gate.cx (A (k + 1)) (B (k + 1))) s j = s j := by
        intro j hne
        simp only [applyGate]
        rw [if_neg hne]
      have hccx : ∀ (s' : Nat → Bool) j, j ≠ A (k + 1) →
          applyGate (Gate.ccx (B k) (A k) (A (k + 1))) s' j = s' j := by
        intro s' j hne
        simp only [applyGate]
        rw [if_neg hne]
      have hBk1 : A (k + 1) ≠ B (k + 1) := hd.hAB hk hk
      have hstep : ∀ j, j ≠ B (k + 1) → j ≠ A (k + 1) →
          applyGate (Gate.ccx (B k) (A k) (A (k + 1)))
            (applyGate (Gate.cx (A (k + 1)) (B (k + 1))) s) j = s j := by
        intro j h1 h2
        rw [hccx _ j h2, hcx j h1]
      obtain ⟨ihv, ihf⟩ := ih (by omega)
        (applyGate (Gate.ccx (B k) (A k) (A (k + 1)))
          (applyGate (Gate.cx (A (k + 1)) (B (k + 1))) s))
      constructor
      · intro i h1 h2
        rw [applyGates_cons, applyGates_cons]
        by_cases hik : i = k + 1
        · subst hik
          have hBne : ∀ i', 1 ≤ i' → i' ≤ k → B (k + 1) ≠ A i' ∧ B (k + 1) ≠ B i' :=
            fun i' h1' h2' =>
              ⟨fun he => hd.hAB (by omega) hk he.symm,
               fun he => absurd (hd.hB hk (by omega) he) (by omega)⟩
          have hAne : ∀ i', 1 ≤ i' → i' ≤ k → A (k + 1) ≠ A i' ∧ A (k + 1) ≠ B i' :=
            fun i' h1' h2' =>
              ⟨fun he => absurd (hd.hA hk (by omega) he) (by omega),
               fun he => hd.hAB hk (by omega) he⟩
          have hBk : (applyGate (Gate.cx (A (k + 1)) (B (k + 1))) s) (B k) = s (B k) := by
            apply hcx
            intro he
            exact absurd (hd.hB (by omega) hk he) (by omega)
          have hAk : (applyGate (Gate.cx (A (k + 1)) (B (k + 1))) s) (A k) = s (A k) := by
            apply hcx
            intro he
            exact hd.hAB (by omega) hk he
          constructor
          · rw [ihf _ hBne, hccx _ _ hBk1.symm]
            simp [applyGate]
          · rw [ihf _ hAne]
            have h1 : B k ≠ B (k + 1) := fun he =>
              absurd (hd.hB (by omega) hk he) (by omega)
            have h2 : A k ≠ B (k + 1) := hd.hAB (by omega) hk
            simp [applyGate, hBk1, h1, h2]
        · have hi : i ≤ k := by omega
          have hBi : B i ≠ B (k + 1) := fun he =>
            absurd (hd.hB (by omega) hk he) (by omega)
          have hBiA : B i ≠ A (k + 1) := fun he => hd.hAB hk (by omega) he.symm
          have hAi : A i ≠ B (k + 1) := fun he => hd.hAB (by omega) hk he
          have hAiA : A i ≠ A (k + 1) := fun he =>
            absurd (hd.hA (by omega) hk he) (by omega)
          obtain ⟨ihvB, ihvA⟩ := ihv i h1 hi
          have hAm : A (i - 1) ≠ B (k + 1) := fun he => hd.hAB (by omega) hk he
          have hAmA : A (i - 1) ≠ A (k + 1) := fun he =>
            absurd (hd.hA (by omega) hk he) (by omega)
          have hBm : B (i - 1) ≠ B (k + 1) := fun he =>
            absurd (hd.hB (by omega) hk he) (by omega)
          have hBmA : B (i - 1) ≠ A (k + 1) := fun he => hd.hAB hk (by omega) he.symm
          constructor
          · rw [ihvB, hstep _ hBi hBiA, hstep _ hAi hAiA]
          · rw [ihvA, hstep _ hAi hAiA, hstep _ hBm hBmA, hstep _ hAm hAmA]
      · intro j hj
        rw [applyGates_cons, applyGates_cons,
          ihf j fun i h1 h2 => hj i h1 (by omega),
          hstep j (hj (k + 1) (by omega) (by omega)).2 (hj (k + 1) (by omega) (by omega)).1]

/-- Running value of the `areg` wires while the restoring
`cx(areg[i], areg[i+1])` ascending sweep of the TTK adder acts on `s`. -/
def p5chain (A : Nat → Nat) (s : Nat → Bool) : Nat → Bool
  | 0 => s (A 0)
  | 1 => s (A 1)
  | i + 2 => xor (s (A (i + 2))) (p5chain A s (i + 1))

theorem ttkP5_spec {m : Nat} {A B : Nat → Nat} (hd : TTKDisj m A B)
    {k : Nat} (hk : k + 1 < m) (s : Nat → Bool) :
    (∀ i, 1 ≤ i → i ≤ k + 1 → applyGates (ttkP5 A k) s (A i) = p5chain A s i)
      ∧ (∀ j, (∀ i, 2 ≤ i → i ≤ k + 1 → j ≠ A i) → applyGates (ttkP5 A k) s j = s j) := by
  induction k with
  | zero =>
      refine ⟨fun i h1 h2 => ?_, fun j _ => rfl⟩
      interval_cases i
      rfl
  | succ k ih =>
      obtain ⟨ihv, ihf⟩ := ih (by omega)
      rw [ttkP5]
      constructor
      · intro i h1 h2
        rw [applyGates_append, applyGates_single]
        by_cases hik : i = k + 2
        · subst hik
          have hA2 : applyGates (ttkP5 A k) s (A (k + 2)) = s (A (k + 2)) := by
            apply ihf
            intro i' h1' h2' he
            exact absurd (hd.hA hk (by omega) he) (by omega)
          have hA1 : applyGates (ttkP5 A k) s (A (k + 1)) = p5chain A s (k + 1) :=
            ihv (k + 1) (by omega) (by omega)
          simp only [applyGate, if_true]
          rw [hA2, hA1]
          rfl
        · have hi : i ≤ k + 1 := by omega
          have hne : A i ≠ A (k + 2) := fun he =>
            absurd (hd.hA (by omega) hk he) (by omega)
          simp only [applyGate]
          rw [if_neg hne]
          exact ihv i h1 hi
      · intro j hj
        rw [applyGates_append, applyGates_single]
        have hne : j ≠ A (k + 2) := hj (k + 2) (by omega) (by omega)
        simp only [applyGate]
        rw [if_neg hne]
        exact ihf j fun i h1 h2 => hj i h1 (by omega)

theorem ttkP6_spec {m : Nat} {A B : Nat → Nat} (hd : TTKDisj m A B)
    {k : Nat} (hk : k ≤ m) (s : Nat → Bool) :
    (∀ i, i < k → applyGates (ttkP6 A B k) s (B i) = xor (s (B i)) (s (A i)))
      ∧ (∀ j, (∀ i, i < k → j ≠ B i) → applyGates (ttkP6 A B k) s j = s j) := by
  induction k with
  | zero => exact ⟨fun i hi => absurd hi (by omega), fun j _ => rfl⟩
  | succ k ih =>
      obtain ⟨ihv, ihf⟩ := ih (by omega)
      rw [ttkP6]
      constructor
      · intro i hi
        rw [applyGates_append, applyGates_single]
        by_cases hik : i = k
        · subst hik
          have hB : applyGates (ttkP6 A B i) s (B i) = s (B i) := by
            apply ihf
            intro i' h2' he
            exact absurd (hd.hB (by omega) (by omega) he) (by omega)
          have hA : applyGates (ttkP6 A B i) s (A i) = s (A i) := by
            apply ihf
            intro i' h2' he
            exact hd.hAB (by omega) (by omega) he
          simp [applyGate, hB, hA]
        · have hi' : i < k := by omega
          have hne : B i ≠ B k := fun he =>
            absurd (hd.hB (by omega) (by omega) he) (by omega)
          simp only [applyGate]
          rw [if_neg hne]
          exact ihv i hi'
      · intro j hj
        rw [applyGates_append, applyGates_single]
        have hne : j ≠ B k := hj k (by omega)
        simp only [applyGate]
        rw [if_neg hne]
        exact ihf j fun i h2 => hj i (by omega)

theorem ttkP1_wf {m : Nat} {A B : Nat → Nat} (hd : TTKDisj m A B) {k : Nat} (hk : k < m) :
    ∀ g ∈ ttkP1 A B k, g.wf := by
  induction k with
  | zero => intro g hg; cases hg
  | succ k ih =>
      intro g hg
      rw [ttkP1] at hg
      rcases List.mem_append.mp hg with h | h
      · exact ih (by omega) g h
      · rcases List.mem_singleton.mp h with rfl
        exact hd.hAB hk hk

theorem ttkP2_wf {m : Nat} {A B : Nat → Nat} (hd : TTKDisj m A B) {k : Nat} (hk : k + 1 < m) :
    ∀ g ∈ ttkP2 A k, g.wf := by
  induction k with
  | zero => intro g hg; cases hg
  | succ k ih =>
      intro g hg
      rw [ttkP2] at hg
      rcases List.mem_cons.mp hg with h | h
      · rcases h with rfl
        exact fun he => absurd (hd.hA (by omega) hk he) (by omega)
      · exact ih (by omega) g h

theorem ttkP3_wf {m : Nat} {A B : Nat → Nat} (hd : TTKDisj m A B) {k : Nat} (hk : k < m) :
    ∀ g ∈ ttkP3 A B k, g.wf := by
  induction k with
  | zero => intro g hg; cases hg
  | succ k ih =>
      intro g hg
      rw [ttkP3] at hg
      rcases List.mem_append.mp hg with h | h
      · exact ih (by omega) g h
      · rcases List.mem_singleton.mp h with rfl
        exact ⟨fun he => hd.hAB hk (by omega) he.symm,
          fun he => absurd (hd.hA (by omega) hk he) (by omega)⟩

theorem ttkP4_wf {m : Nat} {A B : Nat → Nat} (hd : TTKDisj m A B) {k : Nat} (hk : k < m) :
    ∀ g ∈ ttkP4 A B k, g.wf := by
  induction k with
  | zero => intro g hg; cases hg
  | succ k ih =>
      intro g hg
      rw [ttkP4] at hg
      rcases List.mem_cons.mp hg with h | h
      · rcases h with rfl
        exact hd.hAB hk hk
      · rcases List.mem_cons.mp h with h' | h'
        · rcases h' with rfl
          exact ⟨fun he => hd.hAB hk (by omega) he.symm,
            fun he => absurd (hd.hA (by omega) hk he) (by omega)⟩
        · exact ih (by omega) g h'

theorem ttkP5_wf {m : Nat} {A B : Nat → Nat} (hd : TTKDisj m A B) {k : Nat} (hk : k + 1 < m) :
    ∀ g ∈ ttkP5 A k, g.wf := by
  induction k with
  | zero => intro g hg; cases hg
  | succ k ih =>
      intro g hg
      rw [ttkP5] at hg
      rcases List.mem_append.mp hg with h | h
      · exact ih (by omega) g h
      · rcases List.mem_singleton.mp h with rfl
        exact fun he => absurd (hd.hA (by omega) hk he) (by omega)

theorem ttkP6_wf {m : Nat} {A B : Nat → Nat} (hd : TTKDisj m A B) {k : Nat} (hk : k ≤ m) :
    ∀ g ∈ ttkP6 A B k, g.wf := by
  induction k with
  | zero => intro g hg; cases hg
  | succ k ih =>
      intro g hg
      rw [ttkP6] at hg
      rcases List.mem_append.mp hg with h | h
      · exact ih (by omega) g h
      · rcases List.mem_singleton.mp h with rfl
        exact hd.hAB (by omega) (by omega)

theorem adder_ttk_wf {m : Nat} {A B : Nat → Nat} (hd : TTKDisj m A B) :
    ∀ g ∈ adder_ttk m A B, g.wf := by
  rcases Nat.lt_or_ge m 2 with hm | hm
  · interval_cases m
    · intro g hg; cases hg
    · intro g hg
      rcases List.mem_singleton.mp hg with rfl
      have hne : A 0 ≠ B 0 := hd.hAB (by omega) (by omega)
      exact hne
  · intro g hg
    rw [adder_ttk] at hg
    have h1 : m - 1 < m := by omega
    have h2 : m - 1 - 1 + 1 < m := by omega
    simp only [List.mem_append] at hg
    rcases hg with ((((h | h) | h) | h) | h) | h
    · exact ttkP1_wf hd h1 g h
    · exact ttkP2_wf hd h2 g h
    · exact ttkP3_wf hd h1 g h
    · exact ttkP4_wf hd h1 g h
    · exact ttkP5_wf hd h2 g h
    · exact ttkP6_wf hd (le_refl m) g h

/-- Boolean bridge: the carry-chain value dragged along by the TTK
`ccx` sweep equals `a_i ⊕ K_i` after phases 1 and 2 have transformed the
registers. -/
theorem maj_xor (a b K : Bool) : (xor a b && xor a K) = xor a (maj a b K) := by
  cases a <;> cases b <;> cases K <;> rfl

/-- Full correctness of `adder_ttk(m, handle_overflow=False)`:
`areg` is preserved and `breg` receives the bitwise sum with carries,
i.e. `b + a mod 2^m`; every other qubit is untouched. -/
theorem adder_ttk_spec {m : Nat} {A B : Nat → Nat} (hd : TTKDisj m A B) (s : Nat → Bool) :
    (∀ i, i < m → applyGates (adder_ttk m A B) s (A i) = s (A i))
      ∧ (∀ i, i < m → applyGates (adder_ttk m A B) s (B i)
          = xor (s (A i)) (xor (s (B i))
              (carries (fun t => s (A t)) (fun t => s (B t)) i)))
      ∧ (∀ j, (∀ i, i < m → j ≠ A i ∧ j ≠ B i) →
          applyGates (adder_ttk m A B) s j = s j) := by
  rcases Nat.lt_or_ge m 2 with hm | hm
  · interval_cases m
    · exact ⟨fun i hi => absurd hi (by omega), fun i hi => absurd hi (by omega),
        fun j _ => rfl⟩
    · refine ⟨fun i hi => ?_, fun i hi => ?_, fun j hj => ?_⟩
      · interval_cases i
        have : adder_ttk 1 A B = [Gate.cx (A 0) (B 0)] := rfl
        rw [this, applyGates_single]
        simp only [applyGate]
        rw [if_neg (hd.hAB (by omega) (by omega))]
      · interval_cases i
        have : adder_ttk 1 A B = [Gate.cx (A 0) (B 0)] := rfl
        rw [this, applyGates_single]
        simp only [applyGate, if_true]
        rw [show carries (fun t => s (A t)) (fun t => s (B t)) 0 = false from rfl]
        cases s (A 0) <;> cases s (B 0) <;> rfl
      · have : adder_ttk 1 A B = [Gate.cx (A 0) (B 0)] := rfl
        rw [this, applyGates_single]
        simp only [applyGate]
        rw [if_neg (hj 0 (by omega)).2]
  · -- m ≥ 2
    have h1 : m - 1 < m := by omega
    have h2 : m - 1 - 1 + 1 < m := by omega
    rw [adder_ttk]
    rw [applyGates_append, applyGates_append, applyGates_append, applyGates_append,
      applyGates_append]
    set a : Nat → Bool := fun t => s (A t) with ha
    set b : Nat → Bool := fun t => s (B t) with hb
    set K : Nat → Bool := carries a b with hK
    set s1 := applyGates (ttkP1 A B (m - 1)) s with hs1
    set s2 := applyGates (ttkP2 A (m - 1 - 1)) s1 with hs2
    set s3 := applyGates (ttkP3 A B (m - 1)) s2 with hs3
    set s4 := applyGates (ttkP4 A B (m - 1)) s3 with hs4
    set s5 := applyGates (ttkP5 A (m - 1 - 1)) s4 with hs5
    obtain ⟨p1v, p1f⟩ := ttkP1_spec hd h1 s
    obtain ⟨p2v, p2f⟩ := ttkP2_spec hd h2 s1
    obtain ⟨p3v, p3f⟩ := ttkP3_spec hd h1 s2
    obtain ⟨p4v, p4f⟩ := ttkP4_spec hd h1 s3
    obtain ⟨p5v, p5f⟩ := ttkP5_spec hd h2 s4
    obtain ⟨p6v, p6f⟩ := ttkP6_spec hd (le_refl m) s5
    rw [← hs1] at p1v p1f
    rw [← hs2] at p2v p2f
    rw [← hs3] at p3v p3f
    rw [← hs4] at p4v p4f
    rw [← hs5] at p5v p5f
    -- state descriptions
    have e1A : ∀ i, i < m → s1 (A i) = a i := by
      intro i hi
      exact p1f (A i) fun i' h1' h2' => hd.hAB hi (by omega)
    have e1B : ∀ i, i < m → s1 (B i) = if 1 ≤ i then xor (b i) (a i) else b i := by
      intro i hi
      by_cases hi1 : 1 ≤ i
      · rw [if_pos hi1]
        exact p1v i hi1 (by omega)
      · rw [if_neg hi1]
        apply p1f
        intro i' h1' h2' he
        exact absurd (hd.hB hi (by omega) he) (by omega)
    have e1o : ∀ j, (∀ i, i < m → j ≠ A i ∧ j ≠ B i) → s1 j = s j := by
      intro j hj
      exact p1f j fun i' h1' h2' => (hj i' (by omega)).2
    have e2A : ∀ i, i < m → s2 (A i) = if 2 ≤ i then xor (a i) (a (i - 1)) else a i := by
      intro i hi
      by_cases hi2 : 2 ≤ i
      · rw [if_pos hi2]
        have := p2v (i - 1) (by omega) (by omega)
        rw [show (i - 1 + 1 = i) from by omega] at this
        rw [this, e1A i hi, e1A (i - 1) (by omega)]
      · rw [if_neg hi2]
        have hfr : s2 (A i) = s1 (A i) := by
          apply p2f
          intro i' h1' h2' he
          exact absurd (hd.hA hi (by omega) he) (by omega)
        rw [hfr, e1A i hi]
    have e2B : ∀ i, i < m → s2 (B i) = if 1 ≤ i then xor (b i) (a i) else b i := by
      intro i hi
      have hfr : s2 (B i) = s1 (B i) := by
        apply p2f
        intro i' h1' h2' he
        exact hd.hAB (by omega) hi he.symm
      rw [hfr, e1B i hi]
    have e2o : ∀ j, (∀ i, i < m → j ≠ A i ∧ j ≠ B i) → s2 j = s j := by
      intro j hj
      rw [p2f j fun i' h1' h2' => (hj (i' + 1) (by omega)).1, e1o j hj]
    -- the carry chain after phase 3
    have echain : ∀ i, i < m → p3chain A B s2 i = xor (a i) (K i) := by
      intro i hi
      induction i with
      | zero =>
          rw [p3chain, e2A 0 (by omega)]
          simp [hK, carries]
      | succ i ihc =>
          rw [p3chain, e2A (i + 1) hi, e2B i (by omega), ihc (by omega)]
          rcases Nat.eq_zero_or_pos i with hz | hp
          · subst hz
            simp only [if_neg (by omega : ¬ (2 : Nat) ≤ 1), if_neg (by omega : ¬ (1 : Nat) ≤ 0)]
            rw [show K 1 = maj (a 0) (b 0) (K 0) from rfl]
            rw [show K 0 = false from rfl]
            cases a 0 <;> cases b 0 <;> cases a 1 <;> rfl
          · rcases Nat.lt_or_ge i 1 with h' | h'
            · omega
            · rw [if_pos (by omega : 1 ≤ i)]
              by_cases h2i : 2 ≤ i + 1
              · rw [if_pos h2i, show (i + 1 - 1 = i) from by omega]
                rw [show K (i + 1) = maj (a i) (b i) (K i) from rfl]
                cases a (i + 1) <;> cases a i <;> cases b i <;> cases K i <;> rfl
              · omega
    have e3A : ∀ i, i < m → s3 (A i) = xor (a i) (K i) := by
      intro i hi
      rcases Nat.eq_zero_or_pos i with hz | hp
      · subst hz
        have : s3 (A 0) = s2 (A 0) := by
          apply p3f
          intro i' h1' h2' he
          exact absurd (hd.hA (by omega) (by omega) he) (by omega)
        rw [this, e2A 0 (by omega)]
        simp [hK, carries]
      · have := p3v i (by omega)
        rw [this, echain i hi]
    have e3B : ∀ i, i < m → s3 (B i) = if 1 ≤ i then xor (b i) (a i) else b i := by
      intro i hi
      have : s3 (B i) = s2 (B i) := by
        apply p3f
        intro i' h1' h2' he
        exact hd.hAB (by omega) hi he.symm
      rw [this, e2B i hi]
    have e3o : ∀ j, (∀ i, i < m → j ≠ A i ∧ j ≠ B i) → s3 j = s j := by
      intro j hj
      rw [p3f j fun i' h1' h2' => (hj i' (by omega)).1, e2o j hj]
    have e4A : ∀ i, i < m → s4 (A i) = if 2 ≤ i then xor (a i) (a (i - 1)) else a i := by
      intro i hi
      by_cases hi1 : 1 ≤ i
      · have := (p4v i hi1 (by omega)).2
        rw [this, e3A i hi, e3A (i - 1) (by omega), e3B (i - 1) (by omega)]
        by_cases h2i : 2 ≤ i
        · rw [if_pos h2i, if_pos (by omega : 1 ≤ i - 1)]
          have hKi : K i = maj (a (i - 1)) (b (i - 1)) (K (i - 1)) := by
            rw [hK]
            conv_lhs => rw [show i = i - 1 + 1 from by omega]
            rfl
          rw [hKi]
          cases a i <;> cases a (i - 1) <;> cases b (i - 1) <;> cases K (i - 1) <;> rfl
        · have hi1' : i = 1 := by omega
          subst hi1'
          rw [if_neg h2i, if_neg (by omega : ¬ (1 : Nat) ≤ 1 - 1)]
          rw [show K 1 = maj (a 0) (b 0) (K 0) from rfl, show K 0 = false from rfl]
          simp only [show (1 - 1 : Nat) = 0 from rfl]
          cases a 1 <;> cases a 0 <;> cases b 0 <;> rfl
      · have hz : i = 0 := by omega
        subst hz
        rw [if_neg (by omega : ¬ (2 : Nat) ≤ 0)]
        have : s4 (A 0) = s3 (A 0) := by
          apply p4f
          intro i' h1' h2'
          exact ⟨fun he => absurd (hd.hA (by omega) (by omega) he) (by omega),
            fun he => hd.hAB (by omega) (by omega) he⟩
        rw [this, e3A 0 (by omega)]
        simp [hK, carries]
    have e4B : ∀ i, i < m → s4 (B i) = if 1 ≤ i then xor (b i) (K i) else b i := by
      intro i hi
      by_cases hi1 : 1 ≤ i
      · rw [if_pos hi1]
        have := (p4v i hi1 (by omega)).1
        rw [this, e3A i hi, e3B i hi, if_pos hi1]
        cases b i <;> cases a i <;> cases K i <;> rfl
      · have hz : i = 0 := by omega
        subst hz
        rw [if_neg hi1]
        have : s4 (B 0) = s3 (B 0) := by
          apply p4f
          intro i' h1' h2'
          exact ⟨fun he => hd.hAB (by omega) (by omega) he.symm,
            fun he => absurd (hd.hB (by omega) (by omega) he) (by omega)⟩
        rw [this, e3B 0 (by omega), if_neg (by omega : ¬ (1 : Nat) ≤ 0)]
    have e4o : ∀ j, (∀ i, i < m → j ≠ A i ∧ j ≠ B i) → s4 j = s j := by
      intro j hj
      rw [p4f j fun i' h1' h2' => ⟨(hj i' (by omega)).1, (hj i' (by omega)).2⟩, e3o j hj]
    -- phase 5 restores the A register
    have echain5 : ∀ i, 1 ≤ i → i < m → p5chain A s4 i = a i := by
      intro i h1i hi
      induction i with
      | zero => omega
      | succ i ihc =>
          rcases Nat.eq_zero_or_pos i with hz | hp
          · subst hz
            rw [p5chain, e4A 1 hi, if_neg (by omega : ¬ (2 : Nat) ≤ 1)]
          · rw [show (i + 1 = i - 1 + 2) from by omega, p5chain,
              show (i - 1 + 2 = i + 1) from by omega,
              show (i - 1 + 1 = i) from by omega,
              e4A (i + 1) hi, ihc (by omega) (by omega),
              if_pos (by omega : 2 ≤ i + 1), show (i + 1 - 1 = i) from by omega]
            cases a (i + 1) <;> cases a i <;> rfl
    have e5A : ∀ i, i < m → s5 (A i) = a i := by
      intro i hi
      rcases Nat.lt_or_ge i 1 with h' | h'
      · have hz : i = 0 := by omega
        subst hz
        have : s5 (A 0) = s4 (A 0) := by
          apply p5f
          intro i' h1' h2' he
          exact absurd (hd.hA (by omega) (by omega) he) (by omega)
        rw [this, e4A 0 (by omega), if_neg (by omega : ¬ (2 : Nat) ≤ 0)]
      · rcases Nat.lt_or_ge i (m - 1) with h'' | h''
        · rw [p5v i h' (by omega), echain5 i h' hi]
        · have him : i = m - 1 := by omega
          subst him
          rw [p5v (m - 1) h' (by omega), echain5 (m - 1) h' hi]
    have e5B : ∀ i, i < m → s5 (B i) = if 1 ≤ i then xor (b i) (K i) else b i := by
      intro i hi
      have : s5 (B i) = s4 (B i) := by
        apply p5f
        intro i' h1' h2' he
        exact hd.hAB (by omega) hi he.symm
      rw [this, e4B i hi]
    have e5o : ∀ j, (∀ i, i < m → j ≠ A i ∧ j ≠ B i) → s5 j = s j := by
      intro j hj
      rw [p5f j fun i' h1' h2' => (hj i' (by omega)).1, e4o j hj]
    -- phase 6: final sum bits
    refine ⟨fun i hi => ?_, fun i hi => ?_, fun j hj => ?_⟩
    · have : applyGates (ttkP6 A B m) s5 (A i) = s5 (A i) := by
        apply p6f
        intro i' h2' he
        exact hd.hAB hi (by omega) he
      rw [this, e5A i hi]
    · rw [p6v i hi, e5A i hi, e5B i hi,
        show s (A i) = a i from rfl, show s (B i) = b i from rfl]
      by_cases hi1 : 1 ≤ i
      · rw [if_pos hi1]
        cases b i <;> cases a i <;> cases K i <;> rfl
      · have hz : i = 0 := by omega
        subst hz
        rw [if_neg hi1]
        rw [show K 0 = false from rfl]
        cases b 0 <;> cases a 0 <;> rfl
    · rw [p6f j fun i' h2' => (hj i' (by omega)).2, e5o j hj]

/-- The flattened wire positions of an `m`-qubit register. -/
def wires (f : Nat → Nat) (m : Nat) : List Nat := (List.range m).map f

theorem wires_length (f : Nat → Nat) (m : Nat) : (wires f m).length = m := by
  simp [wires]

theorem wires_get (f : Nat → Nat) {m i : Nat} (h : i < (wires f m).length) :
    (wires f m).get ⟨i, h⟩ = f i := by
  simp [wires]

theorem wires_mem {f : Nat → Nat} {m j : Nat} :
    j ∈ wires f m ↔ ∃ i, i < m ∧ j = f i := by
  simp only [wires, List.mem_map, List.mem_range]
  constructor
  · rintro ⟨i, hi, rfl⟩
    exact ⟨i, hi, rfl⟩
  · rintro ⟨i, hi, rfl⟩
    exact ⟨i, hi, rfl⟩

theorem wires_nodup {f : Nat → Nat} {m : Nat}
    (hf : ∀ {i j : Nat}, i < m → j < m → f i = f j → i = j) : (wires f m).Nodup := by
  apply List.Nodup.map_on _ (List.nodup_range m)
  intro i hi j hj he
  exact hf (List.mem_range.mp hi) (List.mem_range.mp hj) he

theorem readVal_testBit {ws : List Nat} {i : Nat} (h : i < ws.length) (s : Nat → Bool) :
    (readVal ws s).testBit i = s (ws.get ⟨i, h⟩) := by
  induction ws generalizing i with
  | nil => cases h
  | cons w rest ih =>
      cases i with
      | zero =>
          rw [readVal, Nat.testBit_zero]
          cases hw : s w
          · simp [Nat.mul_mod_right]
            exact hw
          · simp [Nat.add_mul_mod_self_left]
            exact hw
      | succ i =>
          have hi : i < rest.length := by simpa using h
          have hdiv : ((if s w then 1 else 0) + 2 * readVal rest s) / 2 = readVal rest s := by
            have hc : (if s w then (1 : Nat) else 0) ≤ 1 := by cases s w <;> simp
            omega
          rw [readVal, Nat.testBit_succ, hdiv]
          exact ih hi

theorem writeBits_readVal_self {ws : List Nat} (hnd : ws.Nodup) (s : Nat → Bool) :
    writeBits ws (readVal ws s) s = s := by
  funext j
  by_cases hj : j ∈ ws
  · obtain ⟨i, hji⟩ := List.mem_iff_get.mp hj
    rw [← hji, writeBits_get hnd i.isLt, readVal_testBit i.isLt]
  · exact writeBits_notMem hj _ _

/-- Value form of the TTK adder: the `breg` wires receive
`a + b mod 2^m`; everything else is untouched. -/
theorem adder_ttk_val {m : Nat} {A B : Nat → Nat} (hd : TTKDisj m A B) (s : Nat → Bool) :
    applyGates (adder_ttk m A B) s
      = writeBits (wires B m)
          ((readVal (wires A m) s + readVal (wires B m) s) % 2 ^ m) s := by
  obtain ⟨eA, eB, eo⟩ := adder_ttk_spec hd s
  have hndB : (wires B m).Nodup := wires_nodup hd.hB
  funext j
  by_cases hj : j ∈ wires B m
  · obtain ⟨i, hi, rfl⟩ := wires_mem.mp hj
    have hgw : B i = (wires B m).get ⟨i, by simpa [wires_length] using hi⟩ :=
      (wires_get B _).symm
    rw [eB i hi]
    rw [hgw, writeBits_get hndB, ← hgw]
    rw [Nat.testBit_mod_two_pow, decide_eq_true hi, Bool.true_and, testBit_add]
    have hA : ∀ t, t < m → (readVal (wires A m) s).testBit t = s (A t) := by
      intro t ht
      have h' : t < (wires A m).length := by simpa [wires_length] using ht
      rw [readVal_testBit h', wires_get]
    have hB : ∀ t, t < m → (readVal (wires B m) s).testBit t = s (B t) := by
      intro t ht
      have h' : t < (wires B m).length := by simpa [wires_length] using ht
      rw [readVal_testBit h', wires_get]
    rw [hA i hi, hB i hi,
      carries_congr (fun t ht => (hA t (by omega)).symm) (fun t ht => (hB t (by omega)).symm)]
  · rw [writeBits_notMem hj]
    by_cases hjA : j ∈ wires A m
    · obtain ⟨i, hi, rfl⟩ := wires_mem.mp hjA
      exact eA i hi
    · apply eo
      intro i hi
      constructor
      · intro he
        exact hjA (he ▸ wires_mem.mpr ⟨i, hi, rfl⟩)
      · intro he
        exact hj (he ▸ wires_mem.mpr ⟨i, hi, rfl⟩)

/-- Value form of `adder_ttk(m).inverse()`, the subtractor used by the
borrowed-qubit incrementer: the `breg` wires receive `b - a mod 2^m`. -/
theorem adder_ttk_inv_val {m : Nat} {A B : Nat → Nat} (hd : TTKDisj m A B) (s : Nat → Bool) :
    applyGates (invGates (adder_ttk m A B)) s
      = writeBits (wires B m)
          ((readVal (wires B m) s + (2 ^ m - readVal (wires A m) s)) % 2 ^ m) s := by
  have hndB : (wires B m).Nodup := wires_nodup hd.hB
  set va := readVal (wires A m) s with hva
  set vb := readVal (wires B m) s with hvb
  set s0 := writeBits (wires B m) ((vb + (2 ^ m - va)) % 2 ^ m) s with hs0
  have hdisj : ∀ i, i < m → A i ∉ wires B m := by
    intro i hi hmem
    obtain ⟨t, ht, he⟩ := wires_mem.mp hmem
    exact hd.hAB hi ht he
  have hA0 : readVal (wires A m) s0 = va := by
    rw [hs0]
    apply readVal_congr
    intro w hw
    obtain ⟨i, hi, rfl⟩ := wires_mem.mp hw
    exact (writeBits_notMem (hdisj i hi) _ _)
  have hB0 : readVal (wires B m) s0 = (vb + (2 ^ m - va)) % 2 ^ m := by
    rw [hs0, readVal_writeBits hndB, wires_length]
    exact Nat.mod_mod_of_dvd _ (dvd_refl _)
  have hfwd : applyGates (adder_ttk m A B) s0 = s := by
    rw [adder_ttk_val hd s0, hA0, hB0]
    have hvalt : va < 2 ^ m := by
      have := readVal_lt (wires A m) s
      rwa [wires_length] at this
    have hvblt : vb < 2 ^ m := by
      have := readVal_lt (wires B m) s
      rwa [wires_length] at this
    have harith : (va + (vb + (2 ^ m - va)) % 2 ^ m) % 2 ^ m = vb := by
      rw [Nat.add_mod, Nat.mod_mod_of_dvd _ (dvd_refl _), ← Nat.add_mod]
      rw [show va + (vb + (2 ^ m - va)) = 2 ^ m + vb from by omega]
      rw [Nat.add_mod_left, Nat.mod_eq_of_lt hvblt]
    rw [harith, hs0, writeBits_writeBits, hvb, writeBits_readVal_self hndB]
  rw [← hfwd, applyGates_invGates (adder_ttk_wf hd), hs0]

/-! ## The borrowed-qubit incrementer (`incrementer.cinc`) -/

/-- `inc.x(breg)`: a bit flip on each of the `k` wires of a register. -/
def xAll (W : Nat → Nat) : Nat → List Gate
  | 0 => []
  | k + 1 => xAll W k ++ [.x (W k)]

theorem xAll_spec {k : Nat} {W : Nat → Nat}
    (hW : ∀ {i j : Nat}, i < k → j < k → W i = W j → i = j) (s : Nat → Bool) :
    (∀ i, i < k → applyGates (xAll W k) s (W i) = !(s (W i)))
      ∧ (∀ j, (∀ i, i < k → j ≠ W i) → applyGates (xAll W k) s j = s j) := by
  induction k with
  | zero => exact ⟨fun i hi => absurd hi (by omega), fun j _ => rfl⟩
  | succ k ih =>
      obtain ⟨ihv, ihf⟩ := ih fun hi hj he => hW (by omega) (by omega) he
      rw [xAll]
      constructor
      · intro i hi
        rw [applyGates_append, applyGates_single]
        by_cases hik : i = k
        · subst hik
          have : applyGates (xAll W i) s (W i) = s (W i) := by
            apply ihf
            intro i' hi' he
            exact absurd (hW (by omega) (by omega) he) (by omega)
          simp [applyGate, this]
        · have hne : W i ≠ W k := fun he => absurd (hW (by omega) (by omega) he) (by omega)
          simp only [applyGate]
          rw [if_neg hne]
          exact ihv i (by omega)
      · intro j hj
        rw [applyGates_append, applyGates_single]
        simp only [applyGate]
        rw [if_neg (hj k (by omega))]
        exact ihf j fun i hi => hj i (by omega)

theorem readVal_compl {ws : List Nat} {s s' : Nat → Bool}
    (h : ∀ w ∈ ws, s' w = !(s w)) :
    readVal ws s' + readVal ws s = 2 ^ ws.length - 1 := by
  induction ws with
  | nil => rfl
  | cons w rest ih =>
      rw [readVal, readVal, h w (List.mem_cons_self _ _), List.length_cons, pow_succ]
      have := ih fun w' hw' => h w' (List.mem_cons_of_mem _ hw')
      have hp : 1 ≤ 2 ^ rest.length := Nat.one_le_two_pow
      rcases Bool.eq_false_or_eq_true (s w) with hw | hw <;> rw [hw] <;> simp <;> omega

/-- `incrementer.cinc(n)`: controlled increment by `1` of the `n`-qubit
register at wires `X`, controlled by the wire `ctrl`, borrowing the
`n+1` wires `Bw` of unknown content.  The gate sequence is:
subtractor (= `adder_ttk(n+1, handle_overflow=False).inverse()`) wired
with `areg = breg(borrowed)` and logical `breg = [ctrl] + xreg`; `x` on
every borrowed wire; the subtractor again; `x` on every borrowed wire;
`x` on the control. -/
def cinc (n : Nat) (ctrl : Nat) (X Bw : Nat → Nat) : List Gate :=
  invGates (adder_ttk (n + 1) Bw (fun i => if i = 0 then ctrl else X (i - 1)))
    ++ xAll Bw (n + 1)
    ++ invGates (adder_ttk (n + 1) Bw (fun i => if i = 0 then ctrl else X (i - 1)))
    ++ xAll Bw (n + 1)
    ++ [.x ctrl]

/-- Distinctness of the control, data and borrowed wires of `cinc`. -/
structure CincDisj (n : Nat) (ctrl : Nat) (X Bw : Nat → Nat) : Prop where
  hX : ∀ {i j : Nat}, i < n → j < n → X i = X j → i = j
  hB : ∀ {i j : Nat}, i < n + 1 → j < n + 1 → Bw i = Bw j → i = j
  hXB : ∀ {i j : Nat}, i < n → j < n + 1 → X i ≠ Bw j
  hcX : ∀ {i : Nat}, i < n → ctrl ≠ X i
  hcB : ∀ {i : Nat}, i < n + 1 → ctrl ≠ Bw i

theorem cincL_ttkdisj {n ctrl : Nat} {X Bw : Nat → Nat} (hd : CincDisj n ctrl X Bw) :
    TTKDisj (n + 1) Bw (fun i => if i = 0 then ctrl else X (i - 1)) := by
  refine ⟨hd.hB, ?_, ?_⟩
  · intro i j hi hj he
    by_cases hi0 : i = 0 <;> by_cases hj0 : j = 0
    · omega
    · rw [if_pos hi0, if_neg hj0] at he
      exact absurd he (hd.hcX (by omega))
    · rw [if_neg hi0, if_pos hj0] at he
      exact absurd he.symm (hd.hcX (by omega))
    · rw [if_neg hi0, if_neg hj0] at he
      have := hd.hX (i := i - 1) (j := j - 1) (by omega) (by omega) he
      omega
  · intro i j hi hj
    by_cases hj0 : j = 0
    · rw [if_pos hj0]
      exact fun he => hd.hcB hi he.symm
    · rw [if_neg hj0]
      exact fun he => hd.hXB (j := i) (by omega) hi he.symm

theorem cincL_wires {n ctrl : Nat} {X : Nat → Nat} :
    wires (fun i => if i = 0 then ctrl else X (i - 1)) (n + 1) = ctrl :: wires X n := by
  rw [wires, wires, List.range_succ_eq_map, List.map_cons, List.map_map]
  refine List.cons_eq_cons.mpr ⟨rfl, ?_⟩
  apply List.map_congr_left
  intro i _
  rfl

/-- Full correctness of `cinc(n)` (claim of `incrementer.py`): the data
register is incremented by the control bit, the control is preserved and
every borrowed wire is restored to its original unknown content. -/
theorem cinc_spec {n ctrl : Nat} {X Bw : Nat → Nat} (hd : CincDisj n ctrl X Bw)
    (s : Nat → Bool) :
    applyGates (cinc n ctrl X Bw) s
      = writeBits (wires X n)
          ((readVal (wires X n) s + (s ctrl).toNat) % 2 ^ n) s := by
  have htd := cincL_ttkdisj hd
  set L : Nat → Nat := fun i => if i = 0 then ctrl else X (i - 1) with hL
  have hLl : wires L (n + 1) = ctrl :: wires X n := cincL_wires
  have hndL : (wires L (n + 1)).Nodup := wires_nodup htd.hB
  have hndX : (wires X n).Nodup := wires_nodup hd.hX
  set c := (s ctrl).toNat with hc
  set vx := readVal (wires X n) s with hvx
  set g := readVal (wires Bw (n + 1)) s with hg
  have hc1 : c ≤ 1 := by rw [hc]; cases s ctrl <;> simp
  have hvL : readVal (wires L (n + 1)) s = c + 2 * vx := by
    rw [hLl, readVal]
    rcases Bool.eq_false_or_eq_true (s ctrl) with hw | hw <;> rw [hc, hw] <;> simp
  have hglt : g < 2 ^ (n + 1) := by
    have := readVal_lt (wires Bw (n + 1)) s
    rwa [wires_length] at this
  have hvxlt : vx < 2 ^ n := by
    have := readVal_lt (wires X n) s
    rwa [wires_length] at this
  have hBnotL : ∀ i, i < n + 1 → Bw i ∉ wires L (n + 1) := by
    intro i hi hmem
    obtain ⟨t, ht, he⟩ := wires_mem.mp hmem
    exact htd.hAB hi ht he
  have hXnotB : ∀ i, i < n → X i ∉ wires Bw (n + 1) := by
    intro i hi hmem
    obtain ⟨t, ht, he⟩ := wires_mem.mp hmem
    exact hd.hXB hi ht he
  have hcnotB : ctrl ∉ wires Bw (n + 1) := by
    intro hmem
    obtain ⟨t, ht, he⟩ := wires_mem.mp hmem
    exact hd.hcB ht he
  have hcnotX : ctrl ∉ wires X n := by
    intro hmem
    obtain ⟨t, ht, he⟩ := wires_mem.mp hmem
    exact hd.hcX ht he
  -- step 1: first subtraction on the logical register [ctrl] + xreg
  set L1 := (c + 2 * vx + (2 ^ (n + 1) - g)) % 2 ^ (n + 1) with hL1
  set t1 := writeBits (wires L (n + 1)) L1 s with ht1
  have step1 : applyGates (invGates (adder_ttk (n + 1) Bw L)) s = t1 := by
    rw [adder_ttk_inv_val htd s, hvL, ← hg]
  -- step 2: flip the borrowed register
  set t2 := applyGates (xAll Bw (n + 1)) t1 with ht2
  obtain ⟨x1v, x1f⟩ := xAll_spec (k := n + 1) (W := Bw)
    (fun hi hj he => hd.hB hi hj he) t1
  have ht2B : ∀ i, i < n + 1 → t2 (Bw i) = !(s (Bw i)) := by
    intro i hi
    rw [ht2, x1v i hi, ht1, writeBits_notMem (hBnotL i hi)]
  have ht2o : ∀ j, j ∉ wires Bw (n + 1) → t2 j = t1 j := by
    intro j hj
    rw [ht2]
    apply x1f
    intro i hi he
    exact hj (he ▸ wires_mem.mpr ⟨i, hi, rfl⟩)
  -- step 3: second subtraction
  set t3 := writeBits (wires L (n + 1)) ((c + 2 * vx + 1) % 2 ^ (n + 1)) t2 with ht3
  have hrdL2 : readVal (wires L (n + 1)) t2 = L1 := by
    rw [show readVal (wires L (n + 1)) t2 = readVal (wires L (n + 1)) t1 from
        readVal_congr (fun w hw => ht2o w (fun hmem => by
          obtain ⟨i, hi, he⟩ := wires_mem.mp hmem
          exact hBnotL i hi (he ▸ hw))),
      ht1, readVal_writeBits hndL, wires_length, hL1]
    exact Nat.mod_mod_of_dvd _ (dvd_refl _)
  have hrdB2 : readVal (wires Bw (n + 1)) t2 = 2 ^ (n + 1) - 1 - g := by
    have hgt1 : readVal (wires Bw (n + 1)) t1 = g := by
      rw [ht1, hg]
      apply readVal_congr
      intro w hw
      obtain ⟨t, ht, rfl⟩ := wires_mem.mp hw
      exact writeBits_notMem (hBnotL t ht) _ _
    have hcompl := @readVal_compl (wires Bw (n + 1)) t1 t2
      (fun w hw => by
        obtain ⟨t, ht, rfl⟩ := wires_mem.mp hw
        rw [ht2B t ht, ht1, writeBits_notMem (hBnotL t ht)])
    rw [hgt1, wires_length] at hcompl
    omega
  have step3 : applyGates (invGates (adder_ttk (n + 1) Bw L)) t2 = t3 := by
    rw [adder_ttk_inv_val htd t2, hrdL2, hrdB2, ht3]
    have harith : (L1 + (2 ^ (n + 1) - (2 ^ (n + 1) - 1 - g))) % 2 ^ (n + 1)
        = (c + 2 * vx + 1) % 2 ^ (n + 1) := by
      have hM1 : (1 : Nat) ≤ 2 ^ (n + 1) := Nat.one_le_two_pow
      rw [hL1, show 2 ^ (n + 1) - (2 ^ (n + 1) - 1 - g) = 1 + g from by omega]
      rw [Nat.add_mod, Nat.mod_mod_of_dvd _ (dvd_refl _), ← Nat.add_mod]
      rw [show c + 2 * vx + (2 ^ (n + 1) - g) + (1 + g)
          = c + 2 * vx + 1 + 2 ^ (n + 1) from by omega]
      rw [Nat.add_mod_right]
    rw [harith]
  -- step 4: flip the borrowed register back
  set t4 := applyGates (xAll Bw (n + 1)) t3 with ht4
  obtain ⟨x2v, x2f⟩ := xAll_spec (k := n + 1) (W := Bw)
    (fun hi hj he => hd.hB hi hj he) t3
  have ht4B : ∀ i, i < n + 1 → t4 (Bw i) = s (Bw i) := by
    intro i hi
    rw [ht4, x2v i hi, ht3, writeBits_notMem (hBnotL i hi), ht2B i hi, Bool.not_not]
  have ht4o : ∀ j, j ∉ wires Bw (n + 1) → t4 j = t3 j := by
    intro j hj
    rw [ht4]
    apply x2f
    intro i hi he
    exact hj (he ▸ wires_mem.mpr ⟨i, hi, rfl⟩)
  -- assemble and compare pointwise
  rw [cinc, applyGates_append, applyGates_append, applyGates_append, applyGates_append,
    step1, ← ht2, step3, ← ht4, applyGates_single]
  funext j
  have hLbit : ∀ i (h : i < n + 1), t3 (L i) = ((c + 2 * vx + 1) % 2 ^ (n + 1)).testBit i := by
    intro i hi
    have h2 : i < (wires L (n + 1)).length := by simpa [wires_length] using hi
    rw [ht3, show L i = (wires L (n + 1)).get ⟨i, h2⟩ from (wires_get L h2).symm,
      writeBits_get hndL]
  by_cases hjc : j = ctrl
  · rw [hjc]
    have h0 : t3 (L 0) = ((c + 2 * vx + 1) % 2 ^ (n + 1)).testBit 0 := hLbit 0 (by omega)
    rw [show L 0 = ctrl from rfl] at h0
    have hxg : applyGate (Gate.x ctrl) t4 ctrl = !(t4 ctrl) := by
      simp [applyGate]
    rw [hxg, ht4o ctrl hcnotB, h0, writeBits_notMem hcnotX]
    rw [Nat.testBit_mod_two_pow, Nat.testBit_zero]
    rcases Bool.eq_false_or_eq_true (s ctrl) with hw | hw <;>
      · rw [hc, hw]
        simp
        omega
  · simp only [applyGate]
    rw [if_neg hjc]
    by_cases hjB : j ∈ wires Bw (n + 1)
    · obtain ⟨i, hi, rfl⟩ := wires_mem.mp hjB
      have hBnotX : Bw i ∉ wires X n := by
        intro hmem
        obtain ⟨t, ht, he⟩ := wires_mem.mp hmem
        exact hd.hXB ht hi he.symm
      rw [ht4B i hi, writeBits_notMem hBnotX]
    · rw [ht4o j hjB]
      by_cases hjX : j ∈ wires X n
      · obtain ⟨i, hi, rfl⟩ := wires_mem.mp hjX
        have hXL : X i = L (i + 1) := by simp [hL]
        have hbit : t3 (X i) = ((c + 2 * vx + 1) % 2 ^ (n + 1)).testBit (i + 1) := by
          rw [hXL]
          exact hLbit (i + 1) (by omega)
        rw [hbit, Nat.testBit_mod_two_pow]
        have h2 : i < (wires X n).length := by simpa [wires_length] using hi
        rw [show X i = (wires X n).get ⟨i, h2⟩ from (wires_get X h2).symm,
          writeBits_get hndX]
        rw [decide_eq_true (by omega : i + 1 < n + 1), Bool.true_and]
        rw [Nat.testBit_succ, Nat.testBit_mod_two_pow, decide_eq_true hi, Bool.true_and]
        have hdiv : (c + 2 * vx + 1) / 2 = vx + c := by omega
        rw [hdiv]
      · have hjL : j ∉ wires L (n + 1) := by
          rw [hLl]
          intro hmem
          rcases List.mem_cons.mp hmem with h1 | h1
          · exact hjc h1
          · exact hjX h1
        rw [ht3, writeBits_notMem hjL, ht2o j hjB, ht1, writeBits_notMem hjL,
          writeBits_notMem hjX]

/-! ## The HRS carry gate (`hrs_carry.py`)

`carry_gate`, `c_carry_gate` and `cc_carry_gate` share one body and
differ only in how the three operations touching the output qubit
`areg[n-1]` are controlled (`cx`/`ccx`/`mct` with 0, 1, 2 extra
controls).  They are modelled by one definition taking the list of
control wires; `carry_gate = carry_gate_gen []`,
`c_carry_gate c = carry_gate_gen [c]`,
`cc_carry_gate c0 c1 = carry_gate_gen [c0, c1]`.
The dirty carry register is `greg = [areg[0]] + greg_actual`. -/

/-- First forward sweep (`for i in reversed(range(1, n-1))`), with the
special `i == 1, c_bin[0] == '0'` case; block for `i = k+1` first, then
the blocks for smaller `i`. -/
def carryP2 (a g : Nat → Nat) (cb : Nat → Bool) : Nat → List Gate
  | 0 => []
  | k + 1 =>
      (if k + 1 = 1 ∧ cb 0 = false then
        (if cb 1 then [.cx (a 1) (g 1), .x (a 1)] else [])
      else if cb (k + 1) then
        [.cx (a (k + 1)) (g (k + 1)), .x (a (k + 1)), .ccx (g k) (a (k + 1)) (g (k + 1))]
      else [.ccx (g k) (a (k + 1)) (g (k + 1))]) ++ carryP2 a g cb k

/-- Second forward sweep (`for i in range(1, n-1)` skipping `i == 1`,
re-applying only the `ccx`): blocks for `i = 2..k`. -/
def carryP3 (a g : Nat → Nat) : Nat → List Gate
  | 0 => []
  | 1 => []
  | k + 2 => carryP3 a g (k + 1) ++ [.ccx (g (k + 1)) (a (k + 2)) (g (k + 2))]

/-- The full ("generalized-control") carry gate of `hrs_carry.py`:
toggles `areg[n-1]` by the carry of `areg[0..n-2] + constant`, gated on
the control wires; the backward sweeps are the exact reversals of the
forward sweeps, as in the source. -/
def carry_gate_gen (ctrls : List Nat) (n : Nat) (a gact : Nat → Nat)
    (cb : Nat → Bool) : List Gate :=
  let g : Nat → Nat := fun i => if i = 0 then a 0 else gact (i - 1)
  [.mct (ctrls ++ [g (n - 2)]) (a (n - 1))]
    ++ carryP2 a g cb (n - 2)
    ++ carryP3 a g (n - 2)
    ++ [.mct (ctrls ++ [g (n - 2)]) (a (n - 1))]
    ++ (if cb (n - 1) then [.mct ctrls (a (n - 1))] else [])
    ++ (carryP3 a g (n - 2)).reverse
    ++ (carryP2 a g cb (n - 2)).reverse

/-- Distinctness of the wires of the carry gate: controls, data register
`areg` and dirty register `greg_actual`. -/
structure CarryDisj (n : Nat) (ctrls : List Nat) (a gact : Nat → Nat) : Prop where
  ha : ∀ {i j : Nat}, i < n → j < n → a i = a j → i = j
  hg : ∀ {i j : Nat}, i < n - 2 → j < n - 2 → gact i = gact j → i = j
  hag : ∀ {i j : Nat}, i < n → j < n - 2 → a i ≠ gact j
  hca : ∀ u ∈ ctrls, ∀ {i : Nat}, i < n → u ≠ a i
  hcg : ∀ u ∈ ctrls, ∀ {j : Nat}, j < n - 2 → u ≠ gact j

namespace CarryDisj

variable {n : Nat} {ctrls : List Nat} {a gact : Nat → Nat}

/-- The dirty carry wires `greg = [areg[0]] + greg_actual`. -/
def g (a gact : Nat → Nat) : Nat → Nat := fun i => if i = 0 then a 0 else gact (i - 1)

theorem hga (hd : CarryDisj n ctrls a gact) {i t : Nat} (hi : i ≤ n - 2) (ht : t < n)
    (h1 : 1 ≤ i) : g a gact i ≠ a t := by
  rw [g, if_neg (by omega : ¬ i = 0)]
  exact fun he => hd.hag (j := i - 1) ht (by omega) he.symm

theorem hgg (hd : CarryDisj n ctrls a gact) (hn : 3 ≤ n) {i j : Nat} (hi : i ≤ n - 2)
    (hj : j ≤ n - 2) (hne : i ≠ j) : g a gact i ≠ g a gact j := by
  rw [g]
  by_cases hi0 : i = 0 <;> by_cases hj0 : j = 0
  · omega
  · rw [if_pos hi0, g, if_neg hj0]
    exact fun he => hd.hag (i := 0) (j := j - 1) (by omega) (by omega) he
  · rw [if_neg hi0, g, if_pos hj0]
    exact fun he => hd.hag (i := 0) (j := i - 1) (by omega) (by omega) he.symm
  · rw [if_neg hi0, g, if_neg hj0]
    intro he
    have := hd.hg (i := i - 1) (j := j - 1) (by omega) (by omega) he
    omega

theorem hgc (hd : CarryDisj n ctrls a gact) {i : Nat} (hi : i ≤ n - 2) (hn : 3 ≤ n) :
    ∀ u ∈ ctrls, u ≠ g a gact i := by
  intro u hu
  rw [g]
  by_cases hi0 : i = 0
  · rw [if_pos hi0]
    exact hd.hca u hu (by omega)
  · rw [if_neg hi0]
    exact hd.hcg u hu (by omega)

end CarryDisj

/-- The value a dirty carry cell `g i` receives in the first forward
sweep, as a function of the original state. -/
def carryF (a : Nat → Nat) (G : Nat → Nat) (cb : Nat → Bool) (s : Nat → Bool)
    (i : Nat) : Bool :=
  if i = 1 ∧ cb 0 = false then (cb 1 && s (a 1))
  else xor (cb i && s (a i)) (s (G (i - 1)) && (xor (s (a i)) (cb i)))

theorem carryP2_spec {n : Nat} {ctrls : List Nat} {a gact : Nat → Nat}
    (hd : CarryDisj n ctrls a gact) (hn : 3 ≤ n) {cb : Nat → Bool}
    {k : Nat} (hk : k ≤ n - 2) (s : Nat → Bool) :
    (∀ i, 1 ≤ i → i ≤ k →
        applyGates (carryP2 a (CarryDisj.g a gact) cb k) s (a i) = xor (s (a i)) (cb i))
      ∧ (∀ i, 1 ≤ i → i ≤ k →
          applyGates (carryP2 a (CarryDisj.g a gact) cb k) s (CarryDisj.g a gact i)
            = xor (s (CarryDisj.g a gact i)) (carryF a (CarryDisj.g a gact) cb s i))
      ∧ (∀ j, (∀ i, 1 ≤ i → i ≤ k → j ≠ a i ∧ j ≠ CarryDisj.g a gact i) →
          applyGates (carryP2 a (CarryDisj.g a gact) cb k) s j = s j) := by
  set G := CarryDisj.g a gact with hG
  induction k generalizing s with
  | zero =>
      exact ⟨fun i h1 h2 => absurd (le_trans h1 h2) (by omega),
        fun i h1 h2 => absurd (le_trans h1 h2) (by omega), fun j _ => rfl⟩
  | succ k ih =>
      -- the head block for i = k+1, then the tail for i ≤ k
      rw [carryP2]
      set blk := (if k + 1 = 1 ∧ cb 0 = false then
          (if cb 1 then [Gate.cx (a 1) (G 1), Gate.x (a 1)] else [])
        else if cb (k + 1) then
          [Gate.cx (a (k + 1)) (G (k + 1)), Gate.x (a (k + 1)),
            Gate.ccx (G k) (a (k + 1)) (G (k + 1))]
        else [Gate.ccx (G k) (a (k + 1)) (G (k + 1))]) with hblk
      have hak1 : a (k + 1) ≠ G (k + 1) :=
        (hd.hga (by omega) (by omega) (by omega)).symm
      have hGk1 : G k ≠ G (k + 1) := hd.hgg hn (by omega) (by omega) (by omega)
      have hGka : G k ≠ a (k + 1) := by
        by_cases hk0 : k = 0
        · subst hk0
          have hg0 : G 0 = a 0 := rfl
          rw [hg0]
          exact fun he => absurd (hd.ha (by omega) (by omega) he) (by omega)
        · exact hd.hga (by omega) (by omega) (by omega)
      -- effect of the head block
      have hblkA : applyGates blk s (a (k + 1)) = xor (s (a (k + 1))) (cb (k + 1)) := by
        rw [hblk]
        by_cases hsp : k + 1 = 1 ∧ cb 0 = false
        · rw [if_pos hsp]
          have hk0 : k = 0 := by omega
          have h11 : a 1 ≠ G 1 := by
            subst hk0
            simpa using hak1
          rw [show cb (k + 1) = cb 1 from by rw [hsp.1]]
          by_cases hcb : cb 1
          · rw [if_pos hcb, hcb, show a (k + 1) = a 1 from by rw [show k + 1 = 1 from hsp.1]]
            simp only [applyGates_cons, applyGates_nil, applyGate]
            simp [h11]
          · rw [if_neg hcb, Bool.eq_false_iff.mpr hcb]
            simp [applyGates]
        · rw [if_neg hsp]
          by_cases hcb : cb (k + 1)
          · rw [if_pos hcb, hcb]
            simp only [applyGates_cons, applyGates_nil, applyGate]
            simp [hak1, hGka, hGk1]
          · rw [if_neg hcb, Bool.eq_false_iff.mpr hcb]
            simp only [applyGates_cons, applyGates_nil, applyGate]
            simp [hGka, hak1]
      have hblkG : applyGates blk s (G (k + 1))
          = xor (s (G (k + 1))) (carryF a G cb s (k + 1)) := by
        rw [hblk, carryF]
        by_cases hsp : k + 1 = 1 ∧ cb 0 = false
        · rw [if_pos hsp, if_pos hsp]
          have hk0 : k = 0 := by omega
          have h11 : a 1 ≠ G 1 := by
            subst hk0
            simpa using hak1
          rw [show G (k + 1) = G 1 from by rw [show k + 1 = 1 from hsp.1]]
          by_cases hcb : cb 1
          · rw [if_pos hcb, hcb]
            simp only [applyGates_cons, applyGates_nil, applyGate]
            simp [h11.symm]
          · rw [if_neg hcb, Bool.eq_false_iff.mpr hcb]
            simp [applyGates]
        · rw [if_neg hsp, if_neg hsp]
          by_cases hcb : cb (k + 1)
          · rw [if_pos hcb, hcb]
            simp only [applyGates_cons, applyGates_nil, applyGate]
            simp only [if_neg hak1, if_neg hGka, if_neg hGk1, if_neg hak1.symm,
              if_neg hGka.symm, if_neg hGk1.symm, eq_self_iff_true, if_true,
              show ((k : Nat) + 1 - 1 = k) from rfl]
            cases s (G (k + 1)) <;> cases s (a (k + 1)) <;> cases s (G k) <;> rfl
          · rw [if_neg hcb, Bool.eq_false_iff.mpr hcb]
            simp only [applyGates_cons, applyGates_nil, applyGate]
            simp only [if_neg hak1, if_neg hGka, if_neg hGk1, if_neg hak1.symm,
              if_neg hGka.symm, if_neg hGk1.symm, eq_self_iff_true, if_true,
              show ((k : Nat) + 1 - 1 = k) from rfl]
            cases s (G (k + 1)) <;> cases s (a (k + 1)) <;> cases s (G k) <;> rfl
      have hblkO : ∀ j, j ≠ a (k + 1) → j ≠ G (k + 1) → applyGates blk s j = s j := by
        intro j hja hjG
        rw [hblk]
        by_cases hsp : k + 1 = 1 ∧ cb 0 = false
        · rw [if_pos hsp]
          have hja1 : j ≠ a 1 := by
            rw [show (1 : Nat) = k + 1 from hsp.1.symm]
            exact hja
          have hjG1 : j ≠ G 1 := by
            rw [show (1 : Nat) = k + 1 from hsp.1.symm]
            exact hjG
          by_cases hcb : cb 1
          · rw [if_pos hcb]
            simp only [applyGates_cons, applyGates_nil, applyGate]
            rw [if_neg hjG1, if_neg hja1]
          · rw [if_neg hcb]
            rfl
        · rw [if_neg hsp]
          by_cases hcb : cb (k + 1)
          · rw [if_pos hcb]
            simp only [applyGates_cons, applyGates_nil, applyGate]
            rw [if_neg hjG, if_neg hja, if_neg hjG]
          · rw [if_neg hcb]
            simp only [applyGates_cons, applyGates_nil, applyGate]
            rw [if_neg hjG]
      obtain ⟨ihA, ihG, ihF⟩ := ih (by omega) (applyGates blk s)
      rw [applyGates_append]
      -- values the tail blocks read are untouched by the head block
      have hsA : ∀ t, t ≤ k → applyGates blk s (a t) = s (a t) := by
        intro t ht
        apply hblkO
        · exact fun he => absurd (hd.ha (by omega) (by omega) he) (by omega)
        · exact (hd.hga (by omega) (by omega) (by omega)).symm
      have hsG : ∀ t, t ≤ k → applyGates blk s (G t) = s (G t) := by
        intro t ht
        apply hblkO
        · by_cases ht0 : t = 0
          · subst ht0
            have hg0 : G 0 = a 0 := rfl
            rw [hg0]
            exact fun he => absurd (hd.ha (by omega) (by omega) he) (by omega)
          · exact hd.hga (by omega) (by omega) (by omega)
        · exact hd.hgg hn (by omega) (by omega) (by omega)
      refine ⟨?_, ?_, ?_⟩
      · intro i h1 h2
        by_cases hik : i = k + 1
        · subst hik
          rw [ihF _ (fun t h1t h2t =>
              ⟨fun he => absurd (hd.ha (by omega) (by omega) he) (by omega),
               (hd.hga (by omega) (by omega) (by omega)).symm⟩),
            hblkA]
        · rw [ihA i h1 (by omega), hsA i (by omega)]
      · intro i h1 h2
        by_cases hik : i = k + 1
        · subst hik
          rw [ihF _ (fun t h1t h2t =>
              ⟨(hd.hga (by omega) (by omega) (by omega)),
               (hd.hgg hn (by omega) (by omega) (by omega))⟩),
            hblkG]
        · rw [ihG i h1 (by omega), hsG i (by omega), carryF, carryF]
          by_cases hsp : i = 1 ∧ cb 0 = false
          · rw [if_pos hsp, if_pos hsp, hsA 1 (by omega)]
          · rw [if_neg hsp, if_neg hsp, hsA i (by omega), hsG (i - 1) (by omega)]
      · intro j hj
        rw [ihF j (fun t h1t h2t => hj t h1t (by omega)),
          hblkO j (hj (k + 1) (by omega) (by omega)).1 (hj (k + 1) (by omega) (by omega)).2]

/-- Running value of the dirty carry cells during the second forward
sweep of the carry gate. -/
def carryChainG (a G : Nat → Nat) (s : Nat → Bool) : Nat → Bool
  | 0 => s (G 0)
  | 1 => s (G 1)
  | i + 2 => xor (s (G (i + 2))) (carryChainG a G s (i + 1) && s (a (i + 2)))

theorem carryP3_spec {n : Nat} {ctrls : List Nat} {a gact : Nat → Nat}
    (hd : CarryDisj n ctrls a gact) (hn : 3 ≤ n)
    {k : Nat} (hk : k ≤ n - 2) (s : Nat → Bool) :
    (∀ i, i ≤ k →
        applyGates (carryP3 a (CarryDisj.g a gact) k) s (CarryDisj.g a gact i)
          = carryChainG a (CarryDisj.g a gact) s i)
      ∧ (∀ j, (∀ i, 2 ≤ i → i ≤ k → j ≠ CarryDisj.g a gact i) →
          applyGates (carryP3 a (CarryDisj.g a gact) k) s j = s j) := by
  set G := CarryDisj.g a gact with hG
  induction k with
  | zero =>
      refine ⟨fun i hi => ?_, fun j _ => rfl⟩
      interval_cases i
      rfl
  | succ k ih =>
      cases k with
      | zero =>
          refine ⟨fun i hi => ?_, fun j _ => rfl⟩
          interval_cases i <;> rfl
      | succ k =>
          obtain ⟨ihv, ihf⟩ := ih (by omega)
          rw [show carryP3 a G (k + 1 + 1)
              = carryP3 a G (k + 1) ++ [.ccx (G (k + 1)) (a (k + 2)) (G (k + 2))] from rfl]
          have hGne : ∀ t, t ≤ k + 1 → G t ≠ G (k + 2) :=
            fun t ht => hd.hgg hn (by omega) (by omega) (by omega)
          have haG : ∀ t, t < n → a t ≠ G (k + 2) :=
            fun t ht => (hd.hga (by omega) ht (by omega)).symm
          constructor
          · intro i hi
            rw [applyGates_append, applyGates_single]
            by_cases hik : i = k + 2
            · subst hik
              have h2 : applyGates (carryP3 a G (k + 1)) s (G (k + 2)) = s (G (k + 2)) := by
                apply ihf
                intro t h2t h3t he
                exact (hGne t (by omega)) he.symm
              have h1 : applyGates (carryP3 a G (k + 1)) s (G (k + 1))
                  = carryChainG a G s (k + 1) := ihv (k + 1) (le_refl _)
              have h0 : applyGates (carryP3 a G (k + 1)) s (a (k + 2)) = s (a (k + 2)) := by
                apply ihf
                intro t h2t h3t he
                exact (hd.hga (i := t) (by omega) (by omega) (by omega)) he.symm
              simp only [applyGate, eq_self_iff_true, if_true]
              rw [h2, h1, h0]
              rfl
            · have hne : G i ≠ G (k + 2) := hGne i (by omega)
              simp only [applyGate]
              rw [if_neg hne]
              exact ihv i (by omega)
          · intro j hj
            rw [applyGates_append, applyGates_single]
            simp only [applyGate]
            rw [if_neg (hj (k + 2) (by omega) (by omega))]
            exact ihf j fun i h2 h3 => hj i h2 (by omega)

theorem carryP2_uses {a G : Nat → Nat} {cb : Nat → Bool} {k : Nat} :
    ∀ g' ∈ carryP2 a G cb k, ∀ u ∈ g'.uses, ∃ i, i ≤ k ∧ (u = a i ∨ u = G i) := by
  induction k with
  | zero => intro g' hg'; cases hg'
  | succ k ih =>
      intro g' hg' u hu
      rw [carryP2] at hg'
      rcases List.mem_append.mp hg' with h | h
      · by_cases hsp : k + 1 = 1 ∧ cb 0 = false
        · rw [if_pos hsp] at h
          by_cases hcb : cb 1
          · rw [if_pos hcb] at h
            have hk0 : k = 0 := by omega
            subst hk0
            rcases List.mem_cons.mp h with rfl | h'
            · rcases List.mem_cons.mp hu with rfl | h''
              · exact ⟨1, by omega, Or.inl rfl⟩
              · rcases List.mem_singleton.mp h'' with rfl
                exact ⟨1, by omega, Or.inr rfl⟩
            · rcases List.mem_singleton.mp h' with rfl
              rcases List.mem_singleton.mp hu with rfl
              exact ⟨1, by omega, Or.inl rfl⟩
          · rw [if_neg hcb] at h
            cases h
        · rw [if_neg hsp] at h
          by_cases hcb : cb (k + 1)
          · rw [if_pos hcb] at h
            rcases List.mem_cons.mp h with rfl | h'
            · rcases List.mem_cons.mp hu with rfl | h''
              · exact ⟨k + 1, by omega, Or.inl rfl⟩
              · rcases List.mem_singleton.mp h'' with rfl
                exact ⟨k + 1, by omega, Or.inr rfl⟩
            rcases List.mem_cons.mp h' with rfl | h''
            · rcases List.mem_singleton.mp hu with rfl
              exact ⟨k + 1, by omega, Or.inl rfl⟩
            rcases List.mem_singleton.mp h'' with rfl
            rcases List.mem_cons.mp hu with rfl | h3
            · exact ⟨k, by omega, Or.inr rfl⟩
            rcases List.mem_cons.mp h3 with rfl | h4
            · exact ⟨k + 1, by omega, Or.inl rfl⟩
            rcases List.mem_singleton.mp h4 with rfl
            exact ⟨k + 1, by omega, Or.inr rfl⟩
          · rw [if_neg hcb] at h
            rcases List.mem_singleton.mp h with rfl
            rcases List.mem_cons.mp hu with rfl | h3
            · exact ⟨k, by omega, Or.inr rfl⟩
            rcases List.mem_cons.mp h3 with rfl | h4
            · exact ⟨k + 1, by omega, Or.inl rfl⟩
            rcases List.mem_singleton.mp h4 with rfl
            exact ⟨k + 1, by omega, Or.inr rfl⟩
      · obtain ⟨i, hi, hor⟩ := ih g' h u hu
        exact ⟨i, by omega, hor⟩

theorem carryP3_uses {a G : Nat → Nat} {k : Nat} :
    ∀ g' ∈ carryP3 a G k, ∀ u ∈ g'.uses, ∃ i, i ≤ k ∧ (u = a i ∨ u = G i) := by
  induction k with
  | zero => intro g' hg'; cases hg'
  | succ k ih =>
      cases k with
      | zero => intro g' hg'; cases hg'
      | succ k =>
          intro g' hg' u hu
          rw [show carryP3 a G (k + 1 + 1)
              = carryP3 a G (k + 1) ++ [.ccx (G (k + 1)) (a (k + 2)) (G (k + 2))] from rfl]
            at hg'
          rcases List.mem_append.mp hg' with h | h
          · obtain ⟨i, hi, hor⟩ := ih g' h u hu
            exact ⟨i, by omega, hor⟩
          · rcases List.mem_singleton.mp h with rfl
            rcases List.mem_cons.mp hu with rfl | h3
            · exact ⟨k + 1, by omega, Or.inr rfl⟩
            rcases List.mem_cons.mp h3 with rfl | h4
            · exact ⟨k + 2, by omega, Or.inl rfl⟩
            rcases List.mem_singleton.mp h4 with rfl
            exact ⟨k + 2, by omega, Or.inr rfl⟩

theorem carryP2_wf {n : Nat} {ctrls : List Nat} {a gact : Nat → Nat}
    (hd : CarryDisj n ctrls a gact) (hn : 3 ≤ n) {cb : Nat → Bool} {k : Nat}
    (hk : k ≤ n - 2) : ∀ g' ∈ carryP2 a (CarryDisj.g a gact) cb k, g'.wf := by
  induction k with
  | zero => intro g' hg'; cases hg'
  | succ k ih =>
      intro g' hg'
      rw [carryP2] at hg'
      have hak1 : a (k + 1) ≠ CarryDisj.g a gact (k + 1) :=
        (hd.hga (by omega) (by omega) (by omega)).symm
      have hGk1 : CarryDisj.g a gact k ≠ CarryDisj.g a gact (k + 1) :=
        hd.hgg hn (by omega) (by omega) (by omega)
      rcases List.mem_append.mp hg' with h | h
      · by_cases hsp : k + 1 = 1 ∧ cb 0 = false
        · rw [if_pos hsp] at h
          have hk0 : k = 0 := by omega
          subst hk0
          by_cases hcb : cb 1
          · rw [if_pos hcb] at h
            rcases List.mem_cons.mp h with rfl | h'
            · simpa using hak1
            · rcases List.mem_singleton.mp h' with rfl
              trivial
          · rw [if_neg hcb] at h
            cases h
        · rw [if_neg hsp] at h
          by_cases hcb : cb (k + 1)
          · rw [if_pos hcb] at h
            rcases List.mem_cons.mp h with rfl | h'
            · exact hak1
            rcases List.mem_cons.mp h' with rfl | h''
            · trivial
            rcases List.mem_singleton.mp h'' with rfl
            exact ⟨hGk1, hak1⟩
          · rw [if_neg hcb] at h
            rcases List.mem_singleton.mp h with rfl
            exact ⟨hGk1, hak1⟩
      · exact ih (by omega) g' h

theorem carryP3_wf {n : Nat} {ctrls : List Nat} {a gact : Nat → Nat}
    (hd : CarryDisj n ctrls a gact) (hn : 3 ≤ n) {k : Nat}
    (hk : k ≤ n - 2) : ∀ g' ∈ carryP3 a (CarryDisj.g a gact) k, g'.wf := by
  induction k with
  | zero => intro g' hg'; cases hg'
  | succ k ih =>
      cases k with
      | zero => intro g' hg'; cases hg'
      | succ k =>
          intro g' hg'
          rw [show carryP3 a (CarryDisj.g a gact) (k + 1 + 1)
              = carryP3 a (CarryDisj.g a gact) (k + 1)
                ++ [.ccx (CarryDisj.g a gact (k + 1)) (a (k + 2))
                    (CarryDisj.g a gact (k + 2))] from rfl] at hg'
          rcases List.mem_append.mp hg' with h | h
          · exact ih (by omega) g' h
          · rcases List.mem_singleton.mp h with rfl
            exact ⟨hd.hgg hn (by omega) (by omega) (by omega),
              (hd.hga (by omega) (by omega) (by omega)).symm⟩

theorem updState_same (i : Nat) (v : Bool) (s : Nat → Bool) : updState i v s i = v := by
  simp [updState]

theorem xor_congr {x b c : Bool} (h : b = c) : xor x b = xor x c := by rw [h]

theorem applyGate_mct (cs : List Nat) (t : Nat) (s : Nat → Bool) :
    applyGate (.mct cs t) s = updState t (xor (s t) (cs.all s)) s := by
  funext j
  by_cases hj : j = t <;> simp [applyGate, updState, hj]

theorem updState_other {i j : Nat} (h : j ≠ i) (v : Bool) (s : Nat → Bool) :
    updState i v s j = s j := by
  simp [updState, h]

theorem updState_updState (i : Nat) (v w : Bool) (s : Nat → Bool) :
    updState i v (updState i w s) = updState i v s := by
  funext j
  by_cases hj : j = i <;> simp [updState, hj]

/-- After the first forward sweep, running the second forward sweep turns
the dirty cell `g i` into its original value xored with the carry into
bit `i+1` of `areg[0..n-2] + constant`. -/
theorem carry_chain_bridge {n : Nat} {ctrls : List Nat} {a gact : Nat → Nat}
    (hd : CarryDisj n ctrls a gact) (hn : 3 ≤ n) {cb : Nat → Bool} (s : Nat → Bool) :
    ∀ i, 1 ≤ i → i ≤ n - 2 →
      carryChainG a (CarryDisj.g a gact)
          (applyGates (carryP2 a (CarryDisj.g a gact) cb (n - 2)) s) i
        = xor (s (CarryDisj.g a gact i)) (carries (fun t => s (a t)) cb (i + 1)) := by
  set G := CarryDisj.g a gact with hG
  obtain ⟨hA, hGv, _⟩ := carryP2_spec hd hn (le_refl (n - 2)) s
  intro i
  induction i with
  | zero => omega
  | succ j ihj =>
      cases j with
      | zero =>
          intro _ h2
          have hc1 : carryChainG a G (applyGates (carryP2 a G cb (n - 2)) s) 1
              = applyGates (carryP2 a G cb (n - 2)) s (G 1) := rfl
          rw [hc1, hGv 1 (by omega) (by omega), carryF]
          rw [show carries (fun t => s (a t)) cb (0 + 1 + 1)
              = maj (s (a 1)) (cb 1) (maj (s (a 0)) (cb 0) false) from rfl]
          by_cases hcb0 : cb 0 = true
          · rw [if_neg (fun h => by rw [hcb0] at h; exact absurd h.2 (by simp)), hcb0]
            apply xor_congr
            rw [show s (CarryDisj.g a gact (1 - 1)) = s (a 0) from rfl]
            simp only [maj]
            cases s (a 0) <;> cases s (a 1) <;> cases cb 1 <;> rfl
          · have hf : cb 0 = false := by simpa using hcb0
            rw [if_pos ⟨rfl, hf⟩, hf]
            apply xor_congr
            simp only [maj]
            cases s (a 0) <;> cases s (a 1) <;> cases cb 1 <;> rfl
      | succ j =>
          intro _ h2
          rw [show carryChainG a G (applyGates (carryP2 a G cb (n - 2)) s) (j + 2)
              = xor (applyGates (carryP2 a G cb (n - 2)) s (G (j + 2)))
                  ((carryChainG a G (applyGates (carryP2 a G cb (n - 2)) s) (j + 1))
                    && applyGates (carryP2 a G cb (n - 2)) s (a (j + 2))) from rfl]
          rw [hGv (j + 2) (by omega) (by omega), hA (j + 2) (by omega) (by omega),
            ihj (by omega) (by omega)]
          rw [carryF, if_neg (fun h => absurd h.1 (by omega))]
          rw [← hG, show (j + 1 + 1 : Nat) = j + 2 from rfl,
            show s (G (j + 2 - 1)) = s (G (j + 1)) from rfl]
          rw [show carries (fun t => s (a t)) cb (j + 2 + 1)
              = maj (s (a (j + 2))) (cb (j + 2)) (carries (fun t => s (a t)) cb (j + 2))
              from rfl]
          simp only [maj]
          cases s (G (j + 2)) <;> cases s (G (j + 1)) <;> cases s (a (j + 2)) <;>
            cases cb (j + 2) <;> cases carries (fun t => s (a t)) cb (j + 2) <;> rfl

/-- Full semantics of the carry gate: the output wire `areg[n-1]` is
toggled by `ctrls.all s && (carry into bit n-1 of alow + constant, xor
constant bit n-1)`; every other wire (data, dirty cells, controls) is
restored. -/
theorem carry_gate_gen_spec {n : Nat} {ctrls : List Nat} {a gact : Nat → Nat}
    (hd : CarryDisj n ctrls a gact) (hn : 3 ≤ n) (cb : Nat → Bool) (s : Nat → Bool) :
    applyGates (carry_gate_gen ctrls n a gact cb) s
      = updState (a (n - 1))
          (xor (s (a (n - 1)))
            (ctrls.all s && xor (carries (fun t => s (a t)) cb (n - 1)) (cb (n - 1)))) s := by
  set G := CarryDisj.g a gact with hG
  set res := a (n - 1) with hres
  set L2 := carryP2 a G cb (n - 2) with hL2
  set L3 := carryP3 a G (n - 2) with hL3
  have hwf2 : ∀ g' ∈ L2, g'.wf := carryP2_wf hd hn (le_refl _)
  have hwf3 : ∀ g' ∈ L3, g'.wf := carryP3_wf hd hn (le_refl _)
  -- the output wire is not mentioned by either sweep
  have hResNot : ∀ {i : Nat}, i ≤ n - 2 → res ≠ a i ∧ res ≠ G i := by
    intro i hi
    constructor
    · intro he
      have := hd.ha (i := n - 1) (j := i) (by omega) (by omega) he
      omega
    · by_cases hi0 : i = 0
      · subst hi0
        have hg0 : G 0 = a 0 := rfl
        rw [hg0]
        intro he
        have := hd.ha (i := n - 1) (j := 0) (by omega) (by omega) he
        omega
      · exact fun he => hd.hga (i := i) hi (by omega) (by omega) he.symm
  have husesRes2 : ∀ g' ∈ L2, res ∉ g'.uses := by
    intro g' hg' hmem
    obtain ⟨i, hi, hor⟩ := carryP2_uses g' hg' res hmem
    rcases hor with he | he
    · exact (hResNot hi).1 he
    · exact (hResNot hi).2 he
  have husesRes3 : ∀ g' ∈ L3, res ∉ g'.uses := by
    intro g' hg' hmem
    obtain ⟨i, hi, hor⟩ := carryP3_uses g' hg' res hmem
    rcases hor with he | he
    · exact (hResNot hi).1 he
    · exact (hResNot hi).2 he
  -- the control wires are not written by either sweep
  have hCtrlFrame2 : ∀ u ∈ ctrls, ∀ (t : Nat → Bool), applyGates L2 t u = t u := by
    intro u hu t
    apply applyGates_notWrites
    intro g' hg' hw
    obtain ⟨i, hi, hor⟩ := carryP2_uses g' hg' u (Gate.writes_subset_uses g' u hw)
    rcases hor with he | he
    · exact hd.hca u hu (i := i) (by omega) he
    · exact CarryDisj.hgc hd hi hn u hu he
  have hCtrlFrame3 : ∀ u ∈ ctrls, ∀ (t : Nat → Bool), applyGates L3 t u = t u := by
    intro u hu t
    apply applyGates_notWrites
    intro g' hg' hw
    obtain ⟨i, hi, hor⟩ := carryP3_uses g' hg' u (Gate.writes_subset_uses g' u hw)
    rcases hor with he | he
    · exact hd.hca u hu (i := i) (by omega) he
    · exact CarryDisj.hgc hd hi hn u hu he
  have hGres : G (n - 2) ≠ res := CarryDisj.hga hd (le_refl _) (by omega) (by omega)
  -- abbreviations for the states along the run
  set s2 := applyGates L2 s with hs2
  set s23 := applyGates L3 s2 with hs23
  -- value of the top dirty cell after both forward sweeps
  have hTop : s23 (G (n - 2)) = xor (s (G (n - 2))) (carries (fun t => s (a t)) cb (n - 1)) := by
    obtain ⟨h3v, _⟩ := carryP3_spec hd hn (le_refl (n - 2)) s2
    rw [hs23, h3v (n - 2) (le_refl _)]
    have := @carry_chain_bridge n ctrls a gact hd hn cb s (n - 2) (by omega) (le_refl _)
    rw [hs2, this, show n - 2 + 1 = n - 1 from by omega]
  -- controls keep their values after both forward sweeps
  have hCtrl23 : ∀ u ∈ ctrls, s23 u = s u := by
    intro u hu
    rw [hs23, hCtrlFrame3 u hu, hs2, hCtrlFrame2 u hu]
  -- unfold the circuit
  have hunf : carry_gate_gen ctrls n a gact cb
      = [Gate.mct (ctrls ++ [G (n - 2)]) res] ++ L2 ++ L3
        ++ [Gate.mct (ctrls ++ [G (n - 2)]) res]
        ++ (if cb (n - 1) then [Gate.mct ctrls res] else [])
        ++ L3.reverse ++ L2.reverse := rfl
  rw [hunf]
  simp only [applyGates_append]
  -- first mct
  have hmct : ∀ (t : Nat → Bool), applyGates [Gate.mct (ctrls ++ [G (n - 2)]) res] t
      = updState res (xor (t res) (ctrls.all t && t (G (n - 2)))) t := by
    intro t
    rw [applyGates_single, applyGate_mct]
    have hall : (ctrls ++ [G (n - 2)]).all t = (ctrls.all t && t (G (n - 2))) := by
      simp [List.all_append]
    rw [hall]
  rw [hmct s]
  set v1 := xor (s res) (ctrls.all s && s (G (n - 2))) with hv1
  rw [applyGates_updState husesRes2 v1 s, applyGates_updState husesRes3 v1 (applyGates L2 s)]
  rw [← hs2, ← hs23]
  -- second mct
  rw [hmct (updState res v1 s23)]
  rw [updState_same]
  have hCtrlUpd : ∀ (v : Bool), ctrls.all (updState res v s23) = ctrls.all s := by
    intro v
    apply all_congr_mem
    intro u hu
    rw [updState_other (fun he => hd.hca u hu (i := n - 1) (by omega) (he.trans hres.symm))]
    exact hCtrl23 u hu
  rw [hCtrlUpd v1, updState_other hGres, hTop, updState_updState]
  set v3 := xor v1 (ctrls.all s &&
    xor (s (G (n - 2))) (carries (fun t => s (a t)) cb (n - 1))) with hv3
  -- optional control-only mct (present when constant bit n-1 is set)
  have hstep5 : applyGates (if cb (n - 1) then [Gate.mct ctrls res] else [])
        (updState res v3 s23)
      = updState res (xor v3 (cb (n - 1) && ctrls.all s)) s23 := by
    by_cases hcb : cb (n - 1)
    · rw [if_pos hcb, applyGates_single, applyGate_mct, updState_same, hCtrlUpd v3,
        updState_updState, hcb, Bool.true_and]
    · rw [if_neg hcb, applyGates_nil, Bool.eq_false_iff.mpr hcb, Bool.false_and,
        Bool.xor_false]
  rw [hstep5]
  set v5 := xor v3 (cb (n - 1) && ctrls.all s) with hv5
  -- backward sweeps: commute past the point update, then cancel
  have husesRes3r : ∀ g' ∈ L3.reverse, res ∉ g'.uses :=
    fun g' hg' => husesRes3 g' (List.mem_reverse.mp hg')
  have husesRes2r : ∀ g' ∈ L2.reverse, res ∉ g'.uses :=
    fun g' hg' => husesRes2 g' (List.mem_reverse.mp hg')
  rw [applyGates_updState husesRes3r v5 s23, hs23,
    show L3.reverse = invGates L3 from rfl, applyGates_invGates hwf3 s2,
    applyGates_updState husesRes2r v5 s2, hs2,
    show L2.reverse = invGates L2 from rfl, applyGates_invGates hwf2 s]
  -- the accumulated toggle is the specified one
  have hval : v5 = xor (s res)
      (ctrls.all s && xor (carries (fun t => s (a t)) cb (n - 1)) (cb (n - 1))) := by
    rw [hv5, hv3, hv1]
    cases s res <;> cases ctrls.all s <;> cases s (G (n - 2)) <;>
      cases carries (fun t => s (a t)) cb (n - 1) <;> cases cb (n - 1) <;> rfl
  rw [hval]

/-! ## The HRS divide-and-conquer adder (`hrs_adder.py`) -/

theorem applyGate_cx (c t : Nat) (s : Nat → Bool) :
    applyGate (.cx c t) s = updState t (xor (s t) (s c)) s := by
  funext j
  by_cases hj : j = t <;> simp [applyGate, updState, hj]

theorem applyGate_ccx (c1 c2 t : Nat) (s : Nat → Bool) :
    applyGate (.ccx c1 c2 t) s = updState t (xor (s t) (s c1 && s c2)) s := by
  funext j
  by_cases hj : j = t <;> simp [applyGate, updState, hj]

/-- The value of an `n`-bit constant given by its bit function,
least-significant bit first. -/
def bitsVal (cb : Nat → Bool) : Nat → Nat
  | 0 => 0
  | k + 1 => (cb k).toNat * 2 ^ k + bitsVal cb k

theorem bitsVal_lt (cb : Nat → Bool) : ∀ k, bitsVal cb k < 2 ^ k
  | 0 => by simp [bitsVal]
  | k + 1 => by
      have := bitsVal_lt cb k
      have hb : (cb k).toNat ≤ 1 := by cases cb k <;> simp
      rw [bitsVal, pow_succ]
      nlinarith

theorem bitsVal_testBit {cb : Nat → Bool} : ∀ {k i : Nat}, i < k →
    (bitsVal cb k).testBit i = cb i := by
  intro k
  induction k with
  | zero => omega
  | succ k ih =>
      intro i hi
      rw [bitsVal]
      by_cases hik : i < k
      · have hlow : ((cb k).toNat * 2 ^ k + bitsVal cb k) % 2 ^ k = bitsVal cb k := by
          rw [mul_comm, Nat.mul_add_mod, Nat.mod_eq_of_lt (bitsVal_lt cb k)]
        have h2 := Nat.testBit_mod_two_pow ((cb k).toNat * 2 ^ k + bitsVal cb k) k i
        rw [hlow, decide_eq_true hik, Bool.true_and] at h2
        rw [← h2]
        exact ih hik
      · have hik' : i = k := by omega
        subst hik'
        rw [Nat.testBit_to_div_mod]
        have hdiv : ((cb i).toNat * 2 ^ i + bitsVal cb i) / 2 ^ i = (cb i).toNat := by
          rw [mul_comm, Nat.mul_add_div (by positivity),
            Nat.div_eq_of_lt (bitsVal_lt cb i), Nat.add_zero]
        rw [hdiv]
        cases cb i <;> simp

theorem bitsVal_split (cb : Nat → Bool) (a : Nat) : ∀ b,
    bitsVal cb (a + b) = bitsVal cb a + 2 ^ a * bitsVal (fun i => cb (a + i)) b
  | 0 => by simp [bitsVal]
  | b + 1 => by
      rw [show a + (b + 1) = (a + b) + 1 from rfl, bitsVal, bitsVal_split cb a b, bitsVal,
        pow_add]
      ring

/-- `(x / 2^k)`'s bits are `x`'s bits shifted down by `k`. -/
theorem testBit_div_two_pow : ∀ (k : Nat) (x i : Nat),
    (x / 2 ^ k).testBit i = x.testBit (k + i)
  | 0, x, i => by simp
  | k + 1, x, i => by
      have h1 : x / 2 ^ (k + 1) = x / 2 / 2 ^ k := by
        rw [Nat.div_div_eq_div_mul, pow_succ, mul_comm 2 (2 ^ k)]
      rw [h1, testBit_div_two_pow k (x / 2) i,
        show k + 1 + i = (k + i) + 1 from by omega, Nat.testBit_succ]

theorem testBit_add_mul_two_pow_low (A B : Nat) {i k : Nat} (h : i < k) :
    (A + 2 ^ k * B).testBit i = A.testBit i := by
  have h1 : (A + 2 ^ k * B) % 2 ^ k = A % 2 ^ k :=
    Nat.add_mul_mod_self_left A (2 ^ k) B
  have h2 := Nat.testBit_mod_two_pow (A + 2 ^ k * B) k i
  have h3 := Nat.testBit_mod_two_pow A k i
  rw [h1, h3, decide_eq_true h, Bool.true_and] at h2
  exact h2.symm

theorem testBit_add_mul_two_pow_high (R D : Nat) {k : Nat} (hR : R < 2 ^ k) (i : Nat) :
    (R + 2 ^ k * D).testBit (k + i) = D.testBit i := by
  rw [← testBit_div_two_pow k]
  have h1 : (R + 2 ^ k * D) / 2 ^ k = D := by
    rw [Nat.add_mul_div_left _ _ (by positivity), Nat.div_eq_of_lt hR, Nat.zero_add]
  rw [h1]

theorem wires_split (f : Nat → Nat) (a b : Nat) :
    wires f (a + b) = wires f a ++ wires (fun i => f (a + i)) b := by
  rw [wires, wires, wires, List.range_add, List.map_append, List.map_map]
  rfl

theorem readVal_append (l1 l2 : List Nat) (s : Nat → Bool) :
    readVal (l1 ++ l2) s = readVal l1 s + 2 ^ l1.length * readVal l2 s := by
  induction l1 with
  | nil => simp [readVal]
  | cons w rest ih =>
      rw [List.cons_append, readVal, readVal, ih, List.length_cons, pow_succ]
      ring

/-- `for i, bit in enumerate(xreg[nlow:]): adder.cx(o_borrowed, bit)` —
a `cx` from one control onto each wire of a register. -/
def cxAll (c : Nat) (W : Nat → Nat) : Nat → List Gate
  | 0 => []
  | k + 1 => cxAll c W k ++ [.cx c (W k)]

theorem cxAll_spec {k : Nat} {c : Nat} {W : Nat → Nat}
    (hW : ∀ {i j : Nat}, i < k → j < k → W i = W j → i = j)
    (hcW : ∀ {i : Nat}, i < k → c ≠ W i) (s : Nat → Bool) :
    (∀ i, i < k → applyGates (cxAll c W k) s (W i) = xor (s (W i)) (s c))
      ∧ (∀ j, (∀ i, i < k → j ≠ W i) → applyGates (cxAll c W k) s j = s j) := by
  induction k with
  | zero => exact ⟨fun i hi => absurd hi (by omega), fun j _ => rfl⟩
  | succ k ih =>
      obtain ⟨ihv, ihf⟩ := ih (fun hi hj he => hW (by omega) (by omega) he)
        (fun hi => hcW (by omega))
      rw [cxAll]
      have hcs : applyGates (cxAll c W k) s c = s c :=
        ihf c fun i hi => hcW (by omega)
      constructor
      · intro i hi
        rw [applyGates_append, applyGates_single]
        by_cases hik : i = k
        · subst hik
          have hframe : applyGates (cxAll c W i) s (W i) = s (W i) := by
            apply ihf
            intro i' hi' he
            exact absurd (hW (by omega) (by omega) he) (by omega)
          simp only [applyGate, eq_self_iff_true, if_true]
          rw [hframe, hcs]
        · have hne : W i ≠ W k := fun he => absurd (hW (by omega) (by omega) he) (by omega)
          simp only [applyGate]
          rw [if_neg hne]
          exact ihv i (by omega)
      · intro j hj
        rw [applyGates_append, applyGates_single]
        simp only [applyGate]
        rw [if_neg (hj k (by omega))]
        exact ihf j fun i hi => hj i (by omega)

/-- `math.ceil(n / 2)`, the size of the low half in the recursive split. -/
def dncLow (n : Nat) : Nat := (n + 1) / 2

/-- The incrementer call of the recursive step:
`cinc(nhigh)` on `[o_borrowed] + xreg[nlow:] + borrowed_for_incrementer`,
where the borrowed wires are `xreg[:nlow]`, extended by the extra outside
borrowed wire when `nhigh + 1 > nlow` (the even case). -/
def dncInc (bex n : Nat) (X : Nat → Nat) (ob : Nat) : List Gate :=
  cinc (n - dncLow n) ob (fun i => X (dncLow n + i))
    (fun i => if i < dncLow n then X i else bex)

/-- The carry call of the recursive step:
`c_carry_gate(nlow + 1, c_bin_rev[:nlow] + '0')` on
`[control] + xreg[:nlow] + [o_borrowed] + xreg[nlow:nlow + nlow - 1]`. -/
def dncCarry (ctrl n : Nat) (X : Nat → Nat) (ob : Nat) (cb : Nat → Bool) : List Gate :=
  carry_gate_gen [ctrl] (dncLow n + 1)
    (fun i => if i < dncLow n then X i else ob)
    (fun j => X (dncLow n + j))
    (fun i => if i < dncLow n then cb i else false)

/-- `c_divide_and_conquer_adder(adder, n, xreg, o_borrowed, c_bin_rev,
control_reg, borrowed_extra)`: the gates appended for register wires `X`,
output/borrowed wire `ob`, control `ctrl`, extra borrowed wire `bex` and
constant bits `cb` (lsb first). -/
def dncAdder (ctrl bex : Nat) (n : Nat) (X : Nat → Nat) (ob : Nat)
    (cb : Nat → Bool) : List Gate :=
  match n with
  | 0 => []
  | 1 => if cb 0 then [.cx ctrl (X 0)] else []
  | 2 =>
      (if cb 0 then [.ccx ctrl (X 0) (X 1)] else [])
        ++ (if cb 0 then [.cx ctrl (X 0)] else [])
        ++ (if cb 1 then [.cx ctrl (X 1)] else [])
  | m + 3 =>
      dncInc bex (m + 3) X ob
        ++ cxAll ob (fun i => X (dncLow (m + 3) + i)) (m + 3 - dncLow (m + 3))
        ++ dncCarry ctrl (m + 3) X ob cb
        ++ dncInc bex (m + 3) X ob
        ++ dncCarry ctrl (m + 3) X ob cb
        ++ cxAll ob (fun i => X (dncLow (m + 3) + i)) (m + 3 - dncLow (m + 3))
        ++ dncAdder ctrl bex (dncLow (m + 3)) X ob cb
        ++ dncAdder ctrl bex (m + 3 - dncLow (m + 3)) (fun i => X (dncLow (m + 3) + i)) ob
            (fun i => cb (dncLow (m + 3) + i))
  termination_by n
  decreasing_by
    all_goals (unfold dncLow; omega)

theorem updState_self (i : Nat) (s : Nat → Bool) : updState i (s i) s = s := by
  funext j
  by_cases hj : j = i <;> simp [updState, hj]

theorem updState_comm {i j : Nat} (h : i ≠ j) (v w : Bool) (s : Nat → Bool) :
    updState i v (updState j w s) = updState j w (updState i v s) := by
  funext k
  by_cases hki : k = i <;> by_cases hkj : k = j
  · exact absurd (hki.symm.trans hkj) h
  · simp [updState, hki, hkj, h]
  · simp [updState, hki, hkj, Ne.symm h]
  · simp [updState, hki, hkj]

/-- The toggle trick of the recursive adder step: increment by `b`,
complement on `b`, increment by `b ⊕ K`, complement on `b` — the net
effect on the high half is `+K`, independently of the borrowed bit `b`. -/
theorem dnc_toggle_arith {P vh : Nat} (hP : 0 < P) (hvh : vh < P) (b K : Bool) :
    (if b then
        P - 1 - ((if b then P - 1 - ((vh + b.toNat) % P) else (vh + b.toNat) % P)
          + (xor b K).toNat) % P
      else
        ((if b then P - 1 - ((vh + b.toNat) % P) else (vh + b.toNat) % P)
          + (xor b K).toNat) % P)
      = (vh + K.toNat) % P := by
  cases b
  · rw [if_neg Bool.false_ne_true, if_neg Bool.false_ne_true]
    rw [show (false).toNat = 0 from rfl, Nat.add_zero, Nat.mod_eq_of_lt hvh,
      show xor false K = K from by cases K <;> rfl]
  · rw [if_pos rfl, if_pos rfl, show (true).toNat = 1 from rfl]
    cases K
    · rw [show (xor true false).toNat = 1 from rfl,
        show vh + (false).toNat = vh from rfl, Nat.mod_eq_of_lt hvh]
      rcases Nat.lt_or_ge (vh + 1) P with h | h
      · rw [Nat.mod_eq_of_lt h]
        have e2 : P - 1 - (vh + 1) + 1 = P - 1 - vh := by omega
        rw [e2, Nat.mod_eq_of_lt (by omega)]
        omega
      · have he : vh + 1 = P := by omega
        rw [he, Nat.mod_self]
        rw [show P - 1 - 0 + 1 = P from by omega, Nat.mod_self]
        omega
    · rw [show (xor true true).toNat = 0 from rfl,
        show vh + (true).toNat = vh + 1 from rfl]
      have h1lt : (vh + 1) % P < P := Nat.mod_lt _ hP
      rw [show P - 1 - (vh + 1) % P + 0 = P - 1 - (vh + 1) % P from rfl,
        Nat.mod_eq_of_lt (show P - 1 - ((vh + 1) % P) < P from by omega)]
      omega

/-- The two-qubit base case of the recursive adder, as one pair of
conditional point updates. -/
theorem dncAdder_base2_shape {ctrl : Nat} {X : Nat → Nat} (h01 : X 0 ≠ X 1)
    (hc0 : ctrl ≠ X 0) (hc1 : ctrl ≠ X 1) (cb : Nat → Bool) (s : Nat → Bool) :
    applyGates ((if cb 0 then [Gate.ccx ctrl (X 0) (X 1)] else [])
        ++ (if cb 0 then [Gate.cx ctrl (X 0)] else [])
        ++ (if cb 1 then [Gate.cx ctrl (X 1)] else [])) s
      = updState (X 1)
          (xor (s (X 1)) (xor (s ctrl && (cb 0 && s (X 0))) (s ctrl && cb 1)))
          (updState (X 0) (xor (s (X 0)) (s ctrl && cb 0)) s) := by
  by_cases hcb0 : cb 0 <;> by_cases hcb1 : cb 1
  · rw [if_pos hcb0, if_pos hcb0, if_pos hcb1]
    simp only [applyGates_append, applyGates_single]
    rw [applyGate_ccx, applyGate_cx ctrl (X 0), applyGate_cx ctrl (X 1)]
    simp only [updState_other h01, updState_other h01.symm, updState_other hc0,
      updState_other hc1, updState_same]
    rw [updState_comm h01, updState_updState]
    have hA : xor (xor (s (X 1)) (s ctrl && s (X 0))) (s ctrl)
        = xor (s (X 1)) (xor (s ctrl && (cb 0 && s (X 0))) (s ctrl && cb 1)) := by
      rw [hcb0, hcb1, Bool.true_and, Bool.and_true]
      cases s (X 1) <;> cases s ctrl <;> cases s (X 0) <;> rfl
    have hB : xor (s (X 0)) (s ctrl) = xor (s (X 0)) (s ctrl && cb 0) := by
      rw [hcb0, Bool.and_true]
    rw [hA, hB]
  · rw [if_pos hcb0, if_pos hcb0, if_neg hcb1]
    simp only [applyGates_append, applyGates_single, applyGates_nil]
    rw [applyGate_ccx, applyGate_cx ctrl (X 0)]
    simp only [updState_other h01, updState_other h01.symm, updState_other hc0,
      updState_other hc1, updState_same]
    rw [updState_comm h01]
    have hA : xor (s (X 1)) (s ctrl && s (X 0))
        = xor (s (X 1)) (xor (s ctrl && (cb 0 && s (X 0))) (s ctrl && cb 1)) := by
      rw [hcb0, Bool.true_and, Bool.eq_false_iff.mpr hcb1, Bool.and_false, Bool.xor_false]
    have hB : xor (s (X 0)) (s ctrl) = xor (s (X 0)) (s ctrl && cb 0) := by
      rw [hcb0, Bool.and_true]
    rw [hA, hB]
  · rw [if_neg hcb0, if_neg hcb0, if_pos hcb1]
    simp only [applyGates_append, applyGates_single, applyGates_nil]
    rw [applyGate_cx ctrl (X 1)]
    rw [show xor (s (X 0)) (s ctrl && cb 0) = s (X 0) from by
        rw [Bool.eq_false_iff.mpr hcb0, Bool.and_false, Bool.xor_false],
      updState_self]
    rw [show xor (s ctrl && (cb 0 && s (X 0))) (s ctrl && cb 1)
        = s ctrl from by
        rw [Bool.eq_false_iff.mpr hcb0, hcb1, Bool.false_and, Bool.and_false,
          Bool.and_true]
        cases s ctrl <;> rfl]
  · rw [if_neg hcb0, if_neg hcb0, if_neg hcb1]
    simp only [applyGates_append, applyGates_nil]
    rw [show xor (s (X 0)) (s ctrl && cb 0) = s (X 0) from by
        rw [Bool.eq_false_iff.mpr hcb0, Bool.and_false, Bool.xor_false],
      updState_self]
    rw [show xor (s (X 1)) (xor (s ctrl && (cb 0 && s (X 0))) (s ctrl && cb 1))
        = s (X 1) from by
        rw [Bool.eq_false_iff.mpr hcb0, Bool.eq_false_iff.mpr hcb1, Bool.false_and,
          Bool.and_false, Bool.xor_false, Bool.xor_false],
      updState_self]

/-- Distinctness of register, output/borrowed wire, control and extra
borrowed wire of the divide-and-conquer adder. -/
structure DncDisj (n : Nat) (X : Nat → Nat) (ob ctrl bex : Nat) : Prop where
  hX : ∀ {i j : Nat}, i < n → j < n → X i = X j → i = j
  hob : ∀ {i : Nat}, i < n → ob ≠ X i
  hctrl : ∀ {i : Nat}, i < n → ctrl ≠ X i
  hbex : ∀ {i : Nat}, i < n → bex ≠ X i
  hco : ctrl ≠ ob
  hcb : ctrl ≠ bex
  hob2 : ob ≠ bex

theorem dncAdder_base1 {ctrl bex : Nat} {X : Nat → Nat} {ob : Nat} {cb : Nat → Bool}
    (hd : DncDisj 1 X ob ctrl bex) (s : Nat → Bool) :
    applyGates (dncAdder ctrl bex 1 X ob cb) s
      = writeBits (wires X 1)
          ((readVal (wires X 1) s + (s ctrl).toNat * bitsVal cb 1) % 2 ^ 1) s := by
  have hw : wires X 1 = [X 0] := by
    rw [wires, show List.range 1 = [0] from by decide]
    rfl
  simp only [dncAdder]
  by_cases hcb : cb 0
  · rw [if_pos hcb, applyGates_single, applyGate_cx]
    have hbv : bitsVal cb 1 = 1 := by simp [bitsVal, hcb]
    rw [hbv, hw]
    funext j
    by_cases hj : j = X 0
    · subst hj
      rw [updState_same, writeBits_cons, if_pos rfl,
        show readVal [X 0] s = (if s (X 0) then 1 else 0) + 2 * 0 from rfl]
      cases hx : s (X 0) <;> cases hc : s ctrl <;> rfl
    · rw [updState_other hj, writeBits_cons, if_neg hj]
      rfl
  · rw [if_neg hcb, applyGates_nil]
    have hbv : bitsVal cb 1 = 0 := by simp [bitsVal, Bool.eq_false_iff.mpr hcb]
    have hlt : readVal (wires X 1) s < 2 ^ 1 := by
      have := readVal_lt (wires X 1) s
      rwa [wires_length] at this
    rw [hbv, Nat.mul_zero, Nat.add_zero, Nat.mod_eq_of_lt hlt,
      writeBits_readVal_self (wires_nodup hd.hX)]

theorem dncAdder_base2 {ctrl bex : Nat} {X : Nat → Nat} {ob : Nat} {cb : Nat → Bool}
    (hd : DncDisj 2 X ob ctrl bex) (s : Nat → Bool) :
    applyGates (dncAdder ctrl bex 2 X ob cb) s
      = writeBits (wires X 2)
          ((readVal (wires X 2) s + (s ctrl).toNat * bitsVal cb 2) % 2 ^ 2) s := by
  have hw : wires X 2 = [X 0, X 1] := by
    rw [wires, show List.range 2 = [0, 1] from by decide]
    rfl
  have h01 : X 0 ≠ X 1 := fun he => absurd (hd.hX (by omega) (by omega) he) (by omega)
  have hc0 : ctrl ≠ X 0 := hd.hctrl (by omega)
  have hc1 : ctrl ≠ X 1 := hd.hctrl (by omega)
  simp only [dncAdder]
  rw [dncAdder_base2_shape h01 hc0 hc1 cb s, hw,
    show readVal [X 0, X 1] s
      = (if s (X 0) then 1 else 0) + 2 * ((if s (X 1) then 1 else 0) + 2 * 0)
      from rfl,
    show bitsVal cb 2 = (cb 1).toNat * 2 + ((cb 0).toNat * 1 + 0) from rfl]
  funext j
  by_cases hj0 : j = X 0
  · subst hj0
    rw [updState_other h01, updState_same, writeBits_cons, if_pos rfl]
    cases hx0 : s (X 0) <;> cases hx1 : s (X 1) <;> cases hc : s ctrl <;>
      cases hb0 : cb 0 <;> cases hb1 : cb 1 <;> rfl
  · by_cases hj1 : j = X 1
    · subst hj1
      rw [updState_same, writeBits_cons, if_neg h01.symm, writeBits_cons, if_pos rfl]
      cases hx0 : s (X 0) <;> cases hx1 : s (X 1) <;> cases hc : s ctrl <;>
        cases hb0 : cb 0 <;> cases hb1 : cb 1 <;> rfl
    · rw [updState_other hj1, updState_other hj0, writeBits_cons, if_neg hj0,
        writeBits_cons, if_neg hj1]
      rfl

theorem writeBits_wires_get {f : Nat → Nat} {mw : Nat}
    (hf : ∀ {i j : Nat}, i < mw → j < mw → f i = f j → i = j)
    {i : Nat} (hi : i < mw) (x : Nat) (s : Nat → Bool) :
    writeBits (wires f mw) x s (f i) = x.testBit i := by
  have hiw : i < (wires f mw).length := by rw [wires_length]; omega
  have h2 : (wires f mw).get ⟨i, hiw⟩ = f i := wires_get f hiw
  rw [← h2]
  exact writeBits_get (wires_nodup hf) hiw x s

theorem readVal_wires_testBit {f : Nat → Nat} {mw i : Nat} (hi : i < mw)
    (s : Nat → Bool) : (readVal (wires f mw) s).testBit i = s (f i) := by
  have hiw : i < (wires f mw).length := by rw [wires_length]; omega
  rw [readVal_testBit hiw, wires_get]

theorem dncAdder_step {ctrl bex : Nat} (m : Nat) (X : Nat → Nat) (ob : Nat)
    (cb : Nat → Bool) (hd : DncDisj (m + 3) X ob ctrl bex) (s : Nat → Bool)
    (ihl : ∀ s' : Nat → Bool,
      applyGates (dncAdder ctrl bex (dncLow (m + 3)) X ob cb) s'
        = writeBits (wires X (dncLow (m + 3)))
            ((readVal (wires X (dncLow (m + 3))) s'
              + (s' ctrl).toNat * bitsVal cb (dncLow (m + 3))) % 2 ^ dncLow (m + 3)) s')
    (ihh : ∀ s' : Nat → Bool,
      applyGates (dncAdder ctrl bex (m + 3 - dncLow (m + 3))
          (fun i => X (dncLow (m + 3) + i)) ob (fun i => cb (dncLow (m + 3) + i))) s'
        = writeBits (wires (fun i => X (dncLow (m + 3) + i)) (m + 3 - dncLow (m + 3)))
            ((readVal (wires (fun i => X (dncLow (m + 3) + i))
                (m + 3 - dncLow (m + 3))) s'
              + (s' ctrl).toNat * bitsVal (fun i => cb (dncLow (m + 3) + i))
                (m + 3 - dncLow (m + 3))) % 2 ^ (m + 3 - dncLow (m + 3))) s') :
    applyGates (dncAdder ctrl bex (m + 3) X ob cb) s
      = writeBits (wires X (m + 3))
          ((readVal (wires X (m + 3)) s + (s ctrl).toNat * bitsVal cb (m + 3))
            % 2 ^ (m + 3)) s := by
  simp only [dncAdder, dncInc, dncCarry, applyGates_append]
  set nl := dncLow (m + 3) with hnldef
  have hnlv : nl = (m + 3 + 1) / 2 := hnldef
  set nh := m + 3 - nl with hnhdef
  have hnl2 : 2 ≤ nl := by omega
  have hnh1 : 1 ≤ nh := by omega
  have hsum : nl + nh = m + 3 := by omega
  have hnhnl : nh ≤ nl := by omega
  have hnlle : nl ≤ nh + 1 := by omega
  set Xh : Nat → Nat := fun i => X (nl + i) with hXh
  set Bw : Nat → Nat := fun i => if i < nl then X i else bex with hBw
  set aC : Nat → Nat := fun i => if i < nl then X i else ob with haC
  set cbC : Nat → Bool := fun i => if i < nl then cb i else false with hcbC
  set cbh : Nat → Bool := fun i => cb (nl + i) with hcbh
  -- basic distinctness transported to the sub-registers
  have hXhInj : ∀ {i j : Nat}, i < nh → j < nh → Xh i = Xh j → i = j := by
    intro i j hi hj he
    have := hd.hX (i := nl + i) (j := nl + j) (by omega) (by omega) he
    omega
  have hobXh : ∀ {i : Nat}, i < nh → ob ≠ Xh i := fun hi => hd.hob (by omega)
  have hctrlXh : ∀ {i : Nat}, i < nh → ctrl ≠ Xh i := fun hi => hd.hctrl (by omega)
  have hbexXh : ∀ {i : Nat}, i < nh → bex ≠ Xh i := fun hi => hd.hbex (by omega)
  have hdInc : CincDisj nh ob Xh Bw := by
    refine ⟨hXhInj, ?_, ?_, fun hi => hobXh hi, ?_⟩
    · intro i j hi hj he
      by_cases hi' : i < nl <;> by_cases hj' : j < nl
      · rw [show Bw i = X i from if_pos hi', show Bw j = X j from if_pos hj'] at he
        exact hd.hX (by omega) (by omega) he
      · rw [show Bw i = X i from if_pos hi', show Bw j = bex from if_neg hj'] at he
        exact absurd he.symm (hd.hbex (by omega))
      · rw [show Bw i = bex from if_neg hi', show Bw j = X j from if_pos hj'] at he
        exact absurd he (hd.hbex (by omega))
      · omega
    · intro i j hi hj
      by_cases hj' : j < nl
      · rw [show Bw j = X j from if_pos hj']
        intro he
        have := hd.hX (i := nl + i) (j := j) (by omega) (by omega) he
        omega
      · rw [show Bw j = bex from if_neg hj']
        exact fun he => hbexXh hi he.symm
    · intro j hj
      by_cases hj' : j < nl
      · rw [show Bw j = X j from if_pos hj']
        exact hd.hob (by omega)
      · rw [show Bw j = bex from if_neg hj']
        exact hd.hob2
  have hdC : CarryDisj (nl + 1) [ctrl] aC Xh := by
    refine ⟨?_, ?_, ?_, ?_, ?_⟩
    · intro i j hi hj he
      by_cases hi' : i < nl <;> by_cases hj' : j < nl
      · rw [show aC i = X i from if_pos hi', show aC j = X j from if_pos hj'] at he
        exact hd.hX (by omega) (by omega) he
      · rw [show aC i = X i from if_pos hi', show aC j = ob from if_neg hj'] at he
        exact absurd he.symm (hd.hob (by omega))
      · rw [show aC i = ob from if_neg hi', show aC j = X j from if_pos hj'] at he
        exact absurd he (hd.hob (by omega))
      · omega
    · intro i j hi hj he
      have := hd.hX (i := nl + i) (j := nl + j) (by omega) (by omega) he
      omega
    · intro i j hi hj
      by_cases hi' : i < nl
      · rw [show aC i = X i from if_pos hi']
        intro he
        have := hd.hX (i := i) (j := nl + j) (by omega) (by omega) he
        omega
      · rw [show aC i = ob from if_neg hi']
        exact hd.hob (by omega)
    · intro u hu i hi
      rcases List.mem_singleton.mp hu with rfl
      by_cases hi' : i < nl
      · rw [show aC i = X i from if_pos hi']
        exact hd.hctrl (by omega)
      · rw [show aC i = ob from if_neg hi']
        exact hd.hco
    · intro u hu j hj
      rcases List.mem_singleton.mp hu with rfl
      exact hd.hctrl (by omega)
  -- register wire lists and initial values
  set Wl := wires X nl with hWl
  set Wh := wires Xh nh with hWh
  have hndl : Wl.Nodup := by
    rw [hWl]
    exact wires_nodup fun hi hj he => hd.hX (by omega) (by omega) he
  have hndh : Wh.Nodup := by
    rw [hWh]
    exact wires_nodup fun hi hj he => hXhInj hi hj he
  have hndX : (wires X (m + 3)).Nodup := wires_nodup hd.hX
  have hlenWl : Wl.length = nl := by rw [hWl, wires_length]
  have hlenWh : Wh.length = nh := by rw [hWh, wires_length]
  have hobWh : ob ∉ Wh := by
    intro hmem
    obtain ⟨i, hi, he⟩ := wires_mem.mp (hWh ▸ hmem)
    exact hobXh hi he
  have hctrlWh : ctrl ∉ Wh := by
    intro hmem
    obtain ⟨i, hi, he⟩ := wires_mem.mp (hWh ▸ hmem)
    exact hctrlXh hi he
  have hobWl : ob ∉ Wl := by
    intro hmem
    obtain ⟨i, hi, he⟩ := wires_mem.mp (hWl ▸ hmem)
    exact hd.hob (by omega) he
  have hctrlWl : ctrl ∉ Wl := by
    intro hmem
    obtain ⟨i, hi, he⟩ := wires_mem.mp (hWl ▸ hmem)
    exact hd.hctrl (by omega) he
  have hXlWh : ∀ {j : Nat}, j < nl → X j ∉ Wh := by
    intro j hj hmem
    obtain ⟨i, hi, he⟩ := wires_mem.mp (hWh ▸ hmem)
    have := hd.hX (i := j) (j := nl + i) (by omega) (by omega) he
    omega
  have hXhWl : ∀ {i : Nat}, i < nh → Xh i ∉ Wl := by
    intro i hi hmem
    obtain ⟨j, hj, he⟩ := wires_mem.mp (hWl ▸ hmem)
    have := hd.hX (i := nl + i) (j := j) (by omega) (by omega) he
    omega
  set tb := s ctrl with htb
  set vl := readVal Wl s with hvl
  set vh := readVal Wh s with hvh
  have hvllt : vl < 2 ^ nl := by
    have := readVal_lt Wl s
    rwa [hlenWl] at this
  have hvhlt : vh < 2 ^ nh := by
    have := readVal_lt Wh s
    rwa [hlenWh] at this
  set Kv := carries (fun j => s (X j)) cb nl with hKv
  set KB := tb && Kv with hKB
  -- the carry-gate call, applied to any state agreeing with s on the
  -- low register and the control
  have hCG : ∀ u : Nat → Bool, (∀ j, j < nl → u (X j) = s (X j)) → u ctrl = s ctrl →
      applyGates (carry_gate_gen [ctrl] (nl + 1) aC Xh cbC) u
        = updState ob (xor (u ob) KB) u := by
    intro u hu huc
    rw [carry_gate_gen_spec hdC (by omega) cbC u]
    have ha1 : aC (nl + 1 - 1) = ob := if_neg (by omega)
    have hcb1 : cbC (nl + 1 - 1) = false := if_neg (by omega)
    rw [ha1, hcb1, Bool.xor_false]
    have hall : [ctrl].all u = u ctrl := by simp
    rw [hall, huc, ← htb]
    have hKeq : carries (fun t => u (aC t)) cbC (nl + 1 - 1) = Kv := by
      rw [show nl + 1 - 1 = nl from rfl, hKv]
      apply carries_congr
      · intro j hj
        rw [show aC j = X j from if_pos hj, hu j hj]
      · intro j hj
        exact if_pos hj
    rw [hKeq, ← hKB]
  -- chain of intermediate states
  set s1 := applyGates (cinc nh ob Xh Bw) s with hs1
  have e1 : s1 = writeBits Wh ((vh + (s ob).toNat) % 2 ^ nh) s := by
    rw [hs1, cinc_spec hdInc s, ← hWh, ← hvh]
  set h1 := (vh + (s ob).toNat) % 2 ^ nh with hh1
  have h1lt : h1 < 2 ^ nh := Nat.mod_lt _ (by positivity)
  have hs1ob : s1 ob = s ob := by rw [e1]; exact writeBits_notMem hobWh _ _
  have hs1ctrl : s1 ctrl = s ctrl := by rw [e1]; exact writeBits_notMem hctrlWh _ _
  have hs1Xl : ∀ j, j < nl → s1 (X j) = s (X j) := by
    intro j hj
    rw [e1]
    exact writeBits_notMem (hXlWh hj) _ _
  have hrv1 : readVal Wh s1 = h1 := by
    rw [e1, readVal_writeBits hndh, hlenWh, Nat.mod_eq_of_lt h1lt]
  set s2 := applyGates (cxAll ob Xh nh) s1 with hs2
  obtain ⟨c2v, c2f⟩ := cxAll_spec hXhInj (fun hi => hobXh hi) s1
  have hs2ob : s2 ob = s ob := by
    rw [hs2, c2f ob fun i hi => hobXh hi, hs1ob]
  have hs2ctrl : s2 ctrl = s ctrl := by
    rw [hs2, c2f ctrl fun i hi => hctrlXh hi, hs1ctrl]
  have hs2Xl : ∀ j, j < nl → s2 (X j) = s (X j) := by
    intro j hj
    rw [hs2, c2f (X j) ?_, hs1Xl j hj]
    intro i hi he
    exact hXlWh hj (he ▸ (hWh ▸ wires_mem.mpr ⟨i, hi, rfl⟩))
  have hrv2 : readVal Wh s2 = if s ob then 2 ^ nh - 1 - h1 else h1 := by
    by_cases hb : s ob
    · have hcomp : ∀ w ∈ Wh, s2 w = !(s1 w) := by
        intro w hw
        obtain ⟨i, hi, rfl⟩ := wires_mem.mp (hWh ▸ hw)
        rw [hs2, c2v i hi, hs1ob, hb]
        simp
      have hsum2 := readVal_compl hcomp
      rw [hrv1, hlenWh] at hsum2
      rw [if_pos hb]
      omega
    · rw [if_neg hb, ← hrv1]
      apply readVal_congr
      intro w hw
      obtain ⟨i, hi, rfl⟩ := wires_mem.mp (hWh ▸ hw)
      rw [hs2, c2v i hi, hs1ob, Bool.eq_false_iff.mpr hb, Bool.xor_false]
  set h2 := if s ob then 2 ^ nh - 1 - h1 else h1 with hh2
  set s3 := applyGates (carry_gate_gen [ctrl] (nl + 1) aC Xh cbC) s2 with hs3
  have e3 : s3 = updState ob (xor (s ob) KB) s2 := by
    rw [hs3, hCG s2 hs2Xl hs2ctrl, hs2ob]
  have hs3ob : s3 ob = xor (s ob) KB := by rw [e3, updState_same]
  have hs3ctrl : s3 ctrl = s ctrl := by
    rw [e3, updState_other hd.hco, hs2ctrl]
  have hs3Xl : ∀ j, j < nl → s3 (X j) = s (X j) := by
    intro j hj
    rw [e3, updState_other (hd.hob (i := j) (by omega)).symm, hs2Xl j hj]
  have hrv3 : readVal Wh s3 = h2 := by
    rw [e3, ← hrv2]
    apply readVal_congr
    intro w hw
    obtain ⟨i, hi, rfl⟩ := wires_mem.mp (hWh ▸ hw)
    rw [updState_other (hobXh hi).symm]
  set s4 := applyGates (cinc nh ob Xh Bw) s3 with hs4
  have e4 : s4 = writeBits Wh ((h2 + (xor (s ob) KB).toNat) % 2 ^ nh) s3 := by
    rw [hs4, cinc_spec hdInc s3, ← hWh, hrv3, hs3ob]
  set h3 := (h2 + (xor (s ob) KB).toNat) % 2 ^ nh with hh3
  have h3lt : h3 < 2 ^ nh := Nat.mod_lt _ (by positivity)
  have hs4ob : s4 ob = xor (s ob) KB := by
    rw [e4, writeBits_notMem hobWh, hs3ob]
  have hs4ctrl : s4 ctrl = s ctrl := by
    rw [e4, writeBits_notMem hctrlWh, hs3ctrl]
  have hs4Xl : ∀ j, j < nl → s4 (X j) = s (X j) := by
    intro j hj
    rw [e4, writeBits_notMem (hXlWh hj), hs3Xl j hj]
  have hrv4 : readVal Wh s4 = h3 := by
    rw [e4, readVal_writeBits hndh, hlenWh, Nat.mod_eq_of_lt h3lt]
  set s5 := applyGates (carry_gate_gen [ctrl] (nl + 1) aC Xh cbC) s4 with hs5
  have e5 : s5 = updState ob (s ob) s4 := by
    rw [hs5, hCG s4 hs4Xl hs4ctrl, hs4ob]
    have hval : xor (xor (s ob) KB) KB = s ob := by
      cases hso : s ob <;> cases hkb : KB <;> rfl
    rw [hval]
  have hs5ob : s5 ob = s ob := by rw [e5, updState_same]
  have hs5ctrl : s5 ctrl = s ctrl := by
    rw [e5, updState_other hd.hco, hs4ctrl]
  have hs5Xl : ∀ j, j < nl → s5 (X j) = s (X j) := by
    intro j hj
    rw [e5, updState_other (hd.hob (i := j) (by omega)).symm, hs4Xl j hj]
  have hrv5 : readVal Wh s5 = h3 := by
    rw [e5, ← hrv4]
    apply readVal_congr
    intro w hw
    obtain ⟨i, hi, rfl⟩ := wires_mem.mp (hWh ▸ hw)
    rw [updState_other (hobXh hi).symm]
  set s6 := applyGates (cxAll ob Xh nh) s5 with hs6
  obtain ⟨c6v, c6f⟩ := cxAll_spec hXhInj (fun hi => hobXh hi) s5
  have hs6ob : s6 ob = s ob := by
    rw [hs6, c6f ob fun i hi => hobXh hi, hs5ob]
  have hs6ctrl : s6 ctrl = s ctrl := by
    rw [hs6, c6f ctrl fun i hi => hctrlXh hi, hs5ctrl]
  have hs6Xl : ∀ j, j < nl → s6 (X j) = s (X j) := by
    intro j hj
    rw [hs6, c6f (X j) ?_, hs5Xl j hj]
    intro i hi he
    exact hXlWh hj (he ▸ (hWh ▸ wires_mem.mpr ⟨i, hi, rfl⟩))
  have hrv6 : readVal Wh s6 = if s ob then 2 ^ nh - 1 - h3 else h3 := by
    by_cases hb : s ob
    · have hcomp : ∀ w ∈ Wh, s6 w = !(s5 w) := by
        intro w hw
        obtain ⟨i, hi, rfl⟩ := wires_mem.mp (hWh ▸ hw)
        rw [hs6, c6v i hi, hs5ob, hb]
        simp
      have hsum6 := readVal_compl hcomp
      rw [hrv5, hlenWh] at hsum6
      rw [if_pos hb]
      omega
    · rw [if_neg hb, ← hrv5]
      apply readVal_congr
      intro w hw
      obtain ⟨i, hi, rfl⟩ := wires_mem.mp (hWh ▸ hw)
      rw [hs6, c6v i hi, hs5ob, Bool.eq_false_iff.mpr hb, Bool.xor_false]
  -- master frame: everything outside the high register is restored
  have hOut : ∀ j, j ∉ Wh → s6 j = s j := by
    intro j hj
    have hjX : ∀ i, i < nh → j ≠ Xh i := by
      intro i hi he
      exact hj (he ▸ (hWh ▸ wires_mem.mpr ⟨i, hi, rfl⟩))
    by_cases hjob : j = ob
    · rw [hjob]
      exact hs6ob
    · rw [hs6, c6f j hjX, e5, updState_other hjob, e4, writeBits_notMem hj, e3,
        updState_other hjob, hs2, c2f j hjX, e1, writeBits_notMem hj]
  -- closed form of the high value after the six toggle-trick pieces
  have hkn : readVal Wh s6 = (vh + KB.toNat) % 2 ^ nh := by
    rw [hrv6, hh3, hh2, hh1]
    exact dnc_toggle_arith (by positivity) hvhlt (s ob) KB
  -- the two recursive calls
  have hrvl6 : readVal Wl s6 = vl := by
    rw [hvl]
    apply readVal_congr
    intro w hw
    obtain ⟨j, hj, rfl⟩ := wires_mem.mp (hWl ▸ hw)
    exact hs6Xl j hj
  set s7 := applyGates (dncAdder ctrl bex nl X ob cb) s6 with hs7
  have e7 : s7 = writeBits Wl ((vl + tb.toNat * bitsVal cb nl) % 2 ^ nl) s6 := by
    rw [hs7, ihl s6, hrvl6, hs6ctrl, ← htb]
  set lv := (vl + tb.toNat * bitsVal cb nl) % 2 ^ nl with hlv
  have hs7ctrl : s7 ctrl = s ctrl := by
    rw [e7, writeBits_notMem hctrlWl, hs6ctrl]
  have hrv7 : readVal Wh s7 = (vh + KB.toNat) % 2 ^ nh := by
    rw [← hkn]
    rw [e7]
    apply readVal_congr
    intro w hw
    obtain ⟨i, hi, rfl⟩ := wires_mem.mp (hWh ▸ hw)
    exact writeBits_notMem (hXhWl hi) _ _
  have e8 : applyGates (dncAdder ctrl bex nh Xh ob cbh) s7
      = writeBits Wh (((vh + KB.toNat) % 2 ^ nh + tb.toNat * bitsVal cbh nh) % 2 ^ nh)
          s7 := by
    rw [ihh s7, hrv7, hs7ctrl, ← htb]
  set hv := ((vh + KB.toNat) % 2 ^ nh + tb.toNat * bitsVal cbh nh) % 2 ^ nh with hhv
  rw [e8, e7]
  -- value-level bridges between the halves and the full register
  set vx := readVal (wires X (m + 3)) s with hvx
  set V := (vx + tb.toNat * bitsVal cb (m + 3)) % 2 ^ (m + 3) with hV
  have hvxsplit : vx = vl + 2 ^ nl * vh := by
    rw [hvx, show m + 3 = nl + nh from by omega, wires_split, readVal_append,
      wires_length]
  have hcsplit : bitsVal cb (m + 3) = bitsVal cb nl + 2 ^ nl * bitsVal cbh nh := by
    rw [show m + 3 = nl + nh from by omega, bitsVal_split]
  have hKveq : KB.toNat = (vl + tb.toNat * bitsVal cb nl) / 2 ^ nl := by
    have hKvdec : Kv = decide (2 ^ nl ≤ vl + bitsVal cb nl) := by
      rw [hKv]
      have hcar : carries (fun j => s (X j)) cb nl
          = carries vl.testBit (bitsVal cb nl).testBit nl := by
        apply carries_congr
        · intro j hj
          exact (readVal_wires_testBit hj s).symm
        · intro j hj
          exact (bitsVal_testBit hj).symm
      rw [hcar, carries_eq_decide, Nat.mod_eq_of_lt hvllt,
        Nat.mod_eq_of_lt (bitsVal_lt cb nl)]
    rw [hKB, hKvdec]
    cases htbv : tb
    · rw [Bool.false_and]
      rw [show (false : Bool).toNat = 0 from rfl, Nat.zero_mul, Nat.add_zero]
      exact (Nat.div_eq_of_lt hvllt).symm
    · rw [Bool.true_and]
      rw [show (true : Bool).toNat = 1 from rfl, Nat.one_mul]
      rcases Nat.lt_or_ge (vl + bitsVal cb nl) (2 ^ nl) with h | h
      · rw [decide_eq_false (by omega), Nat.div_eq_of_lt h]
        rfl
      · have hub : vl + bitsVal cb nl < 2 ^ nl * 2 := by
          have := bitsVal_lt cb nl
          omega
        have hdiv1 : (vl + bitsVal cb nl) / 2 ^ nl = 1 :=
          Nat.div_eq_of_lt_le (by omega) (by omega)
        rw [hdiv1, decide_eq_true h]
        rfl
  have hre : vx + tb.toNat * bitsVal cb (m + 3)
      = (vl + tb.toNat * bitsVal cb nl) % 2 ^ nl
        + 2 ^ nl * (vh + (vl + tb.toNat * bitsVal cb nl) / 2 ^ nl
          + tb.toNat * bitsVal cbh nh) := by
    have hdm := Nat.div_add_mod (vl + tb.toNat * bitsVal cb nl) (2 ^ nl)
    have hdist : 2 ^ nl * (vh + (vl + tb.toNat * bitsVal cb nl) / 2 ^ nl
          + tb.toNat * bitsVal cbh nh)
        = 2 ^ nl * vh + 2 ^ nl * ((vl + tb.toNat * bitsVal cb nl) / 2 ^ nl)
          + 2 ^ nl * (tb.toNat * bitsVal cbh nh) := by ring
    have hdist2 : tb.toNat * (bitsVal cb nl + 2 ^ nl * bitsVal cbh nh)
        = tb.toNat * bitsVal cb nl + 2 ^ nl * (tb.toNat * bitsVal cbh nh) := by ring
    rw [hvxsplit, hcsplit, hdist, hdist2]
    omega
  have hlow : ∀ i, i < nl → V.testBit i = lv.testBit i := by
    intro i hil
    rw [hV, hlv]
    have t1 := Nat.testBit_mod_two_pow (vx + tb.toNat * bitsVal cb (m + 3)) (m + 3) i
    have t2 := Nat.testBit_mod_two_pow (vl + tb.toNat * bitsVal cb nl) nl i
    rw [decide_eq_true (show i < m + 3 from by omega), Bool.true_and] at t1
    rw [decide_eq_true hil, Bool.true_and] at t2
    rw [t1, t2, hvxsplit, hcsplit,
      show vl + 2 ^ nl * vh + tb.toNat * (bitsVal cb nl + 2 ^ nl * bitsVal cbh nh)
        = vl + tb.toNat * bitsVal cb nl
          + 2 ^ nl * (vh + tb.toNat * bitsVal cbh nh) from by ring]
    exact testBit_add_mul_two_pow_low _ _ hil
  have hhigh : ∀ i, i < nh → V.testBit (nl + i) = hv.testBit i := by
    intro i hih
    rw [hV, hhv, Nat.mod_add_mod]
    have t1 := Nat.testBit_mod_two_pow (vx + tb.toNat * bitsVal cb (m + 3)) (m + 3)
      (nl + i)
    have t2 := Nat.testBit_mod_two_pow (vh + KB.toNat + tb.toNat * bitsVal cbh nh) nh i
    rw [decide_eq_true (show nl + i < m + 3 from by omega), Bool.true_and] at t1
    rw [decide_eq_true hih, Bool.true_and] at t2
    rw [t1, t2, hre, hKveq]
    exact testBit_add_mul_two_pow_high _ _ (Nat.mod_lt _ (by positivity)) i
  -- final pointwise comparison
  funext j
  by_cases hjW : j ∈ wires X (m + 3)
  · obtain ⟨i, hi, rfl⟩ := wires_mem.mp hjW
    have hiw : i < (wires X (m + 3)).length := by rw [wires_length]; omega
    have hXg : (wires X (m + 3)).get ⟨i, hiw⟩ = X i := wires_get X hiw
    have hRHS : writeBits (wires X (m + 3)) V s (X i) = V.testBit i :=
      writeBits_wires_get hd.hX hi V s
    rw [hRHS]
    by_cases hil : i < nl
    · have hLHS : writeBits Wh hv (writeBits Wl lv s6) (X i) = lv.testBit i := by
        rw [writeBits_notMem (hXlWh hil)]
        exact writeBits_wires_get (fun hi' hj' he => hd.hX (by omega) (by omega) he)
          hil lv _
      rw [hLHS]
      exact (hlow i hil).symm
    · have hihn : i - nl < nh := by omega
      have hLHS : writeBits Wh hv (writeBits Wl lv s6) (X i) = hv.testBit (i - nl) := by
        have hXi : X i = Xh (i - nl) := congrArg X (by omega)
        rw [hXi]
        exact writeBits_wires_get (fun hi' hj' he => hXhInj hi' hj' he) hihn hv _
      rw [hLHS, show V.testBit i = V.testBit (nl + (i - nl)) from by
        rw [show nl + (i - nl) = i from by omega]]
      exact (hhigh (i - nl) hihn).symm
  · rw [writeBits_notMem hjW]
    have hjWh : j ∉ Wh := by
      intro hmem
      obtain ⟨i, hi, he⟩ := wires_mem.mp (hWh ▸ hmem)
      exact hjW (he ▸ wires_mem.mpr ⟨nl + i, by omega, rfl⟩)
    have hjWl : j ∉ Wl := by
      intro hmem
      obtain ⟨i, hi, he⟩ := wires_mem.mp (hWl ▸ hmem)
      exact hjW (he ▸ wires_mem.mpr ⟨i, by omega, rfl⟩)
    rw [writeBits_notMem hjWh, writeBits_notMem hjWl]
    exact hOut j hjWh

/-- Full correctness of `c_divide_and_conquer_adder`: with control bit
`t`, the register gains `t * constant` modulo `2^n`; the output/borrowed
wire, the control and the extra borrowed wire are all restored. -/
theorem dncAdder_spec {ctrl bex : Nat} : ∀ (n : Nat) (X : Nat → Nat) (ob : Nat)
    (cb : Nat → Bool), DncDisj n X ob ctrl bex → ∀ s : Nat → Bool,
    applyGates (dncAdder ctrl bex n X ob cb) s
      = writeBits (wires X n)
          ((readVal (wires X n) s + (s ctrl).toNat * bitsVal cb n) % 2 ^ n) s := by
  intro n
  induction n using Nat.strong_induction_on with
  | _ n ih =>
    rcases Nat.lt_or_ge n 3 with h3 | h3
    · interval_cases n
      · intro X ob cb hd s
        have hw : wires X 0 = [] := by rw [wires, show List.range 0 = [] from rfl]; rfl
        rw [hw]
        simp only [dncAdder]
        rfl
      · intro X ob cb hd s
        exact dncAdder_base1 hd s
      · intro X ob cb hd s
        exact dncAdder_base2 hd s
    · obtain ⟨m, rfl⟩ : ∃ m, n = m + 3 := ⟨n - 3, by omega⟩
      intro X ob cb hd s
      have hlow : dncLow (m + 3) < m + 3 := by unfold dncLow; omega
      have hhigh : m + 3 - dncLow (m + 3) < m + 3 := by unfold dncLow; omega
      exact dncAdder_step m X ob cb hd s
        (fun s' => ih (dncLow (m + 3)) hlow X ob cb
          ⟨fun hi hj he => hd.hX (by omega) (by omega) he,
            fun hi => hd.hob (by omega), fun hi => hd.hctrl (by omega),
            fun hi => hd.hbex (by omega), hd.hco, hd.hcb, hd.hob2⟩ s')
        (fun s' => ih (m + 3 - dncLow (m + 3)) hhigh _ ob _
          ⟨fun hi hj he => by
              have := hd.hX (by omega) (by omega) he
              omega,
            fun hi => hd.hob (by omega), fun hi => hd.hctrl (by omega),
            fun hi => hd.hbex (by omega), hd.hco, hd.hcb, hd.hob2⟩ s')

/-- `c_adder_hrs2(n, c)` wired onto arbitrary cells: control `ctrl`,
register `X`, the two borrowed cells `ob` and `bex`; the constant bits
come from `np.binary_repr(c, n+1)` with the extra most-significant char
dropped and the string reversed, i.e. bit `i` of the two's-complement
residue `c mod 2^(n+1)`. -/
def c_adder_hrs2_w (ctrl bex : Nat) (n : Nat) (X : Nat → Nat) (ob : Nat)
    (c : Int) : List Gate :=
  dncAdder ctrl bex n X ob (fun i => (c.emod (2 ^ (n + 1))).toNat.testBit i)

/-- `c_adder_hrs2(n, c)` on its own flat wiring
`control ++ xreg ++ o_borrowed` (control at 0, register at `1..n`, the
two borrowed cells at `n+1` and `n+2`). -/
def c_adder_hrs2 (n : Nat) (c : Int) : List Gate :=
  c_adder_hrs2_w 0 (n + 2) n (fun i => 1 + i) (n + 1) c

theorem bitsVal_eq_mod (M : Nat) : ∀ n, bitsVal (fun i => M.testBit i) n = M % 2 ^ n := by
  intro n
  induction n with
  | zero => simp [bitsVal, Nat.mod_one]
  | succ n ih =>
      rw [bitsVal, ih]
      have h1 := Nat.div_add_mod M (2 ^ n)
      have h2 := Nat.div_add_mod M (2 ^ (n + 1))
      have h3 : M.testBit n = decide (M / 2 ^ n % 2 = 1) := Nat.testBit_to_div_mod
      have h4 := Nat.div_add_mod (M / 2 ^ n) 2
      have h5 : M / 2 ^ n / 2 = M / 2 ^ (n + 1) := by
        rw [Nat.div_div_eq_div_mul, ← pow_succ]
      rw [h5] at h4
      rcases Nat.mod_two_eq_zero_or_one (M / 2 ^ n) with hb | hb
      · have hA : M / 2 ^ n = 2 * (M / 2 ^ (n + 1)) := by omega
        have hEq : 2 ^ n * (M / 2 ^ n) = 2 ^ (n + 1) * (M / 2 ^ (n + 1)) := by
          rw [hA, pow_succ]
          ring
        rw [h3, hb, show (decide ((0 : Nat) = 1)).toNat = 0 from rfl, Nat.zero_mul,
          Nat.zero_add]
        omega
      · have hA : M / 2 ^ n = 2 * (M / 2 ^ (n + 1)) + 1 := by omega
        have hEq : 2 ^ n * (M / 2 ^ n) = 2 ^ (n + 1) * (M / 2 ^ (n + 1)) + 2 ^ n := by
          rw [hA, pow_succ]
          ring
        rw [h3, hb, show (decide ((1 : Nat) = 1)).toNat = 1 from rfl, Nat.one_mul]
        omega

theorem emod_toNat_mod (c : Int) (a b : Nat) (h : b ∣ a) (hb : 0 < b) (ha : 0 < a) :
    (c.emod a).toNat % b = (c.emod b).toNat := by
  have hnn : 0 ≤ c.emod a := Int.emod_nonneg c (by positivity)
  have hstep : c.emod a % (b : Int) = c.emod b :=
    Int.emod_emod_of_dvd c (by exact_mod_cast h)
  have hcast : ((c.emod a).toNat : Int) = c.emod a := Int.toNat_of_nonneg hnn
  have : (((c.emod a).toNat % b : Nat) : Int) = c.emod b := by
    push_cast
    rw [hcast]
    exact hstep
  have hnn2 : 0 ≤ c.emod b := Int.emod_nonneg c (by positivity)
  omega

/-- Value form of the wired `c_adder_hrs2(n, c)`: the register gains
`control * (c mod 2^n)` modulo `2^n`; the control and both borrowed
cells are restored. -/
theorem c_adder_hrs2_w_spec {ctrl bex : Nat} (n : Nat) {X : Nat → Nat} {ob : Nat}
    (c : Int) (hd : DncDisj n X ob ctrl bex) (s : Nat → Bool) :
    applyGates (c_adder_hrs2_w ctrl bex n X ob c) s
      = writeBits (wires X n)
          ((readVal (wires X n) s + (s ctrl).toNat * (c.emod (2 ^ n)).toNat)
            % 2 ^ n) s := by
  rw [c_adder_hrs2_w, dncAdder_spec n X ob
    (fun i => (c.emod (2 ^ (n + 1))).toNat.testBit i) hd s]
  have hc1 : (2 : Int) ^ (n + 1) = ((2 ^ (n + 1) : Nat) : Int) := by push_cast; ring
  have hc2 : (2 : Int) ^ n = ((2 ^ n : Nat) : Int) := by push_cast; ring
  rw [bitsVal_eq_mod, hc1, emod_toNat_mod c (2 ^ (n + 1)) (2 ^ n)
    (by rw [pow_succ]; exact Dvd.intro 2 rfl) (by positivity) (by positivity), ← hc2]

/-- Value form of `c_adder_hrs2(n, c)` on its flat wiring. -/
theorem c_adder_hrs2_spec (n : Nat) (c : Int) (s : Nat → Bool) :
    applyGates (c_adder_hrs2 n c) s
      = writeBits (wires (fun i => 1 + i) n)
          ((readVal (wires (fun i => 1 + i) n) s
            + (s 0).toNat * (c.emod (2 ^ n)).toNat) % 2 ^ n) s := by
  have hd : DncDisj n (fun i => 1 + i) (n + 1) 0 (n + 2) := by
    refine ⟨fun hi hj he => by omega, fun hi => by omega, fun hi => by omega,
      fun hi => by omega, by omega, by omega, by omega⟩
  exact c_adder_hrs2_w_spec n c hd s

/-! ## The HRS comparator and modular adder (`hrs_mod_add.py`) -/

theorem neg_emod_toNat {v Mn : Nat} (h0 : 0 < v) (hv : v ≤ Mn) :
    ((-(v : Int)).emod (Mn : Int)).toNat = Mn - v := by
  have hcast : ((Mn - v : Nat) : Int) = (Mn : Int) - v := by
    push_cast [hv]
    ring
  have hthis : (-(v : Int)) % (Mn : Int) = ((Mn - v : Nat) : Int) := by
    rw [hcast, show (-(v : Int)) = ((Mn : Int) - v) + Mn * (-1) from by ring,
      Int.add_mul_emod_self_left, Int.emod_eq_of_lt (by omega) (by omega)]
  have hthis2 : (-(v : Int)).emod (Mn : Int) = ((Mn - v : Nat) : Int) := hthis
  rw [hthis2]
  omega

theorem natCast_emod_toNat {a Mn : Nat} (h : a < Mn) :
    ((a : Int).emod (Mn : Int)).toNat = a := by
  have h1 : (a : Int) % (Mn : Int) = a :=
    Int.emod_eq_of_lt (by omega) (by exact_mod_cast h)
  have h2 : (a : Int).emod (Mn : Int) = a := h1
  rw [h2]
  omega

/-- `c_comp(n, value)` / `cc_comp(n, value)` with a list of controls:
the carry gate on `n+1` cells with `areg = inreg + [res]`, dirty cells
the borrowed register, and constant `binary_repr(0 - value, n+1)`
reversed. -/
def comp_gen (ctrls : List Nat) (n : Nat) (B G : Nat → Nat) (res : Nat)
    (value : Int) : List Gate :=
  carry_gate_gen ctrls (n + 1) (fun i => if i < n then B i else res) G
    (fun i => ((-value).emod (2 ^ (n + 1))).toNat.testBit i)

/-- The comparator toggles the result cell by `ctrls · [input < value]`
and restores everything else. -/
theorem comp_spec {ctrls : List Nat} {n : Nat} {B G : Nat → Nat} {res : Nat}
    (hd : CarryDisj (n + 1) ctrls (fun i => if i < n then B i else res) G)
    (hn : 2 ≤ n) {v : Nat} (hv : v ≤ 2 ^ n) (s : Nat → Bool) :
    applyGates (comp_gen ctrls n B G res (v : Int)) s
      = updState res
          (xor (s res) (ctrls.all s && decide (readVal (wires B n) s < v))) s := by
  rw [comp_gen, carry_gate_gen_spec hd (by omega) _ s]
  set b := readVal (wires B n) s with hb
  have hblt : b < 2 ^ n := by
    have := readVal_lt (wires B n) s
    rwa [wires_length] at this
  set M := ((-(v : Int)).emod (2 ^ (n + 1))).toNat with hM
  have hA1 : (if n + 1 - 1 < n then B (n + 1 - 1) else res) = res :=
    if_neg (by omega)
  rw [hA1]
  have hK : carries (fun t => s (if t < n then B t else res))
        (fun i => M.testBit i) (n + 1 - 1)
      = carries b.testBit M.testBit n := by
    rw [show n + 1 - 1 = n from rfl]
    apply carries_congr
    · intro j hj
      rw [if_pos hj]
      exact (readVal_wires_testBit hj s).symm
    · intro j hj
      rfl
  rw [show (n + 1 - 1 : Nat) = n from rfl] at hK ⊢
  rw [hK]
  rcases Nat.eq_zero_or_pos v with hv0 | hv0
  · subst hv0
    have hM0 : M = 0 := by
      have hz : Int.emod 0 ((2 : Int) ^ (n + 1)) = 0 := Int.zero_emod _
      rw [hM, show (-(((0 : Nat) : Int))) = 0 from by norm_num, hz]
      rfl
    have hc0 : carries b.testBit (0 : Nat).testBit n = false := by
      rw [carries_eq_decide]
      refine decide_eq_false ?_
      have h1 := Nat.mod_lt b (show 0 < 2 ^ n from by positivity)
      have h2 : 0 % 2 ^ n = 0 := Nat.zero_mod _
      omega
    rw [hM0, hc0, Nat.zero_testBit, show decide (b < 0) = false from
      decide_eq_false (by omega)]
    rfl
  have hMv : M = 2 ^ (n + 1) - v := by
    rw [hM, show ((2 : Int) ^ (n + 1)) = ((2 ^ (n + 1) : Nat) : Int) from by
      push_cast; ring]
    exact neg_emod_toNat hv0 (by rw [pow_succ]; omega)
  have hbn : b.testBit n = false := Nat.testBit_lt_two_pow hblt
  have htb : (b + M).testBit n = decide (b < v) := by
    rw [Nat.testBit_to_div_mod]
    rcases Nat.lt_or_ge b v with h | h
    · have hdiv : (b + M) / 2 ^ n = 1 := by
        apply Nat.div_eq_of_lt_le
        · rw [Nat.one_mul]
          have : 2 ^ (n + 1) = 2 ^ n * 2 := pow_succ 2 n
          omega
        · have : 2 ^ (n + 1) = 2 ^ n * 2 := pow_succ 2 n
          omega
      rw [hdiv, decide_eq_true h]
      rfl
    · have hdiv : (b + M) / 2 ^ n = 2 := by
        apply Nat.div_eq_of_lt_le
        · have : 2 ^ (n + 1) = 2 ^ n * 2 := pow_succ 2 n
          omega
        · have : 2 ^ (n + 1) = 2 ^ n * 2 := pow_succ 2 n
          omega
      rw [hdiv, show (decide (2 % 2 = 1)) = false from rfl,
        decide_eq_false (show ¬ b < v from by omega)]
  have hxor := testBit_add b M n
  rw [hbn, Bool.false_xor, htb] at hxor
  have hfin : xor (carries b.testBit M.testBit n) (M.testBit n) = decide (b < v) := by
    rw [hxor]
    cases M.testBit n <;> cases carries b.testBit M.testBit n <;> rfl
  rw [hfin]

theorem writeBits_updState {ws : List Nat} {i : Nat} (h : i ∉ ws) (v : Bool)
    (x : Nat) (s : Nat → Bool) :
    writeBits ws x (updState i v s) = updState i v (writeBits ws x s) := by
  funext j
  by_cases hj : j ∈ ws
  · have hji : j ≠ i := fun he => h (he ▸ hj)
    rw [show updState i v (writeBits ws x s) j = writeBits ws x s j from
      updState_other hji _ _]
    exact writeBits_mem_congr hj x _ _
  · rw [writeBits_notMem hj]
    by_cases hji : j = i
    · rw [hji, updState_same, updState_same]
    · rw [updState_other hji, updState_other hji, writeBits_notMem hj]

/-- Distinctness of the wires of the HRS modular adder: controls, data
register, dirty register and the comparison cell. -/
structure HrsModDisj (n : Nat) (ctrls : List Nat) (B G : Nat → Nat) (msb : Nat) :
    Prop where
  hB : ∀ {i j : Nat}, i < n → j < n → B i = B j → i = j
  hG : ∀ {i j : Nat}, i < n - 1 → j < n - 1 → G i = G j → i = j
  hBG : ∀ {i j : Nat}, i < n → j < n - 1 → B i ≠ G j
  hmB : ∀ {i : Nat}, i < n → msb ≠ B i
  hmG : ∀ {j : Nat}, j < n - 1 → msb ≠ G j
  hcB : ∀ u ∈ ctrls, ∀ {i : Nat}, i < n → u ≠ B i
  hcG : ∀ u ∈ ctrls, ∀ {j : Nat}, j < n - 1 → u ≠ G j
  hcm : ∀ u ∈ ctrls, u ≠ msb

theorem HrsModDisj.comp {n : Nat} {ctrls : List Nat} {B G : Nat → Nat} {msb : Nat}
    (hd : HrsModDisj n ctrls B G msb) :
    CarryDisj (n + 1) ctrls (fun i => if i < n then B i else msb) G := by
  refine ⟨?_, ?_, ?_, ?_, ?_⟩
  · intro i j hi hj he
    by_cases hi' : i < n <;> by_cases hj' : j < n
    · rw [if_pos hi', if_pos hj'] at he
      exact hd.hB hi' hj' he
    · rw [if_pos hi', if_neg hj'] at he
      exact absurd he.symm (hd.hmB hi')
    · rw [if_neg hi', if_pos hj'] at he
      exact absurd he (hd.hmB hj')
    · omega
  · intro i j hi hj he
    exact hd.hG (by omega) (by omega) he
  · intro i j hi hj
    by_cases hi' : i < n
    · rw [if_pos hi']
      exact hd.hBG hi' (by omega)
    · rw [if_neg hi']
      exact hd.hmG (by omega)
  · intro u hu i hi
    by_cases hi' : i < n
    · rw [if_pos hi']
      exact hd.hcB u hu hi'
    · rw [if_neg hi']
      exact hd.hcm u hu
  · intro u hu j hj
    exact hd.hcG u hu (by omega)

theorem HrsModDisj.add {n : Nat} {ctrls : List Nat} {B G : Nat → Nat} {msb : Nat}
    (hd : HrsModDisj n ctrls B G msb) (hn : 3 ≤ n) :
    DncDisj n B (G 0) msb (G 1) := by
  refine ⟨hd.hB, ?_, ?_, ?_, ?_, ?_, ?_⟩
  · exact fun hi => (hd.hBG hi (by omega)).symm
  · exact fun hi => hd.hmB hi
  · exact fun hi => (hd.hBG hi (by omega)).symm
  · exact hd.hmG (by omega)
  · exact hd.hmG (by omega)
  · intro he
    have := hd.hG (i := 0) (j := 1) (by omega) (by omega) he
    omega

/-- `c_carry_add_mod_hrs(n, a, N)` / `cc_carry_add_mod_hrs(n, a, N)`
with a list of controls: comparator against `N - a`, adder of `a`
controlled by the comparison cell (borrowing `greg[0]`, `greg[1]`),
control flip of the comparison cell, adder of `a - N`, comparator
against `a` (the pre-flipped-no-restore shortcut). -/
def carry_add_mod_gen (ctrls : List Nat) (n : Nat) (B G : Nat → Nat) (msb : Nat)
    (a N : Nat) : List Gate :=
  comp_gen ctrls n B G msb ((N : Int) - (a : Int))
    ++ c_adder_hrs2_w msb (G 1) n B (G 0) (a : Int)
    ++ [.mct ctrls msb]
    ++ c_adder_hrs2_w msb (G 1) n B (G 0) ((a : Int) - (N : Int))
    ++ comp_gen ctrls n B G msb (a : Int)

/-- Full correctness of the HRS controlled modular adder (all controls
set): `b → (b + a) mod N`, the comparison cell returns to `0`, the
borrowed cells and the controls are restored. -/
theorem carry_add_mod_spec {ctrls : List Nat} {n : Nat} {B G : Nat → Nat}
    {msb : Nat} (hd : HrsModDisj n ctrls B G msb) (hn : 3 ≤ n) {a N : Nat}
    (haN : a < N) (hN : N ≤ 2 ^ n) (s : Nat → Bool)
    (hctr : ctrls.all s = true) (hmsb : s msb = false)
    (hb : readVal (wires B n) s < N) :
    applyGates (carry_add_mod_gen ctrls n B G msb a N) s
      = writeBits (wires B n) ((readVal (wires B n) s + a) % N) s := by
  have hdComp := hd.comp
  have hdAdd := hd.add hn
  set WB := wires B n with hWB
  have hndB : WB.Nodup := by rw [hWB]; exact wires_nodup hd.hB
  have hlenB : WB.length = n := by rw [hWB, wires_length]
  set b := readVal WB s with hbv
  have hblt : b < 2 ^ n := by
    have := readVal_lt WB s
    rwa [hlenB] at this
  have hmsbB : msb ∉ WB := by
    intro hmem
    obtain ⟨i, hi, he⟩ := wires_mem.mp (hWB ▸ hmem)
    exact hd.hmB hi he
  have hcB' : ∀ u ∈ ctrls, u ∉ WB := by
    intro u hu hmem
    obtain ⟨i, hi, he⟩ := wires_mem.mp (hWB ▸ hmem)
    exact hd.hcB u hu hi he
  rw [carry_add_mod_gen]
  have hval1 : (N : Int) - (a : Int) = ((N - a : Nat) : Int) :=
    (Nat.cast_sub (le_of_lt haN)).symm
  rw [hval1]
  simp only [applyGates_append]
  have hcast2 : ((2 : Int) ^ n) = ((2 ^ n : Nat) : Int) := by push_cast; ring
  -- stage 1: comparator against N - a
  set s1 := applyGates (comp_gen ctrls n B G msb ((N - a : Nat) : Int)) s with hs1
  have e1 : s1 = updState msb (decide (b < N - a)) s := by
    rw [hs1, comp_spec hdComp (by omega) (by omega) s, ← hWB, ← hbv,
      hctr, hmsb, Bool.true_and, Bool.false_xor]
  set d1 := decide (b < N - a) with hd1
  have hs1msb : s1 msb = d1 := by rw [e1, updState_same]
  have hs1B : ∀ w ∈ WB, s1 w = s w := by
    intro w hw
    obtain ⟨i, hi, rfl⟩ := wires_mem.mp (hWB ▸ hw)
    rw [e1, updState_other (hd.hmB hi).symm]
  have hrv1 : readVal WB s1 = b := by
    rw [hbv]
    exact readVal_congr hs1B
  have hs1c : ctrls.all s1 = true := by
    rw [← hctr]
    apply all_congr_mem
    intro u hu
    rw [e1, updState_other (hd.hcm u hu)]
  -- stage 2: adder of a controlled by the comparison cell
  set s2 := applyGates (c_adder_hrs2_w msb (G 1) n B (G 0) (a : Int)) s1 with hs2
  have hAa : ((a : Int).emod (2 ^ n)).toNat = a := by
    rw [hcast2]
    exact natCast_emod_toNat (by omega)
  have e2 : s2 = writeBits WB ((b + d1.toNat * a) % 2 ^ n) s1 := by
    rw [hs2, c_adder_hrs2_w_spec n (a : Int) hdAdd s1, ← hWB, hrv1, hs1msb, hAa]
  set v2 := (b + d1.toNat * a) % 2 ^ n with hv2
  have hv2lt : v2 < 2 ^ n := Nat.mod_lt _ (by positivity)
  have hs2msb : s2 msb = d1 := by rw [e2, writeBits_notMem hmsbB, hs1msb]
  have hrv2 : readVal WB s2 = v2 := by
    rw [e2, readVal_writeBits hndB, hlenB, Nat.mod_eq_of_lt hv2lt]
  have hs2c : ctrls.all s2 = true := by
    rw [← hs1c]
    apply all_congr_mem
    intro u hu
    rw [e2, writeBits_notMem (hcB' u hu)]
  -- stage 3: flip the comparison cell on the controls
  set s3 := applyGates [Gate.mct ctrls msb] s2 with hs3
  have e3 : s3 = updState msb (!d1) s2 := by
    rw [hs3, applyGates_single, applyGate_mct, hs2msb, hs2c, Bool.xor_true]
  have hs3msb : s3 msb = !d1 := by rw [e3, updState_same]
  have hs3B : ∀ w ∈ WB, s3 w = s2 w := by
    intro w hw
    obtain ⟨i, hi, rfl⟩ := wires_mem.mp (hWB ▸ hw)
    rw [e3, updState_other (hd.hmB hi).symm]
  have hrv3 : readVal WB s3 = v2 := by
    rw [← hrv2]
    exact readVal_congr hs3B
  have hs3c : ctrls.all s3 = true := by
    rw [← hs2c]
    apply all_congr_mem
    intro u hu
    rw [e3, updState_other (hd.hcm u hu)]
  -- stage 4: adder of a - N controlled by the flipped cell
  set s4 := applyGates (c_adder_hrs2_w msb (G 1) n B (G 0)
    ((a : Int) - (N : Int))) s3 with hs4
  have hAaN : (((a : Int) - (N : Int)).emod (2 ^ n)).toNat = 2 ^ n - (N - a) := by
    rw [show (a : Int) - (N : Int) = -(((N - a : Nat)) : Int) from by
      rw [Nat.cast_sub (le_of_lt haN)]; ring, hcast2]
    exact neg_emod_toNat (by omega) (by omega)
  have e4 : s4 = writeBits WB ((v2 + (!d1).toNat * (2 ^ n - (N - a))) % 2 ^ n) s3 := by
    rw [hs4, c_adder_hrs2_w_spec n _ hdAdd s3, ← hWB, hrv3, hs3msb, hAaN]
  set v4 := (v2 + (!d1).toNat * (2 ^ n - (N - a))) % 2 ^ n with hv4
  have hv4lt : v4 < 2 ^ n := Nat.mod_lt _ (by positivity)
  have hs4msb : s4 msb = !d1 := by rw [e4, writeBits_notMem hmsbB, hs3msb]
  have hrv4 : readVal WB s4 = v4 := by
    rw [e4, readVal_writeBits hndB, hlenB, Nat.mod_eq_of_lt hv4lt]
  have hs4c : ctrls.all s4 = true := by
    rw [← hs3c]
    apply all_congr_mem
    intro u hu
    rw [e4, writeBits_notMem (hcB' u hu)]
  -- stage 5: comparator against a
  rw [comp_spec hdComp (by omega) (by omega) s4, ← hWB, hrv4, hs4msb, hs4c,
    Bool.true_and]
  -- collapse the chain
  have hs4eq : s4 = updState msb (!d1) (writeBits WB v4 s) := by
    rw [e4, e3, e2, e1]
    simp only [writeBits_updState hmsbB]
    rw [updState_updState, writeBits_writeBits]
  rw [hs4eq, updState_updState]
  by_cases hcase : b < N - a
  · have hd1t : d1 = true := by rw [hd1]; exact decide_eq_true hcase
    have hv2e : v2 = b + a := by
      rw [hv2, hd1t, show (true : Bool).toNat = 1 from rfl, Nat.one_mul,
        Nat.mod_eq_of_lt (by omega)]
    have hv4e : v4 = b + a := by
      rw [hv4, hd1t, show (!(true : Bool)).toNat = 0 from rfl, Nat.zero_mul,
        Nat.add_zero, Nat.mod_eq_of_lt hv2lt, hv2e]
    have hdec : decide (v4 < a) = false := by
      rw [hv4e]
      exact decide_eq_false (by omega)
    rw [hd1t, hdec, hv4e, show xor (!(true : Bool)) false = false from rfl,
      show (b + a) % N = b + a from Nat.mod_eq_of_lt (by omega)]
    have hX : writeBits WB (b + a) s msb = false := by
      rw [writeBits_notMem hmsbB]
      exact hmsb
    have hcol : updState msb false (writeBits WB (b + a) s)
        = writeBits WB (b + a) s := by
      rw [← hX]
      exact updState_self _ _
    exact hcol
  · have hd1f : d1 = false := by rw [hd1]; exact decide_eq_false hcase
    have hv2e : v2 = b := by
      rw [hv2, hd1f, show (false : Bool).toNat = 0 from rfl, Nat.zero_mul,
        Nat.add_zero, Nat.mod_eq_of_lt hblt]
    have hv4e : v4 = b + a - N := by
      rw [hv4, hd1f, show (!(false : Bool)).toNat = 1 from rfl, Nat.one_mul, hv2e]
      have h1 : b + (2 ^ n - (N - a)) = 2 ^ n + (b + a - N) := by omega
      rw [h1, Nat.add_mod_left, Nat.mod_eq_of_lt (by omega)]
    have hdec : decide (v4 < a) = true := by
      rw [hv4e]
      exact decide_eq_true (by omega)
    rw [hd1f, hdec, hv4e, show xor (!(false : Bool)) true = false from rfl,
      show (b + a) % N = b + a - N from by
        rw [Nat.mod_eq_sub_mod (by omega), Nat.mod_eq_of_lt (by omega)]]
    have hX : writeBits WB (b + a - N) s msb = false := by
      rw [writeBits_notMem hmsbB]
      exact hmsb
    have hcol : updState msb false (writeBits WB (b + a - N) s)
        = writeBits WB (b + a - N) s := by
      rw [← hX]
      exact updState_self _ _
    exact hcol

/-- With all controls off and the comparison cell clear, the HRS modular
adder is the identity. -/
theorem carry_add_mod_id {ctrls : List Nat} {n : Nat} {B G : Nat → Nat}
    {msb : Nat} (hd : HrsModDisj n ctrls B G msb) (hn : 3 ≤ n) {a N : Nat}
    (haN : a < N) (hN : N ≤ 2 ^ n) (s : Nat → Bool)
    (hctr : ctrls.all s = false) (hmsb : s msb = false) :
    applyGates (carry_add_mod_gen ctrls n B G msb a N) s = s := by
  rw [carry_add_mod_gen]
  have hval1 : (N : Int) - (a : Int) = ((N - a : Nat) : Int) :=
    (Nat.cast_sub (le_of_lt haN)).symm
  rw [hval1]
  simp only [applyGates_append]
  have hcomp_id : ∀ v : Nat, v ≤ 2 ^ n →
      applyGates (comp_gen ctrls n B G msb (v : Int)) s = s := by
    intro v hv
    rw [comp_spec hd.comp (by omega) hv s, hctr, Bool.false_and, Bool.xor_false]
    exact updState_self msb s
  have hadd_id : ∀ c : Int,
      applyGates (c_adder_hrs2_w msb (G 1) n B (G 0) c) s = s := by
    intro c
    rw [c_adder_hrs2_w_spec n c (hd.add hn) s, hmsb,
      show (false : Bool).toNat = 0 from rfl, Nat.zero_mul, Nat.add_zero]
    have hblt : readVal (wires B n) s < 2 ^ n := by
      have := readVal_lt (wires B n) s
      rwa [wires_length] at this
    rw [Nat.mod_eq_of_lt hblt, writeBits_readVal_self (wires_nodup hd.hB)]
  have hmct_id : applyGates [Gate.mct ctrls msb] s = s := by
    rw [applyGates_single, applyGate_mct, hctr, hmsb,
      show xor false false = false from rfl, ← hmsb]
    exact updState_self msb s
  rw [hcomp_id (N - a) (by omega), hadd_id, hmct_id, hadd_id, hcomp_id a (by omega)]

/-- `x % 2^(k+1)` adds bit `k` on top of `x % 2^k`. -/
theorem mod_two_pow_succ (x k : Nat) :
    x % 2 ^ (k + 1) = (x.testBit k).toNat * 2 ^ k + x % 2 ^ k := by
  rw [← bitsVal_eq_mod x (k + 1), bitsVal, bitsVal_eq_mod]

/-! ## The HRS controlled multiplier (`hrs_mod_mult.py`) -/

/-- `for i in range(0, n): mult.cswap(control[0], topreg[i], botreg[i])`. -/
def cswapAll (c : Nat) (T B : Nat → Nat) : Nat → List Gate
  | 0 => []
  | k + 1 => cswapAll c T B k ++ [.cswap c (T k) (B k)]

theorem cswapAll_spec {c : Nat} {T B : Nat → Nat} {k : Nat}
    (hT : ∀ {i j : Nat}, i < k → j < k → T i = T j → i = j)
    (hB : ∀ {i j : Nat}, i < k → j < k → B i = B j → i = j)
    (hTB : ∀ {i j : Nat}, i < k → j < k → T i ≠ B j)
    (hcT : ∀ {i : Nat}, i < k → c ≠ T i)
    (hcB : ∀ {i : Nat}, i < k → c ≠ B i) (s : Nat → Bool) :
    (∀ i, i < k → applyGates (cswapAll c T B k) s (T i)
        = if s c then s (B i) else s (T i))
      ∧ (∀ i, i < k → applyGates (cswapAll c T B k) s (B i)
          = if s c then s (T i) else s (B i))
      ∧ (∀ j, (∀ i, i < k → j ≠ T i ∧ j ≠ B i) →
          applyGates (cswapAll c T B k) s j = s j) := by
  induction k with
  | zero =>
      exact ⟨fun i hi => absurd hi (by omega), fun i hi => absurd hi (by omega),
        fun j _ => rfl⟩
  | succ k ih =>
      obtain ⟨ihT, ihB, ihF⟩ := ih (fun hi hj he => hT (by omega) (by omega) he)
        (fun hi hj he => hB (by omega) (by omega) he)
        (fun hi hj => hTB (by omega) (by omega))
        (fun hi => hcT (by omega)) (fun hi => hcB (by omega))
      rw [cswapAll]
      have hmidc : applyGates (cswapAll c T B k) s c = s c := by
        apply ihF
        intro i hi
        exact ⟨hcT (by omega), hcB (by omega)⟩
      have hmidT : applyGates (cswapAll c T B k) s (T k) = s (T k) := by
        apply ihF
        intro i hi
        exact ⟨fun he => absurd (hT (by omega) (by omega) he) (by omega),
          hTB (by omega) (by omega)⟩
      have hmidB : applyGates (cswapAll c T B k) s (B k) = s (B k) := by
        apply ihF
        intro i hi
        exact ⟨fun he => (hTB (by omega) (by omega)) he.symm,
          fun he => absurd (hB (by omega) (by omega) he) (by omega)⟩
      have hgate : ∀ (u : Nat → Bool) (j : Nat),
          applyGate (.cswap c (T k) (B k)) u j
            = if u c then (if j = T k then u (B k) else if j = B k then u (T k)
                else u j) else u j := fun u j => rfl
      refine ⟨?_, ?_, ?_⟩
      · intro i hi
        rw [applyGates_append, applyGates_single, hgate]
        by_cases hik : i = k
        · subst hik
          rw [hmidc, hmidT, hmidB]
          by_cases hc : s c
          · rw [if_pos hc, if_pos rfl, if_pos hc]
          · rw [if_neg hc, if_neg hc]
        · have h1 : T i ≠ T k := fun he => absurd (hT (by omega) (by omega) he) (by omega)
          have h2 : T i ≠ B k := hTB (by omega) (by omega)
          rw [hmidc]
          by_cases hc : s c
          · rw [if_pos hc, if_neg h1, if_neg h2, ihT i (by omega), if_pos hc]
          · rw [if_neg hc, ihT i (by omega), if_neg hc]
      · intro i hi
        rw [applyGates_append, applyGates_single, hgate]
        by_cases hik : i = k
        · subst hik
          rw [hmidc, hmidT]
          by_cases hc : s c
          · rw [if_pos hc, if_neg (fun he => (hTB (by omega) (by omega)) he.symm),
              if_pos rfl, if_pos hc]
          · rw [if_neg hc, hmidB, if_neg hc]
        · have h1 : B i ≠ T k := fun he => (hTB (by omega) (by omega)) he.symm
          have h2 : B i ≠ B k := fun he => absurd (hB (by omega) (by omega) he) (by omega)
          rw [hmidc]
          by_cases hc : s c
          · rw [if_pos hc, if_neg h1, if_neg h2, ihB i (by omega), if_pos hc]
          · rw [if_neg hc, ihB i (by omega), if_neg hc]
      · intro j hj
        rw [applyGates_append, applyGates_single, hgate]
        have hF : applyGates (cswapAll c T B k) s j = s j :=
          ihF j fun i hi => hj i (by omega)
        rw [hmidc]
        by_cases hc : s c
        · rw [if_pos hc, if_neg (hj k (by omega)).1, if_neg (hj k (by omega)).2, hF]
        · rw [if_neg hc, hF]

/-- Distinctness of the wires of the HRS multiplier: global control,
top register (control/borrowed bits), bottom register (result) and the
comparison ancilla. -/
structure HrsMultDisj (n : Nat) (c : Nat) (T B : Nat → Nat) (anc : Nat) : Prop where
  hT : ∀ {i j : Nat}, i < n → j < n → T i = T j → i = j
  hB : ∀ {i j : Nat}, i < n → j < n → B i = B j → i = j
  hTB : ∀ {i j : Nat}, i < n → j < n → T i ≠ B j
  hcT : ∀ {i : Nat}, i < n → c ≠ T i
  hcB : ∀ {i : Nat}, i < n → c ≠ B i
  haT : ∀ {i : Nat}, i < n → anc ≠ T i
  haB : ∀ {i : Nat}, i < n → anc ≠ B i
  hca : c ≠ anc

theorem HrsMultDisj.modAdd {n : Nat} {c : Nat} {T B : Nat → Nat} {anc : Nat}
    (hd : HrsMultDisj n c T B anc) {i : Nat} (hi : i < n) :
    HrsModDisj n [c, T i] B (fun j => if j < i then T j else T (j + 1)) anc := by
  have hG : ∀ {j : Nat}, j < n - 1 →
      ∃ j', j' < n ∧ j' ≠ i ∧ (if j < i then T j else T (j + 1)) = T j' := by
    intro j hj
    by_cases hji : j < i
    · exact ⟨j, by omega, by omega, if_pos hji⟩
    · exact ⟨j + 1, by omega, by omega, if_neg hji⟩
  refine ⟨hd.hB, ?_, ?_, ?_, ?_, ?_, ?_, ?_⟩
  · intro j1 j2 hj1 hj2 he
    by_cases hx1 : j1 < i <;> by_cases hx2 : j2 < i
    · rw [if_pos hx1, if_pos hx2] at he
      exact hd.hT (by omega) (by omega) he
    · rw [if_pos hx1, if_neg hx2] at he
      have := hd.hT (by omega) (by omega) he
      omega
    · rw [if_neg hx1, if_pos hx2] at he
      have := hd.hT (by omega) (by omega) he
      omega
    · rw [if_neg hx1, if_neg hx2] at he
      have := hd.hT (by omega) (by omega) he
      omega
  · intro j1 j2 hj1 hj2
    obtain ⟨j2', h2, _, he2⟩ := hG hj2
    rw [he2]
    exact fun he => (hd.hTB h2 hj1) he.symm
  · intro j hj
    exact hd.haB hj
  · intro j hj
    obtain ⟨j', h', _, he⟩ := hG hj
    rw [he]
    exact hd.haT h'
  · intro u hu j hj
    rcases List.mem_cons.mp hu with rfl | hu'
    · exact hd.hcB hj
    rcases List.mem_singleton.mp hu' with rfl
    exact hd.hTB hi hj
  · intro u hu j hj
    obtain ⟨j', h', hne, he⟩ := hG hj
    rw [he]
    rcases List.mem_cons.mp hu with rfl | hu'
    · exact hd.hcT h'
    rcases List.mem_singleton.mp hu' with rfl
    exact fun hee => absurd (hd.hT hi h' hee) (Ne.symm hne)
  · intro u hu
    rcases List.mem_cons.mp hu with rfl | hu'
    · exact hd.hca
    rcases List.mem_singleton.mp hu' with rfl
    exact fun he => (hd.haT hi) he.symm

/-- The per-bit loop of `c_mult_hrs_partial(n, a, N)`: for each top bit
`i`, a doubly controlled modular addition of `a * 2^i mod N` onto the
bottom register, borrowing the other top bits. -/
def multPartial (c : Nat) (n : Nat) (T B : Nat → Nat) (anc : Nat) (a N : Nat) :
    Nat → List Gate
  | 0 => []
  | i + 1 => multPartial c n T B anc a N i
      ++ carry_add_mod_gen [c, T i] n B (fun j => if j < i then T j else T (j + 1))
          anc (a * 2 ^ i % N) N

/-- `c_mult_hrs_partial(n, a, N)` on wire functions. -/
def c_mult_hrs_partial_g (c : Nat) (n : Nat) (T B : Nat → Nat) (anc : Nat)
    (a N : Nat) : List Gate :=
  multPartial c n T B anc a N n

/-- The out-of-place multiplier accumulates
`control * a * (top mod 2^k)` onto the bottom register, modulo `N`. -/
theorem multPartial_spec {n : Nat} {c : Nat} {T B : Nat → Nat} {anc : Nat}
    (hd : HrsMultDisj n c T B anc) (hn : 3 ≤ n) {a N : Nat} (hN : N ≤ 2 ^ n)
    (hN1 : 0 < N) (s : Nat → Bool) (hanc : s anc = false)
    (hy : readVal (wires B n) s < N) :
    ∀ k, k ≤ n → applyGates (multPartial c n T B anc a N k) s
      = writeBits (wires B n)
          ((readVal (wires B n) s
            + (s c).toNat * (a * (readVal (wires T n) s % 2 ^ k))) % N) s := by
  set WB := wires B n with hWB
  set WT := wires T n with hWT
  have hndB : WB.Nodup := by rw [hWB]; exact wires_nodup hd.hB
  have hlenB : WB.length = n := by rw [hWB, wires_length]
  set y := readVal WB s with hyv
  set x := readVal WT s with hxv
  have hancB : anc ∉ WB := by
    intro hmem
    obtain ⟨i, hi, he⟩ := wires_mem.mp (hWB ▸ hmem)
    exact hd.haB hi he
  have hcBm : c ∉ WB := by
    intro hmem
    obtain ⟨i, hi, he⟩ := wires_mem.mp (hWB ▸ hmem)
    exact hd.hcB hi he
  have hTBm : ∀ {i : Nat}, i < n → T i ∉ WB := by
    intro i hi hmem
    obtain ⟨j, hj, he⟩ := wires_mem.mp (hWB ▸ hmem)
    exact hd.hTB hi hj he
  intro k
  induction k with
  | zero =>
      intro _
      rw [multPartial, applyGates_nil]
      have hmod : x % 2 ^ 0 = 0 := by
        rw [pow_zero, Nat.mod_one]
      rw [hmod, Nat.mul_zero, Nat.mul_zero, Nat.add_zero, Nat.mod_eq_of_lt hy, hyv,
        writeBits_readVal_self hndB]
  | succ k ih =>
      intro hk
      rw [multPartial, applyGates_append, ih (by omega)]
      set vk := (y + (s c).toNat * (a * (x % 2 ^ k))) % N with hvk
      have hvklt : vk < N := Nat.mod_lt _ hN1
      set u := writeBits WB vk s with hu
      have huanc : u anc = false := by rw [hu, writeBits_notMem hancB, hanc]
      have huc : u c = s c := by rw [hu, writeBits_notMem hcBm]
      have huT : ∀ {i : Nat}, i < n → u (T i) = s (T i) := by
        intro i hi
        rw [hu, writeBits_notMem (hTBm hi)]
      have hurv : readVal WB u = vk := by
        rw [hu, readVal_writeBits hndB, hlenB, Nat.mod_eq_of_lt (by omega)]
      have hctr : [c, T k].all u = (s c && s (T k)) := by
        rw [show [c, T k].all u = (u c && (u (T k) && true)) from rfl, huc,
          huT (by omega), Bool.and_true]
      have ha' : a * 2 ^ k % N < N := Nat.mod_lt _ hN1
      have hbit : (x.testBit k) = s (T k) := by
        rw [hxv, hWT]
        exact readVal_wires_testBit (by omega) s
      by_cases hcase : (s c && s (T k)) = true
      · rw [carry_add_mod_spec (hd.modAdd (by omega)) hn ha' hN u
          (hctr.trans hcase) huanc (by rw [hurv]; omega), hurv, ← hWB, hu,
          writeBits_writeBits]
        obtain ⟨hc1, hc2⟩ := Bool.and_eq_true_iff.mp hcase
        have hmodeq : (vk + a * 2 ^ k % N) % N
            = (y + (s c).toNat * (a * (x % 2 ^ (k + 1)))) % N := by
          have e1 : (vk + a * 2 ^ k % N) % N = (vk + a * 2 ^ k) % N :=
            Nat.ModEq.add_left vk (Nat.mod_modEq (a * 2 ^ k) N)
          have e2 : (vk + a * 2 ^ k) % N
              = (y + (s c).toNat * (a * (x % 2 ^ k)) + a * 2 ^ k) % N := by
            rw [hvk]
            exact Nat.ModEq.add_right _ (Nat.mod_modEq _ N)
          have e3 : y + (s c).toNat * (a * (x % 2 ^ k)) + a * 2 ^ k
              = y + (s c).toNat * (a * (x % 2 ^ (k + 1))) := by
            rw [mod_two_pow_succ, hbit, hc2, hc1,
              show (true : Bool).toNat = 1 from rfl]
            ring
          rw [e1, e2, e3]
        rw [hmodeq]
      · have hcf : (s c && s (T k)) = false := Bool.eq_false_iff.mpr hcase
        rw [carry_add_mod_id (hd.modAdd (by omega)) hn ha' hN u
          (hctr.trans hcf) huanc]
        have hsame : x % 2 ^ (k + 1) = x % 2 ^ k
            ∨ (s c).toNat = 0 := by
          rcases Bool.and_eq_false_iff.mp hcf with h1 | h2
          · right
            rw [h1]
            rfl
          · left
            rw [mod_two_pow_succ, hbit, h2,
              show (false : Bool).toNat = 0 from rfl, Nat.zero_mul, Nat.zero_add]
        rcases hsame with h | h
        · rw [hu, hvk, h]
        · rw [hu, hvk, h, Nat.zero_mul, Nat.zero_mul]

/-- `c_mult_hrs(n, a, N)` with the modular inverse already resolved:
out-of-place multiply by `a`, controlled swap of the registers, forward
partial multiply by `N - a⁻¹` (NOT an inverse circuit). -/
def c_mult_hrs_g (c : Nat) (n : Nat) (T B : Nat → Nat) (anc : Nat)
    (a ainv N : Nat) : List Gate :=
  c_mult_hrs_partial_g c n T B anc a N
    ++ cswapAll c T B n
    ++ c_mult_hrs_partial_g c n T B anc (N - ainv) N

theorem readVal_wires_bitsVal (f : Nat → Nat) (s : Nat → Bool) :
    ∀ m, readVal (wires f m) s = bitsVal (fun i => s (f i)) m := by
  intro m
  induction m with
  | zero => rfl
  | succ m ih =>
      have hw : wires f (m + 1) = wires f m ++ [f m] := by
        rw [wires, wires, List.range_succ, List.map_append]
        rfl
      rw [hw, readVal_append, ih, bitsVal, wires_length,
        show readVal [f m] s = (if s (f m) then 1 else 0) + 2 * 0 from rfl]
      cases s (f m) <;> simp <;> ring


/-- Full correctness of the HRS in-place controlled multiplier on states
with cleared result register and ancilla: with control on, the top
register becomes `a * x mod N`; with control off it is the identity. -/
theorem c_mult_hrs_spec {n : Nat} {c : Nat} {T B : Nat → Nat} {anc : Nat}
    (hd : HrsMultDisj n c T B anc) (hn : 3 ≤ n) {a ainv N : Nat} (hN : N ≤ 2 ^ n)
    (hN1 : 0 < N) (hinv : a * ainv % N = 1 % N) (hainv : ainv ≤ N)
    (s : Nat → Bool) (hanc : s anc = false)
    (hx : readVal (wires T n) s < N) (hB0 : readVal (wires B n) s = 0) :
    applyGates (c_mult_hrs_g c n T B anc a ainv N) s
      = if s c = true
        then writeBits (wires T n) (a * readVal (wires T n) s % N) s
        else s := by
  set WT := wires T n with hWT
  set WB := wires B n with hWB
  set x := readVal WT s with hxv
  have hndT : WT.Nodup := by rw [hWT]; exact wires_nodup hd.hT
  have hndB : WB.Nodup := by rw [hWB]; exact wires_nodup hd.hB
  have hlenT : WT.length = n := by rw [hWT, wires_length]
  have hlenB : WB.length = n := by rw [hWB, wires_length]
  have hxlt : x < 2 ^ n := by omega
  have hTBm : ∀ {i : Nat}, i < n → T i ∉ WB := by
    intro i hi hmem
    obtain ⟨j, hj, he⟩ := wires_mem.mp (hWB ▸ hmem)
    exact hd.hTB hi hj he
  have hBTm : ∀ {i : Nat}, i < n → B i ∉ WT := by
    intro i hi hmem
    obtain ⟨j, hj, he⟩ := wires_mem.mp (hWT ▸ hmem)
    exact (hd.hTB hj hi) he.symm
  have hancT : anc ∉ WT := by
    intro hmem
    obtain ⟨j, hj, he⟩ := wires_mem.mp (hWT ▸ hmem)
    exact hd.haT hj he
  have hancB : anc ∉ WB := by
    intro hmem
    obtain ⟨j, hj, he⟩ := wires_mem.mp (hWB ▸ hmem)
    exact hd.haB hj he
  have hcT' : c ∉ WT := by
    intro hmem
    obtain ⟨j, hj, he⟩ := wires_mem.mp (hWT ▸ hmem)
    exact hd.hcT hj he
  have hcB' : c ∉ WB := by
    intro hmem
    obtain ⟨j, hj, he⟩ := wires_mem.mp (hWB ▸ hmem)
    exact hd.hcB hj he
  have hBfalse : ∀ {i : Nat}, i < n → s (B i) = false := by
    intro i hi
    have h1 : (readVal WB s).testBit i = s (B i) := by
      rw [hWB]
      exact readVal_wires_testBit hi s
    rw [← h1, hB0]
    exact Nat.zero_testBit i
  rw [c_mult_hrs_g]
  simp only [applyGates_append]
  rw [show c_mult_hrs_partial_g c n T B anc a N = multPartial c n T B anc a N n
    from rfl, multPartial_spec hd hn hN hN1 s hanc
      (show readVal (wires B n) s < N from by rw [← hWB, hB0]; exact hN1)
      n (le_refl n),
    ← hWB, hB0, ← hWT, ← hxv, Nat.mod_eq_of_lt hxlt, Nat.zero_add]
  by_cases hc : s c = true
  · rw [hc, if_pos rfl, show (true : Bool).toNat = 1 from rfl, Nat.one_mul]
    set M := a * x % N with hM
    have hMlt : M < N := Nat.mod_lt _ hN1
    set s1 := writeBits WB M s with hs1
    have hs1c : s1 c = s c := by rw [hs1, writeBits_notMem hcB']
    have hs1T : ∀ {i : Nat}, i < n → s1 (T i) = s (T i) := by
      intro i hi
      rw [hs1, writeBits_notMem (hTBm hi)]
    have hs1B : ∀ {i : Nat}, i < n → s1 (B i) = M.testBit i := by
      intro i hi
      rw [hs1, hWB]
      exact writeBits_wires_get hd.hB hi M s
    -- controlled swap of the two registers
    have e2 : applyGates (cswapAll c T B n) s1
        = writeBits WT M (writeBits WB x s) := by
      obtain ⟨cT, cB, cF⟩ := cswapAll_spec hd.hT hd.hB hd.hTB hd.hcT hd.hcB s1
      funext j
      by_cases hjT : j ∈ WT
      · obtain ⟨i, hi, rfl⟩ := wires_mem.mp (hWT ▸ hjT)
        rw [cT i hi, hs1c, hc, if_pos rfl, hs1B hi, hWT]
        rw [show writeBits (wires T n) M (writeBits WB x s) (T i) = M.testBit i from
          writeBits_wires_get hd.hT hi M _]
      · by_cases hjB : j ∈ WB
        · obtain ⟨i, hi, rfl⟩ := wires_mem.mp (hWB ▸ hjB)
          rw [cB i hi, hs1c, hc, if_pos rfl, hs1T hi,
            writeBits_notMem (hBTm hi), hWB,
            show writeBits (wires B n) x s (B i) = x.testBit i from
              writeBits_wires_get hd.hB hi x s, hxv, hWT]
          exact (readVal_wires_testBit hi s).symm
        · have hjT' : ∀ i, i < n → j ≠ T i ∧ j ≠ B i := by
            intro i hi
            constructor
            · intro he
              exact hjT (he ▸ (hWT ▸ wires_mem.mpr ⟨i, hi, rfl⟩))
            · intro he
              exact hjB (he ▸ (hWB ▸ wires_mem.mpr ⟨i, hi, rfl⟩))
          rw [cF j hjT', hs1, writeBits_notMem hjB, writeBits_notMem hjT,
            writeBits_notMem hjB]
    rw [e2]
    -- second forward partial with constant N - ainv
    set s2 := writeBits WT M (writeBits WB x s) with hs2
    have hs2anc : s2 anc = false := by
      rw [hs2, writeBits_notMem hancT, writeBits_notMem hancB, hanc]
    have hrvB2 : readVal WB s2 = x := by
      have h1 : ∀ w ∈ WB, s2 w = writeBits WB x s w := by
        intro w hw
        obtain ⟨i, hi, rfl⟩ := wires_mem.mp (hWB ▸ hw)
        rw [hs2, writeBits_notMem (hBTm hi)]
      rw [readVal_congr h1, readVal_writeBits hndB, hlenB, Nat.mod_eq_of_lt hxlt]
    have hrvT2 : readVal WT s2 = M := by
      rw [hs2, readVal_writeBits hndT, hlenT, Nat.mod_eq_of_lt (by omega)]
    have hs2c : s2 c = s c := by
      rw [hs2, writeBits_notMem hcT', writeBits_notMem hcB']
    rw [show c_mult_hrs_partial_g c n T B anc (N - ainv) N
        = multPartial c n T B anc (N - ainv) N n from rfl,
      multPartial_spec hd hn hN hN1 s2 hs2anc
        (show readVal (wires B n) s2 < N from by rw [← hWB, hrvB2]; omega)
        n (le_refl n),
      ← hWB, ← hWT, hrvB2, hrvT2, hs2c, hc, show (true : Bool).toNat = 1 from rfl,
      Nat.one_mul, Nat.mod_eq_of_lt (show M < 2 ^ n from by omega)]
    -- the accumulated bottom value is x + (N - a⁻¹)·(ax mod N) ≡ 0 mod N
    have hMeq : M ≡ a * x [MOD N] := Nat.mod_modEq _ N
    have ha1 : a * ainv ≡ 1 % N [MOD N] := by
      show a * ainv % N = (1 % N) % N
      rw [hinv, Nat.mod_mod_of_dvd _ (dvd_refl _)]
    have h2 : ainv * M ≡ x [MOD N] := by
      calc ainv * M ≡ ainv * (a * x) [MOD N] := hMeq.mul_left ainv
        _ = (a * ainv) * x := by ring
        _ ≡ (1 % N) * x [MOD N] := ha1.mul_right x
        _ ≡ 1 * x [MOD N] := (Nat.mod_modEq 1 N).mul_right x
        _ = x := one_mul x
    have h3 : ainv * M + (x + (N - ainv) * M) ≡ ainv * M + 0 [MOD N] := by
      have hdist : ainv * M + (x + (N - ainv) * M) = x + N * M := by
        have h4 : ainv * M + (N - ainv) * M = N * M := by
          rw [← Nat.add_mul]
          congr 1
          omega
        omega
      rw [hdist, Nat.add_zero]
      calc x + N * M ≡ x + 0 [MOD N] :=
            Nat.ModEq.add_left x (Nat.modEq_zero_iff_dvd.mpr ⟨M, rfl⟩)
        _ = x := Nat.add_zero x
        _ ≡ ainv * M [MOD N] := h2.symm
    have h5 : (x + (N - ainv) * M) % N = 0 := by
      have h6 := Nat.ModEq.add_left_cancel (Nat.ModEq.refl (ainv * M)) h3
      rw [show ((x + (N - ainv) * M) % N) = ((x + (N - ainv) * M) % N) from rfl, h6]
      exact Nat.zero_mod N
    rw [h5]
    -- the final state equals writing only the top register
    funext j
    by_cases hjT : j ∈ WT
    · obtain ⟨i, hi, rfl⟩ := wires_mem.mp (hWT ▸ hjT)
      rw [writeBits_notMem (hTBm hi), hs2, hWT,
        show writeBits (wires T n) M (writeBits WB x s) (T i) = M.testBit i from
          writeBits_wires_get hd.hT hi M _,
        show writeBits (wires T n) M s (T i) = M.testBit i from
          writeBits_wires_get hd.hT hi M s]
    · by_cases hjB : j ∈ WB
      · obtain ⟨i, hi, rfl⟩ := wires_mem.mp (hWB ▸ hjB)
        rw [hWB, show writeBits (wires B n) 0 s2 (B i) = (0 : Nat).testBit i from
            writeBits_wires_get hd.hB hi 0 s2, Nat.zero_testBit,
          writeBits_notMem (hBTm hi), hBfalse hi]
      · rw [writeBits_notMem hjB, hs2, writeBits_notMem hjT, writeBits_notMem hjB,
          writeBits_notMem hjT]
  · have hcf : s c = false := Bool.eq_false_iff.mpr hc
    rw [hcf, show (false : Bool).toNat = 0 from rfl, Nat.zero_mul,
      Nat.mod_eq_of_lt (show (0 : Nat) < N from hN1),
      if_neg (show ¬ (false = true) from by simp)]
    have hid1 : writeBits WB 0 s = s := by
      rw [← hB0, writeBits_readVal_self hndB]
    rw [hid1]
    have e2 : applyGates (cswapAll c T B n) s = s := by
      obtain ⟨cT, cB, cF⟩ := cswapAll_spec hd.hT hd.hB hd.hTB hd.hcT hd.hcB s
      funext j
      by_cases hjT : j ∈ WT
      · obtain ⟨i, hi, rfl⟩ := wires_mem.mp (hWT ▸ hjT)
        rw [cT i hi, hcf]
        rfl
      · by_cases hjB : j ∈ WB
        · obtain ⟨i, hi, rfl⟩ := wires_mem.mp (hWB ▸ hjB)
          rw [cB i hi, hcf]
          rfl
        · refine cF j ?_
          intro i hi
          constructor
          · intro he
            exact hjT (he ▸ (hWT ▸ wires_mem.mpr ⟨i, hi, rfl⟩))
          · intro he
            exact hjB (he ▸ (hWB ▸ wires_mem.mpr ⟨i, hi, rfl⟩))
    rw [e2]
    rw [show c_mult_hrs_partial_g c n T B anc (N - ainv) N
        = multPartial c n T B anc (N - ainv) N n from rfl,
      multPartial_spec hd hn hN hN1 s hanc
        (show readVal (wires B n) s < N from by rw [← hWB, hB0]; exact hN1)
        n (le_refl n),
      ← hWB, hB0, hcf, show (false : Bool).toNat = 0 from rfl, Nat.zero_mul,
      Nat.zero_add, Nat.mod_eq_of_lt (show (0 : Nat) < N from hN1), ← hB0,
      writeBits_readVal_self hndB]


/-- Model of Python `pow(a, -1, N)`: the least `u < N` with `a*u ≡ 1 (mod N)`
(`none` when no modular inverse exists, where Python raises `ValueError`). -/
def modInv (a N : Nat) : Option Nat :=
  (List.range N).find? fun u => decide (a * u % N = 1 % N)

theorem modInv_of_coprime {a N : Nat} (hN : 0 < N) (hcop : Nat.Coprime a N) :
    ∃ u, modInv a N = some u ∧ a * u % N = 1 % N ∧ u < N := by
  have hex : ∃ u ∈ List.range N, (fun u => decide (a * u % N = 1 % N)) u = true := by
    rcases Nat.lt_or_ge 1 N with h1 | h1
    · obtain ⟨m, hm⟩ := Nat.exists_mul_emod_eq_one_of_coprime hcop h1
      refine ⟨m % N, List.mem_range.mpr (Nat.mod_lt _ hN), ?_⟩
      have h3 : a * (m % N) % N = a * m % N :=
        Nat.ModEq.mul_left a (Nat.mod_modEq m N)
      rw [decide_eq_true_eq, h3, hm, Nat.mod_eq_of_lt h1]
    · have hN1 : N = 1 := by omega
      subst hN1
      refine ⟨0, List.mem_range.mpr Nat.zero_lt_one, ?_⟩
      simp
  have hsome : ((List.range N).find? fun u => decide (a * u % N = 1 % N)).isSome := by
    rw [List.find?_isSome]
    exact hex
  obtain ⟨u, hu⟩ := Option.isSome_iff_exists.mp hsome
  refine ⟨u, hu, ?_, ?_⟩
  · have h4 := List.find?_some hu
    simp only [decide_eq_true_eq] at h4
    exact h4
  · exact List.mem_range.mp (List.mem_of_find?_eq_some hu)

/-- Gate-list model of `mod_exp_hrs` (hrs_mod_exp.py) with explicit wiring:
`E` the top (exponent) wires, `T` the accumulator, `B` the result scratch and
`anc` the ancilla, appending `c_mult_hrs(n, a^(2^i) % N, N)` on `[top[i]] + bot`
for each `i`. -/
def mod_exp_hrs_g (n : Nat) (E T B : Nat → Nat) (anc : Nat) (a N : Nat) :
    Nat → List Gate
  | 0 => []
  | i + 1 => mod_exp_hrs_g n E T B anc a N i
      ++ c_mult_hrs_g (E i) n T B anc (a ^ 2 ^ i % N)
          ((modInv (a ^ 2 ^ i % N) N).getD 0) N

theorem coprime_pow_mod {a N : Nat} (hcop : Nat.Coprime a N) (k : Nat) :
    Nat.Coprime (a ^ 2 ^ k % N) N := by
  have h1 : Nat.Coprime (a ^ 2 ^ k) N := Nat.Coprime.pow_left _ hcop
  have h2 : Nat.gcd N (a ^ 2 ^ k) = Nat.gcd (a ^ 2 ^ k % N) N :=
    Nat.gcd_rec N (a ^ 2 ^ k)
  show Nat.gcd (a ^ 2 ^ k % N) N = 1
  rw [← h2, Nat.gcd_comm]
  exact h1

theorem mod_exp_hrs_g_spec {ntop n : Nat} {E T B : Nat → Nat} {anc : Nat}
    (hd : ∀ {i : Nat}, i < ntop → HrsMultDisj n (E i) T B anc)
    (hT : ∀ {i j : Nat}, i < n → j < n → T i = T j → i = j)
    (hn : 3 ≤ n) {a N : Nat} (hN : N ≤ 2 ^ n) (hN1 : 0 < N)
    (hcop : Nat.Coprime a N) (s : Nat → Bool) (hanc : s anc = false)
    (hy : readVal (wires T n) s < N) (hB0 : readVal (wires B n) s = 0) :
    ∀ k, k ≤ ntop → applyGates (mod_exp_hrs_g n E T B anc a N k) s
      = writeBits (wires T n)
          (readVal (wires T n) s * a ^ bitsVal (fun i => s (E i)) k % N) s := by
  set WT := wires T n with hWT
  set WB := wires B n with hWB
  set y := readVal WT s with hyv
  set cb := fun i => s (E i) with hcb
  have hndT : WT.Nodup := by rw [hWT]; exact wires_nodup hT
  have hlenT : WT.length = n := by rw [hWT, wires_length]
  intro k
  induction k with
  | zero =>
      intro _
      rw [show mod_exp_hrs_g n E T B anc a N 0 = [] from rfl,
        show applyGates [] s = s from rfl,
        show bitsVal cb 0 = 0 from rfl, pow_zero, Nat.mul_one,
        Nat.mod_eq_of_lt hy, hyv]
      exact (writeBits_readVal_self hndT s).symm
  | succ k ih =>
      intro hk1
      have hk : k < ntop := hk1
      have hdk : HrsMultDisj n (E k) T B anc := hd hk
      have hcm : Nat.Coprime (a ^ 2 ^ k % N) N := coprime_pow_mod hcop k
      obtain ⟨u, hu, huinv, hult⟩ := modInv_of_coprime hN1 hcm
      have hgetD : (modInv (a ^ 2 ^ k % N) N).getD 0 = u := by rw [hu]; rfl
      rw [show mod_exp_hrs_g n E T B anc a N (k + 1)
          = mod_exp_hrs_g n E T B anc a N k
            ++ c_mult_hrs_g (E k) n T B anc (a ^ 2 ^ k % N)
                ((modInv (a ^ 2 ^ k % N) N).getD 0) N from rfl,
        applyGates_append, ih (by omega), hgetD]
      set v := y * a ^ bitsVal cb k % N with hv
      have hvlt : v < N := Nat.mod_lt _ hN1
      set s1 := writeBits WT v s with hs1
      have hancT : anc ∉ WT := by
        intro hmem
        obtain ⟨j, hj, he⟩ := wires_mem.mp (hWT ▸ hmem)
        exact hdk.haT hj he
      have hEkT : E k ∉ WT := by
        intro hmem
        obtain ⟨j, hj, he⟩ := wires_mem.mp (hWT ▸ hmem)
        exact hdk.hcT hj he
      have hBT : ∀ {i : Nat}, i < n → B i ∉ WT := by
        intro i hi hmem
        obtain ⟨j, hj, he⟩ := wires_mem.mp (hWT ▸ hmem)
        exact hdk.hTB hj hi he.symm
      have hanc1 : s1 anc = false := by rw [hs1, writeBits_notMem hancT, hanc]
      have hrvB1 : readVal (wires B n) s1 = 0 := by
        have h1 : ∀ w ∈ WB, s1 w = s w := by
          intro w hw
          obtain ⟨i, hi, he⟩ := wires_mem.mp (hWB ▸ hw)
          rw [hs1, he, writeBits_notMem (hBT hi)]
        rw [← hWB, readVal_congr h1, ← hB0]
      have hrvT1 : readVal (wires T n) s1 = v := by
        rw [← hWT, hs1, readVal_writeBits hndT, hlenT,
          Nat.mod_eq_of_lt (show v < 2 ^ n from by omega)]
      have hx1 : readVal (wires T n) s1 < N := by rw [hrvT1]; exact hvlt
      rw [c_mult_hrs_spec hdk hn hN hN1 huinv (by omega) s1 hanc1 hx1 hrvB1,
        hrvT1, show s1 (E k) = s (E k) from by
          rw [hs1, writeBits_notMem hEkT]]
      have hcbk : cb k = s (E k) := rfl
      by_cases hEk : s (E k) = true
      · rw [if_pos hEk, ← hWT, hs1, writeBits_writeBits]
        have h1 : a ^ 2 ^ k % N * v % N = a ^ 2 ^ k * (y * a ^ bitsVal cb k) % N :=
          Nat.ModEq.mul (Nat.mod_modEq _ N) (Nat.mod_modEq _ N)
        rw [h1, show a ^ 2 ^ k * (y * a ^ bitsVal cb k)
            = y * a ^ (2 ^ k + bitsVal cb k) from by rw [pow_add]; ring,
          show bitsVal cb (k + 1) = (cb k).toNat * 2 ^ k + bitsVal cb k from rfl,
          hcbk, hEk, show (true : Bool).toNat = 1 from rfl, Nat.one_mul]
      · have hEkf : s (E k) = false := Bool.eq_false_iff.mpr hEk
        rw [if_neg (by rw [hEkf]; simp), hs1, hv,
          show bitsVal cb (k + 1) = (cb k).toNat * 2 ^ k + bitsVal cb k from rfl,
          hcbk, hEkf, show (false : Bool).toNat = 0 from rfl, Nat.zero_mul,
          Nat.zero_add]

/-! ### Well-formedness of the constructed HRS gate lists
Every gate a constructor emits has distinct control and target wires
(under the constructor's disjointness assumptions), so by
`applyGates_invGates` each constructed circuit followed by its generated
inverse is the identity. -/

theorem mem_invGates {gs : List Gate} {g : Gate} : g ∈ invGates gs ↔ g ∈ gs :=
  List.mem_reverse

theorem xAll_wf (W : Nat → Nat) : ∀ k, ∀ g ∈ xAll W k, g.wf := by
  intro k
  induction k with
  | zero => intro g hg; cases hg
  | succ k ih =>
      intro g hg
      rw [xAll] at hg
      rcases List.mem_append.mp hg with h | h
      · exact ih g h
      · rcases List.mem_singleton.mp h with rfl
        trivial

theorem cxAll_wf {c : Nat} {W : Nat → Nat} : ∀ {k : Nat},
    (∀ {i : Nat}, i < k → c ≠ W i) → ∀ g ∈ cxAll c W k, g.wf := by
  intro k
  induction k with
  | zero => intro _ g hg; cases hg
  | succ k ih =>
      intro hcW g hg
      rw [cxAll] at hg
      rcases List.mem_append.mp hg with h | h
      · exact ih (fun hi => hcW (by omega)) g h
      · rcases List.mem_singleton.mp h with rfl
        exact hcW (by omega)

theorem cswapAll_wf {c : Nat} {T B : Nat → Nat} : ∀ {k : Nat},
    (∀ {i : Nat}, i < k → c ≠ T i) → (∀ {i : Nat}, i < k → c ≠ B i) →
    ∀ g ∈ cswapAll c T B k, g.wf := by
  intro k
  induction k with
  | zero => intro _ _ g hg; cases hg
  | succ k ih =>
      intro hcT hcB g hg
      rw [cswapAll] at hg
      rcases List.mem_append.mp hg with h | h
      · exact ih (fun hi => hcT (by omega)) (fun hi => hcB (by omega)) g h
      · rcases List.mem_singleton.mp h with rfl
        exact ⟨hcT (by omega), hcB (by omega)⟩

theorem cinc_wf {n ctrl : Nat} {X Bw : Nat → Nat} (hd : CincDisj n ctrl X Bw) :
    ∀ g ∈ cinc n ctrl X Bw, g.wf := by
  have hT := cincL_ttkdisj hd
  intro g hg
  rw [cinc] at hg
  rcases List.mem_append.mp hg with hg1 | h
  · rcases List.mem_append.mp hg1 with hg2 | h2
    · rcases List.mem_append.mp hg2 with hg3 | h3
      · rcases List.mem_append.mp hg3 with h4 | h4
        · exact adder_ttk_wf hT g (mem_invGates.mp h4)
        · exact xAll_wf Bw (n + 1) g h4
      · exact adder_ttk_wf hT g (mem_invGates.mp h3)
    · exact xAll_wf Bw (n + 1) g h2
  · rcases List.mem_singleton.mp h with rfl
    trivial

theorem carry_gate_gen_wf {n : Nat} {ctrls : List Nat} {a gact : Nat → Nat}
    (hd : CarryDisj n ctrls a gact) (hn : 3 ≤ n) (cb : Nat → Bool) :
    ∀ g ∈ carry_gate_gen ctrls n a gact cb, g.wf := by
  have hwf2 : ∀ g ∈ carryP2 a (CarryDisj.g a gact) cb (n - 2), g.wf :=
    carryP2_wf hd hn (le_refl _)
  have hwf3 : ∀ g ∈ carryP3 a (CarryDisj.g a gact) (n - 2), g.wf :=
    carryP3_wf hd hn (le_refl _)
  have hgval : CarryDisj.g a gact (n - 2) = gact (n - 2 - 1) := by
    rw [CarryDisj.g]
    exact if_neg (by omega)
  have hmct : (Gate.mct (ctrls ++ [CarryDisj.g a gact (n - 2)]) (a (n - 1))).wf := by
    show a (n - 1) ∉ ctrls ++ [CarryDisj.g a gact (n - 2)]
    intro hmem
    rcases List.mem_append.mp hmem with h | h
    · exact hd.hca _ h (show n - 1 < n from by omega) rfl
    · have he := List.mem_singleton.mp h
      rw [hgval] at he
      exact hd.hag (show n - 1 < n from by omega)
        (show n - 2 - 1 < n - 2 from by omega) he
  have hmct2 : (Gate.mct ctrls (a (n - 1))).wf := by
    show a (n - 1) ∉ ctrls
    intro hmem
    exact hd.hca _ hmem (show n - 1 < n from by omega) rfl
  intro g hg
  simp only [carry_gate_gen] at hg
  rcases List.mem_append.mp hg with hg1 | h
  · rcases List.mem_append.mp hg1 with hg2 | h
    · rcases List.mem_append.mp hg2 with hg3 | h
      · rcases List.mem_append.mp hg3 with hg4 | h
        · rcases List.mem_append.mp hg4 with hg5 | h
          · rcases List.mem_append.mp hg5 with h | h
            · rcases List.mem_singleton.mp h with rfl
              exact hmct
            · exact hwf2 g h
          · exact hwf3 g h
        · rcases List.mem_singleton.mp h with rfl
          exact hmct
      · by_cases hcb : cb (n - 1)
        · rw [if_pos hcb] at h
          rcases List.mem_singleton.mp h with rfl
          exact hmct2
        · rw [if_neg hcb] at h
          cases h
    · exact hwf3 g (List.mem_reverse.mp h)
  · exact hwf2 g (List.mem_reverse.mp h)

/-- The incrementer wiring inside the recursive adder step satisfies the
incrementer's disjointness contract. -/
theorem dncIncDisj {m : Nat} {X : Nat → Nat} {ob ctrl bex : Nat}
    (hd : DncDisj (m + 3) X ob ctrl bex) :
    CincDisj (m + 3 - dncLow (m + 3)) ob (fun i => X (dncLow (m + 3) + i))
      (fun i => if i < dncLow (m + 3) then X i else bex) := by
  set nl := dncLow (m + 3) with hnldef
  have hnlv : nl = (m + 3 + 1) / 2 := hnldef
  have hnl2 : 2 ≤ nl := by omega
  set nh := m + 3 - nl with hnhdef
  have hnh1 : 1 ≤ nh := by omega
  have hnhnl : nh ≤ nl := by omega
  refine ⟨?_, ?_, ?_, ?_, ?_⟩
  · intro i j hi hj he
    have := hd.hX (i := nl + i) (j := nl + j) (by omega) (by omega) he
    omega
  · intro i j hi hj he
    by_cases hi' : i < nl <;> by_cases hj' : j < nl
    · rw [show (if i < nl then X i else bex) = X i from if_pos hi',
        show (if j < nl then X j else bex) = X j from if_pos hj'] at he
      exact hd.hX (by omega) (by omega) he
    · rw [show (if i < nl then X i else bex) = X i from if_pos hi',
        show (if j < nl then X j else bex) = bex from if_neg hj'] at he
      exact absurd he.symm (hd.hbex (by omega))
    · rw [show (if i < nl then X i else bex) = bex from if_neg hi',
        show (if j < nl then X j else bex) = X j from if_pos hj'] at he
      exact absurd he (hd.hbex (by omega))
    · omega
  · intro i j hi hj
    by_cases hj' : j < nl
    · rw [show (if j < nl then X j else bex) = X j from if_pos hj']
      intro he
      have := hd.hX (i := nl + i) (j := j) (by omega) (by omega) he
      omega
    · rw [show (if j < nl then X j else bex) = bex from if_neg hj']
      exact fun he => hd.hbex (i := nl + i) (by omega) he.symm
  · intro i hi
    exact hd.hob (by omega)
  · intro j hj
    by_cases hj' : j < nl
    · rw [show (if j < nl then X j else bex) = X j from if_pos hj']
      exact hd.hob (by omega)
    · rw [show (if j < nl then X j else bex) = bex from if_neg hj']
      exact hd.hob2

/-- The carry-gate wiring inside the recursive adder step satisfies the
carry gate's disjointness contract. -/
theorem dncCarryDisj {m : Nat} {X : Nat → Nat} {ob ctrl bex : Nat}
    (hd : DncDisj (m + 3) X ob ctrl bex) :
    CarryDisj (dncLow (m + 3) + 1) [ctrl]
      (fun i => if i < dncLow (m + 3) then X i else ob)
      (fun j => X (dncLow (m + 3) + j)) := by
  set nl := dncLow (m + 3) with hnldef
  have hnlv : nl = (m + 3 + 1) / 2 := hnldef
  have hnl2 : 2 ≤ nl := by omega
  refine ⟨?_, ?_, ?_, ?_, ?_⟩
  · intro i j hi hj he
    by_cases hi' : i < nl <;> by_cases hj' : j < nl
    · rw [show (if i < nl then X i else ob) = X i from if_pos hi',
        show (if j < nl then X j else ob) = X j from if_pos hj'] at he
      exact hd.hX (by omega) (by omega) he
    · rw [show (if i < nl then X i else ob) = X i from if_pos hi',
        show (if j < nl then X j else ob) = ob from if_neg hj'] at he
      exact absurd he.symm (hd.hob (by omega))
    · rw [show (if i < nl then X i else ob) = ob from if_neg hi',
        show (if j < nl then X j else ob) = X j from if_pos hj'] at he
      exact absurd he (hd.hob (by omega))
    · omega
  · intro i j hi hj he
    have := hd.hX (i := nl + i) (j := nl + j) (by omega) (by omega) he
    omega
  · intro i j hi hj
    by_cases hi' : i < nl
    · rw [show (if i < nl then X i else ob) = X i from if_pos hi']
      intro he
      have := hd.hX (i := i) (j := nl + j) (by omega) (by omega) he
      omega
    · rw [show (if i < nl then X i else ob) = ob from if_neg hi']
      exact hd.hob (by omega)
  · intro u hu i hi
    rcases List.mem_singleton.mp hu with rfl
    by_cases hi' : i < nl
    · rw [show (if i < nl then X i else ob) = X i from if_pos hi']
      exact hd.hctrl (by omega)
    · rw [show (if i < nl then X i else ob) = ob from if_neg hi']
      exact hd.hco
  · intro u hu j hj
    rcases List.mem_singleton.mp hu with rfl
    exact hd.hctrl (by omega)

theorem dncAdder_wf {ctrl bex : Nat} : ∀ (n : Nat) (X : Nat → Nat) (ob : Nat)
    (cb : Nat → Bool), DncDisj n X ob ctrl bex →
    ∀ g ∈ dncAdder ctrl bex n X ob cb, g.wf := by
  intro n
  induction n using Nat.strong_induction_on with
  | _ n ih =>
    rcases Nat.lt_or_ge n 3 with h3 | h3
    · interval_cases n
      · intro X ob cb hd g hg
        simp only [dncAdder] at hg
        cases hg
      · intro X ob cb hd g hg
        simp only [dncAdder] at hg
        by_cases hcb : cb 0
        · rw [if_pos hcb] at hg
          rcases List.mem_singleton.mp hg with rfl
          exact hd.hctrl (by omega)
        · rw [if_neg hcb] at hg
          cases hg
      · intro X ob cb hd g hg
        simp only [dncAdder] at hg
        have h01 : X 0 ≠ X 1 := fun he => absurd (hd.hX (by omega) (by omega) he) (by omega)
        rcases List.mem_append.mp hg with hg' | hg
        · rcases List.mem_append.mp hg' with h | h
          · by_cases hcb : cb 0
            · rw [if_pos hcb] at h
              rcases List.mem_singleton.mp h with rfl
              exact ⟨hd.hctrl (by omega), h01⟩
            · rw [if_neg hcb] at h
              cases h
          · by_cases hcb : cb 0
            · rw [if_pos hcb] at h
              rcases List.mem_singleton.mp h with rfl
              exact hd.hctrl (by omega)
            · rw [if_neg hcb] at h
              cases h
        · by_cases hcb : cb 1
          · rw [if_pos hcb] at hg
            rcases List.mem_singleton.mp hg with rfl
            exact hd.hctrl (by omega)
          · rw [if_neg hcb] at hg
            cases hg
    · obtain ⟨m, rfl⟩ : ∃ m, n = m + 3 := ⟨n - 3, by omega⟩
      intro X ob cb hd g hg
      have hlow : dncLow (m + 3) < m + 3 := by unfold dncLow; omega
      have hnl2 : 2 ≤ dncLow (m + 3) := by unfold dncLow; omega
      have hIncWf : ∀ g ∈ dncInc bex (m + 3) X ob, g.wf := by
        intro g hg
        rw [dncInc] at hg
        exact cinc_wf (dncIncDisj hd) g hg
      have hCxWf : ∀ g ∈ cxAll ob (fun i => X (dncLow (m + 3) + i))
          (m + 3 - dncLow (m + 3)), g.wf :=
        cxAll_wf fun hi => hd.hob (by omega)
      have hCarryWf : ∀ g ∈ dncCarry ctrl (m + 3) X ob cb, g.wf := by
        intro g hg
        rw [dncCarry] at hg
        exact carry_gate_gen_wf (dncCarryDisj hd) (by omega) _ g hg
      simp only [dncAdder] at hg
      have hhigh : m + 3 - dncLow (m + 3) < m + 3 := by unfold dncLow; omega
      have hdl : DncDisj (dncLow (m + 3)) X ob ctrl bex :=
        ⟨fun hi hj he => hd.hX (by omega) (by omega) he,
          fun hi => hd.hob (by omega), fun hi => hd.hctrl (by omega),
          fun hi => hd.hbex (by omega), hd.hco, hd.hcb, hd.hob2⟩
      have hdh : DncDisj (m + 3 - dncLow (m + 3)) (fun i => X (dncLow (m + 3) + i))
          ob ctrl bex :=
        ⟨fun hi hj he => by
            have := hd.hX (by omega) (by omega) he
            omega,
          fun hi => hd.hob (by omega), fun hi => hd.hctrl (by omega),
          fun hi => hd.hbex (by omega), hd.hco, hd.hcb, hd.hob2⟩
      rcases List.mem_append.mp hg with hg1 | h
      rotate_left
      · exact ih (m + 3 - dncLow (m + 3)) hhigh _ ob _ hdh g h
      rcases List.mem_append.mp hg1 with hg2 | h
      rotate_left
      · exact ih (dncLow (m + 3)) hlow X ob cb hdl g h
      rcases List.mem_append.mp hg2 with hg3 | h
      rotate_left
      · exact hCxWf g h
      rcases List.mem_append.mp hg3 with hg4 | h
      rotate_left
      · exact hCarryWf g h
      rcases List.mem_append.mp hg4 with hg5 | h
      rotate_left
      · exact hIncWf g h
      rcases List.mem_append.mp hg5 with hg6 | h
      rotate_left
      · exact hCarryWf g h
      rcases List.mem_append.mp hg6 with h | h
      · exact hIncWf g h
      · exact hCxWf g h


theorem comp_gen_wf {n : Nat} {ctrls : List Nat} {B G : Nat → Nat} {msb : Nat}
    (hd : HrsModDisj n ctrls B G msb) (hn : 3 ≤ n) (v : Int) :
    ∀ g ∈ comp_gen ctrls n B G msb v, g.wf := by
  intro g hg
  rw [comp_gen] at hg
  exact carry_gate_gen_wf hd.comp (by omega) _ g hg

theorem carry_add_mod_gen_wf {n : Nat} {ctrls : List Nat} {B G : Nat → Nat}
    {msb : Nat} (hd : HrsModDisj n ctrls B G msb) (hn : 3 ≤ n) (a N : Nat) :
    ∀ g ∈ carry_add_mod_gen ctrls n B G msb a N, g.wf := by
  have hdAdd := hd.add hn
  have hAdd1 : ∀ g ∈ c_adder_hrs2_w msb (G 1) n B (G 0) (a : Int), g.wf := by
    intro g hg
    rw [c_adder_hrs2_w] at hg
    exact dncAdder_wf n B (G 0) _ hdAdd g hg
  have hAdd2 : ∀ g ∈ c_adder_hrs2_w msb (G 1) n B (G 0) ((a : Int) - (N : Int)),
      g.wf := by
    intro g hg
    rw [c_adder_hrs2_w] at hg
    exact dncAdder_wf n B (G 0) _ hdAdd g hg
  intro g hg
  rw [carry_add_mod_gen] at hg
  rcases List.mem_append.mp hg with hg1 | h
  rotate_left
  · exact comp_gen_wf hd hn _ g h
  rcases List.mem_append.mp hg1 with hg2 | h
  rotate_left
  · exact hAdd2 g h
  rcases List.mem_append.mp hg2 with hg3 | h
  rotate_left
  · rcases List.mem_singleton.mp h with rfl
    show msb ∉ ctrls
    intro hmem
    exact hd.hcm _ hmem rfl
  rcases List.mem_append.mp hg3 with h | h
  · exact comp_gen_wf hd hn _ g h
  · exact hAdd1 g h

theorem multPartial_wf {n : Nat} {c : Nat} {T B : Nat → Nat} {anc : Nat}
    (hd : HrsMultDisj n c T B anc) (hn : 3 ≤ n) (a N : Nat) :
    ∀ k, k ≤ n → ∀ g ∈ multPartial c n T B anc a N k, g.wf := by
  intro k
  induction k with
  | zero => intro _ g hg; cases hg
  | succ k ih =>
      intro hk g hg
      rw [multPartial] at hg
      rcases List.mem_append.mp hg with h | h
      · exact ih (by omega) g h
      · exact carry_add_mod_gen_wf (hd.modAdd (by omega)) hn _ _ g h

theorem c_mult_hrs_g_wf {n : Nat} {c : Nat} {T B : Nat → Nat} {anc : Nat}
    (hd : HrsMultDisj n c T B anc) (hn : 3 ≤ n) (a ainv N : Nat) :
    ∀ g ∈ c_mult_hrs_g c n T B anc a ainv N, g.wf := by
  intro g hg
  rw [c_mult_hrs_g] at hg
  rcases List.mem_append.mp hg with hg1 | h
  rotate_left
  · exact multPartial_wf hd hn _ _ n (le_refl n) g h
  rcases List.mem_append.mp hg1 with h | h
  · exact multPartial_wf hd hn _ _ n (le_refl n) g h
  · exact cswapAll_wf (fun hi => hd.hcT hi) (fun hi => hd.hcB hi) g h

theorem mod_exp_hrs_g_wf {ntop n : Nat} {E T B : Nat → Nat} {anc : Nat}
    (hd : ∀ {i : Nat}, i < ntop → HrsMultDisj n (E i) T B anc) (hn : 3 ≤ n)
    (a N : Nat) : ∀ k, k ≤ ntop → ∀ g ∈ mod_exp_hrs_g n E T B anc a N k, g.wf := by
  intro k
  induction k with
  | zero => intro _ g hg; cases hg
  | succ k ih =>
      intro hk g hg
      rw [mod_exp_hrs_g] at hg
      rcases List.mem_append.mp hg with h | h
      · exact ih (by omega) g h
      · exact c_mult_hrs_g_wf (hd (by omega)) hn _ _ _ g h

/-- `mod_exp_hrs(ntop, nbot, a, N)` on its flat wiring: the top (exponent)
register at cells `0..ntop-1`, then `bot` = `2*nbot+1` cells: the
accumulator at `ntop..ntop+nbot-1`, the result scratch register at
`ntop+nbot..ntop+2*nbot-1` and the ancilla at `ntop+2*nbot`. -/
def mod_exp_hrs (ntop nbot a N : Nat) : List Gate :=
  mod_exp_hrs_g nbot (fun i => i) (fun j => ntop + j) (fun j => ntop + nbot + j)
    (ntop + 2 * nbot) a N ntop

theorem mod_exp_hrs_disj (ntop nbot : Nat) : ∀ {i : Nat}, i < ntop →
    HrsMultDisj nbot i (fun j => ntop + j) (fun j => ntop + nbot + j)
      (ntop + 2 * nbot) := by
  intro i hi
  refine ⟨?_, ?_, ?_, ?_, ?_, ?_, ?_, ?_⟩ <;> (intros; omega)

theorem mod_exp_hrs_wf {ntop nbot : Nat} (hn : 3 ≤ nbot) (a N : Nat) :
    ∀ g ∈ mod_exp_hrs ntop nbot a N, g.wf := by
  intro g hg
  rw [mod_exp_hrs] at hg
  exact mod_exp_hrs_g_wf (fun hi => mod_exp_hrs_disj ntop nbot hi) hn a N ntop
    (le_refl ntop) g hg

theorem bitsVal_congr {cb cb' : Nat → Bool} : ∀ {k : Nat},
    (∀ i, i < k → cb i = cb' i) → bitsVal cb k = bitsVal cb' k := by
  intro k
  induction k with
  | zero => intro _; rfl
  | succ k ih =>
      intro h
      rw [bitsVal, bitsVal, h k (by omega), ih fun i hi => h i (by omega)]

theorem bitsVal_false : ∀ k : Nat, bitsVal (fun _ => false) k = 0 := by
  intro k
  induction k with
  | zero => rfl
  | succ k ih =>
      rw [bitsVal, ih, show (false : Bool).toNat = 0 from rfl, Nat.zero_mul,
        Nat.zero_add]

/-- The computational-basis start state of the exponentiation tower on its
flat wiring: exponent `x` in the top register, accumulator `y`, result
scratch and ancilla zero. -/
def expState (ntop nbot x y : Nat) : Nat → Bool :=
  fun w => if w < ntop then x.testBit w
    else if w < ntop + nbot then y.testBit (w - ntop) else false

theorem mod_exp_hrs_val {ntop nbot a N x y : Nat} (hn : 3 ≤ nbot)
    (hN : N ≤ 2 ^ nbot) (hN1 : 0 < N) (hcop : Nat.Coprime a N)
    (hx : x < 2 ^ ntop) (hy : y < N) :
    applyGates (mod_exp_hrs ntop nbot a N) (expState ntop nbot x y)
      = writeBits (wires (fun j => ntop + j) nbot) (y * a ^ x % N)
          (expState ntop nbot x y) := by
  set s := expState ntop nbot x y with hs
  have hsv : ∀ w, s w = if w < ntop then x.testBit w
      else if w < ntop + nbot then y.testBit (w - ntop) else false := fun w => rfl
  have hanc : s (ntop + 2 * nbot) = false := by
    rw [hsv, if_neg (by omega), if_neg (by omega)]
  have hrvT : readVal (wires (fun j => ntop + j) nbot) s = y := by
    have h1 : bitsVal (fun i => s (ntop + i)) nbot
        = bitsVal (fun i => y.testBit i) nbot :=
      bitsVal_congr (fun i hi => by
        rw [hsv, if_neg (by omega), if_pos (by omega), Nat.add_sub_cancel_left])
    rw [readVal_wires_bitsVal, h1, bitsVal_eq_mod, Nat.mod_eq_of_lt (by omega)]
  have hrvB : readVal (wires (fun j => ntop + nbot + j) nbot) s = 0 := by
    have h2 : bitsVal (fun i => s (ntop + nbot + i)) nbot
        = bitsVal (fun _ => false) nbot :=
      bitsVal_congr (fun i hi => by
        rw [hsv, if_neg (by omega), if_neg (by omega)])
    rw [readVal_wires_bitsVal, h2, bitsVal_false]
  have hbx : bitsVal (fun i => s i) ntop = x := by
    have h3 : bitsVal (fun i => s i) ntop = bitsVal (fun i => x.testBit i) ntop :=
      bitsVal_congr (fun i hi => by
        rw [hsv, if_pos (by omega)])
    rw [h3, bitsVal_eq_mod, Nat.mod_eq_of_lt hx]
  rw [mod_exp_hrs,
    mod_exp_hrs_g_spec (fun hi => mod_exp_hrs_disj ntop nbot hi)
      (by intro i j hi hj he; omega) hn hN hN1 hcop s hanc
      (by rw [hrvT]; exact hy) hrvB ntop (le_refl ntop),
    hrvT, hbx]

/-! ### The Beauregard backend, at value level
A width-`w` Fourier register holds a value in `[0, 2^w)`; the Draper
adders act on that value modulo `2^w` (see the module comment). -/

/-- Value semantics of `phi_add_builtin(n, b, factor)` (draper_add.py), and
of `phi_addition_controlled`/`phi_addition_cc` with all controls satisfied:
the held value gains `factor * b` modulo `2^n`. -/
def phi_add_v (n : Nat) (b factor : Int) (v : Nat) : Nat :=
  ((v + factor * b).emod ((2 : Int) ^ n)).toNat

theorem natCast_emod_pow_toNat (x n : Nat) :
    ((x : Int).emod ((2 : Int) ^ n)).toNat = x % 2 ^ n := by
  have hc : (2 : Int) ^ n = ((2 ^ n : Nat) : Int) := by push_cast; ring
  have h0 : (x : Int).emod ((2 ^ n : Nat) : Int) = ((x % 2 ^ n : Nat) : Int) := by
    have h1 : ((x % 2 ^ n : Nat) : Int) = (x : Int) % ((2 ^ n : Nat) : Int) := by
      push_cast
      ring
    rw [h1]
    rfl
  rw [hc, h0]
  exact Int.toNat_natCast _

theorem phi_add_v_lt (n : Nat) (b factor : Int) (v : Nat) :
    phi_add_v n b factor v < 2 ^ n := by
  have hpos : (0 : Int) < (2 : Int) ^ n := by positivity
  have h1 : 0 ≤ ((v : Int) + factor * b).emod ((2 : Int) ^ n) :=
    Int.emod_nonneg _ (by omega)
  have h2 : ((v : Int) + factor * b).emod ((2 : Int) ^ n) < (2 : Int) ^ n :=
    Int.emod_lt_of_pos _ hpos
  have hc : (2 : Int) ^ n = ((2 ^ n : Nat) : Int) := by push_cast; ring
  rw [phi_add_v]
  refine (Int.toNat_lt h1).mpr ?_
  rw [← hc]
  exact h2

theorem phi_add_v_one (n : Nat) (b v : Nat) :
    phi_add_v n (b : Int) 1 v = (v + b) % 2 ^ n := by
  rw [phi_add_v, one_mul, show (v : Int) + (b : Int) = ((v + b : Nat) : Int) from by
    push_cast; ring]
  exact natCast_emod_pow_toNat _ n

theorem phi_add_v_neg (n : Nat) {b : Nat} (v : Nat) (hb : b ≤ 2 ^ n) :
    phi_add_v n (b : Int) (-1) v = (v + (2 ^ n - b)) % 2 ^ n := by
  have h1 : (v : Int) + (-1) * b
      = ((v + (2 ^ n - b) : Nat) : Int) + ((2 : Int) ^ n) * (-1) := by
    push_cast [hb]
    ring
  rw [phi_add_v, h1]
  have hconv : (((v + (2 ^ n - b) : Nat) : Int) + (2 : Int) ^ n * (-1)).emod
        ((2 : Int) ^ n)
      = (((v + (2 ^ n - b) : Nat) : Int) + (2 : Int) ^ n * (-1)) % ((2 : Int) ^ n) :=
    rfl
  rw [hconv, Int.add_mul_emod_self_left]
  exact natCast_emod_pow_toNat _ n

/-- The top bit of a width-`n` register value reads its half-range flag. -/
theorem testBit_msb {n w : Nat} (hn : 1 ≤ n) (hw : w < 2 ^ n) :
    w.testBit (n - 1) = decide (2 ^ (n - 1) ≤ w) := by
  have h2 : 2 ^ n = 2 * 2 ^ (n - 1) := by
    rw [← pow_succ']
    congr 1
    omega
  rw [Nat.testBit_to_div_mod]
  by_cases h : 2 ^ (n - 1) ≤ w
  · rw [show w / 2 ^ (n - 1) = 1 from Nat.div_eq_of_lt_le (by omega) (by omega)]
    simp [h]
  · rw [show w / 2 ^ (n - 1) = 0 from Nat.div_eq_of_lt (by omega)]
    simp [h]

/-- Value-level `phi_add_mod_N(n, y, N)` (brg_mod_add.py): add `y`,
subtract `N`, read the top bit into the ancilla, conditionally add `N`
back, subtract `y`, recompute the (flipped) top bit into the ancilla,
add `y` again. -/
def phi_add_mod_N (n y N : Nat) (v : Nat) (aux : Bool) : Nat × Bool :=
  let v1 := phi_add_v n (y : Int) 1 v
  let v2 := phi_add_v n (N : Int) (-1) v1
  let aux1 := xor aux (v2.testBit (n - 1))
  let v3 := if aux1 then phi_add_v n (N : Int) 1 v2 else v2
  let v4 := phi_add_v n (y : Int) (-1) v3
  let aux2 := xor aux1 (!(v4.testBit (n - 1)))
  let v5 := phi_add_v n (y : Int) 1 v4
  (v5, aux2)

/-- Value-level `phi_add_mod_N_cc(n, y, N)` (brg_mod_add.py): the same
sequence with the three `y`-additions doubly controlled; the `N`
operations and the ancilla extractions are unconditional. -/
def phi_add_mod_N_cc (n y N : Nat) (c1 c2 : Bool) (v : Nat) (aux : Bool) :
    Nat × Bool :=
  let cc := c1 && c2
  let v1 := if cc then phi_add_v n (y : Int) 1 v else v
  let v2 := phi_add_v n (N : Int) (-1) v1
  let aux1 := xor aux (v2.testBit (n - 1))
  let v3 := if aux1 then phi_add_v n (N : Int) 1 v2 else v2
  let v4 := if cc then phi_add_v n (y : Int) (-1) v3 else v3
  let aux2 := xor aux1 (!(v4.testBit (n - 1)))
  let v5 := if cc then phi_add_v n (y : Int) 1 v4 else v4
  (v5, aux2)

/-- The explicitly written companion of `phi_add_mod_N_cc.inverse()`: the
reversed sequence of inverted steps (each Fourier addition with its factor
negated, each ancilla extraction unchanged). -/
def phi_add_mod_N_cc_inv (n y N : Nat) (c1 c2 : Bool) (v : Nat) (aux : Bool) :
    Nat × Bool :=
  let cc := c1 && c2
  let w4 := if cc then phi_add_v n (y : Int) (-1) v else v
  let aux1 := xor aux (!(w4.testBit (n - 1)))
  let w3 := if cc then phi_add_v n (y : Int) 1 w4 else w4
  let w2 := if aux1 then phi_add_v n (N : Int) (-1) w3 else w3
  let aux0 := xor aux1 (w2.testBit (n - 1))
  let w1 := phi_add_v n (N : Int) 1 w2
  let w0 := if cc then phi_add_v n (y : Int) (-1) w1 else w1
  (w0, aux0)

theorem phi_add_v_sub_add (n : Nat) (b : Int) {v : Nat} (hv : v < 2 ^ n) :
    phi_add_v n b (-1) (phi_add_v n b 1 v) = v := by
  have h1 : 0 ≤ ((v : Int) + 1 * b).emod ((2 : Int) ^ n) :=
    Int.emod_nonneg _ (by positivity)
  rw [phi_add_v, phi_add_v, Int.toNat_of_nonneg h1]
  have h3 : ((v : Int) + 1 * b).emod ((2 : Int) ^ n) % ((2 : Int) ^ n)
      = ((v : Int) + 1 * b) % ((2 : Int) ^ n) := Int.emod_emod_of_dvd _ (dvd_refl _)
  have h2 : (((v : Int) + 1 * b).emod ((2 : Int) ^ n) + (-1) * b).emod ((2 : Int) ^ n)
      = ((v : Int) + 1 * b + (-1) * b).emod ((2 : Int) ^ n) :=
    Int.ModEq.add_right _ h3
  rw [h2, show (v : Int) + 1 * b + (-1) * b = ((v : Nat) : Int) from by ring,
    natCast_emod_pow_toNat, Nat.mod_eq_of_lt hv]

theorem phi_add_v_add_sub (n : Nat) (b : Int) {v : Nat} (hv : v < 2 ^ n) :
    phi_add_v n b 1 (phi_add_v n b (-1) v) = v := by
  have h1 : 0 ≤ ((v : Int) + (-1) * b).emod ((2 : Int) ^ n) :=
    Int.emod_nonneg _ (by positivity)
  rw [phi_add_v, phi_add_v, Int.toNat_of_nonneg h1]
  have h3 : ((v : Int) + (-1) * b).emod ((2 : Int) ^ n) % ((2 : Int) ^ n)
      = ((v : Int) + (-1) * b) % ((2 : Int) ^ n) := Int.emod_emod_of_dvd _ (dvd_refl _)
  have h2 : (((v : Int) + (-1) * b).emod ((2 : Int) ^ n) + 1 * b).emod ((2 : Int) ^ n)
      = ((v : Int) + (-1) * b + 1 * b).emod ((2 : Int) ^ n) :=
    Int.ModEq.add_right _ h3
  rw [h2, show (v : Int) + (-1) * b + 1 * b = ((v : Nat) : Int) from by ring,
    natCast_emod_pow_toNat, Nat.mod_eq_of_lt hv]

theorem phi_add_mod_N_cc_true {n y N : Nat} {c1 c2 : Bool} (h : (c1 && c2) = true)
    (v : Nat) (aux : Bool) :
    phi_add_mod_N_cc n y N c1 c2 v aux = phi_add_mod_N n y N v aux := by
  simp only [phi_add_mod_N_cc, phi_add_mod_N, h]
  simp

/-- Core correctness of the Beauregard modular adder (C2): on a register
value below `N` with the ancilla clear, it lands on `(a+y) mod N` and the
ancilla returns to `0`. -/
theorem phi_add_mod_N_val {n y N a : Nat} (hN1 : 0 < N) (hy : y < N)
    (hn : Nat.clog 2 N + 1 ≤ n) (ha : a < N) :
    phi_add_mod_N n y N a false = ((a + y) % N, false) := by
  have hclog : N ≤ 2 ^ Nat.clog 2 N := Nat.le_pow_clog (by omega) N
  have hNle : N ≤ 2 ^ (n - 1) :=
    le_trans hclog (Nat.pow_le_pow_right (by omega) (by omega))
  have hn1 : 1 ≤ n := by omega
  have h2n : 2 ^ n = 2 * 2 ^ (n - 1) := by
    rw [← pow_succ']
    congr 1
    omega
  simp only [phi_add_mod_N]
  have e1 : phi_add_v n (y : Int) 1 a = a + y := by
    rw [phi_add_v_one, Nat.mod_eq_of_lt (by omega)]
  rw [e1]
  by_cases hlt : a + y < N
  · have e2 : phi_add_v n (N : Int) (-1) (a + y) = a + y + (2 ^ n - N) := by
      rw [phi_add_v_neg n (a + y) (show N ≤ 2 ^ n from by omega),
        Nat.mod_eq_of_lt (by omega)]
    rw [e2]
    have m2 : (a + y + (2 ^ n - N)).testBit (n - 1) = true := by
      rw [testBit_msb hn1 (by omega)]
      exact decide_eq_true (by omega)
    rw [m2, show xor false true = true from rfl, if_pos rfl]
    have e3 : phi_add_v n (N : Int) 1 (a + y + (2 ^ n - N)) = a + y := by
      rw [phi_add_v_one,
        show a + y + (2 ^ n - N) + N = (a + y) + 2 ^ n from by omega,
        Nat.add_mod_right, Nat.mod_eq_of_lt (by omega)]
    rw [e3]
    have e4 : phi_add_v n (y : Int) (-1) (a + y) = a := by
      rw [phi_add_v_neg n (a + y) (show y ≤ 2 ^ n from by omega),
        show a + y + (2 ^ n - y) = a + 2 ^ n from by omega,
        Nat.add_mod_right, Nat.mod_eq_of_lt (by omega)]
    rw [e4]
    have m4 : a.testBit (n - 1) = false := by
      rw [testBit_msb hn1 (by omega)]
      exact decide_eq_false (by omega)
    rw [m4, show xor true (!false) = false from rfl, e1, Nat.mod_eq_of_lt hlt]
  · have e2 : phi_add_v n (N : Int) (-1) (a + y) = a + y - N := by
      rw [phi_add_v_neg n (a + y) (show N ≤ 2 ^ n from by omega),
        show a + y + (2 ^ n - N) = (a + y - N) + 2 ^ n from by omega,
        Nat.add_mod_right, Nat.mod_eq_of_lt (by omega)]
    rw [e2]
    have m2 : (a + y - N).testBit (n - 1) = false := by
      rw [testBit_msb hn1 (by omega)]
      exact decide_eq_false (by omega)
    rw [m2, show xor false false = false from rfl,
      if_neg (show ¬ (false = true) from by simp)]
    have e4 : phi_add_v n (y : Int) (-1) (a + y - N) = a + (2 ^ n - N) := by
      rw [phi_add_v_neg n (a + y - N) (show y ≤ 2 ^ n from by omega),
        show a + y - N + (2 ^ n - y) = a + (2 ^ n - N) from by omega,
        Nat.mod_eq_of_lt (by omega)]
    rw [e4]
    have m4 : (a + (2 ^ n - N)).testBit (n - 1) = true := by
      rw [testBit_msb hn1 (by omega)]
      exact decide_eq_true (by omega)
    rw [m4, show xor false (!true) = false from rfl]
    have e5 : phi_add_v n (y : Int) 1 (a + (2 ^ n - N)) = a + y - N := by
      rw [phi_add_v_one,
        show a + (2 ^ n - N) + y = (a + y - N) + 2 ^ n from by omega,
        Nat.add_mod_right, Nat.mod_eq_of_lt (by omega)]
    rw [e5, Nat.mod_eq_sub_mod (by omega), Nat.mod_eq_of_lt (by omega)]

/-- With a control cell at `0` the doubly controlled Beauregard modular
adder is the identity on every in-range data value with clear ancilla. -/
theorem phi_add_mod_N_cc_id {n y N a : Nat} {c1 c2 : Bool}
    (hcc : (c1 && c2) = false) (hN1 : 0 < N) (hn : Nat.clog 2 N + 1 ≤ n)
    (ha : a < N) :
    phi_add_mod_N_cc n y N c1 c2 a false = (a, false) := by
  have hclog : N ≤ 2 ^ Nat.clog 2 N := Nat.le_pow_clog (by omega) N
  have hNle : N ≤ 2 ^ (n - 1) :=
    le_trans hclog (Nat.pow_le_pow_right (by omega) (by omega))
  have hn1 : 1 ≤ n := by omega
  have h2n : 2 ^ n = 2 * 2 ^ (n - 1) := by
    rw [← pow_succ']
    congr 1
    omega
  have hite : ∀ x v : Nat, (if false = true then x else v) = v := fun x v =>
    if_neg (by simp)
  simp only [phi_add_mod_N_cc, hcc]
  simp only [hite]
  have e2 : phi_add_v n (N : Int) (-1) a = a + (2 ^ n - N) := by
    rw [phi_add_v_neg n a (show N ≤ 2 ^ n from by omega),
      Nat.mod_eq_of_lt (by omega)]
  rw [e2]
  have m2 : (a + (2 ^ n - N)).testBit (n - 1) = true := by
    rw [testBit_msb hn1 (by omega)]
    exact decide_eq_true (by omega)
  rw [m2, show xor false true = true from rfl, if_pos rfl]
  have e3 : phi_add_v n (N : Int) 1 (a + (2 ^ n - N)) = a := by
    rw [phi_add_v_one, show a + (2 ^ n - N) + N = a + 2 ^ n from by omega,
      Nat.add_mod_right, Nat.mod_eq_of_lt (by omega)]
  rw [e3]
  have m4 : a.testBit (n - 1) = false := by
    rw [testBit_msb hn1 (by omega)]
    exact decide_eq_false (by omega)
  rw [m4, show xor true (!false) = false from rfl]

/-- The generated inverse of the doubly controlled Beauregard modular
adder undoes it on every in-range state (any controls, any ancilla). -/
theorem phi_add_mod_N_cc_inv_spec (n y N : Nat) (c1 c2 : Bool) {v : Nat}
    (hv : v < 2 ^ n) (aux : Bool) :
    phi_add_mod_N_cc_inv n y N c1 c2 (phi_add_mod_N_cc n y N c1 c2 v aux).1
      (phi_add_mod_N_cc n y N c1 c2 v aux).2 = (v, aux) := by
  have hxorc : ∀ a b : Bool, xor (xor a b) b = a := by decide
  simp only [phi_add_mod_N_cc, phi_add_mod_N_cc_inv]
  set cc := c1 && c2 with hccd
  set v1 := if cc then phi_add_v n (y : Int) 1 v else v with hv1
  set v2 := phi_add_v n (N : Int) (-1) v1 with hv2
  set aux1 := xor aux (v2.testBit (n - 1)) with haux1
  set v3 := if aux1 then phi_add_v n (N : Int) 1 v2 else v2 with hv3
  set v4 := if cc then phi_add_v n (y : Int) (-1) v3 else v3 with hv4
  have hv1lt : v1 < 2 ^ n := by
    rw [hv1]
    by_cases hc : cc = true
    · rw [if_pos hc]
      exact phi_add_v_lt n _ _ _
    · rw [if_neg hc]
      exact hv
  have hv2lt : v2 < 2 ^ n := phi_add_v_lt n _ _ _
  have hv3lt : v3 < 2 ^ n := by
    rw [hv3]
    by_cases hc : aux1 = true
    · rw [if_pos hc]
      exact phi_add_v_lt n _ _ _
    · rw [if_neg hc]
      exact hv2lt
  have hv4lt : v4 < 2 ^ n := by
    rw [hv4]
    by_cases hc : cc = true
    · rw [if_pos hc]
      exact phi_add_v_lt n _ _ _
    · rw [if_neg hc]
      exact hv3lt
  have hw4 : (if cc then phi_add_v n (y : Int) (-1)
        (if cc then phi_add_v n (y : Int) 1 v4 else v4)
      else (if cc then phi_add_v n (y : Int) 1 v4 else v4)) = v4 := by
    by_cases hc : cc = true
    · rw [if_pos hc, if_pos hc, phi_add_v_sub_add n _ hv4lt]
    · rw [if_neg hc, if_neg hc]
  rw [hw4, hxorc]
  have hw3 : (if cc then phi_add_v n (y : Int) 1 v4 else v4) = v3 := by
    rw [hv4]
    by_cases hc : cc = true
    · rw [if_pos hc, if_pos hc, phi_add_v_add_sub n _ hv3lt]
    · rw [if_neg hc, if_neg hc]
  rw [hw3]
  have hw2 : (if aux1 then phi_add_v n (N : Int) (-1) v3 else v3) = v2 := by
    rw [hv3]
    by_cases hc : aux1 = true
    · rw [if_pos hc, if_pos hc, phi_add_v_sub_add n _ hv2lt]
    · rw [if_neg hc, if_neg hc]
  rw [hw2, haux1, hxorc]
  have hw1 : phi_add_v n (N : Int) 1 v2 = v1 := by
    rw [hv2, phi_add_v_add_sub n _ hv1lt]
  rw [hw1]
  have hw0 : (if cc then phi_add_v n (y : Int) (-1) v1 else v1) = v := by
    rw [hv1]
    by_cases hc : cc = true
    · rw [if_pos hc, if_pos hc, phi_add_v_sub_add n _ hv]
    · rw [if_neg hc, if_neg hc]
  rw [hw0]

theorem phi_add_mod_N_cc_fst_lt (n y N : Nat) (c1 c2 : Bool) (v : Nat)
    (aux : Bool) : (phi_add_mod_N_cc n y N c1 c2 v aux).1 < 2 ^ n := by
  simp only [phi_add_mod_N_cc]
  repeat' split
  all_goals exact phi_add_v_lt n _ _ _

/-- The per-bit loop of `mult_mod_N_partial_c(y, N, size_x, size_b)`
(brg_mod_mult.py): step `k` applies `phi_add_mod_N_cc(size_b, 2^k*y mod N, N)`
to the `b` register and the ancilla, controlled on the global control and
bit `k` of the x register. -/
def mult_mod_N_partial_fwd (y N sb : Nat) (c : Bool) (x : Nat) :
    Nat → Nat × Bool → Nat × Bool
  | 0, st => st
  | k + 1, st =>
      let st' := mult_mod_N_partial_fwd y N sb c x k st
      phi_add_mod_N_cc sb (2 ^ k * y % N) N c (x.testBit k) st'.1 st'.2

/-- The companion of `mult_mod_N_partial_c(...).inverse()`: the inverted
per-bit modular additions in reversed order. -/
def mult_mod_N_partial_inv (y N sb : Nat) (c : Bool) (x : Nat) :
    Nat → Nat × Bool → Nat × Bool
  | 0, st => st
  | k + 1, st =>
      let st' := phi_add_mod_N_cc_inv sb (2 ^ k * y % N) N c (x.testBit k) st.1 st.2
      mult_mod_N_partial_inv y N sb c x k st'

theorem mult_mod_N_partial_fwd_fst_lt (y N sb : Nat) (c : Bool) (x : Nat) :
    ∀ k (st : Nat × Bool), st.1 < 2 ^ sb →
      (mult_mod_N_partial_fwd y N sb c x k st).1 < 2 ^ sb := by
  intro k
  cases k with
  | zero => intro st h; exact h
  | succ k =>
      intro st _
      rw [mult_mod_N_partial_fwd]
      exact phi_add_mod_N_cc_fst_lt sb _ N c (x.testBit k) _ _

/-- The generated inverse of the out-of-place multiplier stage undoes it on
every in-range state. -/
theorem mult_mod_N_partial_inv_fwd {y N sb : Nat} (c : Bool) (x : Nat) :
    ∀ k (st : Nat × Bool), st.1 < 2 ^ sb →
      mult_mod_N_partial_inv y N sb c x k
        (mult_mod_N_partial_fwd y N sb c x k st) = st := by
  intro k
  induction k with
  | zero => intro st _; rfl
  | succ k ih =>
      intro st hst
      rw [mult_mod_N_partial_fwd, mult_mod_N_partial_inv,
        phi_add_mod_N_cc_inv_spec sb _ N c (x.testBit k)
          (mult_mod_N_partial_fwd_fst_lt y N sb c x k st hst) _]
      exact ih st hst

/-- With the global control set, the out-of-place multiplier stage adds
`(x mod 2^k) * y (mod N)` into the result register; ancilla restored. -/
theorem mult_mod_N_partial_fwd_val {y N sb : Nat} (hN1 : 0 < N)
    (hsb : Nat.clog 2 N + 1 ≤ sb) (x : Nat) :
    ∀ k {b : Nat}, b < N → mult_mod_N_partial_fwd y N sb true x k (b, false)
      = ((b + x % 2 ^ k * y) % N, false) := by
  intro k
  induction k with
  | zero =>
      intro b hb
      rw [show mult_mod_N_partial_fwd y N sb true x 0 (b, false) = (b, false)
        from rfl, pow_zero, Nat.mod_one, Nat.zero_mul, Nat.add_zero,
        Nat.mod_eq_of_lt hb]
  | succ k ih =>
      intro b hb
      rw [mult_mod_N_partial_fwd, ih hb]
      by_cases hbit : x.testBit k = true
      · rw [phi_add_mod_N_cc_true (by rw [hbit]; rfl) _ _,
          phi_add_mod_N_val hN1 (Nat.mod_lt _ hN1) hsb (Nat.mod_lt _ hN1)]
        have harith : ((b + x % 2 ^ k * y) % N + 2 ^ k * y % N) % N
            = (b + x % 2 ^ (k + 1) * y) % N := by
          have h1 : (b + x % 2 ^ k * y) % N + 2 ^ k * y % N
              ≡ (b + x % 2 ^ k * y) + 2 ^ k * y [MOD N] :=
            Nat.ModEq.add (Nat.mod_modEq _ N) (Nat.mod_modEq _ N)
          have h2 : (b + x % 2 ^ k * y) + 2 ^ k * y
              = b + x % 2 ^ (k + 1) * y := by
            rw [mod_two_pow_succ x k, hbit,
              show (true : Bool).toNat = 1 from rfl, Nat.one_mul,
              Nat.add_mul]
            ring
          rw [show ((b + x % 2 ^ k * y) % N + 2 ^ k * y % N) % N
              = ((b + x % 2 ^ k * y) + 2 ^ k * y) % N from h1, h2]
        rw [harith]
      · have hbit' : x.testBit k = false := Bool.eq_false_iff.mpr hbit
        rw [phi_add_mod_N_cc_id (by rw [hbit']; rfl) hN1 hsb (Nat.mod_lt _ hN1),
          mod_two_pow_succ x k, hbit', show (false : Bool).toNat = 0 from rfl,
          Nat.zero_mul, Nat.zero_add]

/-- With the global control clear, the out-of-place multiplier stage is the
identity on reachable states. -/
theorem mult_mod_N_partial_fwd_id {y N sb : Nat} (hN1 : 0 < N)
    (hsb : Nat.clog 2 N + 1 ≤ sb) (x : Nat) :
    ∀ k {b : Nat}, b < N →
      mult_mod_N_partial_fwd y N sb false x k (b, false) = (b, false) := by
  intro k
  induction k with
  | zero => intro b _; rfl
  | succ k ih =>
      intro b hb
      rw [mult_mod_N_partial_fwd, ih hb,
        phi_add_mod_N_cc_id (by rfl) hN1 hsb hb]

theorem mult_mod_N_partial_inv_val {y N sb : Nat} (hN1 : 0 < N)
    (hsb : Nat.clog 2 N + 1 ≤ sb) (x : Nat) (k : Nat) {v : Nat} (hv : v < N) :
    mult_mod_N_partial_inv y N sb true x k (v, false)
      = ((v + (N - x % 2 ^ k * y % N)) % N, false) := by
  have hNsb : N ≤ 2 ^ sb := le_trans (Nat.le_pow_clog (by omega) N)
    (Nat.pow_le_pow_right (by omega) (by omega))
  have hMlt : x % 2 ^ k * y % N < N := Nat.mod_lt _ hN1
  set w := (v + (N - x % 2 ^ k * y % N)) % N with hwdef
  have hwlt : w < N := Nat.mod_lt _ hN1
  have hfwd : mult_mod_N_partial_fwd y N sb true x k (w, false) = (v, false) := by
    rw [mult_mod_N_partial_fwd_val hN1 hsb x k hwlt]
    have hch : (w + x % 2 ^ k * y) % N = v % N := by
      calc w + x % 2 ^ k * y
          ≡ (v + (N - x % 2 ^ k * y % N)) + x % 2 ^ k * y [MOD N] :=
            Nat.ModEq.add_right _ (Nat.mod_modEq _ N)
        _ ≡ (v + (N - x % 2 ^ k * y % N)) + x % 2 ^ k * y % N [MOD N] :=
            Nat.ModEq.add_left _ (Nat.mod_modEq _ N).symm
        _ = v + N := by omega
        _ ≡ v [MOD N] := Nat.add_mod_right v N
    rw [hch, Nat.mod_eq_of_lt hv]
  conv_lhs => rw [← hfwd]
  rw [mult_mod_N_partial_inv_fwd true x k (w, false) (lt_of_lt_of_le hwlt hNsb)]

theorem mult_mod_N_partial_inv_id {y N sb : Nat} (hN1 : 0 < N)
    (hsb : Nat.clog 2 N + 1 ≤ sb) (x : Nat) (k : Nat) {b : Nat} (hb : b < N) :
    mult_mod_N_partial_inv y N sb false x k (b, false) = (b, false) := by
  have hNsb : N ≤ 2 ^ sb := le_trans (Nat.le_pow_clog (by omega) N)
    (Nat.pow_le_pow_right (by omega) (by omega))
  have hfwd := mult_mod_N_partial_fwd_id (y := y) hN1 hsb x k hb
  conv_lhs => rw [← hfwd]
  rw [mult_mod_N_partial_inv_fwd false x k (b, false) (lt_of_lt_of_le hb hNsb)]

/-- The loop of controlled swaps between the x and b registers
(brg_mod_mult.py lines 42-43), at value level: exchange the low
`size_x` bits. -/
def cswap_regs (sx : Nat) (c : Bool) (x b : Nat) : Nat × Nat :=
  if c then (b % 2 ^ sx + x / 2 ^ sx * 2 ^ sx, x % 2 ^ sx + b / 2 ^ sx * 2 ^ sx)
  else (x, b)

/-- Value-level `mult_mod_N_c(a, N)` with explicit register sizes: the
out-of-place stage, the controlled swaps, then the generated inverse of
the out-of-place stage for `inv_a = pow(a, -1, N)`. -/
def mult_mod_N_c_v (a N sx sb : Nat) (c : Bool) (x b : Nat) (anc : Bool) :
    Nat × Nat × Bool :=
  let st1 := mult_mod_N_partial_fwd a N sb c x sx (b, anc)
  let sw := cswap_regs sx c x st1.1
  let st2 := mult_mod_N_partial_inv ((modInv a N).getD 0) N sb c sw.1 sx
    (sw.2, st1.2)
  (sw.1, st2.1, st2.2)

/-- Full correctness of the controlled Beauregard in-place multiplier on
reachable states: with control on, `x` becomes `a*x mod N`; with control
off it is the identity; the `b` register and ancilla are restored. -/
theorem mult_mod_N_c_val {a N sx sb : Nat} (hN1 : 0 < N) (hsx : N ≤ 2 ^ sx)
    (hsb : Nat.clog 2 N + 1 ≤ sb) (hcop : Nat.Coprime a N) {x : Nat}
    (hx : x < N) (c : Bool) :
    mult_mod_N_c_v a N sx sb c x 0 false
      = (if c then a * x % N else x, 0, false) := by
  obtain ⟨u, hu, huinv, hult⟩ := modInv_of_coprime hN1 hcop
  have hgetD : (modInv a N).getD 0 = u := by rw [hu]; rfl
  have hxr : x % 2 ^ sx = x := Nat.mod_eq_of_lt (by omega)
  have hp1 : ∀ z : Nat, ((z, false) : Nat × Bool).1 = z := fun z => rfl
  have hp2 : ∀ z : Nat, ((z, false) : Nat × Bool).2 = false := fun z => rfl
  cases c with
  | false =>
      simp only [mult_mod_N_c_v]
      rw [mult_mod_N_partial_fwd_id (y := a) hN1 hsb x sx hN1]
      simp only [hp1, hp2]
      rw [show cswap_regs sx false x 0 = (x, 0) from rfl]
      simp only [show ((x, 0) : Nat × Nat).1 = x from rfl,
        show ((x, 0) : Nat × Nat).2 = 0 from rfl]
      rw [hgetD, mult_mod_N_partial_inv_id (y := u) hN1 hsb x sx hN1]
      simp only [hp1, hp2]
      rw [if_neg (show ¬ (false = true) from by simp)]
  | true =>
      simp only [mult_mod_N_c_v]
      rw [mult_mod_N_partial_fwd_val hN1 hsb x sx hN1, hxr]
      simp only [hp1, hp2]
      set M := (0 + x * a) % N with hM
      have hMv : M = a * x % N := by rw [hM, Nat.zero_add, Nat.mul_comm]
      have hMlt : M < N := by rw [hM]; exact Nat.mod_lt _ hN1
      have hsw : cswap_regs sx true x M = (M, x) := by
        simp only [cswap_regs, if_pos rfl]
        rw [Nat.mod_eq_of_lt (show M < 2 ^ sx from by omega),
          Nat.div_eq_of_lt (show x < 2 ^ sx from by omega),
          Nat.div_eq_of_lt (show M < 2 ^ sx from by omega), hxr,
          Nat.zero_mul, Nat.add_zero, Nat.add_zero]
        exact if_pos trivial
      rw [hsw]
      simp only [show ((M, x) : Nat × Nat).1 = M from rfl,
        show ((M, x) : Nat × Nat).2 = x from rfl]
      rw [hgetD, mult_mod_N_partial_inv_val hN1 hsb M sx hx]
      have hMmod : M % 2 ^ sx = M := Nat.mod_eq_of_lt (by omega)
      have hMu : M % 2 ^ sx * u % N = x := by
        rw [hMmod]
        have hch : M * u % N = x % N := by
          calc M * u ≡ a * x * u [MOD N] :=
                (hMv ▸ Nat.mod_modEq (a * x) N).mul_right u
            _ = a * u * x := by ring
            _ ≡ 1 % N * x [MOD N] := (show a * u ≡ 1 % N [MOD N] from by
                show a * u % N = 1 % N % N
                rw [huinv, Nat.mod_mod_of_dvd _ (dvd_refl _)]).mul_right x
            _ ≡ 1 * x [MOD N] := (Nat.mod_modEq 1 N).mul_right x
            _ = x := Nat.one_mul x
        rw [hch, Nat.mod_eq_of_lt hx]
      rw [hMu, show x + (N - x) = N from by omega, Nat.mod_self]
      simp only [hp1, hp2]
      rw [hMv]
      simp

/-- The per-bit loop of `mod_exp_brg(n, a, N)` (brg_mod_exp.py): step `i`
applies `mult_mod_N_c(a^(2^i) mod N, N)` — built with its default size
`ceil(log2 N)` — controlled on bit `i` of the exponent. -/
def mod_exp_brg_v (a N x : Nat) : Nat → Nat × Nat × Bool → Nat × Nat × Bool
  | 0, st => st
  | i + 1, st =>
      let st' := mod_exp_brg_v a N x i st
      mult_mod_N_c_v (a ^ 2 ^ i % N) N (Nat.clog 2 N) (Nat.clog 2 N + 1)
        (x.testBit i) st'.1 st'.2.1 st'.2.2

/-- Full correctness of the Beauregard exponentiation tower at value
level: the accumulator becomes `y * a^(x mod 2^n) mod N`, the scratch
register and ancilla stay clear. -/
theorem mod_exp_brg_val {a N : Nat} (hN1 : 0 < N) (hcop : Nat.Coprime a N)
    (x : Nat) {y : Nat} (hy : y < N) :
    ∀ n, mod_exp_brg_v a N x n (y, 0, false)
      = (y * a ^ (x % 2 ^ n) % N, 0, false) := by
  intro n
  induction n with
  | zero =>
      rw [show mod_exp_brg_v a N x 0 (y, 0, false) = (y, 0, false) from rfl,
        pow_zero, Nat.mod_one, pow_zero, Nat.mul_one, Nat.mod_eq_of_lt hy]
  | succ n ih =>
      rw [mod_exp_brg_v, ih]
      have hsx : N ≤ 2 ^ Nat.clog 2 N := Nat.le_pow_clog (by omega) N
      have hacc : y * a ^ (x % 2 ^ n) % N < N := Nat.mod_lt _ hN1
      rw [show ((y * a ^ (x % 2 ^ n) % N, 0, false) : Nat × Nat × Bool).1
          = y * a ^ (x % 2 ^ n) % N from rfl]
      rw [mult_mod_N_c_val hN1 hsx (le_refl _) (coprime_pow_mod hcop n) hacc]
      by_cases hbit : x.testBit n = true
      · rw [if_pos hbit]
        have harith : a ^ 2 ^ n % N * (y * a ^ (x % 2 ^ n) % N) % N
            = y * a ^ (x % 2 ^ (n + 1)) % N := by
          have h1 : a ^ 2 ^ n % N * (y * a ^ (x % 2 ^ n) % N) % N
              = a ^ 2 ^ n * (y * a ^ (x % 2 ^ n)) % N :=
            Nat.ModEq.mul (Nat.mod_modEq _ N) (Nat.mod_modEq _ N)
          rw [h1, mod_two_pow_succ x n, hbit,
            show (true : Bool).toNat = 1 from rfl, Nat.one_mul, pow_add]
          congr 1
          ring
        rw [harith]
      · have hbit' : x.testBit n = false := Bool.eq_false_iff.mpr hbit
        rw [if_neg (by rw [hbit']; simp), mod_two_pow_succ x n, hbit',
          show (false : Bool).toNat = 0 from rfl, Nat.zero_mul, Nat.zero_add]

/-! ### Construction-time models: register widths and failure points -/

/-- brg_mod_exp.py line 19/22: `size_input = 2*ceil(log(N,2))+3`; the
accumulator-plus-scratch block handed to each multiplier is
`size_input - 1` cells (one cell of the multiplier is the control). -/
def mod_exp_brg_acc_width (N : Nat) : Nat := 2 * Nat.clog 2 N + 3 - 1

/-- hrs_mod_exp.py line 21: `bot = QuantumRegister(2 * nbot + 1, "bot")`. -/
def mod_exp_hrs_acc_width (n : Nat) : Nat := 2 * n + 1

/-- montgomery_mod_exp.py line 18: `bot = QuantumRegister(3 * n + 1, "bot")`. -/
def mod_exp_montgomery_acc_width (n : Nat) : Nat := 3 * n + 1

/-- montgomery_mult.py line 83: building the partial multiplier evaluates
`pinvbig = pow(p, -1, 2 ** (n + 1))`, a Python `ValueError` (modelled as
`none`) whenever `p` is even. -/
def mult_montgomery_partial_c_build (n p : Nat) : Option Nat :=
  modInv p (2 ^ (n + 1))

/-- montgomery_mult.py lines 125-136: the in-place multiplier builds two
partial stages and evaluates `pow(y, -1, p)` in between. -/
def mult_montgomery_c_build (n y p : Nat) : Option Unit := do
  _ ← mult_montgomery_partial_c_build n p
  _ ← modInv y p
  _ ← mult_montgomery_partial_c_build n p
  pure ()

/-- montgomery_mod_exp.py lines 22-24: one `mult_montgomery_c(n, a^(2^i) mod p, p)`
per exponent bit. -/
def mod_exp_montgomery_build (n a p : Nat) : Option Unit :=
  (List.range n).foldl
    (fun acc i => acc >>= fun _ => mult_montgomery_c_build n (a ^ 2 ^ i % p) p)
    (some ())

/-- hrs_mod_mult.py `c_mult_hrs`: the gates already appended when the
`ainv = pow(a, -1, N)` evaluation runs — the full out-of-place stage and
the `n` controlled swaps. The `pow` call raises `ValueError` when
`gcd(a, N) ≠ 1`, after these gates are synthesized; there is no
InvalidParameter (or any) check before synthesis. -/
def c_mult_hrs_pre_pow (c : Nat) (n : Nat) (T B : Nat → Nat) (anc : Nat)
    (a N : Nat) : List Gate :=
  c_mult_hrs_partial_g c n T B anc a N ++ cswapAll c T B n

/-- `c_carry_add_mod_hrs(n, a, N)` on its flat wiring: control at `0`,
the register at `1..n`, the borrowed cells at `n+1..2n-1`, the comparison
(msb) cell at `2n`. -/
def c_carry_add_mod_hrs (n : Nat) (a N : Nat) : List Gate :=
  carry_add_mod_gen [0] n (fun i => 1 + i) (fun j => n + 1 + j) (2 * n) a N

/-- hrs_mod_add.py lines 83/89: the inner adder borrows `[greg[0], greg[1]]`
from the `(n-1)`-cell register `greg`; a qiskit access `greg[i]` requires
`i < n - 1` (otherwise Python raises `IndexError` at construction). -/
def gregIndexOk (n i : Nat) : Prop := i < n - 1

theorem cswapAll_length (c : Nat) (T B : Nat → Nat) :
    ∀ k, (cswapAll c T B k).length = k := by
  intro k
  induction k with
  | zero => rfl
  | succ k ih => rw [cswapAll, List.length_append, ih, List.length_singleton]

theorem modInv_eq_none_of_not_coprime {a N : Nat} (hN : 1 < N)
    (h : ¬ Nat.Coprime a N) : modInv a N = none := by
  by_contra hne
  obtain ⟨u, hu⟩ := Option.ne_none_iff_exists'.mp hne
  have hp := List.find?_some hu
  simp only [decide_eq_true_eq] at hp
  rw [Nat.mod_eq_of_lt hN] at hp
  apply h
  have hd1 : Nat.gcd a N ∣ a * u := Dvd.dvd.mul_right (Nat.gcd_dvd_left a N) u
  have hd2 : Nat.gcd a N ∣ N := Nat.gcd_dvd_right a N
  have hd3 : Nat.gcd a N ∣ a * u % N := (Nat.dvd_mod_iff hd2).mpr hd1
  rw [hp] at hd3
  exact Nat.dvd_one.mp hd3

theorem clog2_5 : Nat.clog 2 5 = 3 := by
  rw [Nat.clog_of_two_le (by omega) (by omega),
    show (5 + 2 - 1) / 2 = 3 from by norm_num,
    Nat.clog_of_two_le (by omega) (by omega),
    show (3 + 2 - 1) / 2 = 2 from by norm_num,
    Nat.clog_of_two_le (by omega) (by omega),
    show (2 + 2 - 1) / 2 = 1 from by norm_num,
    Nat.clog_one_right]

theorem clog2_7 : Nat.clog 2 7 = 3 := by
  rw [Nat.clog_of_two_le (by omega) (by omega),
    show (7 + 2 - 1) / 2 = 4 from by norm_num,
    Nat.clog_of_two_le (by omega) (by omega),
    show (4 + 2 - 1) / 2 = 2 from by norm_num,
    Nat.clog_of_two_le (by omega) (by omega),
    show (2 + 2 - 1) / 2 = 1 from by norm_num,
    Nat.clog_one_right]

/-! ### The Montgomery backend (montgomery_mult.py, montgomery_mod_exp.py),
at value level.  The same Fourier conventions as for Beauregard apply; in
the reduction loop the Hadamard on the current least-significant Fourier
cell exposes the parity of the held value, the
`phi_addition_controlled_ignorebits(w, p, -1, 1)` call subtracts `p` from
the two's-complement value whose fixed lowest bit is that exposed cell,
and the next stage continues on the implicitly halved register (one cell
shorter). -/

/-- Value semantics of `phi_addition_controlled(n, b, factor)`
(draper_add.py): the rotations fire only when the control is set. -/
def phi_addition_c_v (n : Nat) (b factor : Int) (c : Bool) (v : Nat) : Nat :=
  if c then phi_add_v n b factor v else v

/-- Value semantics of `phi_addition_cc(n, b, factor)` (draper_add.py): the
doubly controlled Draper addition fires only when both controls are set. -/
def phi_addition_cc_v (n : Nat) (b factor : Int) (c1 c2 : Bool) (v : Nat) : Nat :=
  if c1 && c2 then phi_add_v n b factor v else v

/-- montgomery_mult.py lines 31-35: the accumulation loop — for each bit of
the small register, a doubly controlled Fourier addition of
`2^i * y' mod p` into the width-`2n+1` big register. -/
def mont_accum (n ym p : Nat) (c : Bool) (x : Nat) : Nat → Nat → Nat
  | 0, t => t
  | i + 1, t => phi_addition_cc_v (2 * n + 1) ((2 ^ i * ym % p : Nat) : Int) 1
      c (x.testBit i) (mont_accum n ym p c x i t)

/-- montgomery_mult.py lines 44-55: the Montgomery reduction loop.  Stage
`i` exposes the current least significant Fourier cell (`mult.h`), fixes
it into the `u` register, subtracts `p` on the remaining value when it is
set (the `ignorebits=1` controlled subtraction), and continues on the
implicitly halved register of width `2n+1-i-1`. -/
def mont_reduce (n p : Nat) : Nat → Nat × Nat → Nat × Nat
  | 0, ut => ut
  | i + 1, ut =>
      let ut' := mont_reduce n p i ut
      let b := ut'.2 % 2
      let t1 := if b = 1 then phi_add_v (2 * n + 1 - i) (p : Int) (-1) ut'.2
        else ut'.2
      (ut'.1 + b * 2 ^ i, t1 / 2)

/-- montgomery_mult.py lines 80-86: uncompute the `u` register (`n+1`
cells, the former sign cell included) by doubly controlled subtractions
of `(2^i * y' mod p) * p⁻¹ mod 2^(n+1)`. -/
def mont_uncompute (n ym p pinv : Nat) (c : Bool) (x : Nat) : Nat → Nat → Nat
  | 0, uf => uf
  | i + 1, uf => phi_addition_cc_v (n + 1)
      ((2 ^ i * ym % p * pinv % 2 ^ (n + 1) : Nat) : Int) (-1)
      c (x.testBit i) (mont_uncompute n ym p pinv c x i uf)

/-- Value-level `mult_montgomery_partial_c(n, y', p)` (montgomery_mult.py):
accumulation, reduction, sign extraction from the top cell, conditional
re-addition of `p` on the result cells, the h/cx/h parity flip of the sign
cell, and the uncompute of the `u` register with
`pinvbig = pow(p, -1, 2^(n+1))`.  `B` is the computational value of the
`2n+1`-cell big register (result cells at positions `n..2n-1`, the former
sign cell at position `2n`). -/
def mult_montgomery_partial_v (n ym p : Nat) (c : Bool) (x : Nat) (B : Nat) :
    Nat :=
  let t0 := mont_accum n ym p c x n B
  let ut := mont_reduce n p n (0, t0)
  let s := ut.2.testBit n
  let r0 := ut.2 % 2 ^ n
  let r := if s then phi_add_v n (p : Int) 1 r0 else r0
  let s1 := xor s (r.testBit 0)
  let ufull := ut.1 + s1.toNat * 2 ^ n
  let pinv := (modInv p (2 ^ (n + 1))).getD 0
  let uf := mont_uncompute n ym p pinv c x n ufull
  uf % 2 ^ n + 2 ^ n * r + 2 ^ (2 * n) * (uf / 2 ^ n)

/-- The reversed, step-inverted accumulation loop. -/
def mont_accum_inv (n ym p : Nat) (c : Bool) (x : Nat) : Nat → Nat → Nat
  | 0, t => t
  | i + 1, t => mont_accum_inv n ym p c x i
      (phi_addition_cc_v (2 * n + 1) ((2 ^ i * ym % p : Nat) : Int) (-1)
        c (x.testBit i) t)

/-- The reversed, step-inverted reduction loop: each stage doubles the
register back, re-adds `p` when the recorded `u` bit is set, and returns
that bit to the register. -/
def mont_reduce_inv (n p : Nat) : Nat → Nat × Nat → Nat × Nat
  | 0, ut => ut
  | i + 1, ut =>
      let b := ut.1 / 2 ^ i % 2
      let t1 := ut.2 * 2
      let t2 := if b = 1 then phi_add_v (2 * n + 1 - i) (p : Int) 1 t1 else t1
      mont_reduce_inv n p i (ut.1 - b * 2 ^ i, t2)

/-- The reversed, step-inverted uncompute loop. -/
def mont_uncompute_inv (n ym p pinv : Nat) (c : Bool) (x : Nat) :
    Nat → Nat → Nat
  | 0, uf => uf
  | i + 1, uf => mont_uncompute_inv n ym p pinv c x i
      (phi_addition_cc_v (n + 1)
        ((2 ^ i * ym % p * pinv % 2 ^ (n + 1) : Nat) : Int) 1
        c (x.testBit i) uf)

/-- The companion of `mult_montgomery_partial_c(...).inverse()`: the
reversed sequence of inverted phases. -/
def mult_montgomery_partial_v_inv (n ym p : Nat) (c : Bool) (x : Nat)
    (B : Nat) : Nat :=
  let pinv := (modInv p (2 ^ (n + 1))).getD 0
  let uf := B % 2 ^ n + 2 ^ n * (B / 2 ^ (2 * n) % 2)
  let r := B / 2 ^ n % 2 ^ n
  let ufull := mont_uncompute_inv n ym p pinv c x n uf
  let s1 := ufull.testBit n
  let u := ufull % 2 ^ n
  let s := xor s1 (r.testBit 0)
  let r0 := if s then phi_add_v n (p : Int) (-1) r else r
  let tn := r0 + 2 ^ n * s.toNat
  let ut := mont_reduce_inv n p n (u, tn)
  mont_accum_inv n ym p c x n ut.2

/-- The controlled swaps of montgomery_mult.py lines 128-129: exchange the
small register with big-register cells `n..2n-1`. -/
def cswap_mid (n : Nat) (c : Bool) (x B : Nat) : Nat × Nat :=
  if c then (B / 2 ^ n % 2 ^ n,
    B % 2 ^ n + x * 2 ^ n + B / 2 ^ (2 * n) * 2 ^ (2 * n))
  else (x, B)

/-- Value-level `mult_montgomery_c(n, y, p)` (montgomery_mult.py): the
out-of-place stage with `y' = y*R mod p`, the controlled swaps, then the
generated inverse of the out-of-place stage for
`inverse_y_montg = pow(y, -1, p) * R mod p`. -/
def mult_montgomery_c_v (n y p : Nat) (c : Bool) (x B : Nat) : Nat × Nat :=
  let ym := y * 2 ^ n % p
  let B1 := mult_montgomery_partial_v n ym p c x B
  let sw := cswap_mid n c x B1
  let yinv := (modInv y p).getD 0
  let ymi := yinv * 2 ^ n % p
  let B3 := mult_montgomery_partial_v_inv n ymi p c sw.1 sw.2
  (sw.1, B3)

/-- The generated inverse of the in-place Montgomery multiplier: the
reversed sequence of inverted pieces. -/
def mult_montgomery_c_v_inv (n y p : Nat) (c : Bool) (x B : Nat) : Nat × Nat :=
  let yinv := (modInv y p).getD 0
  let ymi := yinv * 2 ^ n % p
  let B1 := mult_montgomery_partial_v n ymi p c x B
  let sw := cswap_mid n c x B1
  let ym := y * 2 ^ n % p
  let B3 := mult_montgomery_partial_v_inv n ym p c sw.1 sw.2
  (sw.1, B3)

/-- The per-bit loop of `mod_exp_montgomery(n, a, p)`
(montgomery_mod_exp.py): step `i` applies
`mult_montgomery_c(n, a^(2^i) mod p, p)` controlled on bit `i` of the
exponent. -/
def mod_exp_montgomery_v (n a p x : Nat) : Nat → Nat × Nat → Nat × Nat
  | 0, st => st
  | i + 1, st =>
      let st' := mod_exp_montgomery_v n a p x i st
      mult_montgomery_c_v n (a ^ 2 ^ i % p) p (x.testBit i) st'.1 st'.2

/-- The generated inverse of the Montgomery exponentiation tower. -/
def mod_exp_montgomery_v_inv (n a p x : Nat) : Nat → Nat × Nat → Nat × Nat
  | 0, st => st
  | i + 1, st => mod_exp_montgomery_v_inv n a p x i
      (mult_montgomery_c_v_inv n (a ^ 2 ^ i % p) p (x.testBit i) st.1 st.2)

/-- The generated inverse of the in-place Beauregard multiplier: the
out-of-place stage for `inv_a`, the controlled swaps, and the generated
inverse of the out-of-place stage for `a`. -/
def mult_mod_N_c_v_inv (a N sx sb : Nat) (c : Bool) (x b : Nat) (anc : Bool) :
    Nat × Nat × Bool :=
  let st1 := mult_mod_N_partial_fwd ((modInv a N).getD 0) N sb c x sx (b, anc)
  let sw := cswap_regs sx c x st1.1
  let st2 := mult_mod_N_partial_inv a N sb c sw.1 sx (sw.2, st1.2)
  (sw.1, st2.1, st2.2)

/-- The generated inverse of the Beauregard exponentiation tower. -/
def mod_exp_brg_v_inv (a N x : Nat) : Nat → Nat × Nat × Bool → Nat × Nat × Bool
  | 0, st => st
  | i + 1, st => mod_exp_brg_v_inv a N x i
      (mult_mod_N_c_v_inv (a ^ 2 ^ i % N) N (Nat.clog 2 N) (Nat.clog 2 N + 1)
        (x.testBit i) st.1 st.2.1 st.2.2)

/-- hrs_mod_mult.py line 47 / c_mult_hrs: building the in-place HRS
multiplier evaluates `pow(a, -1, N)`. -/
def c_mult_hrs_build (a N : Nat) : Option Nat := modInv a N

/-- hrs_mod_exp.py: `mod_exp_hrs(ntop, nbot, a, N)` appends one
`c_mult_hrs(nbot, a^(2^i) mod N, N)` per exponent bit; construction
succeeds only if every `pow(a^(2^i) mod N, -1, N)` succeeds. -/
def mod_exp_hrs_build (ntop a N : Nat) : Option Unit :=
  (List.range ntop).foldl
    (fun acc i => acc >>= fun _ =>
      (c_mult_hrs_build (a ^ 2 ^ i % N) N).map fun _ => ())
    (some ())

/-- brg_mod_exp.py: `mod_exp(n, a, N)` appends one
`mult_mod_N_c(a^(2^i) mod N, N)` per exponent bit, each evaluating
`pow(a^(2^i) mod N, -1, N)` (brg_mod_mult.py line 46). -/
def mod_exp_brg_build (n a N : Nat) : Option Unit :=
  (List.range n).foldl
    (fun acc i => acc >>= fun _ =>
      (modInv (a ^ 2 ^ i % N) N).map fun _ => ())
    (some ())


/-! ### Montgomery backend: phase lemmas -/

theorem mont_accum_false (n ym p x : Nat) :
    ∀ k t, mont_accum n ym p false x k t = t := by
  intro k
  induction k with
  | zero => intro t; rfl
  | succ k ih =>
      intro t
      rw [mont_accum, ih]
      simp [phi_addition_cc_v]

theorem mont_accum_lt (n ym p : Nat) (c : Bool) (x : Nat) :
    ∀ k {t : Nat}, t < 2 ^ (2 * n + 1) →
      mont_accum n ym p c x k t < 2 ^ (2 * n + 1) := by
  intro k
  induction k with
  | zero => intro t h; exact h
  | succ k ih =>
      intro t h
      rw [mont_accum, phi_addition_cc_v]
      split
      · exact phi_add_v_lt _ _ _ _
      · exact ih h

/-- With the controls on, the accumulation loop holds the plain sum of the
selected summands `2^i * ym mod p`: it stays below `k*(p-1)` (no wraparound
in the width-`2n+1` register) and is congruent to `(x mod 2^k) * ym`. -/
theorem mont_accum_val {n p : Nat} (hp1 : 0 < p) (hpn : p ≤ 2 ^ n)
    (ym x : Nat) :
    ∀ k, k ≤ n →
      mont_accum n ym p true x k 0 ≤ k * (p - 1) ∧
      mont_accum n ym p true x k 0 ≡ x % 2 ^ k * ym [MOD p] := by
  intro k
  induction k with
  | zero =>
      intro _
      refine ⟨Nat.zero_le _, ?_⟩
      rw [show mont_accum n ym p true x 0 0 = 0 from rfl, pow_zero,
        Nat.mod_one, Nat.zero_mul]
  | succ k ih =>
      intro hk
      obtain ⟨hb, hc⟩ := ih (by omega)
      have hterm : 2 ^ k * ym % p < p := Nat.mod_lt _ hp1
      have hnlt : n < 2 ^ n := Nat.lt_two_pow n
      have hsm : (k + 1) * (p - 1) = k * (p - 1) + (p - 1) := Nat.succ_mul _ _
      have hmul : (k + 1) * (p - 1) < 2 ^ (2 * n + 1) := by
        have h1 : (k + 1) * (p - 1) < 2 ^ n * 2 ^ n :=
          Nat.mul_lt_mul'' (by omega) (by omega)
        have h2 : 2 ^ n * 2 ^ n = 2 ^ (2 * n) := by
          rw [← pow_add]
          congr 1
          omega
        have h3 : (2 : Nat) ^ (2 * n) < 2 ^ (2 * n + 1) :=
          Nat.pow_lt_pow_right (by omega) (by omega)
        omega
      rw [mont_accum, phi_addition_cc_v]
      by_cases hbit : x.testBit k = true
      · rw [hbit, show ((true : Bool) && true) = true from rfl, if_pos rfl,
          phi_add_v_one, Nat.mod_eq_of_lt (by omega)]
        refine ⟨by omega, ?_⟩
        calc mont_accum n ym p true x k 0 + 2 ^ k * ym % p
            ≡ x % 2 ^ k * ym + 2 ^ k * ym % p [MOD p] :=
              Nat.ModEq.add_right _ hc
          _ ≡ x % 2 ^ k * ym + 2 ^ k * ym [MOD p] :=
              Nat.ModEq.add_left _ (Nat.mod_modEq _ p)
          _ = x % 2 ^ (k + 1) * ym := by
              rw [mod_two_pow_succ x k, hbit,
                show (true : Bool).toNat = 1 from rfl, Nat.one_mul,
                Nat.add_mul, Nat.add_comm]
      · have hbit' : x.testBit k = false := Bool.eq_false_iff.mpr hbit
        rw [hbit', Bool.and_false,
          if_neg (show ¬ (false = true) from by simp)]
        refine ⟨by omega, ?_⟩
        rw [mod_two_pow_succ x k, hbit',
          show (false : Bool).toNat = 0 from rfl, Nat.zero_mul, Nat.zero_add]
        exact hc

/-- One accumulation step, as a plain addition (the register is wide
enough that the running sum never wraps). -/
theorem mont_accum_succ {n p : Nat} (hp1 : 0 < p) (hpn : p ≤ 2 ^ n)
    (ym x : Nat) {k : Nat} (hk : k < n) :
    mont_accum n ym p true x (k + 1) 0
      = mont_accum n ym p true x k 0
        + (x.testBit k).toNat * (2 ^ k * ym % p) := by
  obtain ⟨hb, _⟩ := mont_accum_val hp1 hpn ym x k (by omega)
  have hterm : 2 ^ k * ym % p < p := Nat.mod_lt _ hp1
  have hnlt : n < 2 ^ n := Nat.lt_two_pow n
  have hsm : (k + 1) * (p - 1) = k * (p - 1) + (p - 1) := Nat.succ_mul _ _
  have hmul : (k + 1) * (p - 1) < 2 ^ (2 * n + 1) := by
    have h1 : (k + 1) * (p - 1) < 2 ^ n * 2 ^ n :=
      Nat.mul_lt_mul'' (by omega) (by omega)
    have h2 : 2 ^ n * 2 ^ n = 2 ^ (2 * n) := by
      rw [← pow_add]
      congr 1
      omega
    have h3 : (2 : Nat) ^ (2 * n) < 2 ^ (2 * n + 1) :=
      Nat.pow_lt_pow_right (by omega) (by omega)
    omega
  rw [mont_accum, phi_addition_cc_v]
  by_cases hbit : x.testBit k = true
  · rw [hbit, show ((true : Bool) && true) = true from rfl, if_pos rfl,
      phi_add_v_one, Nat.mod_eq_of_lt (by omega),
      show (true : Bool).toNat = 1 from rfl, Nat.one_mul]
  · have hbit' : x.testBit k = false := Bool.eq_false_iff.mpr hbit
    rw [hbit', Bool.and_false, if_neg (show ¬ (false = true) from by simp),
      show (false : Bool).toNat = 0 from rfl, Nat.zero_mul, Nat.add_zero]

theorem mont_accum_inv_fwd (n ym p : Nat) (c : Bool) (x : Nat) :
    ∀ k {t : Nat}, t < 2 ^ (2 * n + 1) →
      mont_accum_inv n ym p c x k (mont_accum n ym p c x k t) = t := by
  intro k
  induction k with
  | zero => intro t _; rfl
  | succ k ih =>
      intro t ht
      have hlt : mont_accum n ym p c x k t < 2 ^ (2 * n + 1) :=
        mont_accum_lt n ym p c x k ht
      rw [mont_accum, mont_accum_inv, phi_addition_cc_v, phi_addition_cc_v]
      split
      · rw [phi_add_v_sub_add _ _ hlt]
        exact ih ht
      · exact ih ht

theorem mont_uncompute_false (n ym p pinv x : Nat) :
    ∀ k U, mont_uncompute n ym p pinv false x k U = U := by
  intro k
  induction k with
  | zero => intro U; rfl
  | succ k ih =>
      intro U
      rw [mont_uncompute, ih]
      simp [phi_addition_cc_v]

theorem mont_uncompute_lt (n ym p pinv : Nat) (c : Bool) (x : Nat) :
    ∀ k {U : Nat}, U < 2 ^ (n + 1) →
      mont_uncompute n ym p pinv c x k U < 2 ^ (n + 1) := by
  intro k
  induction k with
  | zero => intro U h; exact h
  | succ k ih =>
      intro U h
      rw [mont_uncompute, phi_addition_cc_v]
      split
      · exact phi_add_v_lt _ _ _ _
      · exact ih h

theorem mont_uncompute_inv_fwd (n ym p pinv : Nat) (c : Bool) (x : Nat) :
    ∀ k {U : Nat}, U < 2 ^ (n + 1) →
      mont_uncompute_inv n ym p pinv c x k
        (mont_uncompute n ym p pinv c x k U) = U := by
  intro k
  induction k with
  | zero => intro U _; rfl
  | succ k ih =>
      intro U hU
      have hlt : mont_uncompute n ym p pinv c x k U < 2 ^ (n + 1) :=
        mont_uncompute_lt n ym p pinv c x k hU
      rw [mont_uncompute, mont_uncompute_inv, phi_addition_cc_v,
        phi_addition_cc_v]
      split
      · rw [phi_add_v_add_sub _ _ hlt]
        exact ih hU
      · exact ih hU

theorem mont_reduce_zero (n p : Nat) :
    ∀ k, mont_reduce n p k (0, 0) = (0, 0) := by
  intro k
  induction k with
  | zero => rfl
  | succ k ih =>
      rw [mont_reduce, ih]
      simp

theorem mont_reduce_inv_zero (n p : Nat) :
    ∀ k, mont_reduce_inv n p k (0, 0) = (0, 0) := by
  intro k
  induction k with
  | zero => rfl
  | succ k ih =>
      rw [mont_reduce_inv]
      simp
      exact ih

/-- Halving a two's-complement residue: dividing the width-`W` residue of
an even integer by two is the width-`W-1` residue of its half. -/
theorem emod_toNat_half {W : Nat} (hW : 1 ≤ W) (F : Int) :
    ((2 * F).emod ((2 : Int) ^ W)).toNat / 2
      = (F.emod ((2 : Int) ^ (W - 1))).toNat := by
  have hs : (2 : Int) ^ W = 2 * (2 : Int) ^ (W - 1) := by
    have h := pow_succ' (2 : Int) (W - 1)
    rw [show W - 1 + 1 = W from by omega] at h
    exact h
  have hconv : (2 * F).emod ((2 : Int) ^ W) = (2 * F) % ((2 : Int) ^ W) := rfl
  have hmm : (2 * F) % (2 * (2 : Int) ^ (W - 1))
      = 2 * (F % (2 : Int) ^ (W - 1)) :=
    Int.mul_emod_mul_of_pos F ((2 : Int) ^ (W - 1)) (by norm_num)
  have hconv2 : F.emod ((2 : Int) ^ (W - 1)) = F % ((2 : Int) ^ (W - 1)) := rfl
  have hnn : 0 ≤ F % (2 : Int) ^ (W - 1) :=
    Int.emod_nonneg _ (by positivity)
  rw [hconv, hs, hmm, hconv2]
  omega


/-- The Montgomery reduction invariant: after `k` stages the `u` register
holds a `u < 2^k` with `T0 = u*p + 2^k*T` for an exact integer quotient
`T`, and the remaining cells hold the width-`2n+1-k` two's-complement
residue of `T`. -/
theorem mont_reduce_spec {n p : Nat} (hodd : p % 2 = 1)
    {T0 : Nat} (hT0 : T0 < 2 ^ (2 * n + 1)) :
    ∀ k, k ≤ n → ∃ u : Nat, ∃ T : Int,
      u < 2 ^ k ∧ (T0 : Int) = u * p + 2 ^ k * T ∧
      mont_reduce n p k (0, T0)
        = (u, (T.emod ((2 : Int) ^ (2 * n + 1 - k))).toNat) := by
  intro k
  induction k with
  | zero =>
      intro _
      refine ⟨0, (T0 : Int), by norm_num, by push_cast; ring, ?_⟩
      rw [natCast_emod_pow_toNat, Nat.sub_zero, Nat.mod_eq_of_lt hT0]
      rfl
  | succ k ih =>
      intro hk
      obtain ⟨u, T, hu, hT, heq⟩ := ih (by omega)
      set tk := (T.emod ((2 : Int) ^ (2 * n + 1 - k))).toNat with htk
      have hE0 : 0 ≤ T.emod ((2 : Int) ^ (2 * n + 1 - k)) :=
        Int.emod_nonneg _ (by positivity)
      have htkc : (tk : Int) = T.emod ((2 : Int) ^ (2 * n + 1 - k)) :=
        Int.toNat_of_nonneg hE0
      have hpar : ((tk % 2 : Nat) : Int) = T % 2 := by
        have h1 : ((tk % 2 : Nat) : Int) = (tk : Int) % 2 := by push_cast; ring
        rw [h1, htkc]
        exact Int.emod_emod_of_dvd T (dvd_pow_self 2 (by omega))
      have hstep : mont_reduce n p (k + 1) (0, T0)
          = (u + tk % 2 * 2 ^ k,
            (if tk % 2 = 1
              then phi_add_v (2 * n + 1 - k) (p : Int) (-1) tk
              else tk) / 2) := by
        have h0 : mont_reduce n p (k + 1) (0, T0)
            = ((mont_reduce n p k (0, T0)).1
                + (mont_reduce n p k (0, T0)).2 % 2 * 2 ^ k,
              (if (mont_reduce n p k (0, T0)).2 % 2 = 1
                then phi_add_v (2 * n + 1 - k) (p : Int) (-1)
                  (mont_reduce n p k (0, T0)).2
                else (mont_reduce n p k (0, T0)).2) / 2) := rfl
        rw [h0, heq]
      have hpow : (2 : Nat) ^ (k + 1) = 2 * 2 ^ k := by rw [pow_succ]; ring
      rcases Int.emod_two_eq T with h2 | h2
      · -- exposed bit clear: plain halving
        have htk0 : tk % 2 = 0 := by
          have h4 := hpar
          rw [h2] at h4
          exact_mod_cast h4
        obtain ⟨F, hF⟩ := Int.dvd_of_emod_eq_zero h2
        refine ⟨u, F, by omega, ?_, ?_⟩
        · rw [hT, hF]
          push_cast
          ring
        · rw [hstep, htk0, if_neg (by omega), Nat.zero_mul, Nat.add_zero]
          have h3 : tk / 2
              = (F.emod ((2 : Int) ^ (2 * n + 1 - (k + 1)))).toNat := by
            rw [htk, show T = 2 * F from hF, emod_toNat_half (by omega) F,
              show 2 * n + 1 - k - 1 = 2 * n + 1 - (k + 1) from by omega]
          rw [h3]
      · -- exposed bit set: subtract p, then halve
        have htk1 : tk % 2 = 1 := by
          have h4 := hpar
          rw [h2] at h4
          exact_mod_cast h4
        have hps : ((p : Nat) : Int) % 2 = 1 := by omega
        have hsub : (T - (p : Int)) % 2 = 0 := by omega
        obtain ⟨F, hF⟩ := Int.dvd_of_emod_eq_zero hsub
        refine ⟨u + 2 ^ k, F, by omega, ?_, ?_⟩
        · rw [hT, show T = 2 * F + (p : Int) from by omega]
          push_cast
          ring
        · rw [hstep, htk1, if_pos rfl, Nat.one_mul]
          have hphi : phi_add_v (2 * n + 1 - k) ((p : Nat) : Int) (-1) tk
              = ((T - (p : Int)).emod ((2 : Int) ^ (2 * n + 1 - k))).toNat := by
            rw [phi_add_v]
            congr 1
            rw [htkc]
            have h5 : T.emod ((2 : Int) ^ (2 * n + 1 - k))
                  % ((2 : Int) ^ (2 * n + 1 - k))
                = T % ((2 : Int) ^ (2 * n + 1 - k)) :=
              Int.emod_emod_of_dvd T (dvd_refl _)
            have h6 : (T.emod ((2 : Int) ^ (2 * n + 1 - k))
                  + (-1) * (p : Int)).emod ((2 : Int) ^ (2 * n + 1 - k))
                = (T + (-1) * (p : Int)).emod ((2 : Int) ^ (2 * n + 1 - k)) :=
              Int.ModEq.add_right _ h5
            rw [h6]
            ring_nf
          rw [hphi, show T - (p : Int) = 2 * F from hF,
            emod_toNat_half (by omega) F,
            show 2 * n + 1 - k - 1 = 2 * n + 1 - (k + 1) from by omega]

/-- The reduction loop keeps `u` below `2^k`, keeps the register inside
its shrinking width, and the reversed loop undoes it exactly. -/
theorem mont_reduce_rt {n p : Nat} (hodd : p % 2 = 1) (hpn : p ≤ 2 ^ n) :
    ∀ k, k ≤ n → ∀ {t : Nat}, t < 2 ^ (2 * n + 1) →
      ((mont_reduce n p k (0, t)).1 < 2 ^ k ∧
        (mont_reduce n p k (0, t)).2 < 2 ^ (2 * n + 1 - k)) ∧
      mont_reduce_inv n p k (mont_reduce n p k (0, t)) = (0, t) := by
  intro k
  induction k with
  | zero =>
      intro _ t ht
      exact ⟨⟨Nat.one_pos, ht⟩, rfl⟩
  | succ k ih =>
      intro hk t ht
      obtain ⟨⟨hu, ht'⟩, hrt⟩ := ih (by omega) ht
      set uk := (mont_reduce n p k (0, t)).1 with huk
      set tk := (mont_reduce n p k (0, t)).2 with htk
      set b := tk % 2 with hb
      have hstep : mont_reduce n p (k + 1) (0, t)
          = (uk + b * 2 ^ k,
            (if b = 1 then phi_add_v (2 * n + 1 - k) (p : Int) (-1) tk
              else tk) / 2) := rfl
      set t1 := (if b = 1 then phi_add_v (2 * n + 1 - k) (p : Int) (-1) tk
        else tk) with ht1
      have hb01 : b = 0 ∨ b = 1 := by omega
      have ht1lt : t1 < 2 ^ (2 * n + 1 - k) := by
        rw [ht1]
        split
        · exact phi_add_v_lt _ _ _ _
        · exact ht'
      have hQ : (2 : Nat) ^ (2 * n + 1 - k) = 2 * 2 ^ (2 * n + 1 - (k + 1)) := by
        rw [← pow_succ']
        congr 1
        omega
      have ht1even : t1 % 2 = 0 := by
        rcases hb01 with h0 | h1
        · rw [ht1, if_neg (by omega)]
          omega
        · rw [ht1, if_pos h1]
          have hple : p ≤ 2 ^ (2 * n + 1 - k) :=
            le_trans hpn (Nat.pow_le_pow_right (by omega) (by omega))
          rw [phi_add_v_neg _ tk hple]
          rw [Nat.mod_mod_of_dvd _ ⟨2 ^ (2 * n + 1 - (k + 1)), hQ⟩]
          omega
      have hpow : (2 : Nat) ^ (k + 1) = 2 * 2 ^ k := by rw [pow_succ]; ring
      refine ⟨⟨?_, ?_⟩, ?_⟩
      · rw [hstep]
        show uk + b * 2 ^ k < 2 ^ (k + 1)
        rcases hb01 with h0 | h0 <;> rw [h0] <;> omega
      · rw [hstep]
        show t1 / 2 < 2 ^ (2 * n + 1 - (k + 1))
        omega
      · rw [hstep]
        have hinv1 : mont_reduce_inv n p (k + 1) (uk + b * 2 ^ k, t1 / 2)
            = mont_reduce_inv n p k
              (uk + b * 2 ^ k - (uk + b * 2 ^ k) / 2 ^ k % 2 * 2 ^ k,
                if (uk + b * 2 ^ k) / 2 ^ k % 2 = 1
                  then phi_add_v (2 * n + 1 - k) (p : Int) 1 (t1 / 2 * 2)
                  else t1 / 2 * 2) := rfl
        have hread : (uk + b * 2 ^ k) / 2 ^ k % 2 = b := by
          rw [Nat.add_mul_div_right _ _ (show 0 < 2 ^ k by positivity),
            Nat.div_eq_of_lt hu, Nat.zero_add]
          omega
        have hdouble : t1 / 2 * 2 = t1 :=
          Nat.div_mul_cancel (Nat.dvd_of_mod_eq_zero ht1even)
        rw [hinv1, hread, hdouble, Nat.add_sub_cancel]
        have ht2 : (if b = 1 then phi_add_v (2 * n + 1 - k) (p : Int) 1 t1
            else t1) = tk := by
          rcases hb01 with h0 | h1
          · rw [if_neg (by omega), ht1, if_neg (by omega)]
          · rw [if_pos h1, ht1, if_pos h1, phi_add_v_add_sub _ _ ht']
        rw [ht2]
        show mont_reduce_inv n p k (mont_reduce n p k (0, t)) = (0, t)
        exact hrt


theorem testBit_eq_false_of_lt {m i : Nat} (h : m < 2 ^ i) :
    m.testBit i = false := by
  rw [Nat.testBit_to_div_mod, Nat.div_eq_of_lt h]
  rfl

/-- Reshaping of the out-of-place Montgomery stage once the reduction
output is known. -/
theorem mult_montgomery_partial_v_eq (n ym p : Nat) (c : Bool) (x B : Nat)
    {u tn : Nat}
    (hred : mont_reduce n p n (0, mont_accum n ym p c x n B) = (u, tn)) :
    mult_montgomery_partial_v n ym p c x B
      = mont_uncompute n ym p ((modInv p (2 ^ (n + 1))).getD 0) c x n
          (u + (xor (tn.testBit n)
            ((if tn.testBit n then phi_add_v n (p : Int) 1 (tn % 2 ^ n)
              else tn % 2 ^ n).testBit 0)).toNat * 2 ^ n) % 2 ^ n
        + 2 ^ n * (if tn.testBit n then phi_add_v n (p : Int) 1 (tn % 2 ^ n)
            else tn % 2 ^ n)
        + 2 ^ (2 * n)
          * (mont_uncompute n ym p ((modInv p (2 ^ (n + 1))).getD 0) c x n
              (u + (xor (tn.testBit n)
                ((if tn.testBit n then phi_add_v n (p : Int) 1 (tn % 2 ^ n)
                  else tn % 2 ^ n).testBit 0)).toNat * 2 ^ n) / 2 ^ n) := by
  simp only [mult_montgomery_partial_v]
  rw [hred]

/-- The uncompute loop subtracts exactly `p⁻¹` times the accumulated sum,
modulo `2^(n+1)`. -/
theorem mont_uncompute_val {n p : Nat} (hp1 : 0 < p) (hpn : p ≤ 2 ^ n)
    (ym pinv x : Nat) :
    ∀ k, k ≤ n → ∀ {U : Nat}, U < 2 ^ (n + 1) →
      mont_uncompute n ym p pinv true x k U
          + pinv * mont_accum n ym p true x k 0
        ≡ U [MOD 2 ^ (n + 1)] := by
  intro k
  induction k with
  | zero =>
      intro _ U hU
      simpa [mont_uncompute, mont_accum] using Nat.ModEq.refl U
  | succ k ih =>
      intro hk U hU
      have huf := ih (by omega) hU
      set uf := mont_uncompute n ym p pinv true x k U with hufdef
      have huflt : uf < 2 ^ (n + 1) := mont_uncompute_lt n ym p pinv true x k hU
      rw [mont_uncompute, mont_accum_succ hp1 hpn ym x (by omega),
        phi_addition_cc_v, ← hufdef]
      set D := 2 ^ k * ym % p * pinv % 2 ^ (n + 1) with hD
      have hDlt : D < 2 ^ (n + 1) := Nat.mod_lt _ (by positivity)
      have hDc : D ≡ pinv * (2 ^ k * ym % p) [MOD 2 ^ (n + 1)] := by
        rw [hD, Nat.mul_comm (2 ^ k * ym % p) pinv]
        exact Nat.mod_modEq _ _
      by_cases hbit : x.testBit k = true
      · rw [hbit, show ((true : Bool) && true) = true from rfl, if_pos rfl,
          show (true : Bool).toNat = 1 from rfl, Nat.one_mul,
          phi_add_v_neg _ uf (le_of_lt hDlt)]
        calc (uf + (2 ^ (n + 1) - D)) % 2 ^ (n + 1)
              + pinv * (mont_accum n ym p true x k 0 + 2 ^ k * ym % p)
            ≡ uf + (2 ^ (n + 1) - D)
              + pinv * (mont_accum n ym p true x k 0 + 2 ^ k * ym % p)
              [MOD 2 ^ (n + 1)] := Nat.ModEq.add_right _ (Nat.mod_modEq _ _)
          _ = uf + (2 ^ (n + 1) - D) + pinv * mont_accum n ym p true x k 0
              + pinv * (2 ^ k * ym % p) := by ring
          _ ≡ uf + (2 ^ (n + 1) - D) + pinv * mont_accum n ym p true x k 0
              + D [MOD 2 ^ (n + 1)] := Nat.ModEq.add_left _ hDc.symm
          _ = uf + pinv * mont_accum n ym p true x k 0 + 2 ^ (n + 1) := by
              omega
          _ ≡ uf + pinv * mont_accum n ym p true x k 0 [MOD 2 ^ (n + 1)] :=
              Nat.add_mod_right _ _
          _ ≡ U [MOD 2 ^ (n + 1)] := huf
      · have hbit' : x.testBit k = false := Bool.eq_false_iff.mpr hbit
        rw [hbit', Bool.and_false, if_neg (show ¬ (false = true) from by simp),
          show (false : Bool).toNat = 0 from rfl, Nat.zero_mul, Nat.add_zero]
        exact huf

/-- The closing phases of the out-of-place Montgomery stage: once the
uncompute input `U` is the `2^(n+1)`-adic quotient of the accumulated sum
and the result cells hold an `R < p` congruent to the accumulated sum
times `R⁻¹`, the scratch cells cancel to zero and the output is
`2^n * (x*ym*rinv mod p)`. -/
theorem mont_final_spec {n p : Nat} (hodd : p % 2 = 1) (hp1 : 0 < p)
    (hp2 : p < 2 ^ n) {rinv : Nat} (hrinv : 2 ^ n * rinv % p = 1 % p)
    (ym : Nat) {x : Nat} (hx : x < 2 ^ n) {U R : Nat} (hU : U < 2 ^ (n + 1))
    (hRlt : R < p)
    (hUeq : ∃ T2 : Int, ((mont_accum n ym p true x n 0 : Nat) : Int)
      = U * p + 2 ^ (n + 1) * T2)
    (hReq : ∃ K : Int, ((2 ^ n * R : Nat) : Int)
      = ((mont_accum n ym p true x n 0 : Nat) : Int) + p * K) :
    mont_uncompute n ym p ((modInv p (2 ^ (n + 1))).getD 0) true x n U % 2 ^ n
        + 2 ^ n * R
        + 2 ^ (2 * n)
          * (mont_uncompute n ym p ((modInv p (2 ^ (n + 1))).getD 0) true x n U
              / 2 ^ n)
      = 2 ^ n * (x * ym * rinv % p) := by
  have hpn : p ≤ 2 ^ n := le_of_lt hp2
  have hM : (0 : Nat) < 2 ^ (n + 1) := by positivity
  have hcop2 : Nat.Coprime p (2 ^ (n + 1)) :=
    Nat.Coprime.pow_right _ (Nat.coprime_two_right.mpr (Nat.odd_iff.mpr hodd))
  obtain ⟨pinv, hpv, hpvinv, _⟩ := modInv_of_coprime hM hcop2
  have hgd : (modInv p (2 ^ (n + 1))).getD 0 = pinv := by rw [hpv]; rfl
  rw [hgd]
  have hufv := mont_uncompute_val hp1 hpn ym pinv x n (le_refl n) hU
  obtain ⟨T2, hT2⟩ := hUeq
  have hmodU : mont_accum n ym p true x n 0 % 2 ^ (n + 1)
      = U * p % 2 ^ (n + 1) := by
    have h1 : ((mont_accum n ym p true x n 0 % 2 ^ (n + 1) : Nat) : Int)
        = ((U * p % 2 ^ (n + 1) : Nat) : Int) := by
      push_cast
      rw [hT2, Int.add_mul_emod_self_left]
    exact_mod_cast h1
  have hcongU : pinv * mont_accum n ym p true x n 0 ≡ U [MOD 2 ^ (n + 1)] := by
    calc pinv * mont_accum n ym p true x n 0
        ≡ pinv * (U * p) [MOD 2 ^ (n + 1)] := Nat.ModEq.mul_left pinv hmodU
      _ = U * (p * pinv) := by ring
      _ ≡ U * (1 % 2 ^ (n + 1)) [MOD 2 ^ (n + 1)] :=
          Nat.ModEq.mul_left U (show p * pinv ≡ 1 % 2 ^ (n + 1)
            [MOD 2 ^ (n + 1)] from by
              show p * pinv % 2 ^ (n + 1) = 1 % 2 ^ (n + 1) % 2 ^ (n + 1)
              rw [hpvinv, Nat.mod_mod_of_dvd _ (dvd_refl _)])
      _ ≡ U * 1 [MOD 2 ^ (n + 1)] := Nat.ModEq.mul_left U (Nat.mod_modEq 1 _)
      _ = U := Nat.mul_one U
  have hufzero : mont_uncompute n ym p pinv true x n U = 0 := by
    have h1 : mont_uncompute n ym p pinv true x n U
          + pinv * mont_accum n ym p true x n 0
        ≡ 0 + pinv * mont_accum n ym p true x n 0 [MOD 2 ^ (n + 1)] := by
      calc mont_uncompute n ym p pinv true x n U
            + pinv * mont_accum n ym p true x n 0
          ≡ U [MOD 2 ^ (n + 1)] := hufv
        _ ≡ pinv * mont_accum n ym p true x n 0 [MOD 2 ^ (n + 1)] :=
            hcongU.symm
        _ = 0 + pinv * mont_accum n ym p true x n 0 := (Nat.zero_add _).symm
    have h2 : mont_uncompute n ym p pinv true x n U ≡ 0 [MOD 2 ^ (n + 1)] :=
      Nat.ModEq.add_right_cancel (Nat.ModEq.refl _) h1
    have h3 := mont_uncompute_lt n ym p pinv true x n hU
    have h4 : mont_uncompute n ym p pinv true x n U % 2 ^ (n + 1)
        = 0 % 2 ^ (n + 1) := h2
    rw [Nat.mod_eq_of_lt h3, Nat.zero_mod] at h4
    exact h4
  rw [hufzero, Nat.zero_mod, Nat.zero_div, Nat.zero_add, Nat.mul_zero,
    Nat.add_zero]
  obtain ⟨K, hK⟩ := hReq
  have hmodR : 2 ^ n * R % p = mont_accum n ym p true x n 0 % p := by
    push_cast at hK
    have h1 : ((2 ^ n * R % p : Nat) : Int)
        = ((mont_accum n ym p true x n 0 % p : Nat) : Int) := by
      push_cast
      rw [hK, Int.add_mul_emod_self_left]
    exact_mod_cast h1
  obtain ⟨_, hT0c⟩ := mont_accum_val hp1 hpn ym x n (le_refl n)
  rw [Nat.mod_eq_of_lt hx] at hT0c
  have hch0 : x * ym * rinv ≡ R [MOD p] := by
    calc x * ym * rinv
        ≡ mont_accum n ym p true x n 0 * rinv [MOD p] :=
          Nat.ModEq.mul_right rinv hT0c.symm
      _ ≡ 2 ^ n * R * rinv [MOD p] :=
          Nat.ModEq.mul_right rinv (Nat.ModEq.symm hmodR)
      _ = R * (2 ^ n * rinv) := by ring
      _ ≡ R * (1 % p) [MOD p] :=
          Nat.ModEq.mul_left R (show 2 ^ n * rinv ≡ 1 % p [MOD p] from by
            show 2 ^ n * rinv % p = 1 % p % p
            rw [hrinv, Nat.mod_mod_of_dvd _ (dvd_refl _)])
      _ ≡ R * 1 [MOD p] := Nat.ModEq.mul_left R (Nat.mod_modEq 1 p)
      _ = R := Nat.mul_one R
  have hRval : x * ym * rinv % p = R := by
    rw [show x * ym * rinv % p = R % p from hch0, Nat.mod_eq_of_lt hRlt]
  rw [hRval]

/-- Full correctness of the out-of-place Montgomery multiplier stage on
the reachable input (control on, big register clear): the result cells
(at offset `n`) receive `x * ym * R⁻¹ mod p`, every other cell ends
at zero. -/
theorem mult_montgomery_partial_v_val {n p : Nat} (hodd : p % 2 = 1)
    (hp1 : 0 < p) (hp2 : p < 2 ^ n) {rinv : Nat}
    (hrinv : 2 ^ n * rinv % p = 1 % p) (ym : Nat) {x : Nat} (hx : x < 2 ^ n) :
    mult_montgomery_partial_v n ym p true x 0
      = 2 ^ n * (x * ym * rinv % p) := by
  have hpn : p ≤ 2 ^ n := le_of_lt hp2
  have hnlt : n < 2 ^ n := Nat.lt_two_pow n
  have h2n : (2 : Nat) ^ n * 2 ^ n = 2 ^ (2 * n) := by
    rw [← pow_add]
    congr 1
    omega
  have h2n1 : (2 : Nat) ^ (2 * n + 1) = 2 * 2 ^ (2 * n) := by
    rw [pow_succ]
    ring
  have h2s : (2 : Nat) ^ (n + 1) = 2 * 2 ^ n := by
    rw [pow_succ]
    ring
  obtain ⟨hT0b, hT0c⟩ := mont_accum_val hp1 hpn ym x n (le_refl n)
  have hmulc : p * 2 ^ n = 2 ^ n * p := Nat.mul_comm _ _
  have hnp : n * (p - 1) < 2 ^ n * p := Nat.mul_lt_mul'' hnlt (by omega)
  have hT0p : mont_accum n ym p true x n 0 < p * 2 ^ n := by omega
  have hppow : p * 2 ^ n ≤ 2 ^ n * 2 ^ n := by
    rw [hmulc]
    exact Nat.mul_le_mul_left _ hpn
  have hT0W : mont_accum n ym p true x n 0 < 2 ^ (2 * n + 1) := by omega
  obtain ⟨u, T, hu, hTeq, hred⟩ := mont_reduce_spec hodd hT0W n (le_refl n)
  rw [show 2 * n + 1 - n = n + 1 from by omega] at hred
  have hpC : (0 : Int) < (p : Int) := by exact_mod_cast hp1
  have hpnC : ((p : Nat) : Int) ≤ (2 : Int) ^ n := by exact_mod_cast hpn
  have h2C : (0 : Int) < (2 : Int) ^ n := by positivity
  have h2s' : ((2 : Int) ^ (n + 1)) = 2 * (2 : Int) ^ n := by rw [pow_succ']
  have hT0nn : (0 : Int) ≤ ((mont_accum n ym p true x n 0 : Nat) : Int) := by
    positivity
  have hT0C : ((mont_accum n ym p true x n 0 : Nat) : Int)
      < (p : Int) * (2 : Int) ^ n := by exact_mod_cast hT0p
  have hTub : T < (p : Int) := by
    have hup : (0 : Int) ≤ (u : Int) * (p : Int) := by positivity
    have h1 : (2 : Int) ^ n * T < (2 : Int) ^ n * (p : Int) := by linarith
    exact lt_of_mul_lt_mul_left h1 (le_of_lt h2C)
  have hTlb : -((p : Nat) : Int) < T := by
    have huC : ((u : Nat) : Int) < (2 : Int) ^ n := by exact_mod_cast hu
    have hup2 : (u : Int) * (p : Int) < (2 : Int) ^ n * (p : Int) :=
      mul_lt_mul_of_pos_right huC hpC
    have h1 : (2 : Int) ^ n * -((p : Nat) : Int) < (2 : Int) ^ n * T := by
      linarith
    exact lt_of_mul_lt_mul_left h1 (le_of_lt h2C)
  set tn := (T.emod ((2 : Int) ^ (n + 1))).toNat with htndef
  have htnn : 0 ≤ T.emod ((2 : Int) ^ (n + 1)) :=
    Int.emod_nonneg _ (by positivity)
  have htnc : (tn : Int) = T.emod ((2 : Int) ^ (n + 1)) :=
    Int.toNat_of_nonneg htnn
  rw [mult_montgomery_partial_v_eq n ym p true x 0 hred]
  rcases le_or_lt 0 T with hTpos | hTneg
  · -- nonnegative quotient: sign cell clear
    have hTE : T.emod ((2 : Int) ^ (n + 1)) = T :=
      Int.emod_eq_of_lt hTpos (by linarith)
    have htnT : (tn : Int) = T := by rw [htnc, hTE]
    have htnp : tn < p := by
      have h1 : (tn : Int) < (p : Int) := by
        rw [htnT]
        exact hTub
      exact_mod_cast h1
    have hs : tn.testBit n = false := testBit_eq_false_of_lt (by omega)
    have hr0 : tn % 2 ^ n = tn := Nat.mod_eq_of_lt (by omega)
    simp only [hs, if_neg (show ¬ (false = true) from by simp), hr0,
      Bool.false_xor]
    refine mont_final_spec hodd hp1 hp2 hrinv ym hx ?_ htnp ?_ ?_
    · cases hq : tn.testBit 0 <;> simp <;> omega
    · rcases Int.emod_two_eq T with hTp | hTp
      · have htn0 : tn % 2 = 0 := by
          have h2 : ((tn % 2 : Nat) : Int) = (tn : Int) % 2 := by
            push_cast
            ring
          rw [htnT, hTp] at h2
          exact_mod_cast h2
        have hb0 : tn.testBit 0 = false := by
          rw [Nat.testBit_to_div_mod, pow_zero, Nat.div_one, htn0]
          rfl
        obtain ⟨F, hF⟩ := Int.dvd_of_emod_eq_zero hTp
        refine ⟨F, ?_⟩
        rw [hb0, show (false : Bool).toNat = 0 from rfl, Nat.zero_mul,
          Nat.add_zero, hTeq, hF]
        push_cast
        ring
      · have htn1 : tn % 2 = 1 := by
          have h2 : ((tn % 2 : Nat) : Int) = (tn : Int) % 2 := by
            push_cast
            ring
          rw [htnT, hTp] at h2
          exact_mod_cast h2
        have hb1 : tn.testBit 0 = true := by
          rw [Nat.testBit_to_div_mod, pow_zero, Nat.div_one, htn1]
          rfl
        have hps : ((p : Nat) : Int) % 2 = 1 := by omega
        have hsub2 : (T - (p : Int)) % 2 = 0 := by omega
        obtain ⟨F, hF⟩ := Int.dvd_of_emod_eq_zero hsub2
        refine ⟨F, ?_⟩
        rw [hb1, show (true : Bool).toNat = 1 from rfl, Nat.one_mul, hTeq,
          show T = 2 * F + (p : Int) from by omega]
        push_cast
        ring
    · refine ⟨-(u : Int), ?_⟩
      push_cast
      rw [htnT, hTeq]
      ring
  · -- negative quotient: sign cell set, p re-added
    have h1 : (T + (2 : Int) ^ (n + 1) * 1).emod ((2 : Int) ^ (n + 1))
        = T.emod ((2 : Int) ^ (n + 1)) :=
      Int.add_mul_emod_self_left T ((2 : Int) ^ (n + 1)) 1
    have hTE : T.emod ((2 : Int) ^ (n + 1)) = T + (2 : Int) ^ (n + 1) := by
      rw [mul_one] at h1
      rw [← h1]
      exact Int.emod_eq_of_lt (by linarith) (by linarith)
    have htnc2 : (tn : Int) = T + (2 : Int) ^ (n + 1) := by rw [htnc, hTE]
    have htnlb : 2 ^ n ≤ tn := by
      have h2 : ((2 ^ n : Nat) : Int) ≤ (tn : Int) := by
        rw [htnc2]
        push_cast
        linarith
      exact_mod_cast h2
    have htnub : tn < 2 ^ (n + 1) := by
      have h2 : (tn : Int) < ((2 ^ (n + 1) : Nat) : Int) := by
        rw [htnc2]
        push_cast
        linarith
      exact_mod_cast h2
    have hs : tn.testBit n = true := by
      have h3 := testBit_msb (show 1 ≤ n + 1 from by omega) htnub
      rw [show n + 1 - 1 = n from rfl] at h3
      rw [h3]
      exact decide_eq_true htnlb
    have hr0 : tn % 2 ^ n = tn - 2 ^ n := by
      rw [Nat.mod_eq_sub_mod htnlb, Nat.mod_eq_of_lt (by omega)]
    set RB := (T + (p : Int)).toNat with hRBdef
    have hRBc : (RB : Int) = T + (p : Int) :=
      Int.toNat_of_nonneg (by linarith)
    have hRBlt : RB < p := by
      have h2 : (RB : Int) < (p : Int) := by
        rw [hRBc]
        linarith
      exact_mod_cast h2
    have hrv : phi_add_v n ((p : Nat) : Int) 1 (tn % 2 ^ n) = RB := by
      rw [phi_add_v_one, hr0]
      have h10 : ((2 ^ n : Nat) : Int) = (2 : Int) ^ n := by
        push_cast
        ring
      have h11 : ((2 ^ (n + 1) : Nat) : Int) = 2 * (2 : Int) ^ n := by
        push_cast
        rw [pow_succ']
      have h7 : tn - 2 ^ n + p = RB + 2 ^ n := by omega
      rw [h7, Nat.add_mod_right, Nat.mod_eq_of_lt (by omega)]
    simp only [hs, hrv, eq_self_iff_true, if_true, Bool.true_xor]
    refine mont_final_spec hodd hp1 hp2 hrinv ym hx ?_ hRBlt ?_ ?_
    · cases hq : RB.testBit 0 <;> simp <;> omega
    · rcases Int.emod_two_eq T with hTp | hTp
      · have hps : ((p : Nat) : Int) % 2 = 1 := by omega
        have hRB1 : RB % 2 = 1 := by
          have h3 : ((RB % 2 : Nat) : Int) = (RB : Int) % 2 := by
            push_cast
            ring
          rw [hRBc, show (T + (p : Int)) % 2 = 1 from by omega] at h3
          exact_mod_cast h3
        have hbt : RB.testBit 0 = true := by
          rw [Nat.testBit_to_div_mod, pow_zero, Nat.div_one, hRB1]
          rfl
        obtain ⟨F, hF⟩ := Int.dvd_of_emod_eq_zero hTp
        refine ⟨F, ?_⟩
        rw [hbt, show (!(true : Bool)) = false from rfl,
          show (false : Bool).toNat = 0 from rfl, Nat.zero_mul, Nat.add_zero,
          hTeq, hF]
        push_cast
        ring
      · have hps : ((p : Nat) : Int) % 2 = 1 := by omega
        have hRB0 : RB % 2 = 0 := by
          have h3 : ((RB % 2 : Nat) : Int) = (RB : Int) % 2 := by
            push_cast
            ring
          rw [hRBc, show (T + (p : Int)) % 2 = 0 from by omega] at h3
          exact_mod_cast h3
        have hbt : RB.testBit 0 = false := by
          rw [Nat.testBit_to_div_mod, pow_zero, Nat.div_one, hRB0]
          rfl
        have hsub2 : (T - (p : Int)) % 2 = 0 := by omega
        obtain ⟨F, hF⟩ := Int.dvd_of_emod_eq_zero hsub2
        refine ⟨F, ?_⟩
        rw [hbt, show (!(false : Bool)) = true from rfl,
          show (true : Bool).toNat = 1 from rfl, Nat.one_mul, hTeq,
          show T = 2 * F + (p : Int) from by omega]
        push_cast
        ring
    · refine ⟨(2 : Int) ^ n - (u : Int), ?_⟩
      push_cast
      rw [hRBc, hTeq]
      ring

theorem mont_accum_inv_false (n ym p x : Nat) :
    ∀ k t, mont_accum_inv n ym p false x k t = t := by
  intro k
  induction k with
  | zero => intro t; rfl
  | succ k ih =>
      intro t
      rw [mont_accum_inv,
        show phi_addition_cc_v (2 * n + 1) ((2 ^ k * ym % p : Nat) : Int) (-1)
          false (x.testBit k) t = t from by simp [phi_addition_cc_v]]
      exact ih t

theorem mont_uncompute_inv_false (n ym p pinv x : Nat) :
    ∀ k U, mont_uncompute_inv n ym p pinv false x k U = U := by
  intro k
  induction k with
  | zero => intro U; rfl
  | succ k ih =>
      intro U
      rw [mont_uncompute_inv,
        show phi_addition_cc_v (n + 1)
          ((2 ^ k * ym % p * pinv % 2 ^ (n + 1) : Nat) : Int) 1 false
          (x.testBit k) U = U from by simp [phi_addition_cc_v]]
      exact ih U

/-- With the control clear, the out-of-place Montgomery stage leaves a
cleared big register cleared. -/
theorem mult_montgomery_partial_v_false (n ym p x : Nat) :
    mult_montgomery_partial_v n ym p false x 0 = 0 := by
  rw [mult_montgomery_partial_v_eq n ym p false x 0
    (show mont_reduce n p n (0, mont_accum n ym p false x n 0) = (0, 0) from by
      rw [mont_accum_false n ym p x n 0]
      exact mont_reduce_zero n p n)]
  simp [Nat.zero_testBit, mont_uncompute_false]

/-- With the control clear, the generated inverse of the out-of-place
Montgomery stage leaves a cleared big register cleared. -/
theorem mult_montgomery_partial_v_inv_false (n ym p x : Nat) :
    mult_montgomery_partial_v_inv n ym p false x 0 = 0 := by
  simp only [mult_montgomery_partial_v_inv]
  simp [Nat.zero_testBit, mont_uncompute_inv_false, mont_reduce_inv_zero,
    mont_accum_inv_false]
  rw [show (0 : Nat × Nat) = ((0, 0) : Nat × Nat) from rfl,
    mont_reduce_inv_zero n p n]


/-- The generated inverse of the out-of-place Montgomery stage undoes it
on every in-range big-register value and either control setting. -/
theorem mult_montgomery_partial_inv_fwd {n p : Nat} (hodd : p % 2 = 1)
    (hpn : p ≤ 2 ^ n) (ym : Nat) (c : Bool) (x : Nat) {B : Nat}
    (hB : B < 2 ^ (2 * n + 1)) :
    mult_montgomery_partial_v_inv n ym p c x
      (mult_montgomery_partial_v n ym p c x B) = B := by
  have hQpos : (0 : Nat) < 2 ^ n := by positivity
  have h2s : (2 : Nat) ^ (n + 1) = 2 * 2 ^ n := by rw [pow_succ]; ring
  have h2n : (2 : Nat) ^ n * 2 ^ n = 2 ^ (2 * n) := by
    rw [← pow_add]
    congr 1
    omega
  set t0 := mont_accum n ym p c x n B with ht0def
  have ht0lt : t0 < 2 ^ (2 * n + 1) := mont_accum_lt n ym p c x n hB
  obtain ⟨⟨hu, htn⟩, hrt⟩ := mont_reduce_rt hodd hpn n (le_refl n) ht0lt
  rw [show 2 * n + 1 - n = n + 1 from by omega] at htn
  set u := (mont_reduce n p n (0, t0)).1 with hudef
  set tn := (mont_reduce n p n (0, t0)).2 with htndef
  have hred : mont_reduce n p n (0, t0) = (u, tn) := rfl
  rw [mult_montgomery_partial_v_eq n ym p c x B hred]
  simp only [mult_montgomery_partial_v_inv]
  set pinv := (modInv p (2 ^ (n + 1))).getD 0 with hpinvdef
  set R := (if tn.testBit n then phi_add_v n (p : Int) 1 (tn % 2 ^ n)
    else tn % 2 ^ n) with hRdef
  set s1 := xor (tn.testBit n) (R.testBit 0) with hs1def
  set U := u + s1.toNat * 2 ^ n with hUdef
  set E := mont_uncompute n ym p pinv c x n U with hEdef
  have hRlt : R < 2 ^ n := by
    rw [hRdef]
    split
    · exact phi_add_v_lt _ _ _ _
    · exact Nat.mod_lt _ hQpos
  have hs1le : s1.toNat ≤ 1 := by cases s1 <;> simp
  have hmle : s1.toNat * 2 ^ n ≤ 1 * 2 ^ n := Nat.mul_le_mul_right _ hs1le
  have hUlt : U < 2 ^ (n + 1) := by
    rw [hUdef]
    rw [Nat.one_mul] at hmle
    omega
  have hElt : E < 2 ^ (n + 1) := by
    rw [hEdef]
    exact mont_uncompute_lt n ym p pinv c x n hUlt
  have hdiv2 : E / 2 ^ n < 2 :=
    (Nat.div_lt_iff_lt_mul hQpos).mpr (by omega)
  have hsum : E % 2 ^ n + 2 ^ n * R < 2 ^ (2 * n) := by
    have hR1 : R + 1 ≤ 2 ^ n := hRlt
    have h6 : 2 ^ n * (R + 1) ≤ 2 ^ n * 2 ^ n := Nat.mul_le_mul_left _ hR1
    rw [Nat.mul_add, Nat.mul_one] at h6
    have h7 : E % 2 ^ n < 2 ^ n := Nat.mod_lt _ hQpos
    omega
  have hA : (E % 2 ^ n + 2 ^ n * R + 2 ^ (2 * n) * (E / 2 ^ n)) % 2 ^ n
      = E % 2 ^ n := by
    rw [show E % 2 ^ n + 2 ^ n * R + 2 ^ (2 * n) * (E / 2 ^ n)
        = E % 2 ^ n + 2 ^ n * (R + 2 ^ n * (E / 2 ^ n)) from by
          rw [← h2n]
          ring,
      Nat.add_mul_mod_self_left, Nat.mod_mod_of_dvd _ (dvd_refl _)]
  have hBv : (E % 2 ^ n + 2 ^ n * R + 2 ^ (2 * n) * (E / 2 ^ n)) / 2 ^ (2 * n)
        % 2
      = E / 2 ^ n := by
    rw [Nat.add_mul_div_left _ _ (show 0 < 2 ^ (2 * n) by positivity),
      Nat.div_eq_of_lt hsum, Nat.zero_add, Nat.mod_eq_of_lt hdiv2]
  have hC : (E % 2 ^ n + 2 ^ n * R + 2 ^ (2 * n) * (E / 2 ^ n)) / 2 ^ n
        % 2 ^ n
      = R := by
    rw [show E % 2 ^ n + 2 ^ n * R + 2 ^ (2 * n) * (E / 2 ^ n)
        = E % 2 ^ n + 2 ^ n * (R + 2 ^ n * (E / 2 ^ n)) from by
          rw [← h2n]
          ring,
      Nat.add_mul_div_left _ _ hQpos,
      Nat.div_eq_of_lt (Nat.mod_lt _ hQpos), Nat.zero_add,
      Nat.add_mul_mod_self_left, Nat.mod_eq_of_lt hRlt]
  rw [hA, hBv, Nat.mod_add_div, hC, hEdef,
    mont_uncompute_inv_fwd n ym p pinv c x n hUlt]
  have hbit : U.testBit n = s1 := by
    rcases Bool.eq_false_or_eq_true s1 with hq | hq <;> rw [hUdef, hq]
    · rw [show ((true : Bool)).toNat = 1 from rfl, Nat.one_mul]
      have h8 : u + 2 ^ n < 2 ^ (n + 1) := by omega
      have h9 := testBit_msb (show 1 ≤ n + 1 from by omega) h8
      rw [show n + 1 - 1 = n from rfl] at h9
      rw [h9]
      exact decide_eq_true (by omega)
    · rw [show ((false : Bool)).toNat = 0 from rfl, Nat.zero_mul,
        Nat.add_zero]
      exact testBit_eq_false_of_lt hu
  have hmod : U % 2 ^ n = u := by
    rcases Bool.eq_false_or_eq_true s1 with hq | hq <;> rw [hUdef, hq]
    · rw [show ((true : Bool)).toNat = 1 from rfl, Nat.one_mul,
        Nat.add_mod_right]
      exact Nat.mod_eq_of_lt hu
    · rw [show ((false : Bool)).toNat = 0 from rfl, Nat.zero_mul,
        Nat.add_zero]
      exact Nat.mod_eq_of_lt hu
  rw [hbit, hmod, hs1def, Bool.xor_assoc, Bool.xor_self, Bool.xor_false]
  have hback : (if tn.testBit n then phi_add_v n ((p : Nat) : Int) (-1) R
      else R) + 2 ^ n * (tn.testBit n).toNat = tn := by
    have h9 := mod_two_pow_succ tn n
    rw [Nat.mod_eq_of_lt htn] at h9
    rcases Bool.eq_false_or_eq_true (tn.testBit n) with hsn | hsn
    · have hRv : R = phi_add_v n ((p : Nat) : Int) 1 (tn % 2 ^ n) := by
        rw [hRdef]
        simp only [hsn, eq_self_iff_true, if_true]
      rw [hsn, show ((true : Bool)).toNat = 1 from rfl, Nat.one_mul] at h9
      simp only [hsn, eq_self_iff_true, if_true]
      rw [hRv, phi_add_v_sub_add _ _ (Nat.mod_lt _ hQpos),
        show ((true : Bool)).toNat = 1 from rfl, Nat.mul_one]
      omega
    · have hRv : R = tn % 2 ^ n := by
        rw [hRdef]
        simp only [hsn, Bool.false_eq_true, if_false]
      rw [hsn, show ((false : Bool)).toNat = 0 from rfl, Nat.zero_mul,
        Nat.zero_add] at h9
      simp only [hsn, Bool.false_eq_true, if_false]
      rw [hRv, show ((false : Bool)).toNat = 0 from rfl, Nat.mul_zero,
        Nat.add_zero]
      omega
  rw [hback, show ((u, tn) : Nat × Nat) = mont_reduce n p n (0, t0) from rfl,
    hrt]
  show mont_accum_inv n ym p c x n t0 = B
  rw [ht0def]
  exact mont_accum_inv_fwd n ym p c x n hB


/-- The swap-then-inverse tail shared by the in-place Montgomery
multiplier and its generated inverse. -/
theorem mont_inplace_chain {n p ymA ymB : Nat} (hodd : p % 2 = 1)
    (hp1 : 0 < p) (hp2 : p < 2 ^ n) {x M : Nat} (hM : M < p)
    (hfwdA : mult_montgomery_partial_v n ymA p true x 0 = 2 ^ n * M)
    (hfwdB : mult_montgomery_partial_v n ymB p true M 0 = 2 ^ n * x) :
    (cswap_mid n true x (mult_montgomery_partial_v n ymA p true x 0)).1 = M ∧
    mult_montgomery_partial_v_inv n ymB p true
      (cswap_mid n true x (mult_montgomery_partial_v n ymA p true x 0)).1
      (cswap_mid n true x (mult_montgomery_partial_v n ymA p true x 0)).2
      = 0 := by
  have hQpos : (0 : Nat) < 2 ^ n := by positivity
  have h2n : (2 : Nat) ^ n * 2 ^ n = 2 ^ (2 * n) := by
    rw [← pow_add]
    congr 1
    omega
  have hsw : cswap_mid n true x (mult_montgomery_partial_v n ymA p true x 0)
      = (M, x * 2 ^ n) := by
    rw [hfwdA, cswap_mid, if_pos rfl]
    have hd1 : 2 ^ n * M / 2 ^ n = M := Nat.mul_div_cancel_left M hQpos
    have hd2 : 2 ^ n * M / 2 ^ (2 * n) = 0 := by
      refine Nat.div_eq_of_lt ?_
      have h1 : 2 ^ n * M < 2 ^ n * 2 ^ n :=
        mul_lt_mul_of_pos_left (by omega) hQpos
      omega
    rw [hd1, Nat.mod_eq_of_lt (by omega), Nat.mul_mod_right, Nat.zero_add,
      hd2, Nat.zero_mul, Nat.add_zero]
  rw [hsw]
  refine ⟨rfl, ?_⟩
  show mult_montgomery_partial_v_inv n ymB p true M (x * 2 ^ n) = 0
  rw [show x * 2 ^ n = 2 ^ n * x from Nat.mul_comm _ _, ← hfwdB]
  exact mult_montgomery_partial_inv_fwd hodd (le_of_lt hp2) ymB true M
    (show (0 : Nat) < 2 ^ (2 * n + 1) by positivity)

/-- Full correctness of the controlled in-place Montgomery multiplier on
reachable states: with control on, `x` becomes `y*x mod p`; with control
off it is the identity; the big register returns to zero. -/
theorem mult_montgomery_c_val {n y p : Nat} (hodd : p % 2 = 1) (hp1 : 0 < p)
    (hp2 : p < 2 ^ n) (hcop : Nat.Coprime y p) {x : Nat} (hx : x < p)
    (c : Bool) :
    mult_montgomery_c_v n y p c x 0 = (if c then y * x % p else x, 0) := by
  have hcopR : Nat.Coprime (2 ^ n) p :=
    Nat.Coprime.pow_left _ (Nat.coprime_two_left.mpr (Nat.odd_iff.mpr hodd))
  obtain ⟨rinv, hrv, hrinv, _⟩ := modInv_of_coprime hp1 hcopR
  cases c with
  | false =>
      simp only [mult_montgomery_c_v]
      rw [mult_montgomery_partial_v_false,
        show cswap_mid n false x 0 = (x, 0) from rfl]
      simp only [show ((x, 0) : Nat × Nat).1 = x from rfl,
        show ((x, 0) : Nat × Nat).2 = 0 from rfl]
      rw [mult_montgomery_partial_v_inv_false,
        if_neg (show ¬ (false = true) from by simp)]
  | true =>
      simp only [mult_montgomery_c_v]
      set ym := y * 2 ^ n % p with hymdef
      set M := y * x % p with hMdef
      have hMlt : M < p := Nat.mod_lt _ hp1
      have hfwdA : mult_montgomery_partial_v n ym p true x 0 = 2 ^ n * M := by
        rw [mult_montgomery_partial_v_val hodd hp1 hp2 hrinv ym
          (show x < 2 ^ n from by omega)]
        congr 1
        show x * ym * rinv % p = M
        rw [hymdef, hMdef]
        have hcalc : x * (y * 2 ^ n % p) * rinv ≡ y * x [MOD p] := by
          calc x * (y * 2 ^ n % p) * rinv
              ≡ x * (y * 2 ^ n) * rinv [MOD p] :=
                ((Nat.mod_modEq _ p).mul_left x).mul_right rinv
            _ = x * y * (2 ^ n * rinv) := by ring
            _ ≡ x * y * (1 % p) [MOD p] :=
                Nat.ModEq.mul_left _ (show 2 ^ n * rinv ≡ 1 % p [MOD p] from by
                  show 2 ^ n * rinv % p = 1 % p % p
                  rw [hrinv, Nat.mod_mod_of_dvd _ (dvd_refl _)])
            _ ≡ x * y * 1 [MOD p] := Nat.ModEq.mul_left _ (Nat.mod_modEq 1 p)
            _ = y * x := by ring
        exact hcalc
      set yinv := (modInv y p).getD 0 with hyidef
      obtain ⟨u, hu, huinv, hult⟩ := modInv_of_coprime hp1 hcop
      have hyi : yinv = u := by rw [hyidef, hu]; rfl
      set ymi := yinv * 2 ^ n % p with hymidef
      have hfwdB : mult_montgomery_partial_v n ymi p true M 0 = 2 ^ n * x := by
        rw [mult_montgomery_partial_v_val hodd hp1 hp2 hrinv ymi
          (show M < 2 ^ n from by omega)]
        congr 1
        show M * ymi * rinv % p = x
        rw [hymidef, hyi]
        have hcalc : M * (u * 2 ^ n % p) * rinv ≡ x [MOD p] := by
          calc M * (u * 2 ^ n % p) * rinv
              ≡ M * (u * 2 ^ n) * rinv [MOD p] :=
                ((Nat.mod_modEq _ p).mul_left M).mul_right rinv
            _ = M * u * (2 ^ n * rinv) := by ring
            _ ≡ M * u * (1 % p) [MOD p] :=
                Nat.ModEq.mul_left _ (show 2 ^ n * rinv ≡ 1 % p [MOD p] from by
                  show 2 ^ n * rinv % p = 1 % p % p
                  rw [hrinv, Nat.mod_mod_of_dvd _ (dvd_refl _)])
            _ ≡ M * u * 1 [MOD p] := Nat.ModEq.mul_left _ (Nat.mod_modEq 1 p)
            _ = M * u := by ring
            _ ≡ y * x * u [MOD p] :=
                (hMdef ▸ Nat.mod_modEq (y * x) p).mul_right u
            _ = y * u * x := by ring
            _ ≡ 1 % p * x [MOD p] :=
                Nat.ModEq.mul_right x (show y * u ≡ 1 % p [MOD p] from by
                  show y * u % p = 1 % p % p
                  rw [huinv, Nat.mod_mod_of_dvd _ (dvd_refl _)])
            _ ≡ 1 * x [MOD p] := Nat.ModEq.mul_right x (Nat.mod_modEq 1 p)
            _ = x := Nat.one_mul x
        show M * (u * 2 ^ n % p) * rinv % p = x
        rw [show M * (u * 2 ^ n % p) * rinv % p = x % p from hcalc,
          Nat.mod_eq_of_lt hx]
      obtain ⟨hc1, hc2⟩ := mont_inplace_chain hodd hp1 hp2 hMlt hfwdA hfwdB
      rw [hc2, hc1]
      simp

/-- Full correctness of the generated inverse of the in-place Montgomery
multiplier on reachable states: with control on, `v` becomes
`y⁻¹ * v mod p`. -/
theorem mult_montgomery_c_inv_val {n y p : Nat} (hodd : p % 2 = 1)
    (hp1 : 0 < p) (hp2 : p < 2 ^ n) (hcop : Nat.Coprime y p) {v : Nat}
    (hv : v < p) (c : Bool) :
    mult_montgomery_c_v_inv n y p c v 0
      = (if c then (modInv y p).getD 0 * v % p else v, 0) := by
  have hcopR : Nat.Coprime (2 ^ n) p :=
    Nat.Coprime.pow_left _ (Nat.coprime_two_left.mpr (Nat.odd_iff.mpr hodd))
  obtain ⟨rinv, hrv, hrinv, _⟩ := modInv_of_coprime hp1 hcopR
  obtain ⟨u, hu, huinv, hult⟩ := modInv_of_coprime hp1 hcop
  have hgetD : (modInv y p).getD 0 = u := by rw [hu]; rfl
  cases c with
  | false =>
      simp only [mult_montgomery_c_v_inv]
      rw [mult_montgomery_partial_v_false,
        show cswap_mid n false v 0 = (v, 0) from rfl]
      simp only [show ((v, 0) : Nat × Nat).1 = v from rfl,
        show ((v, 0) : Nat × Nat).2 = 0 from rfl]
      rw [mult_montgomery_partial_v_inv_false,
        if_neg (show ¬ (false = true) from by simp)]
  | true =>
      simp only [mult_montgomery_c_v_inv]
      rw [hgetD]
      set ym := y * 2 ^ n % p with hymdef
      set ymi := u * 2 ^ n % p with hymidef
      set M := u * v % p with hMdef
      have hMlt : M < p := Nat.mod_lt _ hp1
      have hfwdA : mult_montgomery_partial_v n ymi p true v 0 = 2 ^ n * M := by
        rw [mult_montgomery_partial_v_val hodd hp1 hp2 hrinv ymi
          (show v < 2 ^ n from by omega)]
        congr 1
        show v * ymi * rinv % p = M
        rw [hymidef, hMdef]
        have hcalc : v * (u * 2 ^ n % p) * rinv ≡ u * v [MOD p] := by
          calc v * (u * 2 ^ n % p) * rinv
              ≡ v * (u * 2 ^ n) * rinv [MOD p] :=
                ((Nat.mod_modEq _ p).mul_left v).mul_right rinv
            _ = v * u * (2 ^ n * rinv) := by ring
            _ ≡ v * u * (1 % p) [MOD p] :=
                Nat.ModEq.mul_left _ (show 2 ^ n * rinv ≡ 1 % p [MOD p] from by
                  show 2 ^ n * rinv % p = 1 % p % p
                  rw [hrinv, Nat.mod_mod_of_dvd _ (dvd_refl _)])
            _ ≡ v * u * 1 [MOD p] := Nat.ModEq.mul_left _ (Nat.mod_modEq 1 p)
            _ = u * v := by ring
        exact hcalc
      have hfwdB : mult_montgomery_partial_v n ym p true M 0 = 2 ^ n * v := by
        rw [mult_montgomery_partial_v_val hodd hp1 hp2 hrinv ym
          (show M < 2 ^ n from by omega)]
        congr 1
        show M * ym * rinv % p = v
        rw [hymdef]
        have hcalc : M * (y * 2 ^ n % p) * rinv ≡ v [MOD p] := by
          calc M * (y * 2 ^ n % p) * rinv
              ≡ M * (y * 2 ^ n) * rinv [MOD p] :=
                ((Nat.mod_modEq _ p).mul_left M).mul_right rinv
            _ = M * y * (2 ^ n * rinv) := by ring
            _ ≡ M * y * (1 % p) [MOD p] :=
                Nat.ModEq.mul_left _ (show 2 ^ n * rinv ≡ 1 % p [MOD p] from by
                  show 2 ^ n * rinv % p = 1 % p % p
                  rw [hrinv, Nat.mod_mod_of_dvd _ (dvd_refl _)])
            _ ≡ M * y * 1 [MOD p] := Nat.ModEq.mul_left _ (Nat.mod_modEq 1 p)
            _ = M * y := by ring
            _ ≡ u * v * y [MOD p] :=
                (hMdef ▸ Nat.mod_modEq (u * v) p).mul_right y
            _ = y * u * v := by ring
            _ ≡ 1 % p * v [MOD p] :=
                Nat.ModEq.mul_right v (show y * u ≡ 1 % p [MOD p] from by
                  show y * u % p = 1 % p % p
                  rw [huinv, Nat.mod_mod_of_dvd _ (dvd_refl _)])
            _ ≡ 1 * v [MOD p] := Nat.ModEq.mul_right v (Nat.mod_modEq 1 p)
            _ = v := Nat.one_mul v
        show M * (y * 2 ^ n % p) * rinv % p = v
        rw [show M * (y * 2 ^ n % p) * rinv % p = v % p from hcalc,
          Nat.mod_eq_of_lt hv]
      obtain ⟨hc1, hc2⟩ := mont_inplace_chain hodd hp1 hp2 hMlt hfwdA hfwdB
      rw [hc2, hc1]
      simp

/-- The generated inverse of the in-place Montgomery multiplier undoes it
on reachable states, for either control setting. -/
theorem mult_montgomery_c_rt {n y p : Nat} (hodd : p % 2 = 1) (hp1 : 0 < p)
    (hp2 : p < 2 ^ n) (hcop : Nat.Coprime y p) {x : Nat} (hx : x < p)
    (c : Bool) :
    mult_montgomery_c_v_inv n y p c (mult_montgomery_c_v n y p c x 0).1
      (mult_montgomery_c_v n y p c x 0).2 = (x, 0) := by
  rw [mult_montgomery_c_val hodd hp1 hp2 hcop hx c]
  cases c with
  | false =>
      simp only [if_neg (show ¬ (false = true) from by simp)]
      rw [mult_montgomery_c_inv_val hodd hp1 hp2 hcop hx false,
        if_neg (show ¬ (false = true) from by simp)]
  | true =>
      simp only [eq_self_iff_true, if_true]
      have hMlt : y * x % p < p := Nat.mod_lt _ hp1
      rw [mult_montgomery_c_inv_val hodd hp1 hp2 hcop hMlt true]
      simp only [eq_self_iff_true, if_true]
      obtain ⟨u, hu, huinv, hult⟩ := modInv_of_coprime hp1 hcop
      have hgetD : (modInv y p).getD 0 = u := by rw [hu]; rfl
      rw [hgetD]
      have hch : u * (y * x % p) % p = x := by
        have h2 : u * (y * x % p) % p = x % p := by
          calc u * (y * x % p) ≡ u * (y * x) [MOD p] :=
                Nat.ModEq.mul_left u (Nat.mod_modEq _ p)
            _ = y * u * x := by ring
            _ ≡ 1 % p * x [MOD p] :=
                Nat.ModEq.mul_right x (show y * u ≡ 1 % p [MOD p] from by
                  show y * u % p = 1 % p % p
                  rw [huinv, Nat.mod_mod_of_dvd _ (dvd_refl _)])
            _ ≡ 1 * x [MOD p] := Nat.ModEq.mul_right x (Nat.mod_modEq 1 p)
            _ = x := Nat.one_mul x
        rw [h2, Nat.mod_eq_of_lt hx]
      rw [hch]

/-- Full correctness of the Montgomery exponentiation tower at value
level: the accumulator becomes `y * a^(x mod 2^k) mod p`, the big
register stays clear. -/
theorem mod_exp_montgomery_val {a p : Nat} (hodd : p % 2 = 1) (hp1 : 0 < p)
    {n : Nat} (hp2 : p < 2 ^ n) (hcop : Nat.Coprime a p) (x : Nat) {y : Nat}
    (hy : y < p) :
    ∀ k, mod_exp_montgomery_v n a p x k (y, 0)
      = (y * a ^ (x % 2 ^ k) % p, 0) := by
  intro k
  induction k with
  | zero =>
      rw [show mod_exp_montgomery_v n a p x 0 (y, 0) = (y, 0) from rfl,
        pow_zero, Nat.mod_one, pow_zero, Nat.mul_one, Nat.mod_eq_of_lt hy]
  | succ k ih =>
      rw [mod_exp_montgomery_v, ih]
      have hacc : y * a ^ (x % 2 ^ k) % p < p := Nat.mod_lt _ hp1
      rw [show ((y * a ^ (x % 2 ^ k) % p, 0) : Nat × Nat).1
          = y * a ^ (x % 2 ^ k) % p from rfl,
        show ((y * a ^ (x % 2 ^ k) % p, 0) : Nat × Nat).2 = 0 from rfl,
        mult_montgomery_c_val hodd hp1 hp2 (coprime_pow_mod hcop k) hacc]
      by_cases hbit : x.testBit k = true
      · rw [if_pos hbit]
        have harith : a ^ 2 ^ k % p * (y * a ^ (x % 2 ^ k) % p) % p
            = y * a ^ (x % 2 ^ (k + 1)) % p := by
          have h1 : a ^ 2 ^ k % p * (y * a ^ (x % 2 ^ k) % p) % p
              = a ^ 2 ^ k * (y * a ^ (x % 2 ^ k)) % p :=
            Nat.ModEq.mul (Nat.mod_modEq _ p) (Nat.mod_modEq _ p)
          rw [h1, mod_two_pow_succ x k, hbit,
            show (true : Bool).toNat = 1 from rfl, Nat.one_mul, pow_add]
          congr 1
          ring
        rw [harith]
      · have hbit' : x.testBit k = false := Bool.eq_false_iff.mpr hbit
        rw [if_neg (by rw [hbit']; simp), mod_two_pow_succ x k, hbit',
          show (false : Bool).toNat = 0 from rfl, Nat.zero_mul, Nat.zero_add]

/-- The generated inverse of the Montgomery exponentiation tower undoes
it on every reachable state. -/
theorem mod_exp_montgomery_rt {a p : Nat} (hodd : p % 2 = 1) (hp1 : 0 < p)
    {n : Nat} (hp2 : p < 2 ^ n) (hcop : Nat.Coprime a p) (x : Nat) {y : Nat}
    (hy : y < p) :
    ∀ k, mod_exp_montgomery_v_inv n a p x k
      (mod_exp_montgomery_v n a p x k (y, 0)) = (y, 0) := by
  intro k
  induction k with
  | zero => rfl
  | succ k ih =>
      rw [mod_exp_montgomery_v, mod_exp_montgomery_v_inv,
        mod_exp_montgomery_val hodd hp1 hp2 hcop x hy k]
      have hacc : y * a ^ (x % 2 ^ k) % p < p := Nat.mod_lt _ hp1
      rw [show ((y * a ^ (x % 2 ^ k) % p, 0) : Nat × Nat).1
          = y * a ^ (x % 2 ^ k) % p from rfl,
        show ((y * a ^ (x % 2 ^ k) % p, 0) : Nat × Nat).2 = 0 from rfl,
        mult_montgomery_c_rt hodd hp1 hp2 (coprime_pow_mod hcop k) hacc
          (x.testBit k),
        ← mod_exp_montgomery_val hodd hp1 hp2 hcop x hy k]
      exact ih

/-- Full correctness of the generated inverse of the controlled
Beauregard in-place multiplier on reachable states: with control on, the
data register is multiplied by `inv_a = pow(a, -1, N)`. -/
theorem mult_mod_N_c_inv_val {a N sx sb : Nat} (hN1 : 0 < N)
    (hsx : N ≤ 2 ^ sx) (hsb : Nat.clog 2 N + 1 ≤ sb)
    (hcop : Nat.Coprime a N) {v : Nat} (hv : v < N) (c : Bool) :
    mult_mod_N_c_v_inv a N sx sb c v 0 false
      = (if c then (modInv a N).getD 0 * v % N else v, 0, false) := by
  obtain ⟨u, hu, huinv, hult⟩ := modInv_of_coprime hN1 hcop
  have hgetD : (modInv a N).getD 0 = u := by rw [hu]; rfl
  have hvr : v % 2 ^ sx = v := Nat.mod_eq_of_lt (by omega)
  have hq1 : ∀ z : Nat, ((z, false) : Nat × Bool).1 = z := fun z => rfl
  have hq2 : ∀ z : Nat, ((z, false) : Nat × Bool).2 = false := fun z => rfl
  cases c with
  | false =>
      simp only [mult_mod_N_c_v_inv]
      rw [hgetD, mult_mod_N_partial_fwd_id (y := u) hN1 hsb v sx hN1]
      simp only [hq1, hq2]
      rw [show cswap_regs sx false v 0 = (v, 0) from rfl]
      simp only [show ((v, 0) : Nat × Nat).1 = v from rfl,
        show ((v, 0) : Nat × Nat).2 = 0 from rfl]
      rw [mult_mod_N_partial_inv_id (y := a) hN1 hsb v sx hN1]
      simp only [hq1, hq2]
      rw [if_neg (show ¬ (false = true) from by simp)]
  | true =>
      simp only [mult_mod_N_c_v_inv]
      rw [hgetD, mult_mod_N_partial_fwd_val hN1 hsb v sx hN1, hvr]
      simp only [hq1, hq2]
      set M := (0 + v * u) % N with hM
      have hMv : M = u * v % N := by rw [hM, Nat.zero_add, Nat.mul_comm]
      have hMlt : M < N := by rw [hM]; exact Nat.mod_lt _ hN1
      have hsw : cswap_regs sx true v M = (M, v) := by
        simp only [cswap_regs, if_pos rfl]
        rw [Nat.mod_eq_of_lt (show M < 2 ^ sx from by omega),
          Nat.div_eq_of_lt (show v < 2 ^ sx from by omega),
          Nat.div_eq_of_lt (show M < 2 ^ sx from by omega), hvr,
          Nat.zero_mul, Nat.add_zero, Nat.add_zero]
        exact if_pos trivial
      rw [hsw]
      simp only [show ((M, v) : Nat × Nat).1 = M from rfl,
        show ((M, v) : Nat × Nat).2 = v from rfl]
      rw [mult_mod_N_partial_inv_val hN1 hsb M sx hv]
      have hMmod : M % 2 ^ sx = M := Nat.mod_eq_of_lt (by omega)
      have hMa : M % 2 ^ sx * a % N = v := by
        rw [hMmod]
        have hch : M * a % N = v % N := by
          calc M * a ≡ u * v * a [MOD N] :=
                (hMv ▸ Nat.mod_modEq (u * v) N).mul_right a
            _ = a * u * v := by ring
            _ ≡ 1 % N * v [MOD N] := (show a * u ≡ 1 % N [MOD N] from by
                show a * u % N = 1 % N % N
                rw [huinv, Nat.mod_mod_of_dvd _ (dvd_refl _)]).mul_right v
            _ ≡ 1 * v [MOD N] := (Nat.mod_modEq 1 N).mul_right v
            _ = v := Nat.one_mul v
        rw [hch, Nat.mod_eq_of_lt hv]
      rw [hMa, show v + (N - v) = N from by omega, Nat.mod_self]
      simp only [hq1, hq2]
      rw [hMv]
      simp

/-- The generated inverse of the in-place Beauregard multiplier undoes it
on reachable states, for either control setting. -/
theorem mult_mod_N_c_rt {a N sx sb : Nat} (hN1 : 0 < N) (hsx : N ≤ 2 ^ sx)
    (hsb : Nat.clog 2 N + 1 ≤ sb) (hcop : Nat.Coprime a N) {x : Nat}
    (hx : x < N) (c : Bool) :
    mult_mod_N_c_v_inv a N sx sb c
      (mult_mod_N_c_v a N sx sb c x 0 false).1
      (mult_mod_N_c_v a N sx sb c x 0 false).2.1
      (mult_mod_N_c_v a N sx sb c x 0 false).2.2 = (x, 0, false) := by
  rw [mult_mod_N_c_val hN1 hsx hsb hcop hx c]
  cases c with
  | false =>
      simp only [if_neg (show ¬ (false = true) from by simp)]
      rw [mult_mod_N_c_inv_val hN1 hsx hsb hcop hx false,
        if_neg (show ¬ (false = true) from by simp)]
  | true =>
      simp only [eq_self_iff_true, if_true]
      have hMlt : a * x % N < N := Nat.mod_lt _ hN1
      rw [mult_mod_N_c_inv_val hN1 hsx hsb hcop hMlt true]
      simp only [eq_self_iff_true, if_true]
      obtain ⟨u, hu, huinv, hult⟩ := modInv_of_coprime hN1 hcop
      have hgetD : (modInv a N).getD 0 = u := by rw [hu]; rfl
      rw [hgetD]
      have hch : u * (a * x % N) % N = x := by
        have h2 : u * (a * x % N) % N = x % N := by
          calc u * (a * x % N) ≡ u * (a * x) [MOD N] :=
                Nat.ModEq.mul_left u (Nat.mod_modEq _ N)
            _ = a * u * x := by ring
            _ ≡ 1 % N * x [MOD N] := (show a * u ≡ 1 % N [MOD N] from by
                show a * u % N = 1 % N % N
                rw [huinv, Nat.mod_mod_of_dvd _ (dvd_refl _)]).mul_right x
            _ ≡ 1 * x [MOD N] := (Nat.mod_modEq 1 N).mul_right x
            _ = x := Nat.one_mul x
        rw [h2, Nat.mod_eq_of_lt hx]
      rw [hch]

/-- The generated inverse of the Beauregard exponentiation tower undoes
it on every reachable state. -/
theorem mod_exp_brg_rt {a N : Nat} (hN1 : 0 < N) (hcop : Nat.Coprime a N)
    (x : Nat) {y : Nat} (hy : y < N) :
    ∀ k, mod_exp_brg_v_inv a N x k (mod_exp_brg_v a N x k (y, 0, false))
      = (y, 0, false) := by
  intro k
  induction k with
  | zero => rfl
  | succ k ih =>
      have hsx : N ≤ 2 ^ Nat.clog 2 N := Nat.le_pow_clog (by omega) N
      rw [mod_exp_brg_v, mod_exp_brg_v_inv, mod_exp_brg_val hN1 hcop x hy k]
      have hacc : y * a ^ (x % 2 ^ k) % N < N := Nat.mod_lt _ hN1
      rw [show ((y * a ^ (x % 2 ^ k) % N, 0, false) : Nat × Nat × Bool).1
          = y * a ^ (x % 2 ^ k) % N from rfl,
        show ((y * a ^ (x % 2 ^ k) % N, 0, false) : Nat × Nat × Bool).2.1
          = 0 from rfl,
        show ((y * a ^ (x % 2 ^ k) % N, 0, false) : Nat × Nat × Bool).2.2
          = false from rfl,
        mult_mod_N_c_rt hN1 hsx (le_refl _) (coprime_pow_mod hcop k) hacc
          (x.testBit k),
        ← mod_exp_brg_val hN1 hcop x hy k]
      exact ih

/-! ### The claims C1..C10 -/

/-- C1 (amended): for the HRS tower on its flat wiring (with `nbot ≥ 3`),
for the Beauregard tower at value level, and for the Montgomery tower at
value level when the modulus is odd, with base coprime to the modulus and
the modulus representable, running on exponent `x`, accumulator `y` and
cleared scratch yields accumulator `y * a^x mod N` with the exponent
register and all scratch cells unchanged.  (The original claim fails for
the Montgomery backend on even moduli: see the counterexample, where
construction itself raises.) -/
theorem claim_C1 :
    (∀ ntop nbot a N x y : Nat, 3 ≤ nbot → N ≤ 2 ^ nbot → 0 < N →
        Nat.Coprime a N → x < 2 ^ ntop → y < N →
        applyGates (mod_exp_hrs ntop nbot a N) (expState ntop nbot x y)
          = writeBits (wires (fun j => ntop + j) nbot) (y * a ^ x % N)
              (expState ntop nbot x y))
    ∧ (∀ n a N x y : Nat, 0 < N → Nat.Coprime a N → x < 2 ^ n → y < N →
        mod_exp_brg_v a N x n (y, 0, false) = (y * a ^ x % N, 0, false))
    ∧ (∀ n a p x y : Nat, p % 2 = 1 → 0 < p → p ≤ 2 ^ n →
        Nat.Coprime a p → x < 2 ^ n → y < p →
        mod_exp_montgomery_v n a p x n (y, 0) = (y * a ^ x % p, 0)) := by
  refine ⟨?_, ?_, ?_⟩
  · intro ntop nbot a N x y hn hN hN1 hcop hx hy
    exact mod_exp_hrs_val hn hN hN1 hcop hx hy
  · intro n a N x y hN1 hcop hx hy
    rw [mod_exp_brg_val hN1 hcop x hy n, Nat.mod_eq_of_lt hx]
  · intro n a p x y hodd hp1 hpn hcop hx hy
    rcases Nat.lt_or_ge p (2 ^ n) with hlt | hge
    · rw [mod_exp_montgomery_val hodd hp1 hlt hcop x hy n,
        Nat.mod_eq_of_lt hx]
    · have hpe : p = 2 ^ n := le_antisymm hpn hge
      have hn0 : n = 0 := by
        by_contra hne
        have hdvd : 2 ∣ 2 ^ n := dvd_pow_self 2 hne
        omega
      subst hn0
      have hp1' : p = 1 := hpe
      have hy0 : y = 0 := by omega
      have hx0 : x = 0 := by omega
      subst hy0
      subst hx0
      show ((0 : Nat), (0 : Nat)) = (0 * a ^ 0 % p, 0)
      simp

/-- C1 counterexample: the Montgomery factory at `n = 3`, `a = 5`,
`N = 6` satisfies the claim's preconditions (coprime base, modulus in
3 bits), yet its construction fails: `pow(p, -1, 2^(n+1))` has no value
for the even modulus, so no circuit is returned at all. -/
theorem claim_C1_counterexample :
    Nat.Coprime 5 6 ∧ 6 ≤ 2 ^ 3 ∧ mod_exp_montgomery_build 3 5 6 = none := by
  refine ⟨?_, by decide, by decide⟩
  show Nat.gcd 5 6 = 1
  norm_num

/-- C2: the Beauregard modular adder `phi_add_mod_N(n, y, N)` with
`0 ≤ y < N` and `n ≥ ceil(log2 N) + 1`, on register value `a < N` in
Fourier representation with ancilla `0`, yields `(a+y) mod N` with the
ancilla reading exactly `0` afterward. -/
theorem claim_C2 (n y N a : Nat) (hN1 : 0 < N) (hy : y < N)
    (hn : Nat.clog 2 N + 1 ≤ n) (ha : a < N) :
    phi_add_mod_N n y N a false = ((a + y) % N, false) :=
  phi_add_mod_N_val hN1 hy hn ha

theorem claim_C2_witness : phi_add_mod_N 4 5 7 4 false = (2, false) :=
  claim_C2 4 5 7 4 (by decide) (by decide) (by rw [clog2_7]) (by decide)

/-- C3 (amended, `n ≥ 3`): the HRS controlled modular adder with control
set, sign cell clear and register value `b < N` yields `(b+a) mod N` and
restores every other cell (borrowed cells, sign cell, control) — with no
restoring flip after the final comparator.  (The original claim also
covers `n = 2`, where the source indexes `greg[1]` out of range: see the
counterexample.) -/
theorem claim_C3 {n : Nat} (hn : 3 ≤ n) {a N : Nat} (ha0 : 0 < a)
    (haN : a < N) (hN : N ≤ 2 ^ n) (s : Nat → Bool) (hc : s 0 = true)
    (hmsb : s (2 * n) = false)
    (hb : readVal (wires (fun i => 1 + i) n) s < N) :
    applyGates (c_carry_add_mod_hrs n a N) s
      = writeBits (wires (fun i => 1 + i) n)
          ((readVal (wires (fun i => 1 + i) n) s + a) % N) s := by
  have hd : HrsModDisj n [0] (fun i => 1 + i) (fun j => n + 1 + j) (2 * n) := by
    refine ⟨?_, ?_, ?_, ?_, ?_, ?_, ?_, ?_⟩
    · intro i j hi hj he
      omega
    · intro i j hi hj he
      omega
    · intro i j hi hj
      omega
    · intro i hi
      omega
    · intro j hj
      omega
    · intro u hu i hi
      rcases List.mem_singleton.mp hu with rfl
      omega
    · intro u hu j hj
      rcases List.mem_singleton.mp hu with rfl
      omega
    · intro u hu
      rcases List.mem_singleton.mp hu with rfl
      omega
  rw [c_carry_add_mod_hrs]
  exact carry_add_mod_spec hd hn haN hN s (by simp [hc]) hmsb hb

theorem claim_C3_witness :
    applyGates (c_carry_add_mod_hrs 3 2 5) (fun w => decide (w = 0))
      = writeBits (wires (fun i => 1 + i) 3)
          ((readVal (wires (fun i => 1 + i) 3) (fun w => decide (w = 0)) + 2) % 5)
          (fun w => decide (w = 0)) :=
  claim_C3 (by decide) (by decide) (by decide) (by decide) _ (by decide)
    (by decide) (by decide)

/-- C3 counterexample: `n = 2`, `a = 1`, `N = 3` satisfies the claim's
preconditions (`0 < a < N`, `N` representable in 2 bits), but the
construction reads `greg[1]` from the `(n-1) = 1`-cell borrowed register:
the index is out of range and Python raises before any circuit exists. -/
theorem claim_C3_counterexample :
    (0 < 1 ∧ 1 < 3 ∧ 3 ≤ 2 ^ 2) ∧ ¬ gregIndexOk 2 1 :=
  ⟨by decide, show ¬ (1 < 2 - 1) from by decide⟩

/-- C4 (amended): no backend checks coprimality (or anything else) before
gate synthesis, and no InvalidParameter error exists.  When
`gcd(a, N) ≠ 1` the factory fails with the Python `ValueError` of
`pow(a, -1, N)` — modelled as `modInv a N = none`, which happens exactly
when `a` and `N` are not coprime — raised only after the out-of-place
stage and the controlled swaps are already synthesized; with `a = 2`,
`N = 4` the multiplier and exponentiation factories of all three
backends fail this way. -/
theorem claim_C4 :
    (∀ a N : Nat, 1 < N → (modInv a N = none ↔ ¬ Nat.Coprime a N))
    ∧ modInv 2 4 = none
    ∧ c_mult_hrs_pre_pow 0 3 (fun i => 1 + i) (fun i => 4 + i) 7 2 4 ≠ []
    ∧ c_mult_hrs_build 2 4 = none
    ∧ mod_exp_hrs_build 2 2 4 = none
    ∧ mod_exp_brg_build 2 2 4 = none
    ∧ mult_montgomery_c_build 2 2 4 = none
    ∧ mod_exp_montgomery_build 2 2 4 = none := by
  refine ⟨?_, by decide, ?_, by decide, by decide, by decide, by decide,
    by decide⟩
  · intro a N hN
    constructor
    · intro hnone hcop
      obtain ⟨u, hu, _, _⟩ := modInv_of_coprime (by omega) hcop
      rw [hu] at hnone
      exact Option.noConfusion hnone
    · exact modInv_eq_none_of_not_coprime hN
  · intro he
    have hlen := congrArg List.length he
    rw [c_mult_hrs_pre_pow, List.length_append, cswapAll_length] at hlen
    simp only [List.length_nil] at hlen
    omega

/-- C4 counterexample: the multiplier requested with `a = 2`, `N = 4`
does not raise InvalidParameter before synthesis: the gates preceding
the `pow` evaluation are nonempty, and the failure is the missing
modular inverse itself. -/
theorem claim_C4_counterexample :
    modInv 2 4 = none
    ∧ 0 < (c_mult_hrs_pre_pow 0 3 (fun i => 1 + i) (fun i => 4 + i) 7 2 4).length := by
  refine ⟨by decide, ?_⟩
  rw [c_mult_hrs_pre_pow, List.length_append, cswapAll_length]
  omega

/-- C5 (amended): the accumulator block is `2n+1` cells for the HRS
backend and `3n+1` for Montgomery, as claimed; for the Beauregard
backend it is `2*ceil(log2 N) + 2` cells — a function of the modulus,
not of the requested width `n`. -/
theorem claim_C5 :
    (∀ n : Nat, mod_exp_hrs_acc_width n = 2 * n + 1)
    ∧ (∀ n : Nat, mod_exp_montgomery_acc_width n = 3 * n + 1)
    ∧ (∀ N : Nat, mod_exp_brg_acc_width N = 2 * Nat.clog 2 N + 2) :=
  ⟨fun n => rfl, fun n => rfl, fun N => by rw [mod_exp_brg_acc_width]; omega⟩

/-- C5 counterexample: `mod_exp_brg` built with width `n = 4` and modulus
`N = 5` (valid: `5 < 2^4`, base 2 coprime) has an accumulator block of
`2*ceil(log2 5) + 2 = 8` cells, not `2n + 2 = 10`. -/
theorem claim_C5_counterexample :
    (5 < 2 ^ 4 ∧ Nat.Coprime 2 5)
      ∧ mod_exp_brg_acc_width 5 ≠ 2 * 4 + 2 := by
  refine ⟨⟨by decide, ?_⟩, ?_⟩
  · show Nat.gcd 2 5 = 1
    norm_num
  · show 2 * Nat.clog 2 5 + 3 - 1 ≠ 2 * 4 + 2
    rw [clog2_5]
    decide

/-- C6 (amended): with every control clear, the controlled operations are
the identity — the plain controlled and doubly controlled Fourier adders
on every data input; the HRS modular adder (any register content, sign
cell clear); the Beauregard doubly controlled modular adder on reachable
data (below the modulus, ancilla clear — but not for out-of-range data,
see the counterexample); the HRS, Beauregard and Montgomery in-place
multipliers and the Montgomery out-of-place stage on reachable states
(data in range, scratch clear). -/
theorem claim_C6 :
    (∀ {n : Nat} {ctrls : List Nat} {B G : Nat → Nat} {msb : Nat},
        HrsModDisj n ctrls B G msb → 3 ≤ n → ∀ {a N : Nat}, a < N →
        N ≤ 2 ^ n → ∀ s : Nat → Bool, ctrls.all s = false → s msb = false →
        applyGates (carry_add_mod_gen ctrls n B G msb a N) s = s)
    ∧ (∀ n y N a : Nat, ∀ c1 c2 : Bool, (c1 && c2) = false → 0 < N →
        Nat.clog 2 N + 1 ≤ n → a < N →
        phi_add_mod_N_cc n y N c1 c2 a false = (a, false))
    ∧ (∀ {n c : Nat} {T B : Nat → Nat} {anc : Nat},
        HrsMultDisj n c T B anc → 3 ≤ n → ∀ {a ainv N : Nat}, N ≤ 2 ^ n →
        0 < N → a * ainv % N = 1 % N → ainv ≤ N → ∀ s : Nat → Bool,
        s anc = false → readVal (wires T n) s < N →
        readVal (wires B n) s = 0 → s c = false →
        applyGates (c_mult_hrs_g c n T B anc a ainv N) s = s)
    ∧ (∀ (n : Nat) (b f : Int) (v : Nat), phi_addition_c_v n b f false v = v)
    ∧ (∀ (n : Nat) (b f : Int) (c1 c2 : Bool) (v : Nat), (c1 && c2) = false →
        phi_addition_cc_v n b f c1 c2 v = v)
    ∧ (∀ a N sx sb x : Nat, 0 < N → N ≤ 2 ^ sx → Nat.clog 2 N + 1 ≤ sb →
        Nat.Coprime a N → x < N →
        mult_mod_N_c_v a N sx sb false x 0 false = (x, 0, false))
    ∧ (∀ n ym p x : Nat, mult_montgomery_partial_v n ym p false x 0 = 0)
    ∧ (∀ n y p x : Nat, mult_montgomery_c_v n y p false x 0 = (x, 0)) := by
  refine ⟨?_, ?_, ?_, ?_, ?_, ?_, ?_, ?_⟩
  · intro n ctrls B G msb hd hn a N haN hN s hctr hmsb
    exact carry_add_mod_id hd hn haN hN s hctr hmsb
  · intro n y N a c1 c2 hcc hN1 hn ha
    exact phi_add_mod_N_cc_id hcc hN1 hn ha
  · intro n c T B anc hd hn a ainv N hN hN1 hinv hainv s hanc hx hB0 hcf
    rw [c_mult_hrs_spec hd hn hN hN1 hinv hainv s hanc hx hB0,
      if_neg (by rw [hcf]; simp)]
  · intro n b f v
    rw [phi_addition_c_v, if_neg (show ¬ (false = true) from by simp)]
  · intro n b f c1 c2 v hcc
    rw [phi_addition_cc_v, hcc, if_neg (show ¬ (false = true) from by simp)]
  · intro a N sx sb x hN1 hsx hsb hcop hx
    rw [mult_mod_N_c_val hN1 hsx hsb hcop hx false,
      if_neg (show ¬ (false = true) from by simp)]
  · intro n ym p x
    exact mult_montgomery_partial_v_false n ym p x
  · intro n y p x
    simp only [mult_montgomery_c_v]
    rw [mult_montgomery_partial_v_false,
      show cswap_mid n false x 0 = (x, 0) from rfl]
    simp only [show ((x, 0) : Nat × Nat).1 = x from rfl,
      show ((x, 0) : Nat × Nat).2 = 0 from rfl]
    rw [mult_montgomery_partial_v_inv_false]

/-- C6 counterexample: the doubly controlled Beauregard modular adder
with both controls `0` is not the identity on every data input: at
`n = 4`, `y = 3`, `N = 5` and data value `5` (out of the reachable range
`[0, N)`) it changes both the register and the ancilla. -/
theorem claim_C6_counterexample :
    phi_add_mod_N_cc 4 3 5 false false 5 false ≠ (5, false) := by
  decide

/-- C7: gate lists of well-formed gates composed with their generated
inverse (`List.reverse`, every gate self-inverse) are the identity in
both orders; the constructed HRS towers consist of well-formed gates;
the value-level inverses of the Beauregard modular adder and
out-of-place multiplier stage undo them on every in-range state; the
inverse of the Montgomery out-of-place stage undoes it on every in-range
big-register value; and the generated inverses of the Beauregard and
Montgomery in-place multipliers and exponentiation towers undo them on
every reachable state, for every control setting. -/
theorem claim_C7 :
    (∀ gs : List Gate, (∀ g ∈ gs, g.wf) → ∀ s : Nat → Bool,
        applyGates (invGates gs) (applyGates gs s) = s
          ∧ applyGates gs (applyGates (invGates gs) s) = s)
    ∧ (∀ ntop nbot a N : Nat, 3 ≤ nbot → ∀ g ∈ mod_exp_hrs ntop nbot a N, g.wf)
    ∧ (∀ (n y N : Nat) (c1 c2 : Bool) (v : Nat), v < 2 ^ n → ∀ aux : Bool,
        phi_add_mod_N_cc_inv n y N c1 c2 (phi_add_mod_N_cc n y N c1 c2 v aux).1
          (phi_add_mod_N_cc n y N c1 c2 v aux).2 = (v, aux))
    ∧ (∀ (y N sb : Nat) (c : Bool) (x k : Nat) (st : Nat × Bool),
        st.1 < 2 ^ sb →
        mult_mod_N_partial_inv y N sb c x k
          (mult_mod_N_partial_fwd y N sb c x k st) = st)
    ∧ (∀ n p : Nat, p % 2 = 1 → p ≤ 2 ^ n → ∀ (ym : Nat) (c : Bool)
        (x B : Nat), B < 2 ^ (2 * n + 1) →
        mult_montgomery_partial_v_inv n ym p c x
          (mult_montgomery_partial_v n ym p c x B) = B)
    ∧ (∀ a N sx sb : Nat, 0 < N → N ≤ 2 ^ sx → Nat.clog 2 N + 1 ≤ sb →
        Nat.Coprime a N → ∀ x : Nat, x < N → ∀ c : Bool,
        mult_mod_N_c_v_inv a N sx sb c
          (mult_mod_N_c_v a N sx sb c x 0 false).1
          (mult_mod_N_c_v a N sx sb c x 0 false).2.1
          (mult_mod_N_c_v a N sx sb c x 0 false).2.2 = (x, 0, false))
    ∧ (∀ a N x : Nat, 0 < N → Nat.Coprime a N → ∀ y : Nat, y < N → ∀ k : Nat,
        mod_exp_brg_v_inv a N x k (mod_exp_brg_v a N x k (y, 0, false))
          = (y, 0, false))
    ∧ (∀ n y p : Nat, p % 2 = 1 → 0 < p → p < 2 ^ n → Nat.Coprime y p →
        ∀ x : Nat, x < p → ∀ c : Bool,
        mult_montgomery_c_v_inv n y p c (mult_montgomery_c_v n y p c x 0).1
          (mult_montgomery_c_v n y p c x 0).2 = (x, 0))
    ∧ (∀ a p : Nat, p % 2 = 1 → 0 < p → ∀ n : Nat, p < 2 ^ n →
        Nat.Coprime a p → ∀ x y : Nat, y < p → ∀ k : Nat,
        mod_exp_montgomery_v_inv n a p x k
          (mod_exp_montgomery_v n a p x k (y, 0)) = (y, 0)) := by
  refine ⟨?_, ?_, ?_, ?_, ?_, ?_, ?_, ?_, ?_⟩
  · exact fun gs h s => ⟨applyGates_invGates h s, applyGates_invGates' h s⟩
  · exact fun ntop nbot a N hn => mod_exp_hrs_wf hn a N
  · exact fun n y N c1 c2 v hv aux => phi_add_mod_N_cc_inv_spec n y N c1 c2 hv aux
  · exact fun y N sb c x k st hst => mult_mod_N_partial_inv_fwd c x k st hst
  · exact fun n p hodd hpn ym c x B hB =>
      mult_montgomery_partial_inv_fwd hodd hpn ym c x hB
  · exact fun a N sx sb hN1 hsx hsb hcop x hx c =>
      mult_mod_N_c_rt hN1 hsx hsb hcop hx c
  · exact fun a N x hN1 hcop y hy k => mod_exp_brg_rt hN1 hcop x hy k
  · exact fun n y p hodd hp1 hp2 hcop x hx c =>
      mult_montgomery_c_rt hodd hp1 hp2 hcop hx c
  · exact fun a p hodd hp1 n hp2 hcop x y hy k =>
      mod_exp_montgomery_rt hodd hp1 hp2 hcop x hy k

/-- C8 (amended): no constructor validates widths and there is no
SizeError; `c_adder_hrs2` silently reduces its constant modulo
`2^(n+1)` at construction, so distinct constants can yield identical
circuits. -/
theorem claim_C8 :
    (∀ (n : Nat) (c : Int),
        c_adder_hrs2 n c = c_adder_hrs2 n (c.emod (2 ^ (n + 1))))
    ∧ (c_adder_hrs2 1 (5 : Int) = c_adder_hrs2 1 (1 : Int)
        ∧ (5 : Int) ≠ (1 : Int)) := by
  constructor
  · intro n c
    simp only [c_adder_hrs2, c_adder_hrs2_w]
    congr 1
    funext i
    have hh : (c.emod (2 ^ (n + 1))).emod (2 ^ (n + 1)) = c.emod (2 ^ (n + 1)) :=
      Int.emod_emod_of_dvd c (dvd_refl _)
    rw [hh]
  · constructor
    · have h : ((5 : Int).emod (2 ^ (1 + 1))) = ((1 : Int).emod (2 ^ (1 + 1))) := by
        decide
      simp only [c_adder_hrs2, c_adder_hrs2_w]
      rw [h]
    · decide

/-- C8 counterexample: the HRS adder built for width 1 with constant 5
is gate-for-gate the circuit built with constant 1 — the constant was
silently truncated to 2 bits and no error was raised. -/
theorem claim_C8_counterexample :
    c_adder_hrs2 1 (5 : Int) = c_adder_hrs2 1 (1 : Int) ∧ (5 : Int) ≠ (1 : Int) := by
  constructor
  · have h : ((5 : Int).emod (2 ^ (1 + 1))) = ((1 : Int).emod (2 ^ (1 + 1))) := by
      decide
    simp only [c_adder_hrs2, c_adder_hrs2_w]
    rw [h]
  · decide

/-- C9: the borrowed-ancilla incrementer adds the control bit into the
register modulo `2^n` and restores the control and every borrowed cell
(whatever their initial contents). -/
theorem claim_C9 {n ctrl : Nat} {X Bw : Nat → Nat} (hd : CincDisj n ctrl X Bw)
    (s : Nat → Bool) :
    applyGates (cinc n ctrl X Bw) s
      = writeBits (wires X n)
          ((readVal (wires X n) s + (s ctrl).toNat) % 2 ^ n) s :=
  cinc_spec hd s

theorem claim_C9_witness :
    applyGates (cinc 2 0 (fun i => 1 + i) (fun j => 3 + j))
        (fun w => decide (w = 0))
      = writeBits (wires (fun i => 1 + i) 2)
          ((readVal (wires (fun i => 1 + i) 2) (fun w => decide (w = 0))
            + ((fun w : Nat => decide (w = 0)) 0).toNat) % 2 ^ 2)
          (fun w => decide (w = 0)) :=
  claim_C9 (by refine ⟨?_, ?_, ?_, ?_, ?_⟩ <;> (intros; omega)) _

/-- C10: `c_adder_hrs2(n, c)` reduces its (possibly negative) constant
to `n+1`-bit two's complement at construction; with control set the
register gains `c mod 2^n`, with control clear it is unchanged, and
every other cell (the two borrowed cells, the control) is restored. -/
theorem claim_C10 (n : Nat) (c : Int) (s : Nat → Bool) :
    applyGates (c_adder_hrs2 n c) s
      = writeBits (wires (fun i => 1 + i) n)
          ((readVal (wires (fun i => 1 + i) n) s
            + (s 0).toNat * (c.emod (2 ^ n)).toNat) % 2 ^ n) s :=
  c_adder_hrs2_spec n c s



end ShorDL
